import Mathlib

/-!
Structo: ordered key-value containers.

A verification development for the three binary-search-tree engines of the
repository (`bstree`, `avltree`, `rbtree`).

The embedding.

The Go code works on heap nodes linked by `left`, `right` and `parent`
pointers.  Here a (possibly nil) node pointer together with everything that
hangs below it is a `Tree`: `Tree.nil` is the nil pointer and
`Tree.node l x r` is a node with the fields `x` and the children `l`, `r`.

A node that the code reaches and then walks *up* from (through `parent`) is
a location `Loc`: the subtree rooted at the node and the list of `Frame`s of
its ancestors, nearest first.  `node.parent` is the head of that list and an
empty list means `node.parent == nil`, so that the node is `tree.root`.
A frame records on which side of the parent the node hangs
(`node == parent.left` or `node == parent.right`), the fields of the parent
and the parent's other child.  Writing through a pointer is rebuilding the
location; `zip` plugs a subtree back into its ancestors and yields the tree
hanging off `tree.root`.

Machine integers are naturals with explicit wrap-around: `size` and the
AVL `height` are `uint32`, the AVL balance factor is an `int8`.
A Go `panic` (or a nil dereference) is the result `none`.
-/

namespace Structo

/-! ## Comparator -/

/-- Modelled from the spec: the package `utils` with the type `Comparator` is not
part of the sources at hand.  The specification describes it as a function over
keys returning a negative, zero or positive integer. -/
abbrev Comparator (K : Type) := K → K → Int

/-- Modelled from the spec: "a total-order function over keys, returning
negative/zero/positive".  Two keys may compare equal without being identical
(a total preorder): swapping the arguments swaps the sign, and "not greater"
is transitive. -/
structure TotalOrder {K : Type} (cmp : Comparator K) : Prop where
  swap : ∀ a b, cmp a b < 0 ↔ 0 < cmp b a
  trans : ∀ a b c, cmp a b ≤ 0 → cmp b c ≤ 0 → cmp a c ≤ 0

/-- The comparator `cmp.Compare` of Go on integers: -1, 0 or +1. -/
def intCompare : Comparator Int := fun a b =>
  if a < b then -1 else if a = b then 0 else 1

/-- The comparator `cmp.Compare` of Go on natural (unsigned) keys. -/
def natCompare : Comparator Nat := fun a b =>
  if a < b then -1 else if a = b then 0 else 1

/-! ## Machine integers -/

/-- Number of values of a `uint32`. -/
def uint32Size : Nat := 4294967296

/-- Go `x++` on a `uint32`. -/
def incr32 (x : Nat) : Nat := (x + 1) % 4294967296

/-- Go `x--` on a `uint32`. -/
def decr32 (x : Nat) : Nat := (x + 4294967295) % 4294967296

/-- Go `x - y` on `uint32` operands. -/
def sub32 (x y : Nat) : Nat := (x + 4294967296 - y) % 4294967296

/-- Go conversion `int8(x)` of a `uint32`: keep the low byte, read it as
two's complement. -/
def toInt8 (x : Nat) : Int :=
  if x % 256 < 128 then ((x % 256 : Nat) : Int) else ((x % 256 : Nat) : Int) - 256

/-! ## Trees, frames and locations -/

/-- A possibly nil pointer to a node, with the subtree below it. -/
inductive Tree (α : Type) where
  | nil : Tree α
  | node (left : Tree α) (data : α) (right : Tree α) : Tree α
  deriving DecidableEq, Repr

/-- One ancestor of a node: the side on which the node hangs, the ancestor's
fields and the ancestor's other child. -/
inductive Frame (α : Type) where
  | left (data : α) (right : Tree α) : Frame α
  | right (left : Tree α) (data : α) : Frame α
  deriving DecidableEq, Repr

/-- A pointer to a node inside a tree: the subtree at the node (nil for the nil
pointer or an absent child position) and its ancestors, nearest first. -/
structure Loc (α : Type) where
  node : Tree α
  path : List (Frame α)
  deriving DecidableEq, Repr

namespace Tree

variable {α : Type}

/-- Whether the pointer is nil. -/
def isNil : Tree α → Bool
  | nil => true
  | node _ _ _ => false

/-- The field `left` of a node; read only behind a nil check. -/
def left : Tree α → Tree α
  | nil => nil
  | node l _ _ => l

/-- The field `right` of a node; read only behind a nil check. -/
def right : Tree α → Tree α
  | nil => nil
  | node _ _ r => r

/-- The nodes reachable from a pointer, in order (left subtree, node, right
subtree). -/
def toList : Tree α → List α
  | nil => []
  | node l x r => toList l ++ x :: toList r

/-- Number of reachable nodes, as `countNodes` of the test files computes it. -/
def count : Tree α → Nat
  | nil => 0
  | node l _ r => 1 + count l + count r

/-- Number of nodes on the longest path from the pointer down to a leaf. -/
def depth : Tree α → Nat
  | nil => 0
  | node l _ r => 1 + max (depth l) (depth r)

end Tree

namespace Frame

variable {α : Type}

/-- The ancestor's subtree once the child `t` is hung on the recorded side. -/
def plug : Frame α → Tree α → Tree α
  | left x r, t => Tree.node t x r
  | right l x, t => Tree.node l x t

/-- The fields of the ancestor. -/
def data : Frame α → α
  | left x _ => x
  | right _ x => x

/-- The ancestor's other child. -/
def sibling : Frame α → Tree α
  | left _ r => r
  | right l _ => l

end Frame

variable {α : Type}

/-- The whole tree (what hangs off `tree.root`) seen from a location. -/
def zip (t : Tree α) : List (Frame α) → Tree α
  | [] => t
  | f :: fs => zip (f.plug t) fs

/-- Nodes that come before a location in the in-order sequence. -/
def pathBefore : List (Frame α) → List α
  | [] => []
  | Frame.left _ _ :: fs => pathBefore fs
  | Frame.right l x :: fs => pathBefore fs ++ (l.toList ++ [x])

/-- Nodes that come after a location in the in-order sequence. -/
def pathAfter : List (Frame α) → List α
  | [] => []
  | Frame.left x r :: fs => (x :: r.toList) ++ pathAfter fs
  | Frame.right _ _ :: fs => pathAfter fs

/-- Number of nodes outside the subtree of a location. -/
def pathCount : List (Frame α) → Nat
  | [] => 0
  | f :: fs => 1 + f.sibling.count + pathCount fs

/-- A perfect tree of the given depth: its nodes are numbered in order, from
`lo` on, and node number `i` at the top of a subtree of depth `d` has the fields
`mk d i`. -/
def perfect (mk : Nat → Nat → α) : Nat → Nat → Tree α
  | 0, _ => Tree.nil
  | d + 1, lo =>
    Tree.node (perfect mk d lo) (mk (d + 1) (lo + 2 ^ d - 1)) (perfect mk d (lo + 2 ^ d))

/-! ## Code shared by the three engines

`get`, `min`, `max` and `replace` appear in `bstree.go`, `avltree.go` and
`rbtree.go` as identical copies; they are embedded once, for any node type
with a key, and each engine instantiates them. -/

section Shared

variable {K : Type}

/-- The loop of `get`: descend from `node`, comparing `key` with each visited
key; returns the node that compares equal, or nil with the position where the
descent fell off the tree. -/
def getLoop (cmp : Comparator K) (keyOf : α → K) (key : K) :
    Tree α → List (Frame α) → Loc α
  | Tree.nil, path => ⟨Tree.nil, path⟩
  | Tree.node l x r, path =>
    let compare := cmp key (keyOf x)
    if compare = 0 then ⟨Tree.node l x r, path⟩
    else if compare < 0 then getLoop cmp keyOf key l (Frame.left x r :: path)
    else getLoop cmp keyOf key r (Frame.right l x :: path)

/-- The function `min`: nil for nil, else the leftmost node below `node`. -/
def minLoop : Tree α → List (Frame α) → Loc α
  | Tree.nil, path => ⟨Tree.nil, path⟩
  | Tree.node Tree.nil x r, path => ⟨Tree.node Tree.nil x r, path⟩
  | Tree.node (Tree.node ll y lr) x r, path =>
    minLoop (Tree.node ll y lr) (Frame.left x r :: path)

/-- The function `max`: nil for nil, else the rightmost node below `node`. -/
def maxLoop : Tree α → List (Frame α) → Loc α
  | Tree.nil, path => ⟨Tree.nil, path⟩
  | Tree.node l x Tree.nil, path => ⟨Tree.node l x Tree.nil, path⟩
  | Tree.node l x (Tree.node rl y rr), path =>
    maxLoop (Tree.node rl y rr) (Frame.right l x :: path)

/-- The function `replace(oldNode, newNode)`: the parent's child pointer that
held `oldNode` (or `tree.root`) now holds `newNode`; the result is the tree
hanging off `tree.root`.  The links of `oldNode` are cleared, which leaves the
reachable tree as it is. -/
def replaceNode (oldNode : Loc α) (newNode : Tree α) : Tree α :=
  zip newNode oldNode.path

/-- The keys of the reachable nodes, in order. -/
def keysOf (keyOf : α → K) (t : Tree α) : List K := t.toList.map keyOf

/-- A key sequence is strictly increasing under the comparator. -/
def StrictlyIncreasing (cmp : Comparator K) (ks : List K) : Prop :=
  ks.Pairwise (fun a b => cmp a b < 0)

/-- The BST property of the specification: at every node, every key of the left
subtree compares less than the node's key and every key of the right subtree
compares greater. -/
def IsBST (cmp : Comparator K) (keyOf : α → K) : Tree α → Prop
  | Tree.nil => True
  | Tree.node l x r =>
    (∀ y ∈ l.toList, cmp (keyOf y) (keyOf x) < 0) ∧
    (∀ y ∈ r.toList, 0 < cmp (keyOf y) (keyOf x)) ∧
    IsBST cmp keyOf l ∧ IsBST cmp keyOf r

/-- The `(key, value)` pairs of the reachable nodes, in order. -/
def entriesOf {V : Type} (keyOf : α → K) (valOf : α → V) (t : Tree α) : List (K × V) :=
  t.toList.map fun x => (keyOf x, valOf x)

/-- What `Put(key, value)` does to the in-order sequence of entries and to
`size`: a new entry between the smaller and the larger keys and `size++`, or
the entry with an equal key overwritten and `size` as it was. -/
def PutSpec {V : Type} (cmp : Comparator K) (key : K) (value : V)
    (old new : List (K × V)) (size size1 : Nat) : Prop :=
  (∃ B A, old = B ++ A ∧ (∀ a ∈ B, cmp a.1 key < 0) ∧ (∀ b ∈ A, cmp key b.1 < 0) ∧
    new = B ++ (key, value) :: A ∧ size1 = incr32 size) ∨
  (∃ B x A, old = B ++ x :: A ∧ cmp key x.1 = 0 ∧
    new = B ++ (key, value) :: A ∧ size1 = size)

/-- What `Remove(key)` does to the in-order sequence of entries and to `size`:
nothing when no key compares equal, else that entry dropped and `size--`. -/
def RemoveSpec {V : Type} (cmp : Comparator K) (key : K)
    (old new : List (K × V)) (size size1 : Nat) : Prop :=
  ((∀ e ∈ old, cmp key e.1 ≠ 0) ∧ new = old ∧ size1 = size) ∨
  (∃ B x A, old = B ++ x :: A ∧ cmp key x.1 = 0 ∧ new = B ++ A ∧ size1 = decr32 size)

end Shared

/-! ## The plain BST engine (`bstree/bstree.go`) -/

/-- The fields `key` and `value` of a `bstree.Node`; the links are the tree
structure. -/
structure BSTree.Node (K V : Type) where
  key : K
  value : V
  deriving DecidableEq, Repr

/-- The struct `BSTree`. -/
structure BSTree (K V : Type) where
  root : Tree (BSTree.Node K V)
  comparator : Comparator K
  size : Nat

namespace BSTree

variable {K V : Type}

/-- The function `New` for integer keys. -/
def New : BSTree Int V := ⟨Tree.nil, intCompare, 0⟩

/-- The function `NewWith`. -/
def NewWith (comparator : Comparator K) : BSTree K V := ⟨Tree.nil, comparator, 0⟩

/-- The `for` loop of `Put`, started at a non-nil `node`. -/
def putLoop (tree : BSTree K V) (key : K) (value : V) :
    Tree (Node K V) → List (Frame (Node K V)) → Option (BSTree K V)
  | Tree.nil, _ => none
  | Tree.node l x r, path =>
    let compare := tree.comparator key x.key
    if compare = 0 then
      some { tree with root := zip (Tree.node l ⟨key, value⟩ r) path }
    else if compare < 0 then
      match l with
      | Tree.nil =>
        some { tree with
          root := zip (Tree.node (Tree.node Tree.nil ⟨key, value⟩ Tree.nil) x r) path
          size := incr32 tree.size }
      | Tree.node ll y lr => putLoop tree key value (Tree.node ll y lr) (Frame.left x r :: path)
    else
      match r with
      | Tree.nil =>
        some { tree with
          root := zip (Tree.node l x (Tree.node Tree.nil ⟨key, value⟩ Tree.nil)) path
          size := incr32 tree.size }
      | Tree.node rl y rr => putLoop tree key value (Tree.node rl y rr) (Frame.right l x :: path)

/-- The method `Put`. -/
def Put (tree : BSTree K V) (key : K) (value : V) : Option (BSTree K V) :=
  match tree.root with
  | Tree.nil =>
    some { tree with
      root := Tree.node Tree.nil ⟨key, value⟩ Tree.nil
      size := incr32 tree.size }
  | Tree.node l x r => putLoop tree key value (Tree.node l x r) []

/-- The method `get`: the node holding `key`, or nil. -/
def get (tree : BSTree K V) (key : K) : Loc (Node K V) :=
  getLoop tree.comparator Node.key key tree.root []

/-- The method `Get`: `some v` stands for `(v, true)` and `none` for
`(zero value, false)`. -/
def Get (tree : BSTree K V) (key : K) : Option V :=
  match (tree.get key).node with
  | Tree.nil => none
  | Tree.node _ x _ => some x.value

/-- The method `min`. -/
def min (_tree : BSTree K V) (node : Loc (Node K V)) : Loc (Node K V) :=
  minLoop node.node node.path

/-- The method `max`. -/
def max (_tree : BSTree K V) (node : Loc (Node K V)) : Loc (Node K V) :=
  maxLoop node.node node.path

/-- The method `replace`; the result is the new `tree.root`. -/
def replace (_tree : BSTree K V) (oldNode : Loc (Node K V)) (newNode : Tree (Node K V)) :
    Tree (Node K V) :=
  replaceNode oldNode newNode

/-- The method `Remove`.  In the two-children case `next` is located below
`node.right`; the assignments to `node.key` and `node.value` rewrite the frame
of `node` on the path of `next`. -/
def Remove (tree : BSTree K V) (key : K) : Option (BSTree K V) :=
  let node := tree.get key
  match node.node with
  | Tree.nil => some tree
  | Tree.node l x r =>
    if l.isNil = false ∧ r.isNil = false then
      let next := tree.min ⟨r, []⟩
      match next.node with
      | Tree.nil => none
      | Tree.node _ nx nr =>
        let x1 : Node K V := { x with key := nx.key, value := nx.value }
        some { tree with
          root := tree.replace ⟨next.node, next.path ++ Frame.right l x1 :: node.path⟩ nr
          size := decr32 tree.size }
    else if l.isNil = true ∧ r.isNil = true then
      some { tree with root := tree.replace node Tree.nil, size := decr32 tree.size }
    else if l.isNil = false then
      some { tree with root := tree.replace node l, size := decr32 tree.size }
    else if r.isNil = false then
      some { tree with root := tree.replace node r, size := decr32 tree.size }
    else none

/-- The invariant of the plain BST engine: strictly increasing in-order keys and
a `size` field equal to the number of reachable nodes. -/
def Inv (tree : BSTree K V) : Prop :=
  StrictlyIncreasing tree.comparator (keysOf Node.key tree.root) ∧
  tree.size = tree.root.count

/-- A tree with the keys 1, 2, 3. -/
def sample : BSTree Nat Nat :=
  ⟨Tree.node (Tree.node Tree.nil ⟨1, 10⟩ Tree.nil) ⟨2, 20⟩ (Tree.node Tree.nil ⟨3, 30⟩ Tree.nil),
    natCompare, 3⟩

/-- A tree with the 4294967295 keys from 1 to 4294967295: the `size` field holds
the largest `uint32`. -/
def full : BSTree Nat Nat :=
  ⟨perfect (fun _ i => ⟨i, i⟩) 32 1, natCompare, 4294967295⟩

end BSTree

/-! ## The AVL engine (`avltree/avltree.go`) -/

/-- The fields `key`, `value` and `height` (a `uint32`) of an `avltree.Node`. -/
structure AVLTree.Node (K V : Type) where
  key : K
  value : V
  height : Nat
  deriving DecidableEq, Repr

/-- The struct `AVLTree`. -/
structure AVLTree (K V : Type) where
  root : Tree (AVLTree.Node K V)
  comparator : Comparator K
  size : Nat

namespace AVLTree

variable {K V : Type}

/-- The function `New` for integer keys. -/
def New : AVLTree Int V := ⟨Tree.nil, intCompare, 0⟩

/-- The function `NewWith`. -/
def NewWith (comparator : Comparator K) : AVLTree K V := ⟨Tree.nil, comparator, 0⟩

/-- The method `getHeight`. -/
def getHeight : Tree (Node K V) → Nat
  | Tree.nil => 0
  | Tree.node _ x _ => x.height

/-- The method `getBalance`: the `uint32` difference of the children's heights,
converted to `int8`; `none` when `node` is nil. -/
def getBalance : Tree (Node K V) → Option Int
  | Tree.nil => none
  | Tree.node l _ r => some (toInt8 (sub32 (getHeight l) (getHeight r)))

/-- The method `calcHeight`; the result is `node` with its new height. -/
def calcHeight : Tree (Node K V) → Option (Tree (Node K V))
  | Tree.nil => none
  | Tree.node l x r =>
    some (Tree.node l { x with height := incr32 (Max.max (getHeight l) (getHeight r)) } r)

/-- The method `rotateLeft`, on the subtree hanging at `node`; the result is the
subtree that hangs there afterwards, rooted at the returned `child`. -/
def rotateLeft : Tree (Node K V) → Option (Tree (Node K V))
  | Tree.node l x (Tree.node cl y cr) =>
    (calcHeight (Tree.node l x cl)).bind fun node => calcHeight (Tree.node node y cr)
  | _ => none

/-- The method `rotateRight`, on the subtree hanging at `node`. -/
def rotateRight : Tree (Node K V) → Option (Tree (Node K V))
  | Tree.node (Tree.node cl y cr) x r =>
    (calcHeight (Tree.node cr x r)).bind fun node => calcHeight (Tree.node cl y node)
  | _ => none

/-- One turn of the loop of `putFix`, up to the assignment `node = node.parent`:
the subtree that hangs where `node` hung. -/
def putFixStep (node : Tree (Node K V)) : Option (Tree (Node K V)) :=
  match node with
  | Tree.nil => none
  | Tree.node l x r =>
    (getBalance (Tree.node l x r)).bind fun b =>
    if b > 1 then
      (getBalance l).bind fun b =>
      if b > 0 then
        if l.isNil = true ∨ l.left.isNil = true then none
        else rotateRight (Tree.node l x r)
      else if b < 0 then
        if l.isNil = true ∨ l.right.isNil = true then none
        else (rotateLeft l).bind fun l1 => rotateRight (Tree.node l1 x r)
      else none
    else if b < -1 then
      (getBalance r).bind fun b =>
      if b > 0 then
        if r.isNil = true ∨ r.left.isNil = true then none
        else (rotateRight r).bind fun r1 => rotateLeft (Tree.node l x r1)
      else if b < 0 then
        if r.isNil = true ∨ r.right.isNil = true then none
        else rotateLeft (Tree.node l x r)
      else none
    else calcHeight (Tree.node l x r)

/-- The loop of `putFix` from a non-nil `node` up to the root; the result is
the new `tree.root`. -/
def putFix : Tree (Node K V) → List (Frame (Node K V)) → Option (Tree (Node K V))
  | node, [] => putFixStep node
  | node, f :: path => (putFixStep node).bind fun n => putFix (f.plug n) path

/-- One turn of the loop of `removeFix`. -/
def removeFixStep (node : Tree (Node K V)) : Option (Tree (Node K V)) :=
  match node with
  | Tree.nil => none
  | Tree.node l x r =>
    (getBalance (Tree.node l x r)).bind fun b =>
    if b > 1 then
      (getBalance l).bind fun b =>
      if b ≥ 0 then
        if l.isNil = true ∨ l.left.isNil = true then none
        else rotateRight (Tree.node l x r)
      else
        if l.isNil = true ∨ l.right.isNil = true then none
        else (rotateLeft l).bind fun l1 => rotateRight (Tree.node l1 x r)
    else if b < -1 then
      (getBalance r).bind fun b =>
      if b > 0 then
        if r.isNil = true ∨ r.left.isNil = true then none
        else (rotateRight r).bind fun r1 => rotateLeft (Tree.node l x r1)
      else
        if r.isNil = true ∨ r.right.isNil = true then none
        else rotateLeft (Tree.node l x r)
    else calcHeight (Tree.node l x r)

/-- The loop of `removeFix` from a non-nil `node` up to the root. -/
def removeFixLoop : Tree (Node K V) → List (Frame (Node K V)) → Option (Tree (Node K V))
  | node, [] => removeFixStep node
  | node, f :: path => (removeFixStep node).bind fun n => removeFixLoop (f.plug n) path

/-- The method `removeFix`; `root` is `tree.root` before the call and the
result is `tree.root` after it.  A nil `node` skips the loop. -/
def removeFix (root : Tree (Node K V)) (node : Loc (Node K V)) : Option (Tree (Node K V)) :=
  match node.node with
  | Tree.nil => some root
  | Tree.node l x r => removeFixLoop (Tree.node l x r) node.path

/-- The `for` loop of `Put`, started at a non-nil `node`. -/
def putLoop (tree : AVLTree K V) (key : K) (value : V) :
    Tree (Node K V) → List (Frame (Node K V)) → Option (AVLTree K V)
  | Tree.nil, _ => none
  | Tree.node l x r, path =>
    let compare := tree.comparator key x.key
    if compare = 0 then
      some { tree with root := zip (Tree.node l { x with key := key, value := value } r) path }
    else if compare < 0 then
      match l with
      | Tree.nil =>
        (putFix (Tree.node (Tree.node Tree.nil ⟨key, value, 1⟩ Tree.nil) x r) path).map
          fun root => { tree with root := root, size := incr32 tree.size }
      | Tree.node ll y lr => putLoop tree key value (Tree.node ll y lr) (Frame.left x r :: path)
    else
      match r with
      | Tree.nil =>
        (putFix (Tree.node l x (Tree.node Tree.nil ⟨key, value, 1⟩ Tree.nil)) path).map
          fun root => { tree with root := root, size := incr32 tree.size }
      | Tree.node rl y rr => putLoop tree key value (Tree.node rl y rr) (Frame.right l x :: path)

/-- The method `Put`. -/
def Put (tree : AVLTree K V) (key : K) (value : V) : Option (AVLTree K V) :=
  match tree.root with
  | Tree.nil =>
    some { tree with
      root := Tree.node Tree.nil ⟨key, value, 1⟩ Tree.nil
      size := incr32 tree.size }
  | Tree.node l x r => putLoop tree key value (Tree.node l x r) []

/-- The method `get`: the node holding `key`, or nil. -/
def get (tree : AVLTree K V) (key : K) : Loc (Node K V) :=
  getLoop tree.comparator Node.key key tree.root []

/-- The method `Get`: `some v` stands for `(v, true)` and `none` for
`(zero value, false)`. -/
def Get (tree : AVLTree K V) (key : K) : Option V :=
  match (tree.get key).node with
  | Tree.nil => none
  | Tree.node _ x _ => some x.value

/-- The method `min`. -/
def min (_tree : AVLTree K V) (node : Loc (Node K V)) : Loc (Node K V) :=
  minLoop node.node node.path

/-- The method `max`. -/
def max (_tree : AVLTree K V) (node : Loc (Node K V)) : Loc (Node K V) :=
  maxLoop node.node node.path

/-- The method `replace`: the new `tree.root` and the returned `parent`, the
old parent of `oldNode` with `newNode` hung in its place (nil when `oldNode`
was the root). -/
def replace (_tree : AVLTree K V) (oldNode : Loc (Node K V)) (newNode : Tree (Node K V)) :
    Tree (Node K V) × Loc (Node K V) :=
  match oldNode.path with
  | [] => (newNode, ⟨Tree.nil, []⟩)
  | f :: path => (zip (f.plug newNode) path, ⟨f.plug newNode, path⟩)

/-- The method `Remove`.  In the two-children case `next` is located below
`node.right`; the assignments to `node.key` and `node.value` rewrite the frame
of `node` on the path of `next`. -/
def Remove (tree : AVLTree K V) (key : K) : Option (AVLTree K V) :=
  let node := tree.get key
  match node.node with
  | Tree.nil => some tree
  | Tree.node l x r =>
    let replaced : Option (Tree (Node K V) × Loc (Node K V)) :=
      if l.isNil = false ∧ r.isNil = false then
        let next := tree.min ⟨r, []⟩
        match next.node with
        | Tree.nil => none
        | Tree.node _ nx nr =>
          let x1 : Node K V := { x with key := nx.key, value := nx.value }
          some (tree.replace ⟨next.node, next.path ++ Frame.right l x1 :: node.path⟩ nr)
      else if l.isNil = true ∧ r.isNil = true then
        some (tree.replace node Tree.nil)
      else if l.isNil = false then
        some (tree.replace node l)
      else if r.isNil = false then
        some (tree.replace node r)
      else none
    replaced.bind fun (root, parent) =>
    (removeFix root parent).map fun root =>
    { tree with root := root, size := decr32 tree.size }

/-- Every node's stored height is one more than the larger of its children's
stored heights (an absent child counts 0). -/
def HeightsOK : Tree (Node K V) → Prop
  | Tree.nil => True
  | Tree.node l x r =>
    x.height = 1 + Max.max (getHeight l) (getHeight r) ∧ HeightsOK l ∧ HeightsOK r

/-- Every node's balance factor `height(left) - height(right)` lies in
`[-1, 1]`. -/
def Balanced : Tree (Node K V) → Prop
  | Tree.nil => True
  | Tree.node l _ r =>
    (-1 ≤ (getHeight l : Int) - (getHeight r : Int) ∧
      (getHeight l : Int) - (getHeight r : Int) ≤ 1) ∧ Balanced l ∧ Balanced r

/-- The invariant of the AVL engine. -/
def Inv (tree : AVLTree K V) : Prop :=
  IsBST tree.comparator Node.key tree.root ∧
  tree.size = tree.root.count ∧
  HeightsOK tree.root ∧
  Balanced tree.root

/-- A subtree with correct stored heights and balance factors in `[-1, 1]`,
stated with natural-number inequalities. -/
def Valid : Tree (Node K V) → Prop
  | Tree.nil => True
  | Tree.node l x r =>
    x.height = 1 + Max.max (getHeight l) (getHeight r) ∧
    getHeight l ≤ getHeight r + 1 ∧ getHeight r ≤ getHeight l + 1 ∧ Valid l ∧ Valid r

/-- The children of the node have different heights. -/
def Tilted : Tree (Node K V) → Prop
  | Tree.nil => False
  | Tree.node l _ r => getHeight l ≠ getHeight r

/-- The ancestors of a location fit a valid subtree of height `h` at the
location, and every height along the way is below `bound`. -/
def PathOK (bound : Nat) : List (Frame (Node K V)) → Nat → Prop
  | [], h => h < bound
  | Frame.left x r :: path, h =>
    Valid r ∧ x.height = 1 + Max.max h (getHeight r) ∧
      h ≤ getHeight r + 1 ∧ getHeight r ≤ h + 1 ∧ PathOK bound path x.height
  | Frame.right l x :: path, h =>
    Valid l ∧ x.height = 1 + Max.max (getHeight l) h ∧
      h ≤ getHeight l + 1 ∧ getHeight l ≤ h + 1 ∧ PathOK bound path x.height

/-- What the loop of `putFix` meets at a node whose stored height is still `h`:
valid children, and either nothing changed below or one child grew by one level
and leans to one side. -/
def PutPre (h : Nat) : Tree (Node K V) → Prop
  | Tree.nil => False
  | Tree.node l x r =>
    Valid l ∧ Valid r ∧ x.height = h ∧
    ((h = 1 + Max.max (getHeight l) (getHeight r) ∧
        getHeight l ≤ getHeight r + 1 ∧ getHeight r ≤ getHeight l + 1) ∨
      (h = Max.max (getHeight l) (getHeight r) ∧ getHeight l ≠ getHeight r ∧
        getHeight l ≤ getHeight r + 2 ∧ getHeight r ≤ getHeight l + 2 ∧
        (getHeight l = getHeight r + 2 → Tilted l) ∧
        (getHeight r = getHeight l + 2 → Tilted r)))

/-- What one turn of the loop of `putFix` leaves where the stored height was
`h`: a valid subtree of the same height, or one level higher and leaning (or a
new leaf where there was none). -/
def PutPost (h : Nat) (t : Tree (Node K V)) : Prop :=
  Valid t ∧ (getHeight t = h ∨ (getHeight t = h + 1 ∧ (h = 0 ∨ Tilted t)))

/-- What the loop of `removeFix` meets at a node whose stored height is still
`h`: valid children, one of which may have lost one level. -/
def RemovePre (h : Nat) : Tree (Node K V) → Prop
  | Tree.nil => False
  | Tree.node l x r =>
    Valid l ∧ Valid r ∧ x.height = h ∧
    getHeight l ≤ getHeight r + 2 ∧ getHeight r ≤ getHeight l + 2 ∧
    (h = 1 + Max.max (getHeight l) (getHeight r) ∨
      (h = 2 + Max.max (getHeight l) (getHeight r) ∧ getHeight l = getHeight r))

/-- What one turn of the loop of `removeFix` leaves where the stored height was
`h`: a valid subtree of the same height or one level lower. -/
def RemovePost (h : Nat) (t : Tree (Node K V)) : Prop :=
  Valid t ∧ (getHeight t = h ∨ getHeight t + 1 = h)

/-- The `(key, value)` pairs of a subtree, in order. -/
def entries (t : Tree (Node K V)) : List (K × V) := entriesOf Node.key Node.value t

/-- A tree with the keys 1, 2, 3. -/
def sample : AVLTree Nat Nat :=
  ⟨Tree.node (Tree.node Tree.nil ⟨1, 10, 1⟩ Tree.nil) ⟨2, 20, 2⟩
    (Tree.node Tree.nil ⟨3, 30, 1⟩ Tree.nil), natCompare, 3⟩

/-- A tree with the 4294967295 keys from 1 to 4294967295: the `size` field holds
the largest `uint32`. -/
def full : AVLTree Nat Nat :=
  ⟨perfect (fun d i => ⟨i, i, d⟩) 32 1, natCompare, 4294967295⟩

end AVLTree

/-! ## The Red-Black engine (`rbtree/rbtree.go`) -/

/-- The type `Color` with its two constants. -/
inductive Color where
  | black : Color
  | red : Color
  deriving DecidableEq, Repr

/-- The fields `key`, `value` and `color` of an `rbtree.Node`, and the address
`ptr` of the node.  The address is what a Go pointer to the node holds: `Remove`
keeps the pointer `node` across the rotations of `removeFix` and then writes
through it, which here is a write to the node with that address. -/
structure RBTree.Node (K V : Type) where
  key : K
  value : V
  color : Color
  ptr : Nat
  deriving DecidableEq, Repr

/-- The struct `RBTree`. -/
structure RBTree (K V : Type) where
  root : Tree (RBTree.Node K V)
  comparator : Comparator K
  size : Nat

namespace RBTree

variable {K V : Type}

/-- The function `New` for integer keys. -/
def New : RBTree Int V := ⟨Tree.nil, intCompare, 0⟩

/-- The function `NewWith`. -/
def NewWith (comparator : Comparator K) : RBTree K V := ⟨Tree.nil, comparator, 0⟩

/-- The method `getColor`: nil counts as black. -/
def getColor : Tree (Node K V) → Color
  | Tree.nil => Color.black
  | Tree.node _ x _ => x.color

/-- The assignment `node.color = c`; `none` when `node` is nil. -/
def setColor (c : Color) : Tree (Node K V) → Option (Tree (Node K V))
  | Tree.nil => none
  | Tree.node l x r => some (Tree.node l { x with color := c } r)

/-- The guarded assignment `if node != nil { node.color = c }`. -/
def setColorIfPresent (c : Color) : Tree (Node K V) → Tree (Node K V)
  | Tree.nil => Tree.nil
  | Tree.node l x r => Tree.node l { x with color := c } r

/-- The method `rotateLeft`, on the subtree hanging at `node`; the result is the
subtree that hangs there afterwards, rooted at the former right child. -/
def rotateLeft : Tree (Node K V) → Option (Tree (Node K V))
  | Tree.node l x (Tree.node cl y cr) => some (Tree.node (Tree.node l x cl) y cr)
  | _ => none

/-- The method `rotateRight`, on the subtree hanging at `node`. -/
def rotateRight : Tree (Node K V) → Option (Tree (Node K V))
  | Tree.node (Tree.node cl y cr) x r => some (Tree.node cl y (Tree.node cr x r))
  | _ => none

/-- The method `putFix` at the location of `node`; the result is the new
`tree.root`. -/
def putFix : Tree (Node K V) → List (Frame (Node K V)) → Option (Tree (Node K V))
  | Tree.nil, _ => none
  | Tree.node l x r, [] => setColor Color.black (Tree.node l x r)
  | Tree.node l x r, [parent] =>
    if parent.data.color = Color.black then some (zip (Tree.node l x r) [parent])
    else none
  | Tree.node l x r, parent :: grandparent :: path =>
    if parent.data.color = Color.black then
      some (zip (Tree.node l x r) (parent :: grandparent :: path))
    else
      match grandparent with
      | Frame.left gx uncle =>
        if getColor uncle = Color.red then
          (setColor Color.black (parent.plug (Tree.node l x r))).bind fun p =>
          putFix (Tree.node p { gx with color := Color.red }
            (setColorIfPresent Color.black uncle)) path
        else
          (match parent with
            | Frame.right _ _ => rotateLeft (parent.plug (Tree.node l x r))
            | Frame.left _ _ => some (parent.plug (Tree.node l x r))).bind fun p =>
          (setColor Color.black p).bind fun p =>
          (rotateRight (Tree.node p { gx with color := Color.red } uncle)).bind fun g =>
          some (zip g path)
      | Frame.right uncle gx =>
        if getColor uncle = Color.red then
          (setColor Color.black (parent.plug (Tree.node l x r))).bind fun p =>
          putFix (Tree.node (setColorIfPresent Color.black uncle)
            { gx with color := Color.red } p) path
        else
          (match parent with
            | Frame.left _ _ => rotateRight (parent.plug (Tree.node l x r))
            | Frame.right _ _ => some (parent.plug (Tree.node l x r))).bind fun p =>
          (setColor Color.black p).bind fun p =>
          (rotateLeft (Tree.node uncle { gx with color := Color.red } p)).bind fun g =>
          some (zip g path)

/-- The location of `node` after `rotateLeft(parent)`, where `node` is
`parent.left` and `t` is the subtree that the rotation left at the old place of
`parent`: the parent is now the left child of the root of `t`. -/
def afterRotateLeft (t : Tree (Node K V)) (path : List (Frame (Node K V))) :
    Option (List (Frame (Node K V))) :=
  match t with
  | Tree.node (Tree.node _ px ps) sx sr => some (Frame.left px ps :: Frame.left sx sr :: path)
  | _ => none

/-- The location of `node` after `rotateRight(parent)`, where `node` is
`parent.right`. -/
def afterRotateRight (t : Tree (Node K V)) (path : List (Frame (Node K V))) :
    Option (List (Frame (Node K V))) :=
  match t with
  | Tree.node sl sx (Tree.node ps px _) => some (Frame.right ps px :: Frame.right sl sx :: path)
  | _ => none

/-- The method `removeFix` at the location of `node`, with a bound on the depth
of the recursion.  The subtree at `node` keeps its shape and colours; the result
is the list of ancestors of `node` afterwards. -/
def removeFixAux : Nat → Tree (Node K V) → List (Frame (Node K V)) →
    Option (List (Frame (Node K V)))
  | 0, _, _ => none
  | fuel + 1, node, path =>
    if getColor node = Color.red then some path
    else
      match path with
      | [] => some []
      | Frame.left px sibling :: rest =>
        match sibling with
        | Tree.nil => none
        | Tree.node inner sx outer =>
          if sx.color = Color.red then
            (rotateLeft (Tree.node node { px with color := Color.red }
              (Tree.node inner { sx with color := Color.black } outer))).bind fun t =>
            (afterRotateLeft t rest).bind fun path1 =>
            removeFixAux fuel node path1
          else if getColor inner = Color.black ∧ getColor outer = Color.black then
            if px.color = Color.red then
              some (Frame.left { px with color := Color.black }
                (Tree.node inner { sx with color := Color.red } outer) :: rest)
            else
              (removeFixAux fuel
                (Tree.node node px (Tree.node inner { sx with color := Color.red } outer))
                rest).bind fun rest1 =>
              some (Frame.left px (Tree.node inner { sx with color := Color.red } outer) :: rest1)
          else
            (if getColor outer = Color.black then
              (setColor Color.black inner).bind fun inner1 =>
              rotateRight (Tree.node inner1 { sx with color := Color.red } outer)
            else some (Tree.node inner sx outer)).bind fun sibling1 =>
            match sibling1 with
            | Tree.nil => none
            | Tree.node sl sx1 outer1 =>
              (setColor Color.black outer1).bind fun outer2 =>
              (rotateLeft (Tree.node node { px with color := Color.black }
                (Tree.node sl { sx1 with color := px.color } outer2))).bind fun t =>
              afterRotateLeft t rest
      | Frame.right sibling px :: rest =>
        match sibling with
        | Tree.nil => none
        | Tree.node outer sx inner =>
          if sx.color = Color.red then
            (rotateRight (Tree.node (Tree.node outer { sx with color := Color.black } inner)
              { px with color := Color.red } node)).bind fun t =>
            (afterRotateRight t rest).bind fun path1 =>
            removeFixAux fuel node path1
          else if getColor inner = Color.black ∧ getColor outer = Color.black then
            if px.color = Color.red then
              some (Frame.right (Tree.node outer { sx with color := Color.red } inner)
                { px with color := Color.black } :: rest)
            else
              (removeFixAux fuel
                (Tree.node (Tree.node outer { sx with color := Color.red } inner) px node)
                rest).bind fun rest1 =>
              some (Frame.right (Tree.node outer { sx with color := Color.red } inner) px :: rest1)
          else
            (if getColor outer = Color.black then
              (setColor Color.black inner).bind fun inner1 =>
              rotateLeft (Tree.node outer { sx with color := Color.red } inner1)
            else some (Tree.node outer sx inner)).bind fun sibling1 =>
            match sibling1 with
            | Tree.nil => none
            | Tree.node outer1 sx1 sr =>
              (setColor Color.black outer1).bind fun outer2 =>
              (rotateRight (Tree.node (Tree.node outer2 { sx1 with color := px.color } sr)
                { px with color := Color.black } node)).bind fun t =>
              afterRotateRight t rest

/-- A bound on the depth of the recursion of `removeFix` from a location: one
for every ancestor and two for every node in a sibling subtree along the way. -/
def removeFixDepth : List (Frame (Node K V)) → Nat
  | [] => 0
  | f :: path => 1 + 2 * f.sibling.count + removeFixDepth path

/-- The method `removeFix`. -/
def removeFix (node : Tree (Node K V)) (path : List (Frame (Node K V))) :
    Option (List (Frame (Node K V))) :=
  removeFixAux (removeFixDepth path + 1) node path

/-- The `for` loop of `Put`, started at a non-nil `node`; `ptr` is the address
of the node that the call allocates. -/
def putLoop (tree : RBTree K V) (key : K) (value : V) (ptr : Nat) :
    Tree (Node K V) → List (Frame (Node K V)) → Option (RBTree K V)
  | Tree.nil, _ => none
  | Tree.node l x r, path =>
    let compare := tree.comparator key x.key
    if compare = 0 then
      some { tree with root := zip (Tree.node l { x with key := key, value := value } r) path }
    else if compare < 0 then
      match l with
      | Tree.nil =>
        (putFix (Tree.node Tree.nil ⟨key, value, Color.red, ptr⟩ Tree.nil)
          (Frame.left x r :: path)).map
          fun root => { tree with root := root, size := incr32 tree.size }
      | Tree.node ll y lr =>
        putLoop tree key value ptr (Tree.node ll y lr) (Frame.left x r :: path)
    else
      match r with
      | Tree.nil =>
        (putFix (Tree.node Tree.nil ⟨key, value, Color.red, ptr⟩ Tree.nil)
          (Frame.right l x :: path)).map
          fun root => { tree with root := root, size := incr32 tree.size }
      | Tree.node rl y rr =>
        putLoop tree key value ptr (Tree.node rl y rr) (Frame.right l x :: path)

/-- The method `Put`; `ptr` is the address of the node that the call allocates
when the key is new. -/
def Put (tree : RBTree K V) (key : K) (value : V) (ptr : Nat) : Option (RBTree K V) :=
  match tree.root with
  | Tree.nil =>
    some { tree with
      root := Tree.node Tree.nil ⟨key, value, Color.black, ptr⟩ Tree.nil
      size := incr32 tree.size }
  | Tree.node l x r => putLoop tree key value ptr (Tree.node l x r) []

/-- The method `get`: the node holding `key`, or nil. -/
def get (tree : RBTree K V) (key : K) : Loc (Node K V) :=
  getLoop tree.comparator Node.key key tree.root []

/-- The method `Get`: `some v` stands for `(v, true)` and `none` for
`(zero value, false)`. -/
def Get (tree : RBTree K V) (key : K) : Option V :=
  match (tree.get key).node with
  | Tree.nil => none
  | Tree.node _ x _ => some x.value

/-- The method `min`. -/
def min (_tree : RBTree K V) (node : Loc (Node K V)) : Loc (Node K V) :=
  minLoop node.node node.path

/-- The method `max`. -/
def max (_tree : RBTree K V) (node : Loc (Node K V)) : Loc (Node K V) :=
  maxLoop node.node node.path

/-- The method `replace`; the result is the new `tree.root`. -/
def replace (_tree : RBTree K V) (oldNode : Loc (Node K V)) (newNode : Tree (Node K V)) :
    Tree (Node K V) :=
  replaceNode oldNode newNode

/-- The assignments `node.key = key; node.value = value` through a pointer
holding the address `ptr`, on the fields of one node. -/
def Node.assign (ptr : Nat) (key : K) (value : V) (x : Node K V) : Node K V :=
  if x.ptr = ptr then { x with key := key, value := value } else x

/-- The assignments `node.key = key; node.value = value` through a pointer
holding the address `ptr`, seen from a subtree. -/
def assign (ptr : Nat) (key : K) (value : V) : Tree (Node K V) → Tree (Node K V)
  | Tree.nil => Tree.nil
  | Tree.node l x r =>
    Tree.node (assign ptr key value l) (x.assign ptr key value) (assign ptr key value r)

/-- The assignments `node.key = key; node.value = value` through a pointer
holding the address `ptr`, seen from an ancestor frame. -/
def assignFrame (ptr : Nat) (key : K) (value : V) : Frame (Node K V) → Frame (Node K V)
  | Frame.left x r => Frame.left (x.assign ptr key value) (assign ptr key value r)
  | Frame.right l x => Frame.right (assign ptr key value l) (x.assign ptr key value)

/-- The method `Remove`. -/
def Remove (tree : RBTree K V) (key : K) : Option (RBTree K V) :=
  let node := tree.get key
  match node.node with
  | Tree.nil => some tree
  | Tree.node l x r =>
    let replaced : Option (Tree (Node K V)) :=
      if l.isNil = false ∧ r.isNil = false then
        let next := tree.min ⟨r, Frame.right l x :: node.path⟩
        match next.node with
        | Tree.nil => none
        | Tree.node nl nx nr =>
          (removeFix next.node next.path).bind fun path =>
          some (tree.replace
            ⟨assign x.ptr nx.key nx.value (Tree.node nl nx nr),
              path.map (assignFrame x.ptr nx.key nx.value)⟩
            (assign x.ptr nx.key nx.value nr))
      else if l.isNil = true ∧ r.isNil = true then
        (removeFix node.node node.path).bind fun path =>
        some (tree.replace ⟨node.node, path⟩ Tree.nil)
      else if l.isNil = false then
        (removeFix node.node node.path).bind fun path =>
        some (tree.replace ⟨node.node, path⟩ l)
      else if r.isNil = false then
        (removeFix node.node node.path).bind fun path =>
        some (tree.replace ⟨node.node, path⟩ r)
      else none
    replaced.bind fun root =>
    some { tree with root := setColorIfPresent Color.black root, size := decr32 tree.size }

/-- No red node has a red child. -/
def NoRedRed : Tree (Node K V) → Prop
  | Tree.nil => True
  | Tree.node l x r =>
    (x.color = Color.red → getColor l = Color.black ∧ getColor r = Color.black) ∧
    NoRedRed l ∧ NoRedRed r

/-- The number of black nodes on every path from a pointer down to an absent
child position, one entry per path. -/
def blackCounts : Tree (Node K V) → List Nat
  | Tree.nil => [0]
  | Tree.node l x r =>
    (blackCounts l ++ blackCounts r).map
      fun n => n + (if x.color = Color.black then 1 else 0)

/-- Every path from the pointer down to an absent child position has the same
number of black nodes. -/
def BlackBalanced (t : Tree (Node K V)) : Prop :=
  ∀ a ∈ blackCounts t, ∀ b ∈ blackCounts t, a = b

/-- The node addresses are pairwise distinct, as they are for nodes on a heap. -/
def PtrsDistinct (t : Tree (Node K V)) : Prop :=
  (t.toList.map Node.ptr).Nodup

/-- The invariant of the Red-Black engine. -/
def Inv (tree : RBTree K V) : Prop :=
  IsBST tree.comparator Node.key tree.root ∧
  tree.size = tree.root.count ∧
  getColor tree.root = Color.black ∧
  NoRedRed tree.root ∧
  BlackBalanced tree.root

/-- The number 1 for black and 0 for red. -/
def blackUnit (c : Color) : Nat := if c = Color.black then 1 else 0

/-- The number of black nodes on the leftmost path below a pointer. -/
def bh : Tree (Node K V) → Nat
  | Tree.nil => 0
  | Tree.node l x _ => bh l + blackUnit x.color

/-- At every node the leftmost paths of the two children count the same number
of black nodes. -/
def BHOk : Tree (Node K V) → Prop
  | Tree.nil => True
  | Tree.node l _ r => bh l = bh r ∧ BHOk l ∧ BHOk r

/-- A subtree without a red node with a red child and with equal black counts
on all paths. -/
def Valid : Tree (Node K V) → Prop
  | Tree.nil => True
  | Tree.node l x r =>
    (x.color = Color.red → getColor l = Color.black ∧ getColor r = Color.black) ∧
    bh l = bh r ∧ Valid l ∧ Valid r

/-- The ancestors of a location fit a valid subtree with `n` black nodes per
path and root colour `c` at the location. -/
def PathOK : List (Frame (Node K V)) → Nat → Color → Prop
  | [], _, _ => True
  | Frame.left x r :: path, n, c =>
    Valid r ∧ bh r = n ∧ (x.color = Color.red → c = Color.black ∧ getColor r = Color.black) ∧
      PathOK path (n + blackUnit x.color) x.color
  | Frame.right l x :: path, n, c =>
    Valid l ∧ bh l = n ∧ (x.color = Color.red → c = Color.black ∧ getColor l = Color.black) ∧
      PathOK path (n + blackUnit x.color) x.color

/-- The root above a location is black; `c` is the colour at the location. -/
def TopBlack : List (Frame (Node K V)) → Color → Prop
  | [], c => c = Color.black
  | f :: path, _ => TopBlack path f.data.color

/-- The address, key and value of a node: what the recolourings and rotations
leave alone. -/
def Node.cell (x : Node K V) : Nat × K × V := (x.ptr, x.key, x.value)

/-- The addresses, keys and values of a subtree, in order. -/
def cells (t : Tree (Node K V)) : List (Nat × K × V) := t.toList.map Node.cell

/-- The `(key, value)` pairs of a subtree, in order. -/
def entries (t : Tree (Node K V)) : List (K × V) := entriesOf Node.key Node.value t

/-- A tree with the keys 1, 2, 3. -/
def sample : RBTree Nat Nat :=
  ⟨Tree.node (Tree.node Tree.nil ⟨1, 10, Color.red, 101⟩ Tree.nil) ⟨2, 20, Color.black, 102⟩
    (Tree.node Tree.nil ⟨3, 30, Color.red, 103⟩ Tree.nil), natCompare, 3⟩

/-- A tree with the 4294967295 keys from 1 to 4294967295, all nodes black: the
`size` field holds the largest `uint32`. -/
def full : RBTree Nat Nat :=
  ⟨perfect (fun _ i => ⟨i, i, Color.black, i⟩) 32 1, natCompare, 4294967295⟩

end RBTree

/-! ## Shape of a tree -/

/-- The tree with the same links and the fields of every node replaced by their
image under `f`: what is left of a tree once only `f` of each node is looked
at (nothing for the bare shape, the height, the colour). -/
def Tree.map {α β : Type} (f : α → β) : Tree α → Tree β
  | Tree.nil => Tree.nil
  | Tree.node l x r => Tree.node (Tree.map f l) (f x) (Tree.map f r)

/-! ## The iterator of the plain BST engine (`bstree/iterator.go`) -/

/-- The type `Position` with its three constants `begin`, `between` and `end`
(`end_` here, `end` being a reserved word). -/
inductive BSTree.Position where
  | begin : BSTree.Position
  | between : BSTree.Position
  | end_ : BSTree.Position
  deriving DecidableEq, Repr

/-- The struct `Iterator`.  The field `node` is a pointer into the tree: a
location whose subtree is nil stands for the nil pointer. -/
structure BSTree.Iterator (K V : Type) where
  tree : BSTree K V
  node : Loc (BSTree.Node K V)
  position : BSTree.Position

namespace BSTree

variable {K V : Type}

/-- The method `Iter`: the fields `node` and `position` hold their zero values,
nil and `begin`. -/
def Iter (tree : BSTree K V) : Iterator K V := ⟨tree, ⟨Tree.nil, []⟩, Position.begin⟩

/-- The method `next`.  A location records on which side of its parent the
node hangs, so the `default` branch of the `switch` (the node is neither child
of its parent) does not arise. -/
def next (tree : BSTree K V) (node : Loc (Node K V)) : Loc (Node K V) :=
  match node.node with
  | Tree.nil => tree.min ⟨tree.root, []⟩
  | Tree.node l x r =>
    match node.path with
    | [] => tree.min ⟨r, Frame.right l x :: node.path⟩
    | Frame.left px ps :: rest =>
      if r.isNil = false then tree.min ⟨r, Frame.right l x :: node.path⟩
      else ⟨Tree.node (Tree.node l x r) px ps, rest⟩
    | Frame.right _ _ :: _ =>
      if r.isNil = false then tree.min ⟨r, Frame.right l x :: node.path⟩
      else ⟨Tree.nil, []⟩

/-- The method `prev`.  In the branch for a left child the test reads
`node.right != nil`, as in the source. -/
def prev (tree : BSTree K V) (node : Loc (Node K V)) : Loc (Node K V) :=
  match node.node with
  | Tree.nil => tree.max ⟨tree.root, []⟩
  | Tree.node l x r =>
    match node.path with
    | [] => tree.max ⟨l, Frame.left x r :: node.path⟩
    | Frame.right pl px :: rest =>
      if l.isNil = false then tree.max ⟨l, Frame.left x r :: node.path⟩
      else ⟨Tree.node pl px (Tree.node l x r), rest⟩
    | Frame.left _ _ :: _ =>
      if r.isNil = false then tree.max ⟨l, Frame.left x r :: node.path⟩
      else ⟨Tree.nil, []⟩

namespace Iterator

/-- The method `Begin`. -/
def Begin (iter : Iterator K V) : Iterator K V :=
  { iter with node := ⟨Tree.nil, []⟩, position := Position.begin }

/-- The method `End`. -/
def End (iter : Iterator K V) : Iterator K V :=
  { iter with node := ⟨Tree.nil, []⟩, position := Position.end_ }

/-- The method `Next`: the iterator afterwards and the returned flag. -/
def Next (iter : Iterator K V) : Iterator K V × Bool :=
  if iter.position = Position.end_ then (iter, false)
  else
    let position1 := if iter.position = Position.begin then Position.between else iter.position
    let node1 := iter.tree.next iter.node
    let position2 := if node1.node.isNil = true then Position.end_ else position1
    (⟨iter.tree, node1, position2⟩, decide (position2 ≠ Position.end_))

/-- The method `Prev`: the iterator afterwards and the returned flag. -/
def Prev (iter : Iterator K V) : Iterator K V × Bool :=
  if iter.position = Position.begin then (iter, false)
  else
    let position1 := if iter.position = Position.end_ then Position.between else iter.position
    let node1 := iter.tree.prev iter.node
    let position2 := if node1.node.isNil = true then Position.begin else position1
    (⟨iter.tree, node1, position2⟩, decide (position2 ≠ Position.begin))

/-- The method `Key`: `some k` stands for `(k, true)` and `none` for
`(zero value, false)`. -/
def Key (iter : Iterator K V) : Option K :=
  match iter.node.node with
  | Tree.nil => none
  | Tree.node _ x _ => some x.key

/-- The method `Value`: `some v` stands for `(v, true)` and `none` for
`(zero value, false)`. -/
def Value (iter : Iterator K V) : Option V :=
  match iter.node.node with
  | Tree.nil => none
  | Tree.node _ x _ => some x.value

/-- The loop `for iter.Next() { key, ok := iter.Key(); … }` of the callers
(`treemap.Keys`, `TestNext`), at most `fuel` calls of `Next`: the results of
`Key` after every call of `Next` that returned true, up to the call that
returned false; `none` when `fuel` calls did not reach it. -/
def forward : Nat → Iterator K V → Option (List (Option K))
  | 0, _ => none
  | fuel + 1, iter =>
    if iter.Next.2 = true then
      (forward fuel iter.Next.1).map fun ks => iter.Next.1.Key :: ks
    else some []

/-- The loop `for iter.Prev() { key, ok := iter.Key(); … }` of the callers
(`TestPrev`), at most `fuel` calls of `Prev`. -/
def backward : Nat → Iterator K V → Option (List (Option K))
  | 0, _ => none
  | fuel + 1, iter =>
    if iter.Prev.2 = true then
      (backward fuel iter.Prev.1).map fun ks => iter.Prev.1.Key :: ks
    else some []

end Iterator

/-- The tree built by `Put(3, 30)`, `Put(1, 10)`, `Put(2, 20)` on an empty tree:
the node with key 2 is a right child without a right subtree and is not the
last node. -/
def nextGap : BSTree Nat Nat :=
  ⟨Tree.node (Tree.node Tree.nil ⟨1, 10⟩ (Tree.node Tree.nil ⟨2, 20⟩ Tree.nil)) ⟨3, 30⟩ Tree.nil,
    natCompare, 3⟩

/-- The tree built by `Put(1, 10)`, `Put(3, 30)`, `Put(2, 20)` on an empty tree:
the node with key 2 is a left child without a left subtree and is not the first
node. -/
def prevGap : BSTree Nat Nat :=
  ⟨Tree.node Tree.nil ⟨1, 10⟩ (Tree.node (Tree.node Tree.nil ⟨2, 20⟩ Tree.nil) ⟨3, 30⟩ Tree.nil),
    natCompare, 3⟩

/-- The tree built by `Put(3, 30)`, `Put(2, 20)`, `Put(1, 10)` on an empty tree:
the node with key 2 is a left child with a left subtree and without a right
subtree. -/
def leftSpine : BSTree Nat Nat :=
  ⟨Tree.node (Tree.node (Tree.node Tree.nil ⟨1, 10⟩ Tree.nil) ⟨2, 20⟩ Tree.nil) ⟨3, 30⟩ Tree.nil,
    natCompare, 3⟩

end BSTree

/-! ## Sequences of calls on the balanced engines -/

/-- The AVL trees that a finite sequence of `Put` and `Remove` calls builds from
the empty tree of `NewWith(cmp)`.  Every `Put` is made on a tree whose nodes fit
in a 64-bit address space. -/
inductive AVLTree.Reachable {K V : Type} (cmp : Comparator K) : AVLTree K V → Prop
  | new : AVLTree.Reachable cmp (AVLTree.NewWith cmp)
  | put {t t1 : AVLTree K V} (key : K) (value : V) :
      AVLTree.Reachable cmp t → t.root.count < 2 ^ 64 → t.Put key value = some t1 →
      AVLTree.Reachable cmp t1
  | remove {t t1 : AVLTree K V} (key : K) :
      AVLTree.Reachable cmp t → t.Remove key = some t1 → AVLTree.Reachable cmp t1

/-- The Red-Black trees that a finite sequence of `Put` and `Remove` calls
builds from the empty tree of `NewWith(cmp)`.  The node that a `Put` allocates
lies at an address `ptr` that no node of the tree occupies. -/
inductive RBTree.Reachable {K V : Type} (cmp : Comparator K) : RBTree K V → Prop
  | new : RBTree.Reachable cmp (RBTree.NewWith cmp)
  | put {t t1 : RBTree K V} (key : K) (value : V) (ptr : Nat) :
      RBTree.Reachable cmp t → ptr ∉ t.root.toList.map RBTree.Node.ptr →
      t.Put key value ptr = some t1 → RBTree.Reachable cmp t1
  | remove {t t1 : RBTree K V} (key : K) :
      RBTree.Reachable cmp t → t.Remove key = some t1 → RBTree.Reachable cmp t1

/-! ## Calls on an iterator -/

namespace BSTree

variable {K V : Type}

/-- The method `ValuePtr`: `some` of the location of the current node (the node
whose `value` field the returned pointer addresses) stands for `(&node.value,
true)` and `none` for `(nil, false)`. -/
def Iterator.ValuePtr (iter : Iterator K V) : Option (Loc (Node K V)) :=
  match iter.node.node with
  | Tree.nil => none
  | Tree.node _ _ _ => some iter.node

/-- The four methods of an iterator that move it. -/
inductive IterCall where
  | Begin : IterCall
  | End : IterCall
  | Next : IterCall
  | Prev : IterCall
  deriving DecidableEq, Repr

/-- One call on an iterator: the iterator afterwards. -/
def Iterator.call (iter : Iterator K V) : IterCall → Iterator K V
  | IterCall.Begin => iter.Begin
  | IterCall.End => iter.End
  | IterCall.Next => iter.Next.1
  | IterCall.Prev => iter.Prev.1

/-- A sequence of calls on an iterator, first call first. -/
def Iterator.run (iter : Iterator K V) : List IterCall → Iterator K V
  | [] => iter
  | c :: cs => Iterator.run (iter.call c) cs

end BSTree

/-! ## The hash-map wrapper (`gomap/gomap.go`) -/

/-- The struct `GoMap`.  The Go map `m` is the list of its entries in the order
in which a `range` over the map visits them; the language leaves that order
open, so every order of the entries is a possible map.  The keys of a map are
distinct. -/
structure GoMap (K V : Type) where
  m : List (K × V)

namespace GoMap

variable {K V : Type}

/-- The function `New`. -/
def New : GoMap K V := ⟨[]⟩

/-- The assignment `m[key] = value` on a Go map. -/
def store [DecidableEq K] (key : K) (value : V) : List (K × V) → List (K × V)
  | [] => [(key, value)]
  | (k, v) :: rest =>
    if k = key then (k, value) :: rest else (k, v) :: store key value rest

/-- The method `Put`. -/
def Put [DecidableEq K] (m : GoMap K V) (key : K) (value : V) : GoMap K V :=
  ⟨store key value m.m⟩

/-- The method `Get`: `some v` stands for `(v, true)` and `none` for
`(zero value, false)`. -/
def Get [DecidableEq K] (m : GoMap K V) (key : K) : Option V :=
  (m.m.find? fun e => decide (e.1 = key)).map Prod.snd

/-- The method `Keys`. -/
def Keys (m : GoMap K V) : List K := m.m.map Prod.fst

/-- The loop of `ForEachMutable` over the entries that `range` has yet to
visit.  The callback `f` gets the key and a pointer to a copy `value` of the
entry's value; its result here is the content of `value` afterwards and the
returned flag.  On `false` the loop breaks before the copy is stored back. -/
def forEachMutableLoop (f : K → V → V × Bool) : List (K × V) → List (K × V)
  | [] => []
  | (key, value) :: rest =>
    if (f key value).2 = false then (key, value) :: rest
    else (key, (f key value).1) :: forEachMutableLoop f rest

/-- The method `ForEachMutable`. -/
def ForEachMutable (m : GoMap K V) (f : K → V → V × Bool) : GoMap K V :=
  ⟨forEachMutableLoop f m.m⟩

end GoMap
/-! ## Insertion sequences -/

section InsertionSequences

variable {K V : Type}

/-- Put the entries of a list into an AVL tree one after another; the result
lists the tree after every insertion. -/
def AVLTree.putEach (tree : AVLTree K V) : List (K × V) → Option (List (AVLTree K V))
  | [] => some []
  | e :: es =>
    (tree.Put e.1 e.2).bind fun t => (AVLTree.putEach t es).map fun ts => t :: ts

/-- Put the entries of a list into a Red-Black tree one after another, each
with the address of the node its call allocates; the result lists the tree
after every insertion. -/
def RBTree.putEach (tree : RBTree K V) : List (K × V × Nat) → Option (List (RBTree K V))
  | [] => some []
  | e :: es =>
    (tree.Put e.1 e.2.1 e.2.2).bind fun t => (RBTree.putEach t es).map fun ts => t :: ts

end InsertionSequences

/-! ## The nodes on a heap

The engines above are embedded with the links of a node as the shape of a tree.
The definitions below embed the same code with the links as fields: a heap maps
an address to a node with its `left`, `right` and `parent` pointers, and every
statement of the Go code that reads or writes a field becomes a read or a write
of the heap.  A read through a nil pointer or through an address that holds no
node, and every `panic`, is `none`.  The loops take a bound on the number of
turns and are `none` when it runs out. -/

namespace Heap

variable {α β K : Type}

/-- A node on the heap: the fields that are no links, and the three links (nil
is `none`). -/
structure Cell (α : Type) where
  data : α
  left : Option Nat
  right : Option Nat
  parent : Option Nat

/-- The heap together with the tree struct: the nodes by address, `tree.root`,
`tree.comparator` and `tree.size`. -/
structure Store (α K : Type) where
  cells : Nat → Option (Cell α)
  root : Option Nat
  comparator : Comparator K
  size : Nat

namespace Store

/-- The heap with the node at address `a` replaced by `c`. -/
def update (s : Store α K) (a : Nat) (c : Cell α) : Store α K :=
  { s with cells := fun b => if b = a then some c else s.cells b }

/-- A write to the node at address `a`; `none` when no node lives there. -/
def modify (s : Store α K) (a : Nat) (f : Cell α → Cell α) : Option (Store α K) :=
  (s.cells a).map fun c => s.update a (f c)

/-- The assignment `a.left = v`. -/
def setLeft (s : Store α K) (a : Nat) (v : Option Nat) : Option (Store α K) :=
  s.modify a fun c => { c with left := v }

/-- The assignment `a.right = v`. -/
def setRight (s : Store α K) (a : Nat) (v : Option Nat) : Option (Store α K) :=
  s.modify a fun c => { c with right := v }

/-- The assignment `a.parent = v`. -/
def setParent (s : Store α K) (a : Nat) (v : Option Nat) : Option (Store α K) :=
  s.modify a fun c => { c with parent := v }

/-- An assignment to fields of `a` that are no links. -/
def setData (s : Store α K) (a : Nat) (f : α → α) : Option (Store α K) :=
  s.modify a fun c => { c with data := f c.data }

/-- The assignment `tree.root = v`. -/
def setRoot (s : Store α K) (v : Option Nat) : Store α K :=
  { s with root := v }

/-- The guarded assignment `if a != nil { a.parent = v }`. -/
def setParentIfPresent (s : Store α K) (a : Option Nat) (v : Option Nat) :
    Option (Store α K) :=
  match a with
  | none => some s
  | some a => s.setParent a v

end Store

/-- The loop of `get` from the pointer `node`: the address of the node whose
key compares equal, or nil. -/
def getLoop (keyOf : α → K) (s : Store α K) (key : K) : Nat → Option Nat → Option (Option Nat)
  | _, none => some none
  | 0, some _ => none
  | fuel + 1, some node =>
    (s.cells node).bind fun n =>
    let compare := s.comparator key (keyOf n.data)
    if compare = 0 then some (some node)
    else if compare < 0 then getLoop keyOf s key fuel n.left
    else getLoop keyOf s key fuel n.right

/-- The loop of `min` from a non-nil `node`: the address of the leftmost node
below it. -/
def minLoop (s : Store α K) : Nat → Nat → Option Nat
  | 0, _ => none
  | fuel + 1, node =>
    (s.cells node).bind fun n =>
    match n.left with
    | none => some node
    | some l => minLoop s fuel l

/-- The function `replace(oldNode, newNode)` of the three engines; the second
component is the old parent of `oldNode`, which the AVL engine returns. -/
def replace (s : Store α K) (oldNode : Nat) (newNode : Option Nat) :
    Option (Store α K × Option Nat) :=
  (s.cells oldNode).bind fun o =>
  match o.parent with
  | none =>
    ((s.setRoot newNode).setParentIfPresent newNode none).bind fun s1 =>
    (s1.setLeft oldNode none).bind fun s2 =>
    (s2.setRight oldNode none).map fun s3 => (s3, none)
  | some parent =>
    (s.cells parent).bind fun p =>
    (if p.left = some oldNode then s.setLeft parent newNode
      else if p.right = some oldNode then s.setRight parent newNode
      else none).bind fun s1 =>
    (s1.setParentIfPresent newNode (some parent)).bind fun s2 =>
    (s2.setParent oldNode none).bind fun s3 =>
    (s3.setLeft oldNode none).bind fun s4 =>
    (s4.setRight oldNode none).map fun s5 => (s5, some parent)

/-- The statements of `rotateLeft` and `rotateRight` that hang `child` where
`node` hung, from `if node.parent == nil` to `child.parent = parent`; `parent`
is `node.parent`. -/
def hang (s : Store α K) (node : Nat) (parent : Option Nat) (child : Nat) :
    Option (Store α K) :=
  match parent with
  | none => (s.setParent child none).map fun s1 => Store.setRoot s1 (some child)
  | some parent =>
    (s.cells parent).bind fun p =>
    (if p.left = some node then s.setLeft parent (some child)
      else if p.right = some node then s.setRight parent (some child)
      else none).bind fun s1 =>
    s1.setParent child (some parent)

/-- The pointer part of `rotateLeft(node)`, which the AVL and the Red-Black
engine share. -/
def rotateLeft (s : Store α K) (node : Nat) : Option (Store α K) :=
  (s.cells node).bind fun n =>
  match n.right with
  | none => none
  | some child =>
    (hang s node n.parent child).bind fun s2 =>
    (s2.setParent node (some child)).bind fun s3 =>
    (s3.cells child).bind fun c =>
    (s3.setRight node c.left).bind fun s4 =>
    (s4.setParentIfPresent c.left (some node)).bind fun s5 =>
    s5.setLeft child (some node)

/-- The pointer part of `rotateRight(node)`. -/
def rotateRight (s : Store α K) (node : Nat) : Option (Store α K) :=
  (s.cells node).bind fun n =>
  match n.left with
  | none => none
  | some child =>
    (hang s node n.parent child).bind fun s2 =>
    (s2.setParent node (some child)).bind fun s3 =>
    (s3.cells child).bind fun c =>
    (s3.setLeft node c.right).bind fun s4 =>
    (s4.setParentIfPresent c.right (some node)).bind fun s5 =>
    s5.setRight child (some node)

/-! ### The tree that a heap holds -/

/-- The address in a pointer to the subtree `t`. -/
def rootAddr (addr : β → Nat) : Tree β → Option Nat
  | Tree.nil => none
  | Tree.node _ x _ => some (addr x)

/-- The address of the nearest ancestor on a path, nil at the root. -/
def pathAddr (addr : β → Nat) : List (Frame β) → Option Nat
  | [] => none
  | f :: _ => some (addr f.data)

/-- The addresses of the nodes of a tree, in order. -/
def addrs (addr : β → Nat) (t : Tree β) : List Nat := t.toList.map addr

/-- The heap holds the subtree `t` below the parent `p`: every node of `t`
lives at its address with its fields, its `left` and `right` point to its
children and its `parent` to the node above it. -/
def Owns (addr : β → Nat) (dat : β → α) (cells : Nat → Option (Cell α)) :
    Tree β → Option Nat → Prop
  | Tree.nil, _ => True
  | Tree.node l x r, p =>
    cells (addr x) = some ⟨dat x, rootAddr addr l, rootAddr addr r, p⟩ ∧
    Owns addr dat cells l (some (addr x)) ∧ Owns addr dat cells r (some (addr x))

/-- The heap holds the ancestors on a path together with their other subtrees,
the nearest ancestor pointing to `c` on the side of the path. -/
def OwnsPath (addr : β → Nat) (dat : β → α) (cells : Nat → Option (Cell α)) :
    List (Frame β) → Option Nat → Prop
  | [], _ => True
  | Frame.left x r :: path, c =>
    cells (addr x) = some ⟨dat x, c, rootAddr addr r, pathAddr addr path⟩ ∧
    Owns addr dat cells r (some (addr x)) ∧ OwnsPath addr dat cells path (some (addr x))
  | Frame.right l x :: path, c =>
    cells (addr x) = some ⟨dat x, rootAddr addr l, c, pathAddr addr path⟩ ∧
    Owns addr dat cells l (some (addr x)) ∧ OwnsPath addr dat cells path (some (addr x))

/-- The heap holds the tree `t` at `tree.root`, its nodes at pairwise distinct
addresses. -/
def Rep (addr : β → Nat) (dat : β → α) (s : Store α K) (t : Tree β) : Prop :=
  Owns addr dat s.cells t none ∧ s.root = rootAddr addr t ∧ (addrs addr t).Nodup

/-- The step from `s` to `s1` leaves alone every node outside the addresses
`live`, the comparator and `tree.size`. -/
def Keeps (live : List Nat) (s s1 : Store α K) : Prop :=
  (∀ b, b ∉ live → s1.cells b = s.cells b) ∧ s1.comparator = s.comparator ∧
  s1.size = s.size

/-- The nodes that the links `left` and `right` reach from `tree.root`. -/
inductive Reaches (s : Store α K) : Nat → Prop
  | root {a : Nat} : s.root = some a → Reaches s a
  | left {a c : Nat} {n : Cell α} : Reaches s a → s.cells a = some n → n.left = some c →
      Reaches s c
  | right {a c : Nat} {n : Cell α} : Reaches s a → s.cells a = some n → n.right = some c →
      Reaches s c

/-- The parent links are consistent: the root has no parent, and the left and
the right child of every node reachable from the root, when present, record
that node as their parent. -/
def ParentsConsistent (s : Store α K) : Prop :=
  (∀ r, s.root = some r → ∃ n, s.cells r = some n ∧ n.parent = none) ∧
  ∀ a n, Reaches s a → s.cells a = some n →
    (∀ c, n.left = some c → ∃ m, s.cells c = some m ∧ m.parent = some a) ∧
    (∀ c, n.right = some c → ∃ m, s.cells c = some m ∧ m.parent = some a)

/-- The three links of the node at address `a` are nil. -/
def Cleared (s : Store α K) (a : Nat) : Prop :=
  ∃ n, s.cells a = some n ∧ n.left = none ∧ n.right = none ∧ n.parent = none

end Heap

/-! ## The three engines on a heap -/

/-! ### `bstree/bstree.go` with the links as fields -/

namespace HeapBST

open Heap

variable {K V : Type}

/-- The `for` loop of `Put` from a non-nil `node`; `ptr` is the address of the
node that the call allocates. -/
def putLoop (key : K) (value : V) (ptr : Nat) :
    Nat → Store (BSTree.Node K V) K → Nat → Option (Store (BSTree.Node K V) K)
  | 0, _, _ => none
  | fuel + 1, s, node =>
    (s.cells node).bind fun n =>
    let compare := s.comparator key n.data.key
    if compare = 0 then
      s.setData node fun d => { d with key := key, value := value }
    else if compare < 0 then
      match n.left with
      | none =>
        ((s.update ptr ⟨⟨key, value⟩, none, none, some node⟩).setLeft node (some ptr)).map
          fun s1 => { s1 with size := incr32 s1.size }
      | some l => putLoop key value ptr fuel s l
    else
      match n.right with
      | none =>
        ((s.update ptr ⟨⟨key, value⟩, none, none, some node⟩).setRight node (some ptr)).map
          fun s1 => { s1 with size := incr32 s1.size }
      | some r => putLoop key value ptr fuel s r

/-- The method `Put`. -/
def Put (fuel : Nat) (s : Store (BSTree.Node K V) K) (key : K) (value : V) (ptr : Nat) :
    Option (Store (BSTree.Node K V) K) :=
  match s.root with
  | none =>
    some { (s.update ptr ⟨⟨key, value⟩, none, none, none⟩).setRoot (some ptr) with
      size := incr32 s.size }
  | some node => putLoop key value ptr fuel s node

/-- The method `Remove`. -/
def Remove (fuel : Nat) (s : Store (BSTree.Node K V) K) (key : K) :
    Option (Store (BSTree.Node K V) K) :=
  (Heap.getLoop BSTree.Node.key s key fuel s.root).bind fun found =>
  match found with
  | none => some s
  | some node =>
    (s.cells node).bind fun n =>
    (match n.left, n.right with
      | some _, some r =>
        (Heap.minLoop s fuel r).bind fun next =>
        (s.cells next).bind fun nx =>
        (s.setData node fun d => { d with key := nx.data.key, value := nx.data.value }).bind
          fun s1 =>
        (s1.cells next).bind fun nx1 => Heap.replace s1 next nx1.right
      | none, none => Heap.replace s node none
      | some l, none => Heap.replace s node (some l)
      | none, some r => Heap.replace s node (some r)).map
      fun (res : Store (BSTree.Node K V) K × Option Nat) =>
    { res.1 with size := decr32 res.1.size }

/-- The address of a node of the tree that a heap holds: the model of the
engine has no field for it, so the address travels with the value. -/
def addr (x : BSTree.Node K (Nat × V)) : Nat := x.value.1

/-- The fields of a node of the tree that a heap holds. -/
def dat (x : BSTree.Node K (Nat × V)) : BSTree.Node K V := ⟨x.key, x.value.2⟩

end HeapBST

/-! ### `avltree/avltree.go` with the links as fields -/

namespace HeapAVL

open Heap

variable {K V : Type}

/-- The method `getHeight`. -/
def getHeight (s : Store (AVLTree.Node K V) K) : Option Nat → Option Nat
  | none => some 0
  | some a => (s.cells a).map fun c => c.data.height

/-- The method `getBalance`. -/
def getBalance (s : Store (AVLTree.Node K V) K) (node : Option Nat) : Option Int :=
  match node with
  | none => none
  | some a =>
    (s.cells a).bind fun n =>
    (getHeight s n.left).bind fun hl =>
    (getHeight s n.right).map fun hr => toInt8 (sub32 hl hr)

/-- The method `calcHeight`. -/
def calcHeight (s : Store (AVLTree.Node K V) K) (node : Option Nat) :
    Option (Store (AVLTree.Node K V) K) :=
  match node with
  | none => none
  | some a =>
    (s.cells a).bind fun n =>
    (getHeight s n.left).bind fun hl =>
    (getHeight s n.right).bind fun hr =>
    s.setData a fun d => { d with height := incr32 (Max.max hl hr) }

/-- The method `rotateLeft`; the second component is the returned `child`. -/
def rotateLeft (s : Store (AVLTree.Node K V) K) (node : Nat) :
    Option (Store (AVLTree.Node K V) K × Nat) :=
  (s.cells node).bind fun n =>
  match n.right with
  | none => none
  | some child =>
    (Heap.rotateLeft s node).bind fun s1 =>
    (calcHeight s1 (some node)).bind fun s2 =>
    (s2.cells node).bind fun n2 =>
    (calcHeight s2 n2.parent).map fun s3 => (s3, child)

/-- The method `rotateRight`; the second component is the returned `child`. -/
def rotateRight (s : Store (AVLTree.Node K V) K) (node : Nat) :
    Option (Store (AVLTree.Node K V) K × Nat) :=
  (s.cells node).bind fun n =>
  match n.left with
  | none => none
  | some child =>
    (Heap.rotateRight s node).bind fun s1 =>
    (calcHeight s1 (some node)).bind fun s2 =>
    (s2.cells node).bind fun n2 =>
    (calcHeight s2 n2.parent).map fun s3 => (s3, child)

/-- The test `node.left == nil || node.left.left == nil` and its three
siblings: whether the child of `node` on the first side and that child's child
on the second side are both present. -/
def hasGrandchild (s : Store (AVLTree.Node K V) K) (child : Option Nat)
    (side : Cell (AVLTree.Node K V) → Option Nat) : Option Bool :=
  match child with
  | none => some false
  | some c => (s.cells c).map fun cc => (side cc).isSome

/-- One turn of the loop of `putFix`, up to the assignment `node = node.parent`;
the second component is `node` after the turn. -/
def putFixStep (s : Store (AVLTree.Node K V) K) (node : Nat) :
    Option (Store (AVLTree.Node K V) K × Nat) :=
  (getBalance s (some node)).bind fun b =>
  (s.cells node).bind fun n =>
  if b > 1 then
    (getBalance s n.left).bind fun b =>
    if b > 0 then
      (hasGrandchild s n.left Cell.left).bind fun ok =>
      if ok = false then none else rotateRight s node
    else if b < 0 then
      (hasGrandchild s n.left Cell.right).bind fun ok =>
      if ok = false then none
      else
        match n.left with
        | none => none
        | some l => (rotateLeft s l).bind fun r1 => rotateRight r1.1 node
    else none
  else if b < -1 then
    (getBalance s n.right).bind fun b =>
    if b > 0 then
      (hasGrandchild s n.right Cell.left).bind fun ok =>
      if ok = false then none
      else
        match n.right with
        | none => none
        | some r => (rotateRight s r).bind fun r1 => rotateLeft r1.1 node
    else if b < 0 then
      (hasGrandchild s n.right Cell.right).bind fun ok =>
      if ok = false then none else rotateLeft s node
    else none
  else (calcHeight s (some node)).map fun s1 => (s1, node)

/-- The method `putFix`. -/
def putFix : Nat → Store (AVLTree.Node K V) K → Option Nat →
    Option (Store (AVLTree.Node K V) K)
  | _, s, none => some s
  | 0, _, some _ => none
  | fuel + 1, s, some node =>
    (putFixStep s node).bind fun r =>
    (r.1.cells r.2).bind fun n1 => putFix fuel r.1 n1.parent

/-- One turn of the loop of `removeFix`. -/
def removeFixStep (s : Store (AVLTree.Node K V) K) (node : Nat) :
    Option (Store (AVLTree.Node K V) K × Nat) :=
  (getBalance s (some node)).bind fun b =>
  (s.cells node).bind fun n =>
  if b > 1 then
    (getBalance s n.left).bind fun b =>
    if b ≥ 0 then
      (hasGrandchild s n.left Cell.left).bind fun ok =>
      if ok = false then none else rotateRight s node
    else
      (hasGrandchild s n.left Cell.right).bind fun ok =>
      if ok = false then none
      else
        match n.left with
        | none => none
        | some l => (rotateLeft s l).bind fun r1 => rotateRight r1.1 node
  else if b < -1 then
    (getBalance s n.right).bind fun b =>
    if b > 0 then
      (hasGrandchild s n.right Cell.left).bind fun ok =>
      if ok = false then none
      else
        match n.right with
        | none => none
        | some r => (rotateRight s r).bind fun r1 => rotateLeft r1.1 node
    else
      (hasGrandchild s n.right Cell.right).bind fun ok =>
      if ok = false then none else rotateLeft s node
  else (calcHeight s (some node)).map fun s1 => (s1, node)

/-- The method `removeFix`. -/
def removeFix : Nat → Store (AVLTree.Node K V) K → Option Nat →
    Option (Store (AVLTree.Node K V) K)
  | _, s, none => some s
  | 0, _, some _ => none
  | fuel + 1, s, some node =>
    (removeFixStep s node).bind fun r =>
    (r.1.cells r.2).bind fun n1 => removeFix fuel r.1 n1.parent

/-- The `for` loop of `Put` from a non-nil `node`; `ptr` is the address of the
node that the call allocates. -/
def putLoop (key : K) (value : V) (ptr : Nat) :
    Nat → Store (AVLTree.Node K V) K → Nat → Option (Store (AVLTree.Node K V) K)
  | 0, _, _ => none
  | fuel + 1, s, node =>
    (s.cells node).bind fun n =>
    let compare := s.comparator key n.data.key
    if compare = 0 then
      s.setData node fun d => { d with key := key, value := value }
    else if compare < 0 then
      match n.left with
      | none =>
        ((s.update ptr ⟨⟨key, value, 1⟩, none, none, some node⟩).setLeft node (some ptr)).bind
          fun s1 => putFix (fuel + 1) { s1 with size := incr32 s1.size } (some node)
      | some l => putLoop key value ptr fuel s l
    else
      match n.right with
      | none =>
        ((s.update ptr ⟨⟨key, value, 1⟩, none, none, some node⟩).setRight node (some ptr)).bind
          fun s1 => putFix (fuel + 1) { s1 with size := incr32 s1.size } (some node)
      | some r => putLoop key value ptr fuel s r

/-- The method `Put`. -/
def Put (fuel : Nat) (s : Store (AVLTree.Node K V) K) (key : K) (value : V) (ptr : Nat) :
    Option (Store (AVLTree.Node K V) K) :=
  match s.root with
  | none =>
    some { (s.update ptr ⟨⟨key, value, 1⟩, none, none, none⟩).setRoot (some ptr) with
      size := incr32 s.size }
  | some node => putLoop key value ptr fuel s node

/-- The method `Remove`. -/
def Remove (fuel : Nat) (s : Store (AVLTree.Node K V) K) (key : K) :
    Option (Store (AVLTree.Node K V) K) :=
  (Heap.getLoop AVLTree.Node.key s key fuel s.root).bind fun found =>
  match found with
  | none => some s
  | some node =>
    (s.cells node).bind fun n =>
    (match n.left, n.right with
      | some _, some r =>
        (Heap.minLoop s fuel r).bind fun next =>
        (s.cells next).bind fun nx =>
        (s.setData node fun d => { d with key := nx.data.key, value := nx.data.value }).bind
          fun s1 =>
        (s1.cells next).bind fun nx1 => Heap.replace s1 next nx1.right
      | none, none => Heap.replace s node none
      | some l, none => Heap.replace s node (some l)
      | none, some r => Heap.replace s node (some r)).bind fun res =>
    (removeFix fuel res.1 res.2).map
      fun (s2 : Store (AVLTree.Node K V) K) => { s2 with size := decr32 s2.size }

/-- The address of a node of the tree that a heap holds: the model of the
engine has no field for it, so the address travels with the value. -/
def addr (x : AVLTree.Node K (Nat × V)) : Nat := x.value.1

/-- The fields of a node of the tree that a heap holds. -/
def dat (x : AVLTree.Node K (Nat × V)) : AVLTree.Node K V := ⟨x.key, x.value.2, x.height⟩

end HeapAVL

/-! ### `rbtree/rbtree.go` with the links as fields -/

namespace HeapRB

open Heap

variable {K V : Type}

/-- The method `getColor`. -/
def getColor (s : Store (RBTree.Node K V) K) : Option Nat → Option Color
  | none => some Color.black
  | some a => (s.cells a).map fun c => c.data.color

/-- The assignment `node.color = c`. -/
def setColor (s : Store (RBTree.Node K V) K) (node : Option Nat) (c : Color) :
    Option (Store (RBTree.Node K V) K) :=
  match node with
  | none => none
  | some a => s.setData a fun d => { d with color := c }

/-- The guarded assignment `if node != nil { node.color = c }`. -/
def setColorIfPresent (s : Store (RBTree.Node K V) K) (node : Option Nat) (c : Color) :
    Option (Store (RBTree.Node K V) K) :=
  match node with
  | none => some s
  | some a => s.setData a fun d => { d with color := c }

/-- The method `putFix`. -/
def putFix : Nat → Store (RBTree.Node K V) K → Nat → Option (Store (RBTree.Node K V) K)
  | 0, _, _ => none
  | fuel + 1, s, node =>
    (s.cells node).bind fun n =>
    match n.parent with
    | none => setColor s (some node) Color.black
    | some parent =>
      (getColor s (some parent)).bind fun pc =>
      if pc = Color.black then some s
      else
        (s.cells parent).bind fun p =>
        match p.parent with
        | none => none
        | some grandparent =>
          (s.cells grandparent).bind fun g =>
          if g.left = some parent then
            (getColor s g.right).bind fun uc =>
            if uc = Color.red then
              (setColor s (some parent) Color.black).bind fun s1 =>
              (setColor s1 (some grandparent) Color.red).bind fun s2 =>
              (setColorIfPresent s2 g.right Color.black).bind fun s3 =>
              putFix fuel s3 grandparent
            else
              (if some node = p.right then
                  (rotateLeft s parent).map fun s1 => (s1, node)
                else some (s, parent)).bind fun r =>
              (setColor r.1 (some r.2) Color.black).bind fun s2 =>
              (setColor s2 (some grandparent) Color.red).bind fun s3 =>
              rotateRight s3 grandparent
          else if g.right = some parent then
            (getColor s g.left).bind fun uc =>
            if uc = Color.red then
              (setColor s (some parent) Color.black).bind fun s1 =>
              (setColor s1 (some grandparent) Color.red).bind fun s2 =>
              (setColorIfPresent s2 g.left Color.black).bind fun s3 =>
              putFix fuel s3 grandparent
            else
              (if some node = p.left then
                  (rotateRight s parent).map fun s1 => (s1, node)
                else some (s, parent)).bind fun r =>
              (setColor r.1 (some r.2) Color.black).bind fun s2 =>
              (setColor s2 (some grandparent) Color.red).bind fun s3 =>
              rotateLeft s3 grandparent
          else none

/-- The method `removeFix`. -/
def removeFix : Nat → Store (RBTree.Node K V) K → Nat → Option (Store (RBTree.Node K V) K)
  | 0, _, _ => none
  | fuel + 1, s, node =>
    (getColor s (some node)).bind fun nc =>
    if nc = Color.red then some s
    else
      (s.cells node).bind fun n =>
      match n.parent with
      | none => some s
      | some parent =>
        (s.cells parent).bind fun p =>
        if p.left = some node then
          match p.right with
          | none => none
          | some sibling =>
            (getColor s (some sibling)).bind fun sc =>
            if sc = Color.red then
              (setColor s (some parent) Color.red).bind fun s1 =>
              (setColor s1 (some sibling) Color.black).bind fun s2 =>
              (rotateLeft s2 parent).bind fun s3 =>
              removeFix fuel s3 node
            else
              (s.cells sibling).bind fun sb =>
              (getColor s sb.left).bind fun ic =>
              (getColor s sb.right).bind fun oc =>
              if ic = Color.black ∧ oc = Color.black then
                (setColor s (some sibling) Color.red).bind fun s1 =>
                (getColor s1 (some parent)).bind fun pc =>
                if pc = Color.red then setColor s1 (some parent) Color.black
                else removeFix fuel s1 parent
              else
                (if oc = Color.black then
                    (setColor s sb.left Color.black).bind fun s1 =>
                    (setColor s1 (some sibling) Color.red).bind fun s2 =>
                    (rotateRight s2 sibling).map fun s3 => (s3, sb.left, some sibling)
                  else some (s, some sibling, sb.right)).bind fun r =>
                (getColor r.1 (some parent)).bind fun pc =>
                (setColor r.1 r.2.1 pc).bind fun s4 =>
                (setColor s4 (some parent) Color.black).bind fun s5 =>
                (setColor s5 r.2.2 Color.black).bind fun s6 =>
                rotateLeft s6 parent
        else if p.right = some node then
          match p.left with
          | none => none
          | some sibling =>
            (getColor s (some sibling)).bind fun sc =>
            if sc = Color.red then
              (setColor s (some parent) Color.red).bind fun s1 =>
              (setColor s1 (some sibling) Color.black).bind fun s2 =>
              (rotateRight s2 parent).bind fun s3 =>
              removeFix fuel s3 node
            else
              (s.cells sibling).bind fun sb =>
              (getColor s sb.right).bind fun ic =>
              (getColor s sb.left).bind fun oc =>
              if ic = Color.black ∧ oc = Color.black then
                (setColor s (some sibling) Color.red).bind fun s1 =>
                (getColor s1 (some parent)).bind fun pc =>
                if pc = Color.red then setColor s1 (some parent) Color.black
                else removeFix fuel s1 parent
              else
                (if oc = Color.black then
                    (setColor s sb.right Color.black).bind fun s1 =>
                    (setColor s1 (some sibling) Color.red).bind fun s2 =>
                    (rotateLeft s2 sibling).map fun s3 => (s3, sb.right, some sibling)
                  else some (s, some sibling, sb.left)).bind fun r =>
                (getColor r.1 (some parent)).bind fun pc =>
                (setColor r.1 r.2.1 pc).bind fun s4 =>
                (setColor s4 (some parent) Color.black).bind fun s5 =>
                (setColor s5 r.2.2 Color.black).bind fun s6 =>
                rotateRight s6 parent
        else none

/-- The `for` loop of `Put` from a non-nil `node`; `ptr` is the address of the
node that the call allocates. -/
def putLoop (key : K) (value : V) (ptr : Nat) :
    Nat → Store (RBTree.Node K V) K → Nat → Option (Store (RBTree.Node K V) K)
  | 0, _, _ => none
  | fuel + 1, s, node =>
    (s.cells node).bind fun n =>
    let compare := s.comparator key n.data.key
    if compare = 0 then
      s.setData node fun d => { d with key := key, value := value }
    else if compare < 0 then
      match n.left with
      | none =>
        ((s.update ptr ⟨⟨key, value, Color.red, ptr⟩, none, none, some node⟩).setLeft node
          (some ptr)).bind fun s1 =>
        (s1.cells node).bind fun n1 =>
        (match n1.left with
          | none => none
          | some leaf => putFix (fuel + 1) s1 leaf).map
          fun (s2 : Store (RBTree.Node K V) K) => { s2 with size := incr32 s2.size }
      | some l => putLoop key value ptr fuel s l
    else
      match n.right with
      | none =>
        ((s.update ptr ⟨⟨key, value, Color.red, ptr⟩, none, none, some node⟩).setRight node
          (some ptr)).bind fun s1 =>
        (s1.cells node).bind fun n1 =>
        (match n1.right with
          | none => none
          | some leaf => putFix (fuel + 1) s1 leaf).map
          fun (s2 : Store (RBTree.Node K V) K) => { s2 with size := incr32 s2.size }
      | some r => putLoop key value ptr fuel s r

/-- The method `Put`. -/
def Put (fuel : Nat) (s : Store (RBTree.Node K V) K) (key : K) (value : V) (ptr : Nat) :
    Option (Store (RBTree.Node K V) K) :=
  match s.root with
  | none =>
    some { (s.update ptr ⟨⟨key, value, Color.black, ptr⟩, none, none, none⟩).setRoot
        (some ptr) with
      size := incr32 s.size }
  | some node => putLoop key value ptr fuel s node

/-- The method `Remove`. -/
def Remove (fuel : Nat) (s : Store (RBTree.Node K V) K) (key : K) :
    Option (Store (RBTree.Node K V) K) :=
  (Heap.getLoop RBTree.Node.key s key fuel s.root).bind fun found =>
  match found with
  | none => some s
  | some node =>
    (s.cells node).bind fun n =>
    (match n.left, n.right with
      | some _, some r =>
        (Heap.minLoop s fuel r).bind fun next =>
        (removeFix fuel s next).bind fun s1 =>
        (s1.cells next).bind fun nx =>
        (s1.setData node fun d => { d with key := nx.data.key, value := nx.data.value }).bind
          fun s2 =>
        (s2.cells next).bind fun nx1 => Heap.replace s2 next nx1.right
      | none, none =>
        (removeFix fuel s node).bind fun s1 => Heap.replace s1 node none
      | some _, none =>
        (removeFix fuel s node).bind fun s1 =>
        (s1.cells node).bind fun n1 => Heap.replace s1 node n1.left
      | none, some _ =>
        (removeFix fuel s node).bind fun s1 =>
        (s1.cells node).bind fun n1 => Heap.replace s1 node n1.right).bind fun res =>
    (setColorIfPresent res.1 res.1.root Color.black).map
      fun (s3 : Store (RBTree.Node K V) K) => { s3 with size := decr32 s3.size }

end HeapRB

namespace Heap

variable {α β K : Type}

/-- The heap holds the subtree `t` through the links `left` and `right`: every
node of `t` lives at its address with its fields, and its `left` and `right`
point to its children.  Nothing is said about the link `parent`. -/
def Links (addr : β → Nat) (dat : β → α) (cells : Nat → Option (Cell α)) : Tree β → Prop
  | Tree.nil => True
  | Tree.node l x r =>
    (∃ p, cells (addr x) = some ⟨dat x, rootAddr addr l, rootAddr addr r, p⟩) ∧
    Links addr dat cells l ∧ Links addr dat cells r

/-- The heap holds the tree `t` at `tree.root` through the links `left` and
`right`, its nodes at pairwise distinct addresses. -/
def Holds (addr : β → Nat) (dat : β → α) (s : Store α K) (t : Tree β) : Prop :=
  Links addr dat s.cells t ∧ s.root = rootAddr addr t ∧ (addrs addr t).Nodup

end Heap

namespace HeapBST

open Heap

/-- The function `New` for integer keys: no node, `tree.root` nil. -/
def New {V : Type} : Store (BSTree.Node Int V) Int := ⟨fun _ => none, none, intCompare, 0⟩

/-- The tree of `BSTree.sample` with its nodes at the addresses 101, 102 and
103. -/
def sampleTree : Tree (BSTree.Node Nat (Nat × Nat)) :=
  Tree.node (Tree.node Tree.nil ⟨1, (101, 10)⟩ Tree.nil) ⟨2, (102, 20)⟩
    (Tree.node Tree.nil ⟨3, (103, 30)⟩ Tree.nil)

/-- A heap with the three nodes of `sampleTree`. -/
def sample : Store (BSTree.Node Nat Nat) Nat :=
  { cells := fun a =>
      if a = 101 then some ⟨⟨1, 10⟩, none, none, some 102⟩
      else if a = 102 then some ⟨⟨2, 20⟩, some 101, some 103, none⟩
      else if a = 103 then some ⟨⟨3, 30⟩, none, none, some 102⟩
      else none
    root := some 102
    comparator := natCompare
    size := 3 }

end HeapBST

namespace HeapAVL

open Heap

/-- The function `New` for integer keys: no node, `tree.root` nil. -/
def New {V : Type} : Store (AVLTree.Node Int V) Int := ⟨fun _ => none, none, intCompare, 0⟩

/-- The tree of `AVLTree.sample` with its nodes at the addresses 101, 102 and
103. -/
def sampleTree : Tree (AVLTree.Node Nat (Nat × Nat)) :=
  Tree.node (Tree.node Tree.nil ⟨1, (101, 10), 1⟩ Tree.nil) ⟨2, (102, 20), 2⟩
    (Tree.node Tree.nil ⟨3, (103, 30), 1⟩ Tree.nil)

/-- A heap with the three nodes of `sampleTree`. -/
def sample : Store (AVLTree.Node Nat Nat) Nat :=
  { cells := fun a =>
      if a = 101 then some ⟨⟨1, 10, 1⟩, none, none, some 102⟩
      else if a = 102 then some ⟨⟨2, 20, 2⟩, some 101, some 103, none⟩
      else if a = 103 then some ⟨⟨3, 30, 1⟩, none, none, some 102⟩
      else none
    root := some 102
    comparator := natCompare
    size := 3 }

end HeapAVL

namespace HeapRB

open Heap

/-- The function `New` for integer keys: no node, `tree.root` nil. -/
def New {V : Type} : Store (RBTree.Node Int V) Int := ⟨fun _ => none, none, intCompare, 0⟩

/-- A heap with the three nodes of `RBTree.sample`, at the addresses 101, 102
and 103 that the nodes carry. -/
def sample : Store (RBTree.Node Nat Nat) Nat :=
  { cells := fun a =>
      if a = 101 then some ⟨⟨1, 10, Color.red, 101⟩, none, none, some 102⟩
      else if a = 102 then some ⟨⟨2, 20, Color.black, 102⟩, some 101, some 103, none⟩
      else if a = 103 then some ⟨⟨3, 30, Color.red, 103⟩, none, none, some 102⟩
      else none
    root := some 102
    comparator := natCompare
    size := 3 }

end HeapRB

/-! ## Comparators -/

section Order

variable {K : Type} {cmp : Comparator K}

theorem TotalOrder.eq_symm (h : TotalOrder cmp) {a b : K} (hab : cmp a b = 0) :
    cmp b a = 0 := by
  have h1 := h.swap a b
  have h2 := h.swap b a
  omega

theorem TotalOrder.lt_trans (h : TotalOrder cmp) {a b c : K} (hab : cmp a b < 0)
    (hbc : cmp b c < 0) : cmp a c < 0 := by
  have h1 := h.trans a b c (by omega) (by omega)
  rcases lt_or_eq_of_le h1 with h2 | h2
  · exact h2
  · have h3 := h.eq_symm h2
    have h4 := h.trans c a b (by omega) (by omega)
    have h5 := h.swap b c
    omega

theorem TotalOrder.lt_of_lt_of_eq (h : TotalOrder cmp) {a b c : K} (hab : cmp a b < 0)
    (hbc : cmp b c = 0) : cmp a c < 0 := by
  have h1 := h.trans a b c (by omega) (by omega)
  rcases lt_or_eq_of_le h1 with h2 | h2
  · exact h2
  · have h3 := h.eq_symm h2
    have h4 := h.trans b c a (by omega) (by omega)
    have h5 := h.swap a b
    omega

theorem TotalOrder.lt_of_eq_of_lt (h : TotalOrder cmp) {a b c : K} (hab : cmp a b = 0)
    (hbc : cmp b c < 0) : cmp a c < 0 := by
  have h1 := h.trans a b c (by omega) (by omega)
  rcases lt_or_eq_of_le h1 with h2 | h2
  · exact h2
  · have h3 := h.eq_symm h2
    have h4 := h.trans c a b (by omega) (by omega)
    have h5 := h.swap b c
    omega

theorem TotalOrder.not_lt_self (h : TotalOrder cmp) (a : K) : ¬ cmp a a < 0 := by
  have h1 := h.swap a a
  omega

theorem intCompare_totalOrder : TotalOrder intCompare := by
  constructor
  · intro a b
    unfold intCompare
    split_ifs <;> omega
  · intro a b c
    unfold intCompare
    split_ifs <;> omega

theorem natCompare_totalOrder : TotalOrder natCompare := by
  constructor
  · intro a b
    unfold natCompare
    split_ifs <;> omega
  · intro a b c
    unfold natCompare
    split_ifs <;> omega

end Order

/-! ## Machine integers -/

theorem incr32_lt (x : Nat) : incr32 x < uint32Size := by
  unfold incr32 uint32Size; omega

theorem decr32_lt (x : Nat) : decr32 x < uint32Size := by
  unfold decr32 uint32Size; omega

theorem incr32_eq {x : Nat} (h : x + 1 < uint32Size) : incr32 x = x + 1 := by
  unfold incr32; unfold uint32Size at h; omega

theorem decr32_eq {x : Nat} (h : x < uint32Size) (h1 : 0 < x) : decr32 x + 1 = x := by
  unfold decr32; unfold uint32Size at h; omega

/-! ## Trees and locations -/

section Lists

variable {α : Type}

@[simp] theorem toList_nil : (Tree.nil : Tree α).toList = [] := rfl

@[simp] theorem toList_node (l : Tree α) (x : α) (r : Tree α) :
    (Tree.node l x r).toList = l.toList ++ x :: r.toList := rfl

theorem count_eq_length (t : Tree α) : t.count = t.toList.length := by
  induction t with
  | nil => rfl
  | node l x r ihl ihr => simp [Tree.count, ihl, ihr]; omega

theorem toList_zip (t : Tree α) (path : List (Frame α)) :
    (zip t path).toList = pathBefore path ++ (t.toList ++ pathAfter path) := by
  induction path generalizing t with
  | nil => simp [zip, pathBefore, pathAfter]
  | cons f fs ih =>
    cases f <;> simp [zip, Frame.plug, pathBefore, pathAfter, ih]

theorem pathBefore_append (p q : List (Frame α)) :
    pathBefore (p ++ q) = pathBefore q ++ pathBefore p := by
  induction p with
  | nil => simp [pathBefore]
  | cons f fs ih => cases f <;> simp [pathBefore, ih]

theorem pathAfter_append (p q : List (Frame α)) :
    pathAfter (p ++ q) = pathAfter p ++ pathAfter q := by
  induction p with
  | nil => simp [pathAfter]
  | cons f fs ih => cases f <;> simp [pathAfter, ih]

theorem zip_append (t : Tree α) (p q : List (Frame α)) :
    zip t (p ++ q) = zip (zip t p) q := by
  induction p generalizing t with
  | nil => rfl
  | cons f fs ih => simp [zip, ih]

@[simp] theorem isNil_nil : (Tree.nil : Tree α).isNil = true := rfl

@[simp] theorem isNil_node (l : Tree α) (x : α) (r : Tree α) :
    (Tree.node l x r).isNil = false := rfl

@[simp] theorem left_node (l : Tree α) (x : α) (r : Tree α) : (Tree.node l x r).left = l := rfl

@[simp] theorem right_node (l : Tree α) (x : α) (r : Tree α) : (Tree.node l x r).right = r := rfl

theorem isNil_eq_true {t : Tree α} : t.isNil = true ↔ t = Tree.nil := by
  cases t <;> simp [Tree.isNil]

theorem isNil_eq_false {t : Tree α} : t.isNil = false ↔ ∃ l x r, t = Tree.node l x r := by
  cases t <;> simp [Tree.isNil]

end Lists

/-! ## Ordering of the in-order sequence -/

section Sorted

variable {α K : Type} {cmp : Comparator K} {keyOf : α → K}

/-- The in-order sequence of nodes has strictly increasing keys. -/
theorem strictlyIncreasing_keysOf (t : Tree α) :
    StrictlyIncreasing cmp (keysOf keyOf t) ↔
      t.toList.Pairwise (fun a b => cmp (keyOf a) (keyOf b) < 0) := by
  unfold StrictlyIncreasing keysOf
  rw [List.pairwise_map]

theorem isBST_iff_sorted (h : TotalOrder cmp) (t : Tree α) :
    IsBST cmp keyOf t ↔ t.toList.Pairwise (fun a b => cmp (keyOf a) (keyOf b) < 0) := by
  induction t with
  | nil => simp [IsBST]
  | node l x r ihl ihr =>
    simp only [IsBST, toList_node, List.pairwise_append, List.pairwise_cons, ihl, ihr,
      List.mem_cons]
    constructor
    · rintro ⟨h1, h2, h3, h4⟩
      refine ⟨h3, ⟨fun y hy => (h.swap _ _).2 (h2 y hy), h4⟩, ?_⟩
      intro a ha b hb
      rcases hb with rfl | hb
      · exact h1 a ha
      · exact h.lt_trans (h1 a ha) ((h.swap _ _).2 (h2 b hb))
    · rintro ⟨h1, ⟨h2, h3⟩, h4⟩
      exact ⟨fun y hy => h4 y hy x (Or.inl rfl), fun y hy => (h.swap _ _).1 (h2 y hy), h1, h3⟩

theorem isBST_iff_increasing (h : TotalOrder cmp) (t : Tree α) :
    IsBST cmp keyOf t ↔ StrictlyIncreasing cmp (keysOf keyOf t) := by
  rw [isBST_iff_sorted h, strictlyIncreasing_keysOf]

end Sorted

/-! ## Sorted key sequences -/

section KeyLists

variable {K : Type} {cmp : Comparator K}

theorem increasing_insert (_h : TotalOrder cmp) {B A : List K} {k : K}
    (hs : StrictlyIncreasing cmp (B ++ A))
    (hb : ∀ a ∈ B, cmp a k < 0) (ha : ∀ b ∈ A, cmp k b < 0) :
    StrictlyIncreasing cmp (B ++ k :: A) := by
  unfold StrictlyIncreasing at *
  rw [List.pairwise_append] at hs ⊢
  refine ⟨hs.1, List.pairwise_cons.2 ⟨ha, hs.2.1⟩, ?_⟩
  intro a haB b hbA
  rcases List.mem_cons.1 hbA with rfl | hbA
  · exact hb a haB
  · exact hs.2.2 a haB b hbA

theorem increasing_update (h : TotalOrder cmp) {B A : List K} {k x : K}
    (hs : StrictlyIncreasing cmp (B ++ x :: A)) (hk : cmp k x = 0) :
    StrictlyIncreasing cmp (B ++ k :: A) := by
  unfold StrictlyIncreasing at *
  rw [List.pairwise_append, List.pairwise_cons] at hs ⊢
  refine ⟨hs.1, ⟨fun b hb => h.lt_of_eq_of_lt hk (hs.2.1.1 b hb), hs.2.1.2⟩, ?_⟩
  intro a haB b hbA
  rcases List.mem_cons.1 hbA with rfl | hbA
  · exact h.lt_of_lt_of_eq (hs.2.2 a haB x (List.mem_cons_self _ _)) (h.eq_symm hk)
  · exact hs.2.2 a haB b (List.mem_cons_of_mem _ hbA)

theorem increasing_erase {B A : List K} {x : K}
    (hs : StrictlyIncreasing cmp (B ++ x :: A)) : StrictlyIncreasing cmp (B ++ A) := by
  unfold StrictlyIncreasing at *
  exact hs.sublist (List.Sublist.append_left (List.sublist_cons_self x A) B)

/-- In a strictly increasing sequence only one position can compare equal to a
given key. -/
theorem increasing_others_ne (h : TotalOrder cmp) {B A : List K} {k x : K}
    (hs : StrictlyIncreasing cmp (B ++ x :: A)) (hk : cmp k x = 0) :
    ∀ y ∈ B ++ A, cmp k y ≠ 0 := by
  unfold StrictlyIncreasing at hs
  rw [List.pairwise_append, List.pairwise_cons] at hs
  intro y hy hky
  rcases List.mem_append.1 hy with hy | hy
  · have h1 := hs.2.2 y hy x (List.mem_cons_self _ _)
    have h2 := h.lt_of_lt_of_eq h1 (h.eq_symm hk)
    have h3 := h.swap y k
    omega
  · have h1 := hs.2.1.1 y hy
    have h2 := h.lt_of_eq_of_lt hk h1
    omega

end KeyLists

/-! ## The descent of `get` -/

section Search

variable {α K : Type} {cmp : Comparator K} {keyOf : α → K}

theorem getLoop_zip (k : K) (t : Tree α) (path : List (Frame α)) :
    zip (getLoop cmp keyOf k t path).node (getLoop cmp keyOf k t path).path = zip t path := by
  induction t generalizing path with
  | nil => rfl
  | node l x r ihl ihr =>
    unfold getLoop
    simp only
    split_ifs
    · rfl
    · rw [ihl]; rfl
    · rw [ihr]; rfl

theorem getLoop_key (k : K) (t : Tree α) (path : List (Frame α)) {l : Tree α} {x : α}
    {r : Tree α} (hn : (getLoop cmp keyOf k t path).node = Tree.node l x r) :
    cmp k (keyOf x) = 0 := by
  induction t generalizing path with
  | nil => simp [getLoop] at hn
  | node tl tx tr ihl ihr =>
    unfold getLoop at hn
    simp only at hn
    split_ifs at hn with h1 h2
    · simp only [Tree.node.injEq] at hn
      rw [← hn.2.1]; exact h1
    · exact ihl _ hn
    · exact ihr _ hn

theorem pairwise_around {R : α → α → Prop} {B L : List α} {x : α} {Rr A : List α}
    (hs : (B ++ ((L ++ x :: Rr) ++ A)).Pairwise R) :
    (∀ a ∈ L, R a x) ∧ (∀ b ∈ Rr, R x b) := by
  have h1 := (List.pairwise_append.1 hs).2.1
  have h2 := (List.pairwise_append.1 h1).1
  have h3 := List.pairwise_append.1 h2
  exact ⟨fun a ha => h3.2.2 a ha x (List.mem_cons_self _ _),
    fun b hb => (List.pairwise_cons.1 h3.2.1).1 b hb⟩

theorem getLoop_bounds (h : TotalOrder cmp) (k : K) (t : Tree α) (path : List (Frame α))
    (hs : (zip t path).toList.Pairwise (fun a b => cmp (keyOf a) (keyOf b) < 0))
    (hb : ∀ a ∈ pathBefore path, cmp (keyOf a) k < 0)
    (ha : ∀ b ∈ pathAfter path, cmp k (keyOf b) < 0) :
    (∀ a ∈ pathBefore (getLoop cmp keyOf k t path).path, cmp (keyOf a) k < 0) ∧
    (∀ b ∈ pathAfter (getLoop cmp keyOf k t path).path, cmp k (keyOf b) < 0) := by
  induction t generalizing path with
  | nil => exact ⟨hb, ha⟩
  | node l x r ihl ihr =>
    have hx := hs
    rw [toList_zip, toList_node] at hx
    have hx := pairwise_around hx
    unfold getLoop
    simp only
    split_ifs with h1 h2
    · exact ⟨hb, ha⟩
    · apply ihl
      · exact hs
      · simpa [pathBefore] using hb
      · intro b hb'
        simp only [pathAfter, List.cons_append, List.mem_cons, List.mem_append] at hb'
        rcases hb' with rfl | hb' | hb'
        · exact h2
        · exact h.lt_trans h2 (hx.2 b hb')
        · exact ha b hb'
    · have h3 : cmp (keyOf x) k < 0 := by
        have := h.swap (keyOf x) k
        omega
      apply ihr
      · exact hs
      · intro a ha'
        simp only [pathBefore, List.mem_append, List.mem_singleton] at ha'
        rcases ha' with ha' | ha' | rfl
        · exact hb a ha'
        · exact h.lt_trans (hx.1 a ha') h3
        · exact h3
      · simpa [pathAfter] using ha

/-- On a tree with strictly increasing keys the descent of `get` finds the
first (and only) node of the in-order sequence whose key compares equal. -/
theorem getLoop_eq_find (h : TotalOrder cmp) (k : K) (t : Tree α)
    (hs : t.toList.Pairwise (fun a b => cmp (keyOf a) (keyOf b) < 0)) :
    (match (getLoop cmp keyOf k t []).node with
      | Tree.nil => none
      | Tree.node _ x _ => some x) =
    t.toList.find? (fun x => decide (cmp k (keyOf x) = 0)) := by
  have hz := @getLoop_zip _ _ cmp keyOf k t []
  have hb := @getLoop_bounds _ _ _ keyOf h k t [] hs (by simp [pathBefore])
    (by simp [pathAfter])
  have hk := fun l x r => @getLoop_key _ _ cmp keyOf k t [] l x r
  generalize getLoop cmp keyOf k t [] = loc at hz hb hk
  obtain ⟨node, path⟩ := loc
  simp only [zip] at hz
  simp only at hb hk ⊢
  have hl : t.toList = pathBefore path ++ (node.toList ++ pathAfter path) := by
    rw [← hz, toList_zip]
  have hne_before : ∀ a ∈ pathBefore path, ¬ cmp k (keyOf a) = 0 := by
    intro a ha
    have h1 := hb.1 a ha
    have h2 := h.swap (keyOf a) k
    omega
  cases node with
  | nil =>
    symm
    rw [List.find?_eq_none]
    intro a ha
    rw [hl] at ha
    simp only [toList_nil, List.nil_append, List.mem_append] at ha
    rcases ha with ha | ha
    · simpa using hne_before a ha
    · have h1 := hb.2 a ha
      simp only [decide_eq_true_eq]
      omega
  | node l x r =>
    have hkx := hk l x r rfl
    rw [hl] at hs ⊢
    have hx := pairwise_around hs
    simp only [toList_node, List.find?_append, List.find?_cons, hkx, decide_True,
      List.append_assoc, List.cons_append]
    have h1 : List.find? (fun x => decide (cmp k (keyOf x) = 0)) (pathBefore path) = none := by
      rw [List.find?_eq_none]
      intro a ha
      simpa using hne_before a ha
    have h2 : List.find? (fun x => decide (cmp k (keyOf x) = 0)) l.toList = none := by
      rw [List.find?_eq_none]
      intro a ha
      have h3 := h.lt_of_lt_of_eq (hx.1 a ha) (h.eq_symm hkx)
      have h4 := h.swap (keyOf a) k
      simp only [decide_eq_true_eq]
      omega
    simp [h1, h2]

end Search

/-! ## The descent of `min` -/

section Min

variable {α : Type}

theorem minLoop_spec (l : Tree α) (x : α) (r : Tree α) (path : List (Frame α)) :
    ∃ nx nr, (minLoop (Tree.node l x r) path).node = Tree.node Tree.nil nx nr ∧
      zip (minLoop (Tree.node l x r) path).node (minLoop (Tree.node l x r) path).path
        = zip (Tree.node l x r) path ∧
      pathBefore (minLoop (Tree.node l x r) path).path = pathBefore path ∧
      (Tree.node l x r).toList ++ pathAfter path
        = nx :: (nr.toList ++ pathAfter (minLoop (Tree.node l x r) path).path) := by
  induction l generalizing x r path with
  | nil => exact ⟨x, r, rfl, rfl, rfl, by simp [minLoop]⟩
  | node ll y lr ihl _ =>
    obtain ⟨nx, nr, h1, h2, h3, h4⟩ := ihl y lr (Frame.left x r :: path)
    refine ⟨nx, nr, ?_, ?_, ?_, ?_⟩
    · simpa [minLoop] using h1
    · simpa [minLoop] using h2
    · simpa [minLoop, pathBefore] using h3
    · simp only [minLoop]
      rw [← h4]
      simp [pathAfter]

end Min

/-! ## Entries, and what the operations do to them -/

section Entries

variable {α K V : Type} {cmp : Comparator K} {keyOf : α → K} {valOf : α → V}

theorem entriesOf_zip (t : Tree α) (path : List (Frame α)) :
    entriesOf keyOf valOf (zip t path) =
      (pathBefore path).map (fun x => (keyOf x, valOf x)) ++
        (entriesOf keyOf valOf t ++ (pathAfter path).map (fun x => (keyOf x, valOf x))) := by
  simp [entriesOf, toList_zip]

theorem entriesOf_node (l : Tree α) (x : α) (r : Tree α) :
    entriesOf keyOf valOf (Tree.node l x r) =
      entriesOf keyOf valOf l ++ (keyOf x, valOf x) :: entriesOf keyOf valOf r := by
  simp [entriesOf]

theorem keys_entriesOf (t : Tree α) :
    (entriesOf keyOf valOf t).map Prod.fst = keysOf keyOf t := by
  simp [entriesOf, keysOf]

theorem length_entriesOf (t : Tree α) : (entriesOf keyOf valOf t).length = t.count := by
  simp [entriesOf, count_eq_length]

theorem putSpec_increasing (h : TotalOrder cmp) {k : K} {v : V} {old new : List (K × V)}
    {s s1 : Nat} (hp : PutSpec cmp k v old new s s1)
    (hs : StrictlyIncreasing cmp (old.map Prod.fst)) :
    StrictlyIncreasing cmp (new.map Prod.fst) := by
  rcases hp with ⟨B, A, rfl, hb, ha, rfl, -⟩ | ⟨B, x, A, rfl, hk, rfl, -⟩
  · simp only [List.map_append, List.map_cons] at hs ⊢
    apply increasing_insert h hs
    · intro a ha'
      obtain ⟨e, he, rfl⟩ := List.mem_map.1 ha'
      exact hb e he
    · intro b hb'
      obtain ⟨e, he, rfl⟩ := List.mem_map.1 hb'
      exact ha e he
  · simp only [List.map_append, List.map_cons] at hs ⊢
    exact increasing_update h hs hk

theorem putSpec_size {k : K} {v : V} {old new : List (K × V)}
    {s s1 : Nat} (hp : PutSpec cmp k v old new s s1) (hs : s = old.length)
    (hlt : s + 1 < uint32Size) : s1 = new.length := by
  rcases hp with ⟨B, A, rfl, -, -, rfl, h1⟩ | ⟨B, x, A, rfl, -, rfl, h1⟩
  · rw [h1, incr32_eq hlt, hs]; simp; omega
  · rw [h1, hs]; simp

theorem putSpec_find (h : TotalOrder cmp) {k : K} {v : V} {old new : List (K × V)}
    {s s1 : Nat} (hp : PutSpec cmp k v old new s s1)
    (hs : StrictlyIncreasing cmp (old.map Prod.fst)) :
    new.find? (fun e => decide (cmp k e.1 = 0)) = some (k, v) := by
  have hn := putSpec_increasing h hp hs
  have hkk : cmp k k = 0 := by
    have := h.not_lt_self k
    have := h.swap k k
    omega
  have key : ∀ (B A : List (K × V)), new = B ++ (k, v) :: A →
      new.find? (fun e => decide (cmp k e.1 = 0)) = some (k, v) := by
    intro B A hnew
    subst hnew
    have hB : List.find? (fun e => decide (cmp k e.1 = 0)) B = none := by
      rw [List.find?_eq_none]
      intro e he
      unfold StrictlyIncreasing at hn
      simp only [List.map_append, List.map_cons, List.pairwise_append] at hn
      have h1 := hn.2.2 e.1 (List.mem_map_of_mem _ he) k (List.mem_cons_self _ _)
      have h2 := h.swap e.1 k
      simp only [decide_eq_true_eq]
      omega
    simp [List.find?_append, hB, hkk]
  rcases hp with ⟨B, A, -, -, -, hnew, -⟩ | ⟨B, x, A, -, -, hnew, -⟩
  · exact key B A hnew
  · exact key B A hnew

theorem removeSpec_increasing {k : K} {old new : List (K × V)}
    {s s1 : Nat} (hp : RemoveSpec cmp k old new s s1)
    (hs : StrictlyIncreasing cmp (old.map Prod.fst)) :
    StrictlyIncreasing cmp (new.map Prod.fst) := by
  rcases hp with ⟨-, rfl, -⟩ | ⟨B, x, A, rfl, -, rfl, -⟩
  · exact hs
  · simp only [List.map_append, List.map_cons] at hs ⊢
    exact increasing_erase hs

theorem removeSpec_size {k : K} {old new : List (K × V)}
    {s s1 : Nat} (hp : RemoveSpec cmp k old new s s1) (hs : s = old.length)
    (hlt : s < uint32Size) : s1 = new.length := by
  rcases hp with ⟨-, rfl, h0⟩ | ⟨B, x, A, rfl, -, rfl, h0⟩
  · rw [h0]; exact hs
  · have h1 : 0 < s := by rw [hs]; simp
    have h2 := decr32_eq hlt h1
    rw [h0]
    simp only [List.length_append, List.length_cons] at hs ⊢
    omega

theorem removeSpec_find (h : TotalOrder cmp) {k : K} {old new : List (K × V)}
    {s s1 : Nat} (hp : RemoveSpec cmp k old new s s1)
    (hs : StrictlyIncreasing cmp (old.map Prod.fst)) :
    new.find? (fun e => decide (cmp k e.1 = 0)) = none := by
  rw [List.find?_eq_none]
  rcases hp with ⟨hne, rfl, -⟩ | ⟨B, x, A, rfl, hk, rfl, -⟩
  · intro e he
    simpa using hne e he
  · intro e he
    simp only [List.map_append, List.map_cons] at hs
    have h1 := increasing_others_ne h hs hk e.1 (by
      rw [← List.map_append]; exact List.mem_map_of_mem _ he)
    simpa using h1

/-- Outcome of the descent of `get` that falls off the tree: the key is new. -/
theorem put_absent (h : TotalOrder cmp) {k : K} (v : V) {root : Tree α}
    {p : List (Frame α)} (hs : StrictlyIncreasing cmp (keysOf keyOf root))
    (hloc : getLoop cmp keyOf k root [] = ⟨Tree.nil, p⟩) {new : List (K × V)}
    (hnew : new = (pathBefore p).map (fun x => (keyOf x, valOf x)) ++
        (k, v) :: (pathAfter p).map (fun x => (keyOf x, valOf x))) (s : Nat) :
    PutSpec cmp k v (entriesOf keyOf valOf root) new s (incr32 s) := by
  rw [strictlyIncreasing_keysOf] at hs
  have hz := @getLoop_zip _ _ cmp keyOf k root []
  have hb := @getLoop_bounds _ _ _ keyOf h k root [] hs (by simp [pathBefore])
    (by simp [pathAfter])
  rw [hloc] at hz hb
  simp only [zip] at hz hb
  left
  refine ⟨_, _, ?_, ?_, ?_, hnew, rfl⟩
  · rw [← hz, entriesOf_zip]; simp [entriesOf]
  · intro a ha
    obtain ⟨e, he, rfl⟩ := List.mem_map.1 ha
    exact hb.1 e he
  · intro a ha
    obtain ⟨e, he, rfl⟩ := List.mem_map.1 ha
    exact hb.2 e he

/-- Outcome of the descent of `get` that stops at a node: the key is present. -/
theorem put_found {k : K} (v : V) {root : Tree α} {l : Tree α} {x : α} {r : Tree α}
    {p : List (Frame α)}
    (hloc : getLoop cmp keyOf k root [] = ⟨Tree.node l x r, p⟩) {new : List (K × V)}
    (hnew : new = (pathBefore p).map (fun x => (keyOf x, valOf x)) ++
        ((entriesOf keyOf valOf l ++ (k, v) :: entriesOf keyOf valOf r) ++
          (pathAfter p).map (fun x => (keyOf x, valOf x)))) (s : Nat) :
    PutSpec cmp k v (entriesOf keyOf valOf root) new s s := by
  have hz := @getLoop_zip _ _ cmp keyOf k root []
  have hk := @getLoop_key _ _ cmp keyOf k root [] l x r
  rw [hloc] at hz hk
  simp only [zip] at hz
  right
  refine ⟨(pathBefore p).map (fun x => (keyOf x, valOf x)) ++ entriesOf keyOf valOf l,
    (keyOf x, valOf x),
    entriesOf keyOf valOf r ++ (pathAfter p).map (fun x => (keyOf x, valOf x)), ?_, hk rfl, ?_,
    rfl⟩
  · rw [← hz, entriesOf_zip, entriesOf_node]; simp
  · rw [hnew]; simp

theorem remove_absent (h : TotalOrder cmp) {k : K} {root : Tree α}
    {p : List (Frame α)} (hs : StrictlyIncreasing cmp (keysOf keyOf root))
    (hloc : getLoop cmp keyOf k root [] = ⟨Tree.nil, p⟩) (s : Nat) :
    RemoveSpec cmp k (entriesOf keyOf valOf root) (entriesOf keyOf valOf root) s s := by
  rw [strictlyIncreasing_keysOf] at hs
  have hf := @getLoop_eq_find _ _ _ keyOf h k root hs
  rw [hloc] at hf
  simp only at hf
  have hf := List.find?_eq_none.1 hf.symm
  left
  refine ⟨?_, rfl, rfl⟩
  intro e he
  obtain ⟨x, hx, rfl⟩ := List.mem_map.1 he
  simpa using hf x hx

theorem remove_found {k : K} {root : Tree α} {l : Tree α} {x : α} {r : Tree α}
    {p : List (Frame α)}
    (hloc : getLoop cmp keyOf k root [] = ⟨Tree.node l x r, p⟩) {new : List (K × V)}
    (hnew : new = (pathBefore p).map (fun x => (keyOf x, valOf x)) ++
        ((entriesOf keyOf valOf l ++ entriesOf keyOf valOf r) ++
          (pathAfter p).map (fun x => (keyOf x, valOf x)))) (s : Nat) :
    RemoveSpec cmp k (entriesOf keyOf valOf root) new s (decr32 s) := by
  have hz := @getLoop_zip _ _ cmp keyOf k root []
  have hk := @getLoop_key _ _ cmp keyOf k root [] l x r
  rw [hloc] at hz hk
  simp only [zip] at hz
  right
  refine ⟨(pathBefore p).map (fun x => (keyOf x, valOf x)) ++ entriesOf keyOf valOf l,
    (keyOf x, valOf x),
    entriesOf keyOf valOf r ++ (pathAfter p).map (fun x => (keyOf x, valOf x)), ?_, hk rfl, ?_,
    rfl⟩
  · rw [← hz, entriesOf_zip, entriesOf_node]; simp
  · rw [hnew]; simp

/-- On a tree with strictly increasing keys, the node that `get` returns holds
the first entry of the in-order sequence whose key compares equal. -/
theorem getLoop_value (h : TotalOrder cmp) (k : K) (root : Tree α)
    (hs : StrictlyIncreasing cmp (keysOf keyOf root)) :
    (match (getLoop cmp keyOf k root []).node with
      | Tree.nil => none
      | Tree.node _ x _ => some (valOf x)) =
    ((entriesOf keyOf valOf root).find? (fun e => decide (cmp k e.1 = 0))).map Prod.snd := by
  rw [strictlyIncreasing_keysOf] at hs
  have hf := @getLoop_eq_find _ _ _ keyOf h k root hs
  unfold entriesOf
  rw [List.find?_map]
  have : ((fun e : K × V => decide (cmp k e.1 = 0)) ∘ fun x => (keyOf x, valOf x))
      = fun x => decide (cmp k (keyOf x) = 0) := rfl
  rw [this, ← hf]
  cases (getLoop cmp keyOf k root []).node <;> rfl

end Entries

/-! ## The plain BST engine -/

namespace BSTree

variable {K V : Type}

theorem bst_putLoop_eq (tree : BSTree K V) (k : K) (v : V) (t : Tree (Node K V))
    (path : List (Frame (Node K V))) :
    putLoop tree k v t path =
      match t with
      | Tree.nil => none
      | Tree.node _ _ _ =>
        match getLoop tree.comparator Node.key k t path with
        | ⟨Tree.nil, p⟩ =>
          some { tree with
            root := zip (Tree.node Tree.nil ⟨k, v⟩ Tree.nil) p
            size := incr32 tree.size }
        | ⟨Tree.node l1 _ r1, p⟩ =>
          some { tree with root := zip (Tree.node l1 ⟨k, v⟩ r1) p } := by
  induction t generalizing path with
  | nil => rfl
  | node l x r ihl ihr =>
    unfold putLoop getLoop
    simp only
    split_ifs
    · rfl
    · cases l with
      | nil => simp [getLoop, zip, Frame.plug]
      | node ll y lr => simpa using ihl (Frame.left x r :: path)
    · cases r with
      | nil => simp [getLoop, zip, Frame.plug]
      | node rl y rr => simpa using ihr (Frame.right l x :: path)

theorem bst_put_spec (tree : BSTree K V) (k : K) (v : V) (h : TotalOrder tree.comparator)
    (hs : StrictlyIncreasing tree.comparator (keysOf Node.key tree.root)) :
    ∃ t, tree.Put k v = some t ∧ t.comparator = tree.comparator ∧
      PutSpec tree.comparator k v (entriesOf Node.key Node.value tree.root)
        (entriesOf Node.key Node.value t.root) tree.size t.size := by
  obtain ⟨root, cmp, size⟩ := tree
  simp only at h hs ⊢
  cases root with
  | nil =>
    refine ⟨_, rfl, rfl, Or.inl ⟨[], [], rfl, by simp, by simp, ?_, rfl⟩⟩
    simp [entriesOf]
  | node l x r =>
    simp only [Put, bst_putLoop_eq]
    generalize hloc : getLoop cmp Node.key k (Tree.node l x r) [] = loc
    obtain ⟨node, p⟩ := loc
    cases node with
    | nil =>
      refine ⟨_, rfl, rfl, ?_⟩
      apply put_absent h v hs hloc
      rw [entriesOf_zip]; simp [entriesOf]
    | node l1 x1 r1 =>
      refine ⟨_, rfl, rfl, ?_⟩
      apply put_found v hloc
      rw [entriesOf_zip, entriesOf_node]

theorem bst_remove_spec (tree : BSTree K V) (k : K) (h : TotalOrder tree.comparator)
    (hs : StrictlyIncreasing tree.comparator (keysOf Node.key tree.root)) :
    ∃ t, tree.Remove k = some t ∧ t.comparator = tree.comparator ∧
      RemoveSpec tree.comparator k (entriesOf Node.key Node.value tree.root)
        (entriesOf Node.key Node.value t.root) tree.size t.size := by
  obtain ⟨root, cmp, size⟩ := tree
  simp only at h hs ⊢
  simp only [Remove, get]
  generalize hloc : getLoop cmp Node.key k root [] = loc
  obtain ⟨node, p⟩ := loc
  cases node with
  | nil => exact ⟨_, rfl, rfl, remove_absent h hs hloc size⟩
  | node l x r =>
    simp only
    cases l with
    | nil =>
      cases r with
      | nil =>
        refine ⟨_, by simp [Tree.isNil]; rfl, rfl, ?_⟩
        apply remove_found hloc
        simp only [replace, replaceNode]; rw [entriesOf_zip]; simp [entriesOf]
      | node rl y rr =>
        refine ⟨_, by simp [Tree.isNil]; rfl, rfl, ?_⟩
        apply remove_found hloc
        simp only [replace, replaceNode]; rw [entriesOf_zip]; simp [entriesOf]
    | node ll y lr =>
      cases r with
      | nil =>
        refine ⟨_, by simp [Tree.isNil]; rfl, rfl, ?_⟩
        apply remove_found hloc
        simp only [replace, replaceNode]; rw [entriesOf_zip]; simp [entriesOf]
      | node rl z rr =>
        obtain ⟨nx, nr, h1, h2, h3, h4⟩ := minLoop_spec rl z rr []
        simp only [Tree.isNil, min, and_self, if_true, h1]
        refine ⟨_, rfl, rfl, ?_⟩
        apply remove_found hloc
        simp only [replace, replaceNode, entriesOf_zip, pathBefore_append, pathAfter_append,
          pathBefore, pathAfter, h3]
        simp only [pathAfter, List.append_nil] at h4
        simp only [entriesOf, h4]
        simp

end BSTree

/-! ## Perfect trees -/

section Perfect

variable {α : Type}

theorem keysOf_perfect {K : Type} (keyOf : α → K) (mk : Nat → Nat → α) (f : Nat → K)
    (hmk : ∀ d i, keyOf (mk d i) = f i) (d lo : Nat) :
    keysOf keyOf (perfect mk d lo) = (List.range' lo (2 ^ d - 1)).map f := by
  induction d generalizing lo with
  | zero => simp [perfect, keysOf]
  | succ d ih =>
    have h1 : 2 ^ (d + 1) - 1 = (2 ^ d - 1) + (1 + (2 ^ d - 1)) := by
      have : 0 < 2 ^ d := Nat.two_pow_pos d
      rw [Nat.pow_succ]; omega
    have h2 : lo + (2 ^ d - 1) = lo + 2 ^ d - 1 := by
      have : 0 < 2 ^ d := Nat.two_pow_pos d
      omega
    have h3 : lo + 2 ^ d - 1 + 1 = lo + 2 ^ d := by
      have : 0 < 2 ^ d := Nat.two_pow_pos d
      omega
    rw [h1, ← List.range'_append_1, ← List.range'_append_1]
    have h4 : lo + (1 + (2 ^ d - 1)) = lo + 2 ^ d := by
      have : 0 < 2 ^ d := Nat.two_pow_pos d
      omega
    unfold keysOf at ih ⊢
    simp [perfect, ih, List.range'_one, h2, h3, h4, hmk]

theorem count_perfect (mk : Nat → Nat → α) (d lo : Nat) :
    (perfect mk d lo).count = 2 ^ d - 1 := by
  have h := keysOf_perfect (fun _ => ()) mk (fun _ => ()) (fun _ _ => rfl) d lo
  have h1 := congrArg List.length h
  simpa [keysOf, count_eq_length] using h1

theorem natCompare_lt {a b : Nat} : natCompare a b < 0 ↔ a < b := by
  unfold natCompare; split_ifs <;> simp_all

theorem natCompare_eq {a b : Nat} : natCompare a b = 0 ↔ a = b := by
  unfold natCompare
  split_ifs <;> simp_all
  omega

theorem increasing_range' (lo n : Nat) : StrictlyIncreasing natCompare (List.range' lo n) := by
  unfold StrictlyIncreasing
  have h := List.pairwise_lt_range' lo n
  exact h.imp (fun hab => natCompare_lt.2 hab)

end Perfect

/-! ## The AVL engine: heights, balance factors and rotations -/

namespace AVLTree

variable {K V : Type}

@[simp] theorem getHeight_nil : getHeight (Tree.nil : Tree (Node K V)) = 0 := rfl

@[simp] theorem getHeight_node (l : Tree (Node K V)) (x : Node K V) (r : Tree (Node K V)) :
    getHeight (Tree.node l x r) = x.height := rfl

theorem avl_valid_iff (t : Tree (Node K V)) : Valid t ↔ HeightsOK t ∧ Balanced t := by
  induction t with
  | nil => simp [Valid, HeightsOK, Balanced]
  | node l x r ihl ihr =>
    simp only [Valid, HeightsOK, Balanced, ihl, ihr]
    constructor
    · rintro ⟨h1, h2, h3, ⟨h4, h5⟩, h6, h7⟩
      exact ⟨⟨h1, h4, h6⟩, ⟨by omega, by omega⟩, h5, h7⟩
    · rintro ⟨⟨h1, h4, h6⟩, ⟨h2, h3⟩, h5, h7⟩
      exact ⟨h1, by omega, by omega, ⟨h4, h5⟩, h6, h7⟩

theorem getHeight_le_count {t : Tree (Node K V)} (h : Valid t) : getHeight t ≤ t.count := by
  induction t with
  | nil => simp [Tree.count]
  | node l x r ihl ihr =>
    simp only [Valid] at h
    have h1 := ihl h.2.2.2.1
    have h2 := ihr h.2.2.2.2
    simp only [getHeight_node, Tree.count]
    omega

theorem toInt8_sub32 {a b : Nat} (h1 : a ≤ b + 127) (h2 : b ≤ a + 128)
    (_ha : a < uint32Size) (_hb : b < uint32Size) :
    toInt8 (sub32 a b) = (a : Int) - (b : Int) := by
  unfold toInt8 sub32
  split_ifs <;> omega

theorem getBalance_node (l : Tree (Node K V)) (x : Node K V) (r : Tree (Node K V))
    (h1 : getHeight l ≤ getHeight r + 127) (h2 : getHeight r ≤ getHeight l + 128)
    (ha : getHeight l < uint32Size) (hb : getHeight r < uint32Size) :
    getBalance (Tree.node l x r) = some ((getHeight l : Int) - (getHeight r : Int)) := by
  simp only [getBalance, toInt8_sub32 h1 h2 ha hb]

theorem calcHeight_node (l : Tree (Node K V)) (x : Node K V) (r : Tree (Node K V))
    (h : Max.max (getHeight l) (getHeight r) + 1 < uint32Size) :
    calcHeight (Tree.node l x r) =
      some (Tree.node l { x with height := 1 + Max.max (getHeight l) (getHeight r) } r) := by
  simp only [calcHeight, incr32_eq h, Nat.add_comm]

theorem rotateRight_node (ll : Tree (Node K V)) (y : Node K V) (lr : Tree (Node K V))
    (x : Node K V) (r : Tree (Node K V))
    (h1 : Max.max (getHeight lr) (getHeight r) + 2 < uint32Size)
    (h2 : getHeight ll + 1 < uint32Size) :
    rotateRight (Tree.node (Tree.node ll y lr) x r) =
      some (Tree.node ll
        { y with height := 1 + Max.max (getHeight ll) (1 + Max.max (getHeight lr) (getHeight r)) }
        (Tree.node lr { x with height := 1 + Max.max (getHeight lr) (getHeight r) } r)) := by
  simp only [rotateRight]
  rw [calcHeight_node _ _ _ (by omega)]
  simp only [Option.some_bind]
  rw [calcHeight_node _ _ _ (by simp only [getHeight_node]; omega)]
  rfl

theorem rotateLeft_node (l : Tree (Node K V)) (x : Node K V) (rl : Tree (Node K V))
    (y : Node K V) (rr : Tree (Node K V))
    (h1 : Max.max (getHeight l) (getHeight rl) + 2 < uint32Size)
    (h2 : getHeight rr + 1 < uint32Size) :
    rotateLeft (Tree.node l x (Tree.node rl y rr)) =
      some (Tree.node
        (Tree.node l { x with height := 1 + Max.max (getHeight l) (getHeight rl) } rl)
        { y with height := 1 + Max.max (1 + Max.max (getHeight l) (getHeight rl)) (getHeight rr) }
        rr) := by
  simp only [rotateLeft]
  rw [calcHeight_node _ _ _ (by omega)]
  simp only [Option.some_bind]
  rw [calcHeight_node _ _ _ (by simp only [getHeight_node]; omega)]
  rfl

theorem isNil_of_height {t : Tree (Node K V)} (h : 0 < getHeight t) : t.isNil = false := by
  cases t with
  | nil => simp at h
  | node l x r => rfl

@[simp] theorem entries_nil : entries (Tree.nil : Tree (Node K V)) = [] := rfl

@[simp] theorem entries_node (l : Tree (Node K V)) (x : Node K V) (r : Tree (Node K V)) :
    entries (Tree.node l x r) = entries l ++ (x.key, x.value) :: entries r := by
  simp [entries, entriesOf]

end AVLTree

namespace AVLTree

variable {K V : Type}

theorem rotateLeftRight_node (ll : Tree (Node K V)) (y : Node K V) (lrl : Tree (Node K V))
    (z : Node K V) (lrr : Tree (Node K V)) (x : Node K V) (r : Tree (Node K V))
    (h1 : Max.max (getHeight ll) (getHeight lrl) + 3 < uint32Size)
    (h2 : Max.max (getHeight lrr) (getHeight r) + 3 < uint32Size) :
    ((rotateLeft (Tree.node ll y (Tree.node lrl z lrr))).bind fun l1 =>
        rotateRight (Tree.node l1 x r)) =
      some (Tree.node
        (Tree.node ll { y with height := 1 + Max.max (getHeight ll) (getHeight lrl) } lrl)
        { z with
          height := 1 + Max.max (1 + Max.max (getHeight ll) (getHeight lrl))
                      (1 + Max.max (getHeight lrr) (getHeight r)) }
        (Tree.node lrr { x with height := 1 + Max.max (getHeight lrr) (getHeight r) } r)) := by
  rw [rotateLeft_node _ _ _ _ _ (by omega) (by omega)]
  simp only [Option.some_bind]
  rw [rotateRight_node _ _ _ _ _ (by omega) (by simp only [getHeight_node]; omega)]
  rfl

theorem rotateRightLeft_node (l : Tree (Node K V)) (x : Node K V) (rll : Tree (Node K V))
    (z : Node K V) (rlr : Tree (Node K V)) (y : Node K V) (rr : Tree (Node K V))
    (h1 : Max.max (getHeight l) (getHeight rll) + 3 < uint32Size)
    (h2 : Max.max (getHeight rlr) (getHeight rr) + 3 < uint32Size) :
    ((rotateRight (Tree.node (Tree.node rll z rlr) y rr)).bind fun r1 =>
        rotateLeft (Tree.node l x r1)) =
      some (Tree.node
        (Tree.node l { x with height := 1 + Max.max (getHeight l) (getHeight rll) } rll)
        { z with
          height := 1 + Max.max (1 + Max.max (getHeight l) (getHeight rll))
                      (1 + Max.max (getHeight rlr) (getHeight rr)) }
        (Tree.node rlr { y with height := 1 + Max.max (getHeight rlr) (getHeight rr) } rr)) := by
  rw [rotateRight_node _ _ _ _ _ (by omega) (by omega)]
  simp only [Option.some_bind]
  rw [rotateLeft_node _ _ _ _ _ (by omega) (by simp only [getHeight_node]; omega)]
  rfl

/-- The turn of either fix-up loop at a node whose balance factor is in
`[-1, 1]`. -/
theorem step_calc (l : Tree (Node K V)) (x : Node K V) (r : Tree (Node K V))
    (h1 : getHeight l ≤ getHeight r + 1) (h2 : getHeight r ≤ getHeight l + 1)
    (hb : Max.max (getHeight l) (getHeight r) + 1 < uint32Size) :
    putFixStep (Tree.node l x r) =
      some (Tree.node l { x with height := 1 + Max.max (getHeight l) (getHeight r) } r) ∧
    removeFixStep (Tree.node l x r) =
      some (Tree.node l { x with height := 1 + Max.max (getHeight l) (getHeight r) } r) := by
  constructor
  · simp only [putFixStep]
    rw [getBalance_node l x r (by omega) (by omega) (by omega) (by omega)]
    simp only [Option.some_bind]
    rw [if_neg (by omega), if_neg (by omega), calcHeight_node l x r hb]
  · simp only [removeFixStep]
    rw [getBalance_node l x r (by omega) (by omega) (by omega) (by omega)]
    simp only [Option.some_bind]
    rw [if_neg (by omega), if_neg (by omega), calcHeight_node l x r hb]

/-- The turn of the loop of `putFix` for a left-heavy node whose left child
leans left (LL). -/
theorem putFixStep_LL (ll : Tree (Node K V)) (y : Node K V) (lr : Tree (Node K V))
    (x : Node K V) (r : Tree (Node K V)) (h1 : y.height = getHeight r + 2)
    (h2 : getHeight lr < getHeight ll) (h3 : getHeight ll ≤ getHeight lr + 1)
    (hb : y.height < uint32Size) (hb1 : getHeight ll < uint32Size) :
    putFixStep (Tree.node (Tree.node ll y lr) x r) =
      rotateRight (Tree.node (Tree.node ll y lr) x r) := by
  have hnil := isNil_of_height (t := ll) (by omega)
  simp only [putFixStep]
  rw [getBalance_node _ x r (by simp only [getHeight_node]; omega)
    (by simp only [getHeight_node]; omega) (by simp only [getHeight_node]; omega) (by omega)]
  simp only [Option.some_bind, getHeight_node]
  rw [if_pos (by omega), getBalance_node ll y lr (by omega) (by omega) (by omega) (by omega)]
  simp only [Option.some_bind]
  rw [if_pos (by omega)]
  simp only [isNil_node, left_node, hnil, or_self, Bool.false_eq_true, if_false]

/-- The turn of the loop of `putFix` for a left-heavy node whose left child
leans right (LR). -/
theorem putFixStep_LR (ll : Tree (Node K V)) (y : Node K V) (lr : Tree (Node K V))
    (x : Node K V) (r : Tree (Node K V)) (h1 : y.height = getHeight r + 2)
    (h2 : getHeight ll < getHeight lr) (h3 : getHeight lr ≤ getHeight ll + 1)
    (hb : y.height < uint32Size) (hb1 : getHeight lr < uint32Size) :
    putFixStep (Tree.node (Tree.node ll y lr) x r) =
      (rotateLeft (Tree.node ll y lr)).bind fun l1 => rotateRight (Tree.node l1 x r) := by
  have hnil := isNil_of_height (t := lr) (by omega)
  simp only [putFixStep]
  rw [getBalance_node _ x r (by simp only [getHeight_node]; omega)
    (by simp only [getHeight_node]; omega) (by simp only [getHeight_node]; omega) (by omega)]
  simp only [Option.some_bind, getHeight_node]
  rw [if_pos (by omega), getBalance_node ll y lr (by omega) (by omega) (by omega) (by omega)]
  simp only [Option.some_bind]
  rw [if_neg (by omega), if_pos (by omega)]
  simp only [isNil_node, right_node, hnil, or_self, Bool.false_eq_true, if_false]

/-- The turn of the loop of `putFix` for a right-heavy node whose right child
leans right (RR). -/
theorem putFixStep_RR (l : Tree (Node K V)) (x : Node K V) (rl : Tree (Node K V))
    (y : Node K V) (rr : Tree (Node K V)) (h1 : y.height = getHeight l + 2)
    (h2 : getHeight rl < getHeight rr) (h3 : getHeight rr ≤ getHeight rl + 1)
    (hb : y.height < uint32Size) (hb1 : getHeight rr < uint32Size) :
    putFixStep (Tree.node l x (Tree.node rl y rr)) =
      rotateLeft (Tree.node l x (Tree.node rl y rr)) := by
  have hnil := isNil_of_height (t := rr) (by omega)
  simp only [putFixStep]
  rw [getBalance_node l x _ (by simp only [getHeight_node]; omega)
    (by simp only [getHeight_node]; omega) (by omega) (by simp only [getHeight_node]; omega)]
  simp only [Option.some_bind, getHeight_node]
  rw [if_neg (by omega), if_pos (by omega),
    getBalance_node rl y rr (by omega) (by omega) (by omega) (by omega)]
  simp only [Option.some_bind]
  rw [if_neg (by omega), if_pos (by omega)]
  simp only [isNil_node, right_node, hnil, or_self, Bool.false_eq_true, if_false]

/-- The turn of the loop of `putFix` for a right-heavy node whose right child
leans left (RL). -/
theorem putFixStep_RL (l : Tree (Node K V)) (x : Node K V) (rl : Tree (Node K V))
    (y : Node K V) (rr : Tree (Node K V)) (h1 : y.height = getHeight l + 2)
    (h2 : getHeight rr < getHeight rl) (h3 : getHeight rl ≤ getHeight rr + 1)
    (hb : y.height < uint32Size) (hb1 : getHeight rl < uint32Size) :
    putFixStep (Tree.node l x (Tree.node rl y rr)) =
      (rotateRight (Tree.node rl y rr)).bind fun r1 => rotateLeft (Tree.node l x r1) := by
  have hnil := isNil_of_height (t := rl) (by omega)
  simp only [putFixStep]
  rw [getBalance_node l x _ (by simp only [getHeight_node]; omega)
    (by simp only [getHeight_node]; omega) (by omega) (by simp only [getHeight_node]; omega)]
  simp only [Option.some_bind, getHeight_node]
  rw [if_neg (by omega), if_pos (by omega),
    getBalance_node rl y rr (by omega) (by omega) (by omega) (by omega)]
  simp only [Option.some_bind]
  rw [if_pos (by omega)]
  simp only [isNil_node, left_node, hnil, or_self, Bool.false_eq_true, if_false]

/-- The turn of the loop of `removeFix` for a left-heavy node whose left child
does not lean right (LL). -/
theorem removeFixStep_LL (ll : Tree (Node K V)) (y : Node K V) (lr : Tree (Node K V))
    (x : Node K V) (r : Tree (Node K V)) (h1 : y.height = getHeight r + 2)
    (hy : y.height = 1 + Max.max (getHeight ll) (getHeight lr))
    (h2 : getHeight lr ≤ getHeight ll) (h3 : getHeight ll ≤ getHeight lr + 1)
    (hb : y.height < uint32Size) :
    removeFixStep (Tree.node (Tree.node ll y lr) x r) =
      rotateRight (Tree.node (Tree.node ll y lr) x r) := by
  have hnil := isNil_of_height (t := ll) (by omega)
  simp only [removeFixStep]
  rw [getBalance_node _ x r (by simp only [getHeight_node]; omega)
    (by simp only [getHeight_node]; omega) (by simp only [getHeight_node]; omega) (by omega)]
  simp only [Option.some_bind, getHeight_node]
  rw [if_pos (by omega), getBalance_node ll y lr (by omega) (by omega) (by omega) (by omega)]
  simp only [Option.some_bind]
  rw [if_pos (by omega)]
  simp only [isNil_node, left_node, hnil, or_self, Bool.false_eq_true, if_false]

/-- The turn of the loop of `removeFix` for a left-heavy node whose left child
leans right (LR). -/
theorem removeFixStep_LR (ll : Tree (Node K V)) (y : Node K V) (lr : Tree (Node K V))
    (x : Node K V) (r : Tree (Node K V)) (h1 : y.height = getHeight r + 2)
    (h2 : getHeight ll < getHeight lr) (h3 : getHeight lr ≤ getHeight ll + 1)
    (hb : y.height < uint32Size) (hb1 : getHeight lr < uint32Size) :
    removeFixStep (Tree.node (Tree.node ll y lr) x r) =
      (rotateLeft (Tree.node ll y lr)).bind fun l1 => rotateRight (Tree.node l1 x r) := by
  have hnil := isNil_of_height (t := lr) (by omega)
  simp only [removeFixStep]
  rw [getBalance_node _ x r (by simp only [getHeight_node]; omega)
    (by simp only [getHeight_node]; omega) (by simp only [getHeight_node]; omega) (by omega)]
  simp only [Option.some_bind, getHeight_node]
  rw [if_pos (by omega), getBalance_node ll y lr (by omega) (by omega) (by omega) (by omega)]
  simp only [Option.some_bind]
  rw [if_neg (by omega)]
  simp only [isNil_node, right_node, hnil, or_self, Bool.false_eq_true, if_false]

/-- The turn of the loop of `removeFix` for a right-heavy node whose right child
does not lean left (RR). -/
theorem removeFixStep_RR (l : Tree (Node K V)) (x : Node K V) (rl : Tree (Node K V))
    (y : Node K V) (rr : Tree (Node K V)) (h1 : y.height = getHeight l + 2)
    (hy : y.height = 1 + Max.max (getHeight rl) (getHeight rr))
    (h2 : getHeight rl ≤ getHeight rr) (h3 : getHeight rr ≤ getHeight rl + 1)
    (hb : y.height < uint32Size) :
    removeFixStep (Tree.node l x (Tree.node rl y rr)) =
      rotateLeft (Tree.node l x (Tree.node rl y rr)) := by
  have hnil := isNil_of_height (t := rr) (by omega)
  simp only [removeFixStep]
  rw [getBalance_node l x _ (by simp only [getHeight_node]; omega)
    (by simp only [getHeight_node]; omega) (by omega) (by simp only [getHeight_node]; omega)]
  simp only [Option.some_bind, getHeight_node]
  rw [if_neg (by omega), if_pos (by omega),
    getBalance_node rl y rr (by omega) (by omega) (by omega) (by omega)]
  simp only [Option.some_bind]
  rw [if_neg (by omega)]
  simp only [isNil_node, right_node, hnil, or_self, Bool.false_eq_true, if_false]

/-- The turn of the loop of `removeFix` for a right-heavy node whose right child
leans left (RL). -/
theorem removeFixStep_RL (l : Tree (Node K V)) (x : Node K V) (rl : Tree (Node K V))
    (y : Node K V) (rr : Tree (Node K V)) (h1 : y.height = getHeight l + 2)
    (h2 : getHeight rr < getHeight rl) (h3 : getHeight rl ≤ getHeight rr + 1)
    (hb : y.height < uint32Size) (hb1 : getHeight rl < uint32Size) :
    removeFixStep (Tree.node l x (Tree.node rl y rr)) =
      (rotateRight (Tree.node rl y rr)).bind fun r1 => rotateLeft (Tree.node l x r1) := by
  have hnil := isNil_of_height (t := rl) (by omega)
  simp only [removeFixStep]
  rw [getBalance_node l x _ (by simp only [getHeight_node]; omega)
    (by simp only [getHeight_node]; omega) (by omega) (by simp only [getHeight_node]; omega)]
  simp only [Option.some_bind, getHeight_node]
  rw [if_neg (by omega), if_pos (by omega),
    getBalance_node rl y rr (by omega) (by omega) (by omega) (by omega)]
  simp only [Option.some_bind]
  rw [if_pos (by omega)]
  simp only [isNil_node, left_node, hnil, or_self, Bool.false_eq_true, if_false]

end AVLTree

namespace AVLTree

variable {K V : Type}

theorem valid_calc (l : Tree (Node K V)) (x : Node K V) (r : Tree (Node K V))
    (hvl : Valid l) (hvr : Valid r) (h1 : getHeight l ≤ getHeight r + 1)
    (h2 : getHeight r ≤ getHeight l + 1) :
    Valid (Tree.node l { x with height := 1 + Max.max (getHeight l) (getHeight r) } r) :=
  ⟨rfl, h1, h2, hvl, hvr⟩

theorem valid_single_right (ll : Tree (Node K V)) (y : Node K V) (lr : Tree (Node K V))
    (x : Node K V) (r : Tree (Node K V)) (hvll : Valid ll) (hvlr : Valid lr) (hvr : Valid r)
    (hy : y.height = 1 + Max.max (getHeight ll) (getHeight lr))
    (h1 : getHeight lr ≤ getHeight ll) (h2 : getHeight ll ≤ getHeight lr + 1)
    (h3 : y.height = getHeight r + 2) :
    Valid (Tree.node ll
        { y with height := 1 + Max.max (getHeight ll) (1 + Max.max (getHeight lr) (getHeight r)) }
        (Tree.node lr { x with height := 1 + Max.max (getHeight lr) (getHeight r) } r)) ∧
      (1 + Max.max (getHeight ll) (1 + Max.max (getHeight lr) (getHeight r)) = y.height ∨
        (getHeight lr = getHeight ll ∧
          1 + Max.max (getHeight ll) (1 + Max.max (getHeight lr) (getHeight r)) = y.height + 1)) := by
  simp only [Valid, getHeight_node]
  and_intros <;> first | assumption | exact trivial | omega

theorem valid_single_left (l : Tree (Node K V)) (x : Node K V) (rl : Tree (Node K V))
    (y : Node K V) (rr : Tree (Node K V)) (hvl : Valid l) (hvrl : Valid rl) (hvrr : Valid rr)
    (hy : y.height = 1 + Max.max (getHeight rl) (getHeight rr))
    (h1 : getHeight rl ≤ getHeight rr) (h2 : getHeight rr ≤ getHeight rl + 1)
    (h3 : y.height = getHeight l + 2) :
    Valid (Tree.node
        (Tree.node l { x with height := 1 + Max.max (getHeight l) (getHeight rl) } rl)
        { y with height := 1 + Max.max (1 + Max.max (getHeight l) (getHeight rl)) (getHeight rr) }
        rr) ∧
      (1 + Max.max (1 + Max.max (getHeight l) (getHeight rl)) (getHeight rr) = y.height ∨
        (getHeight rl = getHeight rr ∧
          1 + Max.max (1 + Max.max (getHeight l) (getHeight rl)) (getHeight rr) = y.height + 1)) := by
  simp only [Valid, getHeight_node]
  and_intros <;> first | assumption | exact trivial | omega

theorem valid_double_right (ll : Tree (Node K V)) (y : Node K V) (lrl : Tree (Node K V))
    (z : Node K V) (lrr : Tree (Node K V)) (x : Node K V) (r : Tree (Node K V))
    (hvll : Valid ll) (hvlrl : Valid lrl) (hvlrr : Valid lrr) (hvr : Valid r)
    (hy : y.height = 1 + Max.max (getHeight ll) z.height)
    (hz : z.height = 1 + Max.max (getHeight lrl) (getHeight lrr))
    (hz1 : getHeight lrl ≤ getHeight lrr + 1) (hz2 : getHeight lrr ≤ getHeight lrl + 1)
    (h1 : z.height = getHeight ll + 1) (h3 : y.height = getHeight r + 2) :
    Valid (Tree.node
        (Tree.node ll { y with height := 1 + Max.max (getHeight ll) (getHeight lrl) } lrl)
        { z with
          height := 1 + Max.max (1 + Max.max (getHeight ll) (getHeight lrl))
                      (1 + Max.max (getHeight lrr) (getHeight r)) }
        (Tree.node lrr { x with height := 1 + Max.max (getHeight lrr) (getHeight r) } r)) ∧
      1 + Max.max (1 + Max.max (getHeight ll) (getHeight lrl))
        (1 + Max.max (getHeight lrr) (getHeight r)) = y.height := by
  simp only [Valid, getHeight_node]
  and_intros <;> first | assumption | exact trivial | omega

theorem valid_double_left (l : Tree (Node K V)) (x : Node K V) (rll : Tree (Node K V))
    (z : Node K V) (rlr : Tree (Node K V)) (y : Node K V) (rr : Tree (Node K V))
    (hvl : Valid l) (hvrll : Valid rll) (hvrlr : Valid rlr) (hvrr : Valid rr)
    (hy : y.height = 1 + Max.max z.height (getHeight rr))
    (hz : z.height = 1 + Max.max (getHeight rll) (getHeight rlr))
    (hz1 : getHeight rll ≤ getHeight rlr + 1) (hz2 : getHeight rlr ≤ getHeight rll + 1)
    (h1 : z.height = getHeight rr + 1) (h3 : y.height = getHeight l + 2) :
    Valid (Tree.node
        (Tree.node l { x with height := 1 + Max.max (getHeight l) (getHeight rll) } rll)
        { z with
          height := 1 + Max.max (1 + Max.max (getHeight l) (getHeight rll))
                      (1 + Max.max (getHeight rlr) (getHeight rr)) }
        (Tree.node rlr { y with height := 1 + Max.max (getHeight rlr) (getHeight rr) } rr)) ∧
      1 + Max.max (1 + Max.max (getHeight l) (getHeight rll))
        (1 + Max.max (getHeight rlr) (getHeight rr)) = y.height := by
  simp only [Valid, getHeight_node]
  and_intros <;> first | assumption | exact trivial | omega

end AVLTree

namespace AVLTree

variable {K V : Type}

theorem putFixStep_left (h : Nat) (ll : Tree (Node K V)) (y : Node K V) (lr : Tree (Node K V))
    (x : Node K V) (r : Tree (Node K V)) (hvl : Valid (Tree.node ll y lr)) (hvr : Valid r)
    (hh : h = y.height) (hll : y.height = getHeight r + 2)
    (htl : getHeight ll ≠ getHeight lr) (hb : h + 1 < uint32Size) :
    ∃ t1, putFixStep (Tree.node (Tree.node ll y lr) x r) = some t1 ∧ PutPost h t1 ∧
      entries t1 = entries (Tree.node (Tree.node ll y lr) x r) := by
  obtain ⟨hy, hy1, hy2, hvll, hvlr⟩ := hvl
  by_cases hlean : getHeight lr < getHeight ll
  · have hv := valid_single_right ll y lr x r hvll hvlr hvr hy (by omega) hy1 hll
    refine ⟨_, (putFixStep_LL ll y lr x r hll hlean hy1 (by omega) (by omega)).trans
      (rotateRight_node ll y lr x r (by omega) (by omega)), ⟨hv.1, Or.inl ?_⟩, by simp⟩
    simp only [getHeight_node]; omega
  · cases lr with
    | nil => simp only [getHeight_nil] at htl hlean; omega
    | node lrl z lrr =>
      obtain ⟨hz, hz1, hz2, hvlrl, hvlrr⟩ := hvlr
      simp only [getHeight_node] at hy hy1 hy2 htl hlean
      have hv := valid_double_right ll y lrl z lrr x r hvll hvlrl hvlrr hvr hy hz hz1 hz2
        (by omega) hll
      refine ⟨_, (putFixStep_LR ll y _ x r hll (by simp only [getHeight_node]; omega)
        (by simp only [getHeight_node]; omega) (by omega)
        (by simp only [getHeight_node]; omega)).trans
        (rotateLeftRight_node ll y lrl z lrr x r (by omega) (by omega)),
        ⟨hv.1, Or.inl ?_⟩, by simp⟩
      simp only [getHeight_node]; omega

theorem putFixStep_right (h : Nat) (l : Tree (Node K V)) (x : Node K V) (rl : Tree (Node K V))
    (y : Node K V) (rr : Tree (Node K V)) (hvl : Valid l) (hvr : Valid (Tree.node rl y rr))
    (hh : h = y.height) (hrr : y.height = getHeight l + 2)
    (htr : getHeight rl ≠ getHeight rr) (hb : h + 1 < uint32Size) :
    ∃ t1, putFixStep (Tree.node l x (Tree.node rl y rr)) = some t1 ∧ PutPost h t1 ∧
      entries t1 = entries (Tree.node l x (Tree.node rl y rr)) := by
  obtain ⟨hy, hy1, hy2, hvrl, hvrr⟩ := hvr
  by_cases hlean : getHeight rl < getHeight rr
  · have hv := valid_single_left l x rl y rr hvl hvrl hvrr hy (by omega) hy2 hrr
    refine ⟨_, (putFixStep_RR l x rl y rr hrr hlean hy2 (by omega) (by omega)).trans
      (rotateLeft_node l x rl y rr (by omega) (by omega)), ⟨hv.1, Or.inl ?_⟩, by simp⟩
    simp only [getHeight_node]; omega
  · cases rl with
    | nil => simp only [getHeight_nil] at htr hlean; omega
    | node rll z rlr =>
      obtain ⟨hz, hz1, hz2, hvrll, hvrlr⟩ := hvrl
      simp only [getHeight_node] at hy hy1 hy2 htr hlean
      have hv := valid_double_left l x rll z rlr y rr hvl hvrll hvrlr hvrr hy hz hz1 hz2
        (by omega) hrr
      refine ⟨_, (putFixStep_RL l x _ y rr hrr (by simp only [getHeight_node]; omega)
        (by simp only [getHeight_node]; omega) (by omega)
        (by simp only [getHeight_node]; omega)).trans
        (rotateRightLeft_node l x rll z rlr y rr (by omega) (by omega)),
        ⟨hv.1, Or.inl ?_⟩, by simp⟩
      simp only [getHeight_node]; omega

theorem putFixStep_spec (h : Nat) (t : Tree (Node K V)) (hpre : PutPre h t)
    (hb : h + 1 < uint32Size) :
    ∃ t1, putFixStep t = some t1 ∧ PutPost h t1 ∧ entries t1 = entries t := by
  cases t with
  | nil => exact absurd hpre (by simp [PutPre])
  | node l x r =>
    obtain ⟨hvl, hvr, hx, hcase⟩ := hpre
    rcases hcase with ⟨h1, h2, h3⟩ | ⟨h1, hne, h2, h3, htl, htr⟩
    · refine ⟨_, (step_calc l x r h2 h3 (by omega)).1,
        ⟨valid_calc l x r hvl hvr h2 h3, Or.inl ?_⟩, by simp⟩
      simp only [getHeight_node]; omega
    · by_cases hll : getHeight l = getHeight r + 2
      · have htl := htl hll
        cases l with
        | nil => exact absurd htl (by simp [Tilted])
        | node ll y lr =>
          exact putFixStep_left h ll y lr x r hvl hvr
            (by simp only [getHeight_node] at h1 hll; omega) hll htl hb
      · by_cases hrr : getHeight r = getHeight l + 2
        · have htr := htr hrr
          cases r with
          | nil => exact absurd htr (by simp [Tilted])
          | node rl y rr =>
            exact putFixStep_right h l x rl y rr hvl hvr
              (by simp only [getHeight_node] at h1 hrr; omega) hrr htr hb
        · refine ⟨_, (step_calc l x r (by omega) (by omega) (by omega)).1,
            ⟨valid_calc l x r hvl hvr (by omega) (by omega), Or.inr ⟨?_, ?_⟩⟩, by simp⟩
          · simp only [getHeight_node]; omega
          · right; simpa [Tilted] using hne

theorem removeFixStep_left (h : Nat) (ll : Tree (Node K V)) (y : Node K V)
    (lr : Tree (Node K V)) (x : Node K V) (r : Tree (Node K V))
    (hvl : Valid (Tree.node ll y lr)) (hvr : Valid r)
    (hh : h = y.height + 1) (hll : y.height = getHeight r + 2) (hb : h < uint32Size) :
    ∃ t1, removeFixStep (Tree.node (Tree.node ll y lr) x r) = some t1 ∧ RemovePost h t1 ∧
      entries t1 = entries (Tree.node (Tree.node ll y lr) x r) := by
  obtain ⟨hy, hy1, hy2, hvll, hvlr⟩ := hvl
  by_cases hlean : getHeight lr ≤ getHeight ll
  · have hv := valid_single_right ll y lr x r hvll hvlr hvr hy hlean hy1 hll
    refine ⟨_, (removeFixStep_LL ll y lr x r hll hy hlean hy1 (by omega)).trans
      (rotateRight_node ll y lr x r (by omega) (by omega)), ⟨hv.1, ?_⟩, by simp⟩
    simp only [getHeight_node]; omega
  · cases lr with
    | nil => simp only [getHeight_nil] at hlean; omega
    | node lrl z lrr =>
      obtain ⟨hz, hz1, hz2, hvlrl, hvlrr⟩ := hvlr
      simp only [getHeight_node] at hy hy1 hy2 hlean
      have hv := valid_double_right ll y lrl z lrr x r hvll hvlrl hvlrr hvr hy hz hz1 hz2
        (by omega) hll
      refine ⟨_, (removeFixStep_LR ll y _ x r hll (by simp only [getHeight_node]; omega)
        (by simp only [getHeight_node]; omega) (by omega)
        (by simp only [getHeight_node]; omega)).trans
        (rotateLeftRight_node ll y lrl z lrr x r (by omega) (by omega)),
        ⟨hv.1, ?_⟩, by simp⟩
      simp only [getHeight_node]; omega

theorem removeFixStep_right (h : Nat) (l : Tree (Node K V)) (x : Node K V)
    (rl : Tree (Node K V)) (y : Node K V) (rr : Tree (Node K V)) (hvl : Valid l)
    (hvr : Valid (Tree.node rl y rr))
    (hh : h = y.height + 1) (hrr : y.height = getHeight l + 2) (hb : h < uint32Size) :
    ∃ t1, removeFixStep (Tree.node l x (Tree.node rl y rr)) = some t1 ∧ RemovePost h t1 ∧
      entries t1 = entries (Tree.node l x (Tree.node rl y rr)) := by
  obtain ⟨hy, hy1, hy2, hvrl, hvrr⟩ := hvr
  by_cases hlean : getHeight rl ≤ getHeight rr
  · have hv := valid_single_left l x rl y rr hvl hvrl hvrr hy hlean hy2 hrr
    refine ⟨_, (removeFixStep_RR l x rl y rr hrr hy hlean hy2 (by omega)).trans
      (rotateLeft_node l x rl y rr (by omega) (by omega)), ⟨hv.1, ?_⟩, by simp⟩
    simp only [getHeight_node]; omega
  · cases rl with
    | nil => simp only [getHeight_nil] at hlean; omega
    | node rll z rlr =>
      obtain ⟨hz, hz1, hz2, hvrll, hvrlr⟩ := hvrl
      simp only [getHeight_node] at hy hy1 hy2 hlean
      have hv := valid_double_left l x rll z rlr y rr hvl hvrll hvrlr hvrr hy hz hz1 hz2
        (by omega) hrr
      refine ⟨_, (removeFixStep_RL l x _ y rr hrr (by simp only [getHeight_node]; omega)
        (by simp only [getHeight_node]; omega) (by omega)
        (by simp only [getHeight_node]; omega)).trans
        (rotateRightLeft_node l x rll z rlr y rr (by omega) (by omega)),
        ⟨hv.1, ?_⟩, by simp⟩
      simp only [getHeight_node]; omega

theorem removeFixStep_spec (h : Nat) (t : Tree (Node K V)) (hpre : RemovePre h t)
    (hb : h < uint32Size) :
    ∃ t1, removeFixStep t = some t1 ∧ RemovePost h t1 ∧ entries t1 = entries t := by
  cases t with
  | nil => exact absurd hpre (by simp [RemovePre])
  | node l x r =>
    obtain ⟨hvl, hvr, hx, h2, h3, hcase⟩ := hpre
    by_cases hll : getHeight l = getHeight r + 2
    · cases l with
      | nil => simp at hll
      | node ll y lr =>
        exact removeFixStep_left h ll y lr x r hvl hvr
          (by simp only [getHeight_node] at hcase hll; omega) hll hb
    · by_cases hrr : getHeight r = getHeight l + 2
      · cases r with
        | nil => simp at hrr
        | node rl y rr =>
          exact removeFixStep_right h l x rl y rr hvl hvr
            (by simp only [getHeight_node] at hcase hrr; omega) hrr hb
      · refine ⟨_, (step_calc l x r (by omega) (by omega) (by omega)).2,
          ⟨valid_calc l x r hvl hvr (by omega) (by omega), ?_⟩, by simp⟩
        simp only [getHeight_node]; omega

end AVLTree

namespace AVLTree

variable {K V : Type}

theorem entries_zip (t : Tree (Node K V)) (path : List (Frame (Node K V))) :
    entries (zip t path) =
      (pathBefore path).map (fun x => (x.key, x.value)) ++
        (entries t ++ (pathAfter path).map (fun x => (x.key, x.value))) :=
  entriesOf_zip t path

theorem entries_zip_congr {a b : Tree (Node K V)} (h : entries a = entries b)
    (path : List (Frame (Node K V))) : entries (zip a path) = entries (zip b path) := by
  rw [entries_zip, entries_zip, h]

theorem entries_plug_congr {a b : Tree (Node K V)} (h : entries a = entries b)
    (f : Frame (Node K V)) : entries (f.plug a) = entries (f.plug b) := by
  cases f <;> simp [Frame.plug, h]

theorem pathOK_lt {bound : Nat} {path : List (Frame (Node K V))} {h : Nat}
    (hp : PathOK bound path h) : h < bound := by
  induction path generalizing h with
  | nil => exact hp
  | cons f path ih =>
    cases f with
    | left x r =>
      obtain ⟨-, h1, -, -, h2⟩ := hp
      have := ih h2
      omega
    | right l x =>
      obtain ⟨-, h1, -, -, h2⟩ := hp
      have := ih h2
      omega

theorem avl_zip_valid {bound : Nat} {t : Tree (Node K V)} {path : List (Frame (Node K V))}
    (hv : Valid t) (hp : PathOK bound path (getHeight t)) :
    Valid (zip t path) ∧ getHeight (zip t path) < bound := by
  induction path generalizing t with
  | nil => exact ⟨hv, hp⟩
  | cons f path ih =>
    cases f with
    | left x r =>
      obtain ⟨h0, h1, h2, h3, h4⟩ := hp
      exact ih (t := Tree.node t x r) ⟨h1, h2, h3, hv, h0⟩ h4
    | right l x =>
      obtain ⟨h0, h1, h2, h3, h4⟩ := hp
      exact ih (t := Tree.node l x t) ⟨h1, h3, h2, h0, hv⟩ h4

theorem avl_zip_valid_inv {bound : Nat} {t : Tree (Node K V)} {path : List (Frame (Node K V))}
    (hv : Valid (zip t path)) (hb : getHeight (zip t path) < bound) :
    Valid t ∧ PathOK bound path (getHeight t) := by
  induction path generalizing t with
  | nil => exact ⟨hv, hb⟩
  | cons f path ih =>
    cases f with
    | left x r =>
      obtain ⟨⟨h1, h2, h3, h4, h5⟩, h6⟩ := ih (t := Tree.node t x r) hv hb
      exact ⟨h4, h5, h1, h2, h3, h6⟩
    | right l x =>
      obtain ⟨⟨h1, h2, h3, h4, h5⟩, h6⟩ := ih (t := Tree.node l x t) hv hb
      exact ⟨h5, h4, h1, h3, h2, h6⟩

theorem plug_putPre {bound : Nat} {h : Nat} {t : Tree (Node K V)} {f : Frame (Node K V)}
    {path : List (Frame (Node K V))} (ht : PutPost h t) (hp : PathOK bound (f :: path) h) :
    PutPre f.data.height (f.plug t) ∧ PathOK bound path f.data.height := by
  obtain ⟨hv, hh⟩ := ht
  cases f with
  | left x r =>
    obtain ⟨h0, h1, h2, h3, h4⟩ := hp
    refine ⟨⟨hv, h0, rfl, ?_⟩, h4⟩
    simp only [Frame.data]
    rcases hh with hh | ⟨hh, ht⟩
    · left; omega
    · by_cases hc : getHeight r = h + 1
      · left; omega
      · right
        refine ⟨by omega, by omega, by omega, by omega, fun hc1 => ?_, fun hc1 => by omega⟩
        rcases ht with ht | ht
        · omega
        · exact ht
  | right l x =>
    obtain ⟨h0, h1, h2, h3, h4⟩ := hp
    refine ⟨⟨h0, hv, rfl, ?_⟩, h4⟩
    simp only [Frame.data]
    rcases hh with hh | ⟨hh, ht⟩
    · left; omega
    · by_cases hc : getHeight l = h + 1
      · left; omega
      · right
        refine ⟨by omega, by omega, by omega, by omega, fun hc1 => by omega, fun hc1 => ?_⟩
        rcases ht with ht | ht
        · omega
        · exact ht

theorem plug_removePre {bound : Nat} {h : Nat} {t : Tree (Node K V)} {f : Frame (Node K V)}
    {path : List (Frame (Node K V))} (ht : RemovePost h t) (hp : PathOK bound (f :: path) h) :
    RemovePre f.data.height (f.plug t) ∧ PathOK bound path f.data.height := by
  obtain ⟨hv, hh⟩ := ht
  cases f with
  | left x r =>
    obtain ⟨h0, h1, h2, h3, h4⟩ := hp
    refine ⟨⟨hv, h0, rfl, ?_⟩, h4⟩
    simp only [Frame.data]
    refine ⟨by omega, by omega, ?_⟩
    omega
  | right l x =>
    obtain ⟨h0, h1, h2, h3, h4⟩ := hp
    refine ⟨⟨h0, hv, rfl, ?_⟩, h4⟩
    simp only [Frame.data]
    refine ⟨by omega, by omega, ?_⟩
    omega

theorem avl_putFix_spec {bound : Nat} (hbound : bound < uint32Size) (h : Nat)
    (node : Tree (Node K V)) (path : List (Frame (Node K V))) (hpre : PutPre h node)
    (hp : PathOK bound path h) :
    ∃ root, putFix node path = some root ∧ Valid root ∧
      entries root = entries (zip node path) := by
  induction path generalizing node h with
  | nil =>
    have hlt := pathOK_lt hp
    obtain ⟨t1, h1, h2, h3⟩ := putFixStep_spec h node hpre (by omega)
    exact ⟨t1, h1, h2.1, h3⟩
  | cons f path ih =>
    have hlt := pathOK_lt hp
    obtain ⟨t1, h1, h2, h3⟩ := putFixStep_spec h node hpre (by omega)
    obtain ⟨h4, h5⟩ := plug_putPre h2 hp
    obtain ⟨root, h6, h7, h8⟩ := ih _ _ h4 h5
    refine ⟨root, ?_, h7, ?_⟩
    · simp only [putFix, h1, Option.some_bind, h6]
    · rw [h8]
      exact entries_zip_congr (entries_plug_congr h3 f) path

theorem removeFixLoop_spec {bound : Nat} (hbound : bound ≤ uint32Size) (h : Nat)
    (node : Tree (Node K V)) (path : List (Frame (Node K V))) (hpre : RemovePre h node)
    (hp : PathOK bound path h) :
    ∃ root, removeFixLoop node path = some root ∧ Valid root ∧
      entries root = entries (zip node path) := by
  induction path generalizing node h with
  | nil =>
    have hlt := pathOK_lt hp
    obtain ⟨t1, h1, h2, h3⟩ := removeFixStep_spec h node hpre (by omega)
    exact ⟨t1, h1, h2.1, h3⟩
  | cons f path ih =>
    have hlt := pathOK_lt hp
    obtain ⟨t1, h1, h2, h3⟩ := removeFixStep_spec h node hpre (by omega)
    obtain ⟨h4, h5⟩ := plug_removePre h2 hp
    obtain ⟨root, h6, h7, h8⟩ := ih _ _ h4 h5
    refine ⟨root, ?_, h7, ?_⟩
    · simp only [removeFixLoop, h1, Option.some_bind, h6]
    · rw [h8]
      exact entries_zip_congr (entries_plug_congr h3 f) path

end AVLTree

namespace AVLTree

variable {K V : Type}

theorem avl_putLoop_eq (tree : AVLTree K V) (k : K) (v : V) (t : Tree (Node K V))
    (path : List (Frame (Node K V))) :
    putLoop tree k v t path =
      match t with
      | Tree.nil => none
      | Tree.node _ _ _ =>
        match getLoop tree.comparator Node.key k t path with
        | ⟨Tree.nil, []⟩ => none
        | ⟨Tree.nil, f :: rest⟩ =>
          (putFix (f.plug (Tree.node Tree.nil ⟨k, v, 1⟩ Tree.nil)) rest).map
            fun root => { tree with root := root, size := incr32 tree.size }
        | ⟨Tree.node l1 x1 r1, p⟩ =>
          some { tree with root := zip (Tree.node l1 { x1 with key := k, value := v } r1) p } := by
  induction t generalizing path with
  | nil => rfl
  | node l x r ihl ihr =>
    unfold putLoop getLoop
    simp only
    split_ifs
    · rfl
    · cases l with
      | nil => simp [getLoop, Frame.plug]
      | node ll y lr => simpa using ihl (Frame.left x r :: path)
    · cases r with
      | nil => simp [getLoop, Frame.plug]
      | node rl y rr => simpa using ihr (Frame.right l x :: path)

theorem valid_leaf (k : K) (v : V) :
    PutPost 0 (Tree.node Tree.nil (⟨k, v, 1⟩ : Node K V) Tree.nil) := by
  refine ⟨⟨rfl, ?_, ?_, trivial, trivial⟩, Or.inr ⟨rfl, Or.inl rfl⟩⟩ <;> simp

theorem avl_put_spec (tree : AVLTree K V) (k : K) (v : V) (h : TotalOrder tree.comparator)
    (hs : StrictlyIncreasing tree.comparator (keysOf Node.key tree.root))
    (hv : Valid tree.root) (hroom : getHeight tree.root + 1 < uint32Size) :
    ∃ t, tree.Put k v = some t ∧ t.comparator = tree.comparator ∧
      PutSpec tree.comparator k v (entries tree.root) (entries t.root) tree.size t.size ∧
      Valid t.root := by
  obtain ⟨root, cmp, size⟩ := tree
  simp only at h hs hv hroom ⊢
  cases root with
  | nil =>
    refine ⟨_, rfl, rfl, Or.inl ⟨[], [], rfl, by simp, by simp, ?_, rfl⟩, (valid_leaf k v).1⟩
    simp [entries, entriesOf]
  | node l x r =>
    simp only [Put, avl_putLoop_eq]
    generalize hloc : getLoop cmp Node.key k (Tree.node l x r) [] = loc
    have hz := @getLoop_zip _ _ cmp Node.key k (Tree.node l x r) []
    rw [hloc] at hz
    simp only [zip] at hz
    obtain ⟨node, p⟩ := loc
    simp only at hz
    have hinv := @avl_zip_valid_inv _ _ (getHeight (Tree.node l x r) + 1) node p
      (by rw [hz]; exact hv) (by rw [hz]; omega)
    cases node with
    | nil =>
      cases p with
      | nil => simp [zip] at hz
      | cons f rest =>
        obtain ⟨hpre, hpath⟩ := plug_putPre (valid_leaf k v) hinv.2
        obtain ⟨root1, h1, h2, h3⟩ := avl_putFix_spec (by omega) _ _ rest hpre hpath
        refine ⟨_, by simp only [h1, Option.map_some']; rfl, rfl, ?_, h2⟩
        apply put_absent h v hs hloc
        show entries root1 = _
        rw [h3]
        show entries (zip (Tree.node Tree.nil ⟨k, v, 1⟩ Tree.nil) (f :: rest)) = _
        rw [entries_zip]; simp
    | node l1 x1 r1 =>
      refine ⟨_, rfl, rfl, ?_, ?_⟩
      · apply put_found v hloc
        show entries (zip _ p) = _
        rw [entries_zip, entries_node]; rfl
      · obtain ⟨⟨h1, h2, h3, h4, h5⟩, h6⟩ := hinv
        exact (avl_zip_valid (t := Tree.node l1 { x1 with key := k, value := v } r1)
          ⟨h1, h2, h3, h4, h5⟩ h6).1

theorem remove_at {bound : Nat} (hbound : bound ≤ uint32Size) (tree : AVLTree K V)
    (s c : Tree (Node K V)) (q : List (Frame (Node K V))) (h : Nat) (hvc : Valid c)
    (hh : getHeight c + 1 = h) (hq : PathOK bound q h) :
    ∃ root, removeFix (tree.replace ⟨s, q⟩ c).1 (tree.replace ⟨s, q⟩ c).2 = some root ∧
      Valid root ∧ entries root = entries (zip c q) := by
  cases q with
  | nil => exact ⟨c, rfl, hvc, rfl⟩
  | cons f rest =>
    obtain ⟨hpre, hpath⟩ := plug_removePre (t := c) ⟨hvc, Or.inr hh⟩ hq
    obtain ⟨root, h1, h2, h3⟩ := removeFixLoop_spec hbound _ _ rest hpre hpath
    refine ⟨root, ?_, h2, h3⟩
    cases f <;> exact h1

theorem avl_remove_spec (tree : AVLTree K V) (k : K) (h : TotalOrder tree.comparator)
    (hs : StrictlyIncreasing tree.comparator (keysOf Node.key tree.root))
    (hv : Valid tree.root) (hroom : getHeight tree.root < uint32Size) :
    ∃ t, tree.Remove k = some t ∧ t.comparator = tree.comparator ∧
      RemoveSpec tree.comparator k (entries tree.root) (entries t.root) tree.size t.size ∧
      Valid t.root := by
  have hloc0 : tree.get k = getLoop tree.comparator Node.key k tree.root [] := rfl
  generalize hloc : getLoop tree.comparator Node.key k tree.root [] = loc at hloc0
  have hz := @getLoop_zip _ _ tree.comparator Node.key k tree.root []
  rw [hloc] at hz
  simp only [zip] at hz
  obtain ⟨node, p⟩ := loc
  simp only at hz
  have hinv := @avl_zip_valid_inv _ _ uint32Size node p
    (by rw [hz]; exact hv) (by rw [hz]; omega)
  cases node with
  | nil =>
    refine ⟨tree, ?_, rfl, remove_absent h hs hloc tree.size, hv⟩
    simp only [Remove, hloc0]
  | node l x r =>
    obtain ⟨⟨h1, h2, h3, h4, h5⟩, h6⟩ := hinv
    simp only [getHeight_node] at h6
    cases l with
    | nil =>
      cases r with
      | nil =>
        obtain ⟨root, e1, e2, e3⟩ := remove_at (le_refl _) tree
          (Tree.node Tree.nil x Tree.nil) Tree.nil p x.height trivial
          (by simp only [getHeight_nil] at h1 ⊢; omega) h6
        refine ⟨{ tree with root := root, size := decr32 tree.size }, ?_, rfl, ?_, e2⟩
        · simp only [Remove, hloc0, isNil_nil, Bool.true_eq_false, and_self, if_false, if_true,
            Option.some_bind, e1, Option.map_some']
        · apply remove_found hloc
          show entries root = _
          rw [e3, entries_zip]; rfl
      | node rl y rr =>
        obtain ⟨root, e1, e2, e3⟩ := remove_at (le_refl _) tree
          (Tree.node Tree.nil x (Tree.node rl y rr)) (Tree.node rl y rr) p x.height h5
          (by simp only [getHeight_nil] at h1 ⊢; omega) h6
        refine ⟨{ tree with root := root, size := decr32 tree.size }, ?_, rfl, ?_, e2⟩
        · simp only [Remove, hloc0, isNil_nil, isNil_node, Bool.true_eq_false,
            Bool.false_eq_true, and_false, false_and, and_self, if_false, if_true,
            Option.some_bind, e1, Option.map_some']
        · apply remove_found hloc
          show entries root = _
          rw [e3, entries_zip]; rfl
    | node ll y lr =>
      cases r with
      | nil =>
        obtain ⟨root, e1, e2, e3⟩ := remove_at (le_refl _) tree
          (Tree.node (Tree.node ll y lr) x Tree.nil) (Tree.node ll y lr) p x.height h4
          (by simp only [getHeight_nil] at h1 ⊢; omega) h6
        refine ⟨{ tree with root := root, size := decr32 tree.size }, ?_, rfl, ?_, e2⟩
        · simp only [Remove, hloc0, isNil_nil, isNil_node, Bool.true_eq_false,
            Bool.false_eq_true, and_false, false_and, and_self, if_false, if_true,
            Option.some_bind, e1, Option.map_some']
        · apply remove_found hloc
          show entries root = _
          rw [e3, entries_zip]; simp [entries, entriesOf]
      | node rl z rr =>
        obtain ⟨nx, nr, m1, m2, m3, m4⟩ := minLoop_spec rl z rr []
        generalize hnext : minLoop (Tree.node rl z rr) [] = next at m1 m2 m3 m4
        obtain ⟨nnode, npath⟩ := next
        simp only at m1 m2 m3 m4
        subst m1
        simp only [zip] at m2
        have hroot2 := @avl_zip_valid _ _ uint32Size
          (Tree.node (Tree.node ll y lr) { x with key := nx.key, value := nx.value }
            (Tree.node rl z rr)) p ⟨h1, h2, h3, h4, h5⟩ h6
        have hzip2 : zip (Tree.node Tree.nil nx nr)
            (npath ++ Frame.right (Tree.node ll y lr)
              { x with key := nx.key, value := nx.value } :: p) =
            zip (Tree.node (Tree.node ll y lr) { x with key := nx.key, value := nx.value }
              (Tree.node rl z rr)) p := by
          rw [zip_append, m2]; rfl
        have hinv2 := @avl_zip_valid_inv _ _ uint32Size (Tree.node Tree.nil nx nr)
          (npath ++ Frame.right (Tree.node ll y lr)
              { x with key := nx.key, value := nx.value } :: p)
          (by rw [hzip2]; exact hroot2.1) (by rw [hzip2]; exact hroot2.2)
        obtain ⟨⟨n1, n2, n3, n4, n5⟩, n6⟩ := hinv2
        simp only [getHeight_node] at n6
        obtain ⟨root, e1, e2, e3⟩ := remove_at (le_refl _) tree
          (Tree.node Tree.nil nx nr) nr _ nx.height n5
          (by simp only [getHeight_nil] at n1 ⊢; omega) n6
        refine ⟨{ tree with root := root, size := decr32 tree.size }, ?_, rfl, ?_, e2⟩
        · simp only [Remove, hloc0, isNil_node, and_self, if_true, min, hnext,
            Option.some_bind, e1, Option.map_some']
        · apply remove_found hloc
          show entries root = _
          rw [e3, entries_zip, pathBefore_append, pathAfter_append]
          simp only [pathAfter, List.append_nil] at m4
          simp only [pathBefore, pathAfter, m3, entries, entriesOf, m4]
          simp

end AVLTree

/-! ## The Red-Black engine: colours and black counts -/

namespace RBTree

variable {K V : Type}

@[simp] theorem getColor_nil : getColor (Tree.nil : Tree (Node K V)) = Color.black := rfl

@[simp] theorem getColor_node (l : Tree (Node K V)) (x : Node K V) (r : Tree (Node K V)) :
    getColor (Tree.node l x r) = x.color := rfl

@[simp] theorem bh_nil : bh (Tree.nil : Tree (Node K V)) = 0 := rfl

@[simp] theorem bh_node (l : Tree (Node K V)) (x : Node K V) (r : Tree (Node K V)) :
    bh (Tree.node l x r) = bh l + blackUnit x.color := rfl

@[simp] theorem blackUnit_black : blackUnit Color.black = 1 := rfl

@[simp] theorem blackUnit_red : blackUnit Color.red = 0 := rfl

theorem color_cases (c : Color) : c = Color.black ∨ c = Color.red := by
  cases c <;> simp

theorem ne_red_iff {c : Color} : ¬ c = Color.red ↔ c = Color.black := by
  cases c <;> simp

theorem ne_black_iff {c : Color} : ¬ c = Color.black ↔ c = Color.red := by
  cases c <;> simp

theorem bh_mem_blackCounts (t : Tree (Node K V)) : bh t ∈ blackCounts t := by
  induction t with
  | nil => simp [blackCounts]
  | node l x r ihl _ =>
    simp only [blackCounts, bh_node, blackUnit, List.mem_map, List.mem_append]
    exact ⟨bh l, Or.inl ihl, rfl⟩

theorem blackCounts_of_bhOk {t : Tree (Node K V)} (h : BHOk t) :
    ∀ a ∈ blackCounts t, a = bh t := by
  induction t with
  | nil => simp [blackCounts]
  | node l x r ihl ihr =>
    obtain ⟨h1, h2, h3⟩ := h
    intro a ha
    simp only [blackCounts, List.mem_map, List.mem_append] at ha
    obtain ⟨b, hb, rfl⟩ := ha
    rcases hb with hb | hb
    · rw [ihl h2 b hb]; rfl
    · rw [ihr h3 b hb, ← h1]; rfl

theorem blackBalanced_iff (t : Tree (Node K V)) : BlackBalanced t ↔ BHOk t := by
  constructor
  · intro h
    induction t with
    | nil => trivial
    | node l x r ihl ihr =>
      have hmem : ∀ b, b ∈ blackCounts l ∨ b ∈ blackCounts r →
          b + blackUnit x.color ∈ blackCounts (Tree.node l x r) := by
        intro b hb
        simp only [blackCounts, List.mem_map, List.mem_append]
        exact ⟨b, hb, rfl⟩
      refine ⟨?_, ihl ?_, ihr ?_⟩
      · have := h _ (hmem _ (Or.inl (bh_mem_blackCounts l))) _
          (hmem _ (Or.inr (bh_mem_blackCounts r)))
        omega
      · intro a ha b hb
        have := h _ (hmem a (Or.inl ha)) _ (hmem b (Or.inl hb))
        omega
      · intro a ha b hb
        have := h _ (hmem a (Or.inr ha)) _ (hmem b (Or.inr hb))
        omega
  · intro h a ha b hb
    rw [blackCounts_of_bhOk h a ha, blackCounts_of_bhOk h b hb]

theorem rb_valid_iff (t : Tree (Node K V)) : Valid t ↔ NoRedRed t ∧ BlackBalanced t := by
  rw [blackBalanced_iff]
  induction t with
  | nil => simp [Valid, NoRedRed, BHOk]
  | node l x r ihl ihr =>
    simp only [Valid, NoRedRed, BHOk, ihl, ihr]
    constructor
    · rintro ⟨h1, h2, ⟨h3, h4⟩, h5, h6⟩
      exact ⟨⟨h1, h3, h5⟩, h2, h4, h6⟩
    · rintro ⟨⟨h1, h3, h5⟩, h2, h4, h6⟩
      exact ⟨h1, h2, ⟨h3, h4⟩, h5, h6⟩

/-! ### Locations -/

theorem pathOK_of_red {path : List (Frame (Node K V))} {n : Nat} (c : Color)
    (h : PathOK path n Color.red) : PathOK path n c := by
  cases path with
  | nil => trivial
  | cons f path =>
    cases f with
    | left x r =>
      obtain ⟨h1, h2, h3, h4⟩ := h
      exact ⟨h1, h2, fun hx => absurd (h3 hx).1 (by simp), h4⟩
    | right l x =>
      obtain ⟨h1, h2, h3, h4⟩ := h
      exact ⟨h1, h2, fun hx => absurd (h3 hx).1 (by simp), h4⟩

theorem pathOK_black {path : List (Frame (Node K V))} {n : Nat} {c : Color}
    (h : PathOK path n c) : PathOK path n Color.black := by
  cases path with
  | nil => trivial
  | cons f path =>
    cases f with
    | left x r =>
      obtain ⟨h1, h2, h3, h4⟩ := h
      exact ⟨h1, h2, fun hx => ⟨rfl, (h3 hx).2⟩, h4⟩
    | right l x =>
      obtain ⟨h1, h2, h3, h4⟩ := h
      exact ⟨h1, h2, fun hx => ⟨rfl, (h3 hx).2⟩, h4⟩

theorem rb_zip_valid {t : Tree (Node K V)} {path : List (Frame (Node K V))}
    (hv : Valid t) (hp : PathOK path (bh t) (getColor t)) : Valid (zip t path) := by
  induction path generalizing t with
  | nil => exact hv
  | cons f path ih =>
    cases f with
    | left x r =>
      obtain ⟨h1, h2, h3, h4⟩ := hp
      exact ih (t := Tree.node t x r) ⟨h3, h2.symm, hv, h1⟩ h4
    | right l x =>
      obtain ⟨h1, h2, h3, h4⟩ := hp
      refine ih (t := Tree.node l x t) ⟨fun hx => ⟨(h3 hx).2, (h3 hx).1⟩, h2, h1, hv⟩ ?_
      simp only [bh_node, getColor_node, h2]; exact h4

theorem rb_zip_valid_inv {t : Tree (Node K V)} {path : List (Frame (Node K V))}
    (hv : Valid (zip t path)) : Valid t ∧ PathOK path (bh t) (getColor t) := by
  induction path generalizing t with
  | nil => exact ⟨hv, trivial⟩
  | cons f path ih =>
    cases f with
    | left x r =>
      obtain ⟨⟨h1, h2, h3, h4⟩, h5⟩ := ih (t := Tree.node t x r) hv
      exact ⟨h3, h4, h2.symm, h1, h5⟩
    | right l x =>
      obtain ⟨⟨h1, h2, h3, h4⟩, h5⟩ := ih (t := Tree.node l x t) hv
      refine ⟨h4, h3, h2, fun hx => ⟨(h1 hx).2, (h1 hx).1⟩, ?_⟩
      simp only [bh_node, getColor_node, h2] at h5; exact h5

theorem zip_color (t : Tree (Node K V)) (path : List (Frame (Node K V))) :
    getColor (zip t path) = Color.black ↔ TopBlack path (getColor t) := by
  induction path generalizing t with
  | nil => rfl
  | cons f path ih =>
    cases f with
    | left x r => exact ih (t := Tree.node t x r)
    | right l x => exact ih (t := Tree.node l x t)

theorem topBlack_cons {f : Frame (Node K V)} {path : List (Frame (Node K V))} (c c1 : Color)
    (h : TopBlack (f :: path) c) : TopBlack (f :: path) c1 := h

/-! ### Addresses, keys and values -/

@[simp] theorem cells_nil : cells (Tree.nil : Tree (Node K V)) = [] := rfl

@[simp] theorem cells_node (l : Tree (Node K V)) (x : Node K V) (r : Tree (Node K V)) :
    cells (Tree.node l x r) = cells l ++ x.cell :: cells r := by
  simp [cells]

theorem cells_zip (t : Tree (Node K V)) (path : List (Frame (Node K V))) :
    cells (zip t path) =
      (pathBefore path).map Node.cell ++ (cells t ++ (pathAfter path).map Node.cell) := by
  simp [cells, toList_zip]

theorem entries_eq_cells (t : Tree (Node K V)) :
    entries t = (cells t).map (fun c => (c.2.1, c.2.2)) := by
  simp [entries, entriesOf, cells, Node.cell]

theorem ptrs_eq_cells (t : Tree (Node K V)) :
    t.toList.map Node.ptr = (cells t).map (fun c => c.1) := by
  simp [cells, Node.cell]

theorem setColor_node (c : Color) (l : Tree (Node K V)) (x : Node K V)
    (r : Tree (Node K V)) :
    setColor c (Tree.node l x r) = some (Tree.node l { x with color := c } r) := rfl

theorem valid_blacken {t : Tree (Node K V)} (h : Valid t) :
    Valid (setColorIfPresent Color.black t) ∧
      getColor (setColorIfPresent Color.black t) = Color.black ∧
      cells (setColorIfPresent Color.black t) = cells t := by
  cases t with
  | nil => exact ⟨trivial, rfl, rfl⟩
  | node l x r =>
    obtain ⟨h1, h2, h3, h4⟩ := h
    exact ⟨⟨fun hx => absurd hx (by simp), h2, h3, h4⟩, rfl,
      by simp [setColorIfPresent, Node.cell]⟩

end RBTree

namespace RBTree

variable {K V : Type}

/-! ### The insert fix-up, case by case -/

theorem putFix_root (l : Tree (Node K V)) (x : Node K V) (r : Tree (Node K V)) :
    putFix (Tree.node l x r) [] = some (Tree.node l { x with color := Color.black } r) := rfl

theorem putFix_blackParent (l : Tree (Node K V)) (x : Node K V) (r : Tree (Node K V))
    (parent : Frame (Node K V)) (path : List (Frame (Node K V)))
    (h : parent.data.color = Color.black) :
    putFix (Tree.node l x r) (parent :: path) = some (zip (Tree.node l x r) (parent :: path)) := by
  cases path with
  | nil => simp [putFix, h]
  | cons g rest => simp [putFix, h]

theorem putFix_redUncle_left (l : Tree (Node K V)) (x : Node K V) (r : Tree (Node K V))
    (parent : Frame (Node K V)) (gx : Node K V) (uncle : Tree (Node K V))
    (path : List (Frame (Node K V))) (h : parent.data.color = Color.red)
    (hu : getColor uncle = Color.red) :
    putFix (Tree.node l x r) (parent :: Frame.left gx uncle :: path) =
      (setColor Color.black (parent.plug (Tree.node l x r))).bind fun p =>
        putFix (Tree.node p { gx with color := Color.red }
          (setColorIfPresent Color.black uncle)) path := by
  simp [putFix, h, hu]

theorem putFix_redUncle_right (l : Tree (Node K V)) (x : Node K V) (r : Tree (Node K V))
    (parent : Frame (Node K V)) (gx : Node K V) (uncle : Tree (Node K V))
    (path : List (Frame (Node K V))) (h : parent.data.color = Color.red)
    (hu : getColor uncle = Color.red) :
    putFix (Tree.node l x r) (parent :: Frame.right uncle gx :: path) =
      (setColor Color.black (parent.plug (Tree.node l x r))).bind fun p =>
        putFix (Tree.node (setColorIfPresent Color.black uncle)
          { gx with color := Color.red } p) path := by
  simp [putFix, h, hu]

theorem putFix_LL (l : Tree (Node K V)) (x : Node K V) (r : Tree (Node K V))
    (px : Node K V) (s : Tree (Node K V)) (gx : Node K V) (uncle : Tree (Node K V))
    (path : List (Frame (Node K V))) (h : px.color = Color.red)
    (hu : getColor uncle = Color.black) :
    putFix (Tree.node l x r) (Frame.left px s :: Frame.left gx uncle :: path) =
      some (zip (Tree.node (Tree.node l x r) { px with color := Color.black }
        (Tree.node s { gx with color := Color.red } uncle)) path) := by
  simp [putFix, h, hu, Frame.data, Frame.plug, setColor, rotateRight]

theorem putFix_LR (l : Tree (Node K V)) (x : Node K V) (r : Tree (Node K V))
    (px : Node K V) (s : Tree (Node K V)) (gx : Node K V) (uncle : Tree (Node K V))
    (path : List (Frame (Node K V))) (h : px.color = Color.red)
    (hu : getColor uncle = Color.black) :
    putFix (Tree.node l x r) (Frame.right s px :: Frame.left gx uncle :: path) =
      some (zip (Tree.node (Tree.node s px l) { x with color := Color.black }
        (Tree.node r { gx with color := Color.red } uncle)) path) := by
  simp [putFix, h, hu, Frame.data, Frame.plug, setColor, rotateRight, rotateLeft]

theorem putFix_RR (l : Tree (Node K V)) (x : Node K V) (r : Tree (Node K V))
    (px : Node K V) (s : Tree (Node K V)) (gx : Node K V) (uncle : Tree (Node K V))
    (path : List (Frame (Node K V))) (h : px.color = Color.red)
    (hu : getColor uncle = Color.black) :
    putFix (Tree.node l x r) (Frame.right s px :: Frame.right uncle gx :: path) =
      some (zip (Tree.node (Tree.node uncle { gx with color := Color.red } s)
        { px with color := Color.black } (Tree.node l x r)) path) := by
  simp [putFix, h, hu, Frame.data, Frame.plug, setColor, rotateLeft]

theorem putFix_RL (l : Tree (Node K V)) (x : Node K V) (r : Tree (Node K V))
    (px : Node K V) (s : Tree (Node K V)) (gx : Node K V) (uncle : Tree (Node K V))
    (path : List (Frame (Node K V))) (h : px.color = Color.red)
    (hu : getColor uncle = Color.black) :
    putFix (Tree.node l x r) (Frame.left px s :: Frame.right uncle gx :: path) =
      some (zip (Tree.node (Tree.node uncle { gx with color := Color.red } l)
        { x with color := Color.black } (Tree.node r px s)) path) := by
  simp [putFix, h, hu, Frame.data, Frame.plug, setColor, rotateRight, rotateLeft]

end RBTree

namespace RBTree

variable {K V : Type}

theorem pathOK_recolor {f : Frame (Node K V)} {path : List (Frame (Node K V))} {n : Nat}
    {c : Color} (c1 : Color) (h : PathOK (f :: path) n c) (hf : f.data.color = Color.black) :
    PathOK (f :: path) n c1 := by
  cases f with
  | left x r =>
    obtain ⟨h1, h2, -, h4⟩ := h
    exact ⟨h1, h2, fun hx => absurd (hf.symm.trans hx) (by simp), h4⟩
  | right l x =>
    obtain ⟨h1, h2, -, h4⟩ := h
    exact ⟨h1, h2, fun hx => absurd (hf.symm.trans hx) (by simp), h4⟩

/-- What a path with a red parent says about the parent's other child. -/
theorem pathOK_redParent {f : Frame (Node K V)} {path : List (Frame (Node K V))} {n : Nat}
    {c : Color} (h : PathOK (f :: path) n c) (hf : f.data.color = Color.red) :
    Valid f.sibling ∧ bh f.sibling = n ∧ getColor f.sibling = Color.black ∧
      PathOK path n Color.red := by
  cases f with
  | left x r =>
    obtain ⟨h1, h2, h3, h4⟩ := h
    simp only [Frame.data] at hf
    simp only [hf, blackUnit_red, Nat.add_zero] at h4
    exact ⟨h1, h2, (h3 hf).2, h4⟩
  | right l x =>
    obtain ⟨h1, h2, h3, h4⟩ := h
    simp only [Frame.data] at hf
    simp only [hf, blackUnit_red, Nat.add_zero] at h4
    exact ⟨h1, h2, (h3 hf).2, h4⟩

/-- The parent repainted black, with the red node below it. -/
theorem valid_plug_black (f : Frame (Node K V)) (t : Tree (Node K V)) (hv : Valid t)
    (hs : Valid f.sibling) (hb : bh f.sibling = bh t) :
    ∃ p, setColor Color.black (f.plug t) = some p ∧ Valid p ∧ bh p = bh t + 1 ∧
      getColor p = Color.black ∧ cells p = cells (f.plug t) := by
  cases f with
  | left x r =>
    exact ⟨_, rfl, ⟨fun hx => absurd hx (by simp), hb.symm, hv, hs⟩, rfl, rfl,
      by simp [Frame.plug, Node.cell]⟩
  | right l x =>
    refine ⟨_, rfl, ⟨fun hx => absurd hx (by simp), hb, hs, hv⟩, ?_, rfl,
      by simp [Frame.plug, Node.cell]⟩
    simp only [Frame.sibling] at hb
    simp [Frame.plug, hb]

theorem valid_repaint_uncle (u : Tree (Node K V)) (hv : Valid u)
    (hc : getColor u = Color.red) :
    Valid (setColorIfPresent Color.black u) ∧ bh (setColorIfPresent Color.black u) = bh u + 1 ∧
      getColor (setColorIfPresent Color.black u) = Color.black ∧
      cells (setColorIfPresent Color.black u) = cells u := by
  cases u with
  | nil => simp at hc
  | node l x r =>
    simp only [getColor_node] at hc
    obtain ⟨h1, h2, h3, h4⟩ := hv
    refine ⟨⟨fun hx => absurd hx (by simp), h2, h3, h4⟩, ?_, rfl,
      by simp [setColorIfPresent, Node.cell]⟩
    simp [setColorIfPresent, hc]

theorem cells_plug_congr {a b : Tree (Node K V)} (h : cells a = cells b)
    (f : Frame (Node K V)) : cells (f.plug a) = cells (f.plug b) := by
  cases f <;> simp [Frame.plug, h]

theorem cells_zip_congr {a b : Tree (Node K V)} (h : cells a = cells b)
    (path : List (Frame (Node K V))) : cells (zip a path) = cells (zip b path) := by
  rw [cells_zip, cells_zip, h]

theorem rb_putFix_spec (m : Nat) : ∀ (l : Tree (Node K V)) (x : Node K V) (r : Tree (Node K V))
    (path : List (Frame (Node K V))), path.length ≤ m → x.color = Color.red →
    Valid (Tree.node l x r) → PathOK path (bh (Tree.node l x r)) Color.black →
    TopBlack path Color.black →
    ∃ root, putFix (Tree.node l x r) path = some root ∧ Valid root ∧
      getColor root = Color.black ∧ cells root = cells (zip (Tree.node l x r) path) := by
  induction m using Nat.strong_induction_on with
  | _ m ih =>
    intro l x r path hlen hx hv hp ht
    cases path with
    | nil =>
      obtain ⟨h1, h2, h3, h4⟩ := hv
      exact ⟨_, putFix_root l x r, ⟨fun hc => absurd hc (by simp), h2, h3, h4⟩, rfl,
        by simp [zip, Node.cell]⟩
    | cons parent path =>
      rcases color_cases parent.data.color with hpc | hpc
      · -- the parent is black
        refine ⟨_, putFix_blackParent l x r parent path hpc,
          rb_zip_valid hv (pathOK_recolor _ hp hpc), (zip_color _ _).2 ht, rfl⟩
      · -- the parent is red
        obtain ⟨hs1, hs2, hs3, hp1⟩ := pathOK_redParent hp hpc
        cases path with
        | nil => exact absurd (ht.symm.trans hpc) (by simp)
        | cons gp path =>
          have hlen1 : path.length < m := by simp only [List.length_cons] at hlen; omega
          have hv0 := hv
          obtain ⟨hv1, hv2, hv3, hv4⟩ := hv
          have hcl := (hv1 hx).1
          have hcr := (hv1 hx).2
          cases gp with
          | left gx uncle =>
            obtain ⟨hu1, hu2, hu3, hp2⟩ := hp1
            have hgx : gx.color = Color.black := by
              rcases color_cases gx.color with hg | hg
              · exact hg
              · exact absurd (hu3 hg).1 (by simp)
            simp only [hgx, blackUnit_black] at hp2
            have ht2 : TopBlack path Color.black := by
              have : TopBlack path gx.color := ht
              rwa [hgx] at this
            rcases color_cases (getColor uncle) with huc | huc
            · -- black uncle: rotate
              cases parent with
              | left px s =>
                simp only [Frame.data] at hpc
                simp only [Frame.sibling] at hs1 hs2 hs3
                refine ⟨_, putFix_LL l x r px s gx uncle path hpc huc, rb_zip_valid ?_ ?_,
                  (zip_color _ _).2 ht2, ?_⟩
                · refine ⟨fun hc => absurd hc (by simp), ?_, hv0,
                    fun _ => ⟨hs3, huc⟩, ?_, hs1, hu1⟩
                  · simp only [bh_node, blackUnit_red, hs2, Nat.add_zero]
                  · rw [hs2, hu2]
                · simp only [bh_node, blackUnit_black, getColor_node]; exact hp2
                · rw [cells_zip, cells_zip]
                  simp [pathBefore, pathAfter, cells, Node.cell]
              | right s px =>
                simp only [Frame.data] at hpc
                simp only [Frame.sibling] at hs1 hs2 hs3
                refine ⟨_, putFix_LR l x r px s gx uncle path hpc huc, rb_zip_valid ?_ ?_,
                  (zip_color _ _).2 ht2, ?_⟩
                · refine ⟨fun hc => absurd hc (by simp), ?_,
                    ⟨fun _ => ⟨hs3, hcl⟩, ?_, hs1, hv3⟩, fun _ => ⟨hcr, huc⟩, ?_, hv4, hu1⟩
                  · simp only [bh_node, blackUnit_red, hpc, hx, Nat.add_zero] at hs2 hu2 ⊢
                    omega
                  · simp only [bh_node, hx, blackUnit_red] at hs2; exact hs2
                  · simp only [bh_node, hx, blackUnit_red] at hu2; omega
                · simp only [bh_node, blackUnit_black, getColor_node, hpc, blackUnit_red]
                  simp only [bh_node, hx, blackUnit_red] at hp2 hs2
                  rw [hs2]; exact hp2
                · rw [cells_zip, cells_zip]
                  simp [pathBefore, pathAfter, cells, Node.cell]
            · -- red uncle: recolour and go on from the grandparent
              obtain ⟨p, e1, e2, e3, e4, e5⟩ := valid_plug_black parent (Tree.node l x r) hv0
                hs1 hs2
              obtain ⟨f1, f2, f3, f4⟩ := valid_repaint_uncle uncle hu1 huc
              obtain ⟨root, g1, g2, g3, g4⟩ := ih path.length hlen1 p
                { gx with color := Color.red } (setColorIfPresent Color.black uncle) path
                (le_refl _) rfl
                ⟨fun _ => ⟨e4, f3⟩, by rw [e3, f2, hu2], e2, f1⟩
                (by simp only [bh_node, blackUnit_red, e3, Nat.add_zero]; exact hp2) ht2
              refine ⟨root, ?_, g2, g3, ?_⟩
              · rw [putFix_redUncle_left l x r parent gx uncle path hpc huc, e1]
                exact g1
              · rw [g4]
                show cells (zip _ path) = cells (zip (Frame.plug (Frame.left gx uncle)
                  (parent.plug (Tree.node l x r))) path)
                apply cells_zip_congr
                simp [Frame.plug, e5, f4, Node.cell]
          | right uncle gx =>
            obtain ⟨hu1, hu2, hu3, hp2⟩ := hp1
            have hgx : gx.color = Color.black := by
              rcases color_cases gx.color with hg | hg
              · exact hg
              · exact absurd (hu3 hg).1 (by simp)
            simp only [hgx, blackUnit_black] at hp2
            have ht2 : TopBlack path Color.black := by
              have : TopBlack path gx.color := ht
              rwa [hgx] at this
            rcases color_cases (getColor uncle) with huc | huc
            · -- black uncle: rotate
              cases parent with
              | right s px =>
                simp only [Frame.data] at hpc
                simp only [Frame.sibling] at hs1 hs2 hs3
                refine ⟨_, putFix_RR l x r px s gx uncle path hpc huc, rb_zip_valid ?_ ?_,
                  (zip_color _ _).2 ht2, ?_⟩
                · refine ⟨fun hc => absurd hc (by simp), ?_,
                    ⟨fun _ => ⟨huc, hs3⟩, ?_, hu1, hs1⟩, hv0⟩
                  · simp only [bh_node, blackUnit_red, hs2, hu2, Nat.add_zero]
                  · rw [hs2, hu2]
                · simp only [bh_node, blackUnit_black, getColor_node, blackUnit_red, hu2,
                    Nat.add_zero]
                  exact hp2
                · rw [cells_zip, cells_zip]
                  simp [pathBefore, pathAfter, cells, Node.cell]
              | left px s =>
                simp only [Frame.data] at hpc
                simp only [Frame.sibling] at hs1 hs2 hs3
                refine ⟨_, putFix_RL l x r px s gx uncle path hpc huc, rb_zip_valid ?_ ?_,
                  (zip_color _ _).2 ht2, ?_⟩
                · refine ⟨fun hc => absurd hc (by simp), ?_,
                    ⟨fun _ => ⟨huc, hcl⟩, ?_, hu1, hv3⟩, fun _ => ⟨hcr, hs3⟩, ?_, hv4, hs1⟩
                  · simp only [bh_node, blackUnit_red, hpc, hx, Nat.add_zero] at hs2 hu2 ⊢
                    omega
                  · simp only [bh_node, hx, blackUnit_red] at hu2; exact hu2
                  · simp only [bh_node, hx, blackUnit_red] at hs2; omega
                · simp only [bh_node, blackUnit_black, getColor_node, blackUnit_red, hu2,
                    Nat.add_zero]
                  exact hp2
                · rw [cells_zip, cells_zip]
                  simp [pathBefore, pathAfter, cells, Node.cell]
            · -- red uncle: recolour and go on from the grandparent
              obtain ⟨p, e1, e2, e3, e4, e5⟩ := valid_plug_black parent (Tree.node l x r) hv0
                hs1 hs2
              obtain ⟨f1, f2, f3, f4⟩ := valid_repaint_uncle uncle hu1 huc
              obtain ⟨root, g1, g2, g3, g4⟩ := ih path.length hlen1
                (setColorIfPresent Color.black uncle)
                { gx with color := Color.red } p path
                (le_refl _) rfl
                ⟨fun _ => ⟨f3, e4⟩, by rw [e3, f2, hu2], f1, e2⟩
                (by simp only [bh_node, blackUnit_red, f2, hu2, Nat.add_zero]; exact hp2) ht2
              refine ⟨root, ?_, g2, g3, ?_⟩
              · rw [putFix_redUncle_right l x r parent gx uncle path hpc huc, e1]
                exact g1
              · rw [g4]
                show cells (zip _ path) = cells (zip (Frame.plug (Frame.right uncle gx)
                  (parent.plug (Tree.node l x r))) path)
                apply cells_zip_congr
                simp [Frame.plug, e5, f4, Node.cell]

end RBTree

namespace RBTree

variable {K V : Type}

/-! ### The delete fix-up, case by case -/

theorem removeFixAux_red (fuel : Nat) (node : Tree (Node K V)) (path : List (Frame (Node K V)))
    (h : getColor node = Color.red) : removeFixAux (fuel + 1) node path = some path := by
  simp [removeFixAux, h]

theorem removeFixAux_root (fuel : Nat) (node : Tree (Node K V))
    (h : getColor node = Color.black) : removeFixAux (fuel + 1) node [] = some [] := by
  simp [removeFixAux, h]

theorem removeFixAux_left_redSibling (fuel : Nat) (node : Tree (Node K V)) (px : Node K V)
    (inner : Tree (Node K V)) (sx : Node K V) (outer : Tree (Node K V))
    (rest : List (Frame (Node K V))) (h : getColor node = Color.black)
    (hs : sx.color = Color.red) :
    removeFixAux (fuel + 1) node (Frame.left px (Tree.node inner sx outer) :: rest) =
      removeFixAux fuel node
        (Frame.left { px with color := Color.red } inner ::
          Frame.left { sx with color := Color.black } outer :: rest) := by
  simp [removeFixAux, h, hs, rotateLeft, afterRotateLeft]

theorem removeFixAux_right_redSibling (fuel : Nat) (node : Tree (Node K V)) (px : Node K V)
    (inner : Tree (Node K V)) (sx : Node K V) (outer : Tree (Node K V))
    (rest : List (Frame (Node K V))) (h : getColor node = Color.black)
    (hs : sx.color = Color.red) :
    removeFixAux (fuel + 1) node (Frame.right (Tree.node outer sx inner) px :: rest) =
      removeFixAux fuel node
        (Frame.right inner { px with color := Color.red } ::
          Frame.right outer { sx with color := Color.black } :: rest) := by
  simp [removeFixAux, h, hs, rotateRight, afterRotateRight]

theorem removeFixAux_left_redParent (fuel : Nat) (node : Tree (Node K V)) (px : Node K V)
    (inner : Tree (Node K V)) (sx : Node K V) (outer : Tree (Node K V))
    (rest : List (Frame (Node K V))) (h : getColor node = Color.black)
    (hs : sx.color = Color.black) (hi : getColor inner = Color.black)
    (ho : getColor outer = Color.black) (hp : px.color = Color.red) :
    removeFixAux (fuel + 1) node (Frame.left px (Tree.node inner sx outer) :: rest) =
      some (Frame.left { px with color := Color.black }
        (Tree.node inner { sx with color := Color.red } outer) :: rest) := by
  simp [removeFixAux, h, hs, hi, ho, hp]

theorem removeFixAux_right_redParent (fuel : Nat) (node : Tree (Node K V)) (px : Node K V)
    (inner : Tree (Node K V)) (sx : Node K V) (outer : Tree (Node K V))
    (rest : List (Frame (Node K V))) (h : getColor node = Color.black)
    (hs : sx.color = Color.black) (hi : getColor inner = Color.black)
    (ho : getColor outer = Color.black) (hp : px.color = Color.red) :
    removeFixAux (fuel + 1) node (Frame.right (Tree.node outer sx inner) px :: rest) =
      some (Frame.right (Tree.node outer { sx with color := Color.red } inner)
        { px with color := Color.black } :: rest) := by
  simp [removeFixAux, h, hs, hi, ho, hp]

theorem removeFixAux_left_blackParent (fuel : Nat) (node : Tree (Node K V)) (px : Node K V)
    (inner : Tree (Node K V)) (sx : Node K V) (outer : Tree (Node K V))
    (rest : List (Frame (Node K V))) (h : getColor node = Color.black)
    (hs : sx.color = Color.black) (hi : getColor inner = Color.black)
    (ho : getColor outer = Color.black) (hp : px.color = Color.black) :
    removeFixAux (fuel + 1) node (Frame.left px (Tree.node inner sx outer) :: rest) =
      (removeFixAux fuel
        (Tree.node node px (Tree.node inner { sx with color := Color.red } outer)) rest).bind
        fun rest1 =>
          some (Frame.left px (Tree.node inner { sx with color := Color.red } outer) :: rest1) := by
  simp [removeFixAux, h, hs, hi, ho, hp]

theorem removeFixAux_right_blackParent (fuel : Nat) (node : Tree (Node K V)) (px : Node K V)
    (inner : Tree (Node K V)) (sx : Node K V) (outer : Tree (Node K V))
    (rest : List (Frame (Node K V))) (h : getColor node = Color.black)
    (hs : sx.color = Color.black) (hi : getColor inner = Color.black)
    (ho : getColor outer = Color.black) (hp : px.color = Color.black) :
    removeFixAux (fuel + 1) node (Frame.right (Tree.node outer sx inner) px :: rest) =
      (removeFixAux fuel
        (Tree.node (Tree.node outer { sx with color := Color.red } inner) px node) rest).bind
        fun rest1 =>
          some (Frame.right (Tree.node outer { sx with color := Color.red } inner) px :: rest1) := by
  simp [removeFixAux, h, hs, hi, ho, hp]

theorem removeFixAux_left_redInner (fuel : Nat) (node : Tree (Node K V)) (px : Node K V)
    (il : Tree (Node K V)) (ix : Node K V) (ir : Tree (Node K V)) (sx : Node K V)
    (outer : Tree (Node K V)) (rest : List (Frame (Node K V)))
    (h : getColor node = Color.black) (hs : sx.color = Color.black)
    (hi : ix.color = Color.red) (ho : getColor outer = Color.black) :
    removeFixAux (fuel + 1) node
        (Frame.left px (Tree.node (Tree.node il ix ir) sx outer) :: rest) =
      some (Frame.left { px with color := Color.black } il ::
        Frame.left { ix with color := px.color }
          (Tree.node ir { sx with color := Color.black } outer) :: rest) := by
  simp [removeFixAux, h, hs, hi, ho, rotateLeft, rotateRight, afterRotateLeft, setColor]

theorem removeFixAux_right_redInner (fuel : Nat) (node : Tree (Node K V)) (px : Node K V)
    (il : Tree (Node K V)) (ix : Node K V) (ir : Tree (Node K V)) (sx : Node K V)
    (outer : Tree (Node K V)) (rest : List (Frame (Node K V)))
    (h : getColor node = Color.black) (hs : sx.color = Color.black)
    (hi : ix.color = Color.red) (ho : getColor outer = Color.black) :
    removeFixAux (fuel + 1) node
        (Frame.right (Tree.node outer sx (Tree.node il ix ir)) px :: rest) =
      some (Frame.right ir { px with color := Color.black } ::
        Frame.right (Tree.node outer { sx with color := Color.black } il)
          { ix with color := px.color } :: rest) := by
  simp [removeFixAux, h, hs, hi, ho, rotateLeft, rotateRight, afterRotateRight, setColor]

theorem removeFixAux_left_redOuter (fuel : Nat) (node : Tree (Node K V)) (px : Node K V)
    (inner : Tree (Node K V)) (sx : Node K V) (ol : Tree (Node K V)) (ox : Node K V)
    (or : Tree (Node K V)) (rest : List (Frame (Node K V)))
    (h : getColor node = Color.black) (hs : sx.color = Color.black)
    (ho : ox.color = Color.red) :
    removeFixAux (fuel + 1) node
        (Frame.left px (Tree.node inner sx (Tree.node ol ox or)) :: rest) =
      some (Frame.left { px with color := Color.black } inner ::
        Frame.left { sx with color := px.color }
          (Tree.node ol { ox with color := Color.black } or) :: rest) := by
  simp [removeFixAux, h, hs, ho, rotateLeft, afterRotateLeft, setColor]

theorem removeFixAux_right_redOuter (fuel : Nat) (node : Tree (Node K V)) (px : Node K V)
    (inner : Tree (Node K V)) (sx : Node K V) (ol : Tree (Node K V)) (ox : Node K V)
    (or : Tree (Node K V)) (rest : List (Frame (Node K V)))
    (h : getColor node = Color.black) (hs : sx.color = Color.black)
    (ho : ox.color = Color.red) :
    removeFixAux (fuel + 1) node
        (Frame.right (Tree.node (Tree.node ol ox or) sx inner) px :: rest) =
      some (Frame.right inner { px with color := Color.black } ::
        Frame.right (Tree.node ol { ox with color := Color.black } or)
          { sx with color := px.color } :: rest) := by
  simp [removeFixAux, h, hs, ho, rotateRight, afterRotateRight, setColor]

end RBTree

namespace RBTree

variable {K V : Type}

/-- A black sibling of a black node that is about to lose one black level. -/
theorem sibling_shape {s : Tree (Node K V)} {n : Nat} (hv : Valid s) (hb : bh s = n + 1) :
    ∃ a sx b, s = Tree.node a sx b ∧ Valid a ∧ Valid b ∧ bh a = bh b ∧
      bh a + blackUnit sx.color = n + 1 ∧
      (sx.color = Color.red → getColor a = Color.black ∧ getColor b = Color.black) := by
  cases s with
  | nil => simp at hb
  | node a sx b =>
    obtain ⟨h1, h2, h3, h4⟩ := hv
    exact ⟨a, sx, b, rfl, h3, h4, h2, hb, h1⟩

theorem red_shape {s : Tree (Node K V)} (hv : Valid s) (hc : getColor s = Color.red) :
    ∃ a sx b, s = Tree.node a sx b ∧ sx.color = Color.red ∧ Valid a ∧ Valid b ∧
      bh a = bh b ∧ bh s = bh a ∧ getColor a = Color.black ∧ getColor b = Color.black := by
  cases s with
  | nil => simp at hc
  | node a sx b =>
    obtain ⟨h1, h2, h3, h4⟩ := hv
    simp only [getColor_node] at hc
    exact ⟨a, sx, b, rfl, hc, h3, h4, h2, by simp [hc], (h1 hc).1, (h1 hc).2⟩

theorem removeFixAux_spec (fuel : Nat) : ∀ (node : Tree (Node K V))
    (path : List (Frame (Node K V))) (n : Nat), removeFixDepth path < fuel →
    PathOK path (n + blackUnit (getColor node)) (getColor node) →
    ∃ path1, removeFixAux fuel node path = some path1 ∧ PathOK path1 n Color.red ∧
      (pathBefore path1).map Node.cell = (pathBefore path).map Node.cell ∧
      (pathAfter path1).map Node.cell = (pathAfter path).map Node.cell := by
  induction fuel with
  | zero => intro node path n hd; omega
  | succ fuel ih =>
    intro node path n hd hp
    rcases color_cases (getColor node) with hc | hc
    swap
    · -- a red node
      refine ⟨path, removeFixAux_red fuel node path hc, ?_, rfl, rfl⟩
      rw [hc] at hp
      exact hp
    rw [hc] at hp
    simp only [blackUnit_black] at hp
    cases path with
    | nil => exact ⟨[], removeFixAux_root fuel node hc, trivial, rfl, rfl⟩
    | cons f rest =>
      cases f with
      | left px sibling =>
        obtain ⟨hs1, hs2, hs3, hp1⟩ := hp
        obtain ⟨inner, sx, outer, rfl, hvi, hvo, hio, hsb, hsr⟩ := sibling_shape hs1 hs2
        simp only [removeFixDepth, Frame.sibling, Tree.count] at hd
        rcases color_cases sx.color with hsc | hsc
        swap
        · -- red sibling
          have hpx : px.color = Color.black := by
            rcases color_cases px.color with h | h
            · exact h
            · exact absurd (hs3 h).2 (by simp [hsc])
          simp only [hsc, blackUnit_red, Nat.add_zero] at hsb
          simp only [hpx, blackUnit_black] at hp1
          obtain ⟨path1, e1, e2, e3, e4⟩ := ih node
            (Frame.left { px with color := Color.red } inner ::
              Frame.left { sx with color := Color.black } outer :: rest) n
            (by simp only [removeFixDepth, Frame.sibling]; omega)
            (by
              rw [hc]
              exact ⟨hvi, hsb, fun _ => ⟨rfl, (hsr hsc).1⟩, hvo,
                by simp only [blackUnit_red, blackUnit_black]; omega,
                fun h => absurd h (by simp), hp1⟩)
          refine ⟨path1, ?_, e2, ?_, ?_⟩
          · rw [removeFixAux_left_redSibling fuel node px inner sx outer rest hc hsc]
            exact e1
          · rw [e3]; simp [pathBefore]
          · rw [e4]; simp [pathAfter, Node.cell]
        simp only [hsc, blackUnit_black] at hsb
        by_cases hboth : getColor inner = Color.black ∧ getColor outer = Color.black
        · obtain ⟨hi, ho⟩ := hboth
          have hvs : Valid (Tree.node inner { sx with color := Color.red } outer) :=
            ⟨fun _ => ⟨hi, ho⟩, hio, hvi, hvo⟩
          rcases color_cases px.color with hpx | hpx
          · -- black parent: go on from the parent
            simp only [hpx, blackUnit_black] at hp1
            obtain ⟨rest1, e1, e2, e3, e4⟩ := ih
              (Tree.node node px (Tree.node inner { sx with color := Color.red } outer)) rest
              (n + 1) (by omega)
              (by simp only [getColor_node, hpx, blackUnit_black]; exact hp1)
            refine ⟨Frame.left px (Tree.node inner { sx with color := Color.red } outer) :: rest1,
              ?_, ⟨hvs, ?_, fun h => absurd (hpx.symm.trans h) (by simp), ?_⟩, ?_, ?_⟩
            · rw [removeFixAux_left_blackParent fuel node px inner sx outer rest hc hsc hi ho hpx,
                e1]
              rfl
            · simp only [bh_node, blackUnit_red]; omega
            · simp only [hpx, blackUnit_black]; exact pathOK_black e2
            · simpa [pathBefore] using e3
            · simp [pathAfter, e4, Node.cell]
          · -- red parent
            simp only [hpx, blackUnit_red, Nat.add_zero] at hp1
            refine ⟨_, removeFixAux_left_redParent fuel node px inner sx outer rest hc hsc hi ho
              hpx, ⟨hvs, ?_, fun h => absurd h (by simp), ?_⟩, rfl, ?_⟩
            · simp only [bh_node, blackUnit_red]; omega
            · simp only [blackUnit_black]; exact pathOK_of_red _ hp1
            · simp [pathAfter, Node.cell]
        · rcases color_cases (getColor outer) with ho | ho
          · -- red inner child, black outer child
            have hi : getColor inner = Color.red := by
              rcases color_cases (getColor inner) with h | h
              · exact absurd ⟨h, ho⟩ hboth
              · exact h
            obtain ⟨il, ix, ir, rfl, hix, hvil, hvir, hil, hib, hcil, hcir⟩ := red_shape hvi hi
            refine ⟨_, removeFixAux_left_redInner fuel node px il ix ir sx outer rest hc hsc hix
              ho, ⟨hvil, by omega, fun h => absurd h (by simp),
                ⟨fun _ => ⟨hcir, ho⟩, by omega, hvir, hvo⟩, ?_, fun h => ⟨rfl, rfl⟩, ?_⟩, ?_, ?_⟩
            · simp only [bh_node, blackUnit_black]; omega
            · simp only [blackUnit_black]; exact hp1
            · simp [pathBefore]
            · simp [pathAfter, Node.cell]
          · -- red outer child
            obtain ⟨ol, ox, or, rfl, hox, hvol, hvor, hol, hob, hcol, hcor⟩ := red_shape hvo ho
            refine ⟨_, removeFixAux_left_redOuter fuel node px inner sx ol ox or rest hc hsc hox,
              ⟨hvi, by omega, fun h => absurd h (by simp),
                ⟨fun h => absurd h (by simp), hol, hvol, hvor⟩, ?_, fun h => ⟨rfl, rfl⟩, ?_⟩,
              ?_, ?_⟩
            · simp only [bh_node, blackUnit_black]; omega
            · simp only [blackUnit_black]; exact hp1
            · simp [pathBefore]
            · simp [pathAfter, Node.cell]
      | right sibling px =>
        obtain ⟨hs1, hs2, hs3, hp1⟩ := hp
        obtain ⟨outer, sx, inner, rfl, hvo, hvi, hio, hsb, hsr⟩ := sibling_shape hs1 hs2
        simp only [removeFixDepth, Frame.sibling, Tree.count] at hd
        rcases color_cases sx.color with hsc | hsc
        swap
        · -- red sibling
          have hpx : px.color = Color.black := by
            rcases color_cases px.color with h | h
            · exact h
            · exact absurd (hs3 h).2 (by simp [hsc])
          simp only [hsc, blackUnit_red, Nat.add_zero] at hsb
          simp only [hpx, blackUnit_black] at hp1
          obtain ⟨path1, e1, e2, e3, e4⟩ := ih node
            (Frame.right inner { px with color := Color.red } ::
              Frame.right outer { sx with color := Color.black } :: rest) n
            (by simp only [removeFixDepth, Frame.sibling]; omega)
            (by
              rw [hc]
              exact ⟨hvi, by simp only [blackUnit_black]; omega, fun _ => ⟨rfl, (hsr hsc).2⟩, hvo,
                by simp only [blackUnit_red, blackUnit_black]; omega,
                fun h => absurd h (by simp), hp1⟩)
          refine ⟨path1, ?_, e2, ?_, ?_⟩
          · rw [removeFixAux_right_redSibling fuel node px inner sx outer rest hc hsc]
            exact e1
          · rw [e3]; simp [pathBefore, Node.cell]
          · rw [e4]; simp [pathAfter]
        simp only [hsc, blackUnit_black] at hsb
        by_cases hboth : getColor inner = Color.black ∧ getColor outer = Color.black
        · obtain ⟨hi, ho⟩ := hboth
          have hvs : Valid (Tree.node outer { sx with color := Color.red } inner) :=
            ⟨fun _ => ⟨ho, hi⟩, hio, hvo, hvi⟩
          rcases color_cases px.color with hpx | hpx
          · -- black parent: go on from the parent
            simp only [hpx, blackUnit_black] at hp1
            obtain ⟨rest1, e1, e2, e3, e4⟩ := ih
              (Tree.node (Tree.node outer { sx with color := Color.red } inner) px node) rest
              (n + 1) (by omega)
              (by simp only [getColor_node, hpx, blackUnit_black]; exact hp1)
            refine ⟨Frame.right (Tree.node outer { sx with color := Color.red } inner) px :: rest1,
              ?_, ⟨hvs, ?_, fun h => absurd (hpx.symm.trans h) (by simp), ?_⟩, ?_, ?_⟩
            · rw [removeFixAux_right_blackParent fuel node px inner sx outer rest hc hsc hi ho
                hpx, e1]
              rfl
            · simp only [bh_node, blackUnit_red]; omega
            · simp only [hpx, blackUnit_black]; exact pathOK_black e2
            · simp [pathBefore, e3, Node.cell]
            · simpa [pathAfter] using e4
          · -- red parent
            simp only [hpx, blackUnit_red, Nat.add_zero] at hp1
            refine ⟨_, removeFixAux_right_redParent fuel node px inner sx outer rest hc hsc hi ho
              hpx, ⟨hvs, ?_, fun h => absurd h (by simp), ?_⟩, ?_, rfl⟩
            · simp only [bh_node, blackUnit_red]; omega
            · simp only [blackUnit_black]; exact pathOK_of_red _ hp1
            · simp [pathBefore, Node.cell]
        · rcases color_cases (getColor outer) with ho | ho
          · -- red inner child, black outer child
            have hi : getColor inner = Color.red := by
              rcases color_cases (getColor inner) with h | h
              · exact absurd ⟨h, ho⟩ hboth
              · exact h
            obtain ⟨il, ix, ir, rfl, hix, hvil, hvir, hil, hib, hcil, hcir⟩ := red_shape hvi hi
            refine ⟨_, removeFixAux_right_redInner fuel node px il ix ir sx outer rest hc hsc hix
              ho, ⟨hvir, by omega, fun h => absurd h (by simp),
                ⟨fun _ => ⟨ho, hcil⟩, by omega, hvo, hvil⟩, ?_, fun h => ⟨rfl, rfl⟩, ?_⟩, ?_, ?_⟩
            · simp only [bh_node, blackUnit_black]; omega
            · simp only [blackUnit_black]; exact hp1
            · simp [pathBefore, Node.cell]
            · simp [pathAfter]
          · -- red outer child
            obtain ⟨ol, ox, or, rfl, hox, hvol, hvor, hol, hob, hcol, hcor⟩ := red_shape hvo ho
            refine ⟨_, removeFixAux_right_redOuter fuel node px inner sx ol ox or rest hc hsc hox,
              ⟨hvi, by omega, fun h => absurd h (by simp),
                ⟨fun h => absurd h (by simp), hol, hvol, hvor⟩, ?_, fun h => ⟨rfl, rfl⟩, ?_⟩,
              ?_, ?_⟩
            · simp only [bh_node, blackUnit_black]; omega
            · simp only [blackUnit_black]; exact hp1
            · simp [pathBefore, Node.cell]
            · simp [pathAfter]

end RBTree

namespace RBTree

variable {K V : Type}

/-! ### Writing through a pointer -/

/-- The assignments `node.key = key; node.value = value` through a pointer
holding the address `ptr`, seen on the address, key and value of one node. -/
theorem cell_assign (ptr : Nat) (key : K) (value : V) (x : Node K V) :
    (x.assign ptr key value).cell =
      if x.cell.1 = ptr then (x.cell.1, key, value) else x.cell := by
  unfold Node.assign Node.cell
  split_ifs <;> rfl

theorem color_assign (ptr : Nat) (key : K) (value : V) (x : Node K V) :
    (x.assign ptr key value).color = x.color := by
  unfold Node.assign
  split_ifs <;> rfl

theorem toList_assign (ptr : Nat) (key : K) (value : V) (t : Tree (Node K V)) :
    (assign ptr key value t).toList = t.toList.map (Node.assign ptr key value) := by
  induction t with
  | nil => rfl
  | node l x r ihl ihr => simp [assign, ihl, ihr]

theorem getColor_assign (ptr : Nat) (key : K) (value : V) (t : Tree (Node K V)) :
    getColor (assign ptr key value t) = getColor t := by
  cases t with
  | nil => rfl
  | node l x r => simp [assign, color_assign]

theorem bh_assign (ptr : Nat) (key : K) (value : V) (t : Tree (Node K V)) :
    bh (assign ptr key value t) = bh t := by
  induction t with
  | nil => rfl
  | node l x r ihl _ => simp [assign, color_assign, ihl]

theorem valid_assign (ptr : Nat) (key : K) (value : V) {t : Tree (Node K V)} (h : Valid t) :
    Valid (assign ptr key value t) := by
  induction t with
  | nil => trivial
  | node l x r ihl ihr =>
    obtain ⟨h1, h2, h3, h4⟩ := h
    refine ⟨?_, ?_, ihl h3, ihr h4⟩
    · rw [color_assign, getColor_assign, getColor_assign]; exact h1
    · rw [bh_assign, bh_assign]; exact h2

theorem pathOK_assign (ptr : Nat) (key : K) (value : V) {path : List (Frame (Node K V))}
    {n : Nat} {c : Color} (h : PathOK path n c) :
    PathOK (path.map (assignFrame ptr key value)) n c := by
  induction path generalizing n c with
  | nil => trivial
  | cons f path ih =>
    cases f with
    | left x r =>
      obtain ⟨h1, h2, h3, h4⟩ := h
      refine ⟨valid_assign _ _ _ h1, ?_, ?_, ?_⟩
      · rw [bh_assign]; exact h2
      · rw [color_assign, getColor_assign]; exact h3
      · rw [color_assign]; exact ih h4
    | right l x =>
      obtain ⟨h1, h2, h3, h4⟩ := h
      refine ⟨valid_assign _ _ _ h1, ?_, ?_, ?_⟩
      · rw [bh_assign]; exact h2
      · rw [color_assign, getColor_assign]; exact h3
      · rw [color_assign]; exact ih h4

theorem pathBefore_assign (ptr : Nat) (key : K) (value : V) (path : List (Frame (Node K V))) :
    pathBefore (path.map (assignFrame ptr key value)) =
      (pathBefore path).map (Node.assign ptr key value) := by
  induction path with
  | nil => rfl
  | cons f path ih => cases f <;> simp [pathBefore, assignFrame, ih, toList_assign]

theorem pathAfter_assign (ptr : Nat) (key : K) (value : V) (path : List (Frame (Node K V))) :
    pathAfter (path.map (assignFrame ptr key value)) =
      (pathAfter path).map (Node.assign ptr key value) := by
  induction path with
  | nil => rfl
  | cons f path ih => cases f <;> simp [pathAfter, assignFrame, ih, toList_assign]

/-- A write through the pointer to one node of a list with distinct addresses
changes the key and the value of that node only. -/
theorem map_assign_cells (key : K) (value : V) (L1 : List (Nat × K × V)) (c : Nat × K × V)
    (L2 : List (Nat × K × V)) (h : ((L1 ++ c :: L2).map (fun e => e.1)).Nodup) :
    (L1 ++ c :: L2).map (fun e => if e.1 = c.1 then (e.1, key, value) else e) =
      L1 ++ (c.1, key, value) :: L2 := by
  rw [List.map_append, List.map_cons, List.nodup_append] at h
  obtain ⟨-, h2, h3⟩ := h
  rw [List.nodup_cons] at h2
  have e1 : L1.map (fun e => if e.1 = c.1 then (e.1, key, value) else e) = L1 := by
    conv_rhs => rw [← List.map_id L1]
    apply List.map_congr_left
    intro e he
    have hne : e.1 ≠ c.1 := by
      intro heq
      exact h3 (List.mem_map_of_mem _ he) (by rw [heq]; exact List.mem_cons_self _ _)
    simp [hne]
  have e2 : L2.map (fun e => if e.1 = c.1 then (e.1, key, value) else e) = L2 := by
    conv_rhs => rw [← List.map_id L2]
    apply List.map_congr_left
    intro e he
    have hne : e.1 ≠ c.1 := by
      intro heq
      exact h2.1 (by rw [← heq]; exact List.mem_map_of_mem _ he)
    simp [hne]
  rw [List.map_append, List.map_cons, e1, e2]
  simp

end RBTree

namespace RBTree

variable {K V : Type}

theorem rb_putLoop_eq (tree : RBTree K V) (k : K) (v : V) (ptr : Nat) (t : Tree (Node K V))
    (path : List (Frame (Node K V))) :
    putLoop tree k v ptr t path =
      match t with
      | Tree.nil => none
      | Tree.node _ _ _ =>
        match getLoop tree.comparator Node.key k t path with
        | ⟨Tree.nil, p⟩ =>
          (putFix (Tree.node Tree.nil ⟨k, v, Color.red, ptr⟩ Tree.nil) p).map
            fun root => { tree with root := root, size := incr32 tree.size }
        | ⟨Tree.node l1 x1 r1, p⟩ =>
          some { tree with root := zip (Tree.node l1 { x1 with key := k, value := v } r1) p } := by
  induction t generalizing path with
  | nil => rfl
  | node l x r ihl ihr =>
    unfold putLoop getLoop
    simp only
    split_ifs
    · rfl
    · cases l with
      | nil => simp [getLoop]
      | node ll y lr => simpa using ihl (Frame.left x r :: path)
    · cases r with
      | nil => simp [getLoop]
      | node rl y rr => simpa using ihr (Frame.right l x :: path)

theorem nodup_insert_ptr {B A : List (Nat × K × V)} {c : Nat × K × V}
    (h : ((B ++ A).map (fun e => e.1)).Nodup) (hc : c.1 ∉ (B ++ A).map (fun e => e.1)) :
    ((B ++ c :: A).map (fun e => e.1)).Nodup := by
  rw [List.map_append, List.map_cons, List.nodup_middle, ← List.map_append]
  exact List.nodup_cons.2 ⟨hc, h⟩

/-- The method `Put` on a valid tree with a black root: it returns, it changes
the entries as an insertion or an update does, the result is valid with a black
root, and a fresh address keeps the addresses distinct. -/
theorem rb_put_spec (tree : RBTree K V) (k : K) (v : V) (ptr : Nat)
    (h : TotalOrder tree.comparator)
    (hs : StrictlyIncreasing tree.comparator (keysOf Node.key tree.root))
    (hv : Valid tree.root) (hb : getColor tree.root = Color.black) :
    ∃ t, tree.Put k v ptr = some t ∧ t.comparator = tree.comparator ∧
      PutSpec tree.comparator k v (entries tree.root) (entries t.root) tree.size t.size ∧
      Valid t.root ∧ getColor t.root = Color.black ∧
      (PtrsDistinct tree.root → ptr ∉ tree.root.toList.map Node.ptr → PtrsDistinct t.root) := by
  obtain ⟨root, cmp, size⟩ := tree
  simp only at h hs hv hb ⊢
  cases root with
  | nil =>
    refine ⟨_, rfl, rfl, Or.inl ⟨[], [], rfl, by simp, by simp, ?_, rfl⟩,
      ⟨fun _ => ⟨rfl, rfl⟩, rfl, trivial, trivial⟩, rfl, fun _ _ => ?_⟩
    · simp [entries, entriesOf]
    · simp [PtrsDistinct]
  | node l x r =>
    simp only [Put, rb_putLoop_eq]
    generalize hloc : getLoop cmp Node.key k (Tree.node l x r) [] = loc
    have hz := @getLoop_zip _ _ cmp Node.key k (Tree.node l x r) []
    rw [hloc] at hz
    simp only [zip] at hz
    obtain ⟨node, p⟩ := loc
    simp only at hz
    have hinv := @rb_zip_valid_inv _ _ node p (by rw [hz]; exact hv)
    have htop := (zip_color node p).1 (by rw [hz]; exact hb)
    cases node with
    | nil =>
      obtain ⟨root1, h1, h2, h3, h4⟩ := rb_putFix_spec p.length Tree.nil
        (⟨k, v, Color.red, ptr⟩ : Node K V) Tree.nil p (le_refl _) rfl
        ⟨fun _ => ⟨rfl, rfl⟩, rfl, trivial, trivial⟩ hinv.2 htop
      rw [cells_zip] at h4
      refine ⟨_, by simp only [h1, Option.map_some']; rfl, rfl, ?_, h2, h3, ?_⟩
      · apply put_absent h v hs hloc
        show entries root1 = _
        rw [entries_eq_cells, h4]
        simp [Node.cell, Function.comp_def]
      · intro hd hfresh
        unfold PtrsDistinct at hd ⊢
        rw [← hz, toList_zip] at hd hfresh
        show (root1.toList.map Node.ptr).Nodup
        rw [ptrs_eq_cells, h4]
        have := @nodup_insert_ptr K V ((pathBefore p).map Node.cell)
          ((pathAfter p).map Node.cell) (ptr, k, v)
          (by simpa [Node.cell, Function.comp_def] using hd)
          (by simpa [Node.cell, Function.comp_def] using hfresh)
        simpa [Node.cell] using this
    | node l1 x1 r1 =>
      obtain ⟨⟨v1, v2, v3, v4⟩, hpath⟩ := hinv
      refine ⟨_, rfl, rfl, ?_, ?_, ?_, ?_⟩
      · apply put_found v hloc
        show entries (zip _ p) = _
        unfold entries
        rw [entriesOf_zip, entriesOf_node]
      · exact @rb_zip_valid _ _ (Tree.node l1 { x1 with key := k, value := v } r1) p
          ⟨v1, v2, v3, v4⟩ hpath
      · exact (zip_color (Tree.node l1 { x1 with key := k, value := v } r1) p).2 htop
      · intro hd _
        unfold PtrsDistinct at hd ⊢
        rw [← hz, toList_zip] at hd
        show ((zip (Tree.node l1 { x1 with key := k, value := v } r1) p).toList.map
          Node.ptr).Nodup
        rw [toList_zip]
        simpa using hd

end RBTree

namespace RBTree

variable {K V : Type}

theorem cells_assign (ptr : Nat) (key : K) (value : V) (t : Tree (Node K V)) :
    cells (assign ptr key value t) =
      (cells t).map (fun e => if e.1 = ptr then (e.1, key, value) else e) := by
  unfold cells
  rw [toList_assign, List.map_map, List.map_map]
  apply List.map_congr_left
  intro x _
  exact cell_assign ptr key value x

theorem cells_path_assign (ptr : Nat) (key : K) (value : V) (path : List (Frame (Node K V))) :
    (pathBefore (path.map (assignFrame ptr key value))).map Node.cell =
      ((pathBefore path).map Node.cell).map
        (fun e => if e.1 = ptr then (e.1, key, value) else e) ∧
    (pathAfter (path.map (assignFrame ptr key value))).map Node.cell =
      ((pathAfter path).map Node.cell).map
        (fun e => if e.1 = ptr then (e.1, key, value) else e) := by
  rw [pathBefore_assign, pathAfter_assign, List.map_map, List.map_map, List.map_map,
    List.map_map]
  constructor <;>
  · apply List.map_congr_left
    intro x _
    exact cell_assign ptr key value x

/-- The fix-up before a node with at most one child is unlinked, and the
replacement by that child `c`. -/
theorem rb_remove_at (s c : Tree (Node K V)) (p : List (Frame (Node K V))) (n : Nat)
    (hp : PathOK p (n + blackUnit (getColor s)) (getColor s)) (hvc : Valid c)
    (hc : bh c = n) :
    ∃ path1, removeFix s p = some path1 ∧ Valid (zip c path1) ∧
      cells (zip c path1) =
        (pathBefore p).map Node.cell ++ (cells c ++ (pathAfter p).map Node.cell) := by
  obtain ⟨path1, e1, e2, e3, e4⟩ :=
    removeFixAux_spec (removeFixDepth p + 1) s p n (Nat.lt_succ_self _) hp
  refine ⟨path1, e1, ?_, ?_⟩
  · apply rb_zip_valid hvc
    rw [hc]
    exact pathOK_of_red _ e2
  · rw [cells_zip, e3, e4]

/-- The fix-up at the successor `next` of a node with two children, the copy of
its key and value into the node at address `ptr`, and the replacement of `next`
by its right child. -/
theorem rb_remove_next (ptr : Nat) (nx : Node K V) (nr : Tree (Node K V))
    (q : List (Frame (Node K V))) (hv : Valid (Tree.node Tree.nil nx nr))
    (hq : PathOK q (bh (Tree.node Tree.nil nx nr)) nx.color) :
    ∃ path1, removeFix (Tree.node Tree.nil nx nr) q = some path1 ∧
      Valid (zip (assign ptr nx.key nx.value nr)
        (path1.map (assignFrame ptr nx.key nx.value))) ∧
      cells (zip (assign ptr nx.key nx.value nr)
        (path1.map (assignFrame ptr nx.key nx.value))) =
        ((pathBefore q).map Node.cell ++ (cells nr ++ (pathAfter q).map Node.cell)).map
          (fun e => if e.1 = ptr then (e.1, nx.key, nx.value) else e) := by
  obtain ⟨h1, h2, -, h4⟩ := hv
  obtain ⟨path1, e1, e2, e3, e4⟩ :=
    removeFixAux_spec (removeFixDepth q + 1) (Tree.node Tree.nil nx nr) q 0
      (Nat.lt_succ_self _) (by simpa using hq)
  refine ⟨path1, e1, ?_, ?_⟩
  · apply rb_zip_valid (valid_assign _ _ _ h4)
    rw [bh_assign, ← h2]
    exact pathOK_assign _ _ _ (pathOK_of_red _ e2)
  · rw [cells_zip, (cells_path_assign _ _ _ _).1, (cells_path_assign _ _ _ _).2, cells_assign,
      e3, e4]
    simp

/-- The end of `Remove`: the root is painted black and the size decremented. -/
theorem rb_remove_finish {cmp : Comparator K} {k : K} {root l r : Tree (Node K V)}
    {x : Node K V} {p : List (Frame (Node K V))}
    (hloc : getLoop cmp Node.key k root [] = ⟨Tree.node l x r, p⟩)
    (hd : PtrsDistinct root) (s : Nat) {root1 : Tree (Node K V)} (hv1 : Valid root1)
    (he : (cells root1).map (fun c => (c.2.1, c.2.2)) =
      (pathBefore p).map (fun x => (x.key, x.value)) ++
        ((entries l ++ entries r) ++ (pathAfter p).map (fun x => (x.key, x.value))))
    (hsub : ((cells root1).map (fun c => c.1)).Sublist ((cells root).map (fun c => c.1))) :
    RemoveSpec cmp k (entries root) (entries (setColorIfPresent Color.black root1)) s
        (decr32 s) ∧
      Valid (setColorIfPresent Color.black root1) ∧
      getColor (setColorIfPresent Color.black root1) = Color.black ∧
      PtrsDistinct (setColorIfPresent Color.black root1) := by
  obtain ⟨b1, b2, b3⟩ := valid_blacken hv1
  refine ⟨?_, b1, b2, ?_⟩
  · apply remove_found hloc
    rw [entries_eq_cells, b3, he]
    rfl
  · unfold PtrsDistinct at hd ⊢
    rw [ptrs_eq_cells] at hd ⊢
    rw [b3]
    exact hd.sublist hsub

end RBTree

namespace RBTree

variable {K V : Type}

theorem cells_root_at {root node : Tree (Node K V)} {p : List (Frame (Node K V))}
    (hz : zip node p = root) :
    cells root = (pathBefore p).map Node.cell ++ (cells node ++ (pathAfter p).map Node.cell) := by
  rw [← hz, cells_zip]

/-- The end of `Remove` when the node is replaced by its only child `c`, or by
nil. -/
theorem rb_remove_finish_child {cmp : Comparator K} {k : K} {root l r c : Tree (Node K V)}
    {x : Node K V} {p : List (Frame (Node K V))}
    (hloc : getLoop cmp Node.key k root [] = ⟨Tree.node l x r, p⟩)
    (hd : PtrsDistinct root) (s : Nat) {root1 : Tree (Node K V)} (hv1 : Valid root1)
    (hc : cells root1 =
      (pathBefore p).map Node.cell ++ (cells c ++ (pathAfter p).map Node.cell))
    (hce : cells c = cells l ++ cells r) :
    RemoveSpec cmp k (entries root) (entries (setColorIfPresent Color.black root1)) s
        (decr32 s) ∧
      Valid (setColorIfPresent Color.black root1) ∧
      getColor (setColorIfPresent Color.black root1) = Color.black ∧
      PtrsDistinct (setColorIfPresent Color.black root1) := by
  have hz := @getLoop_zip _ _ cmp Node.key k root []
  rw [hloc] at hz
  simp only [zip] at hz
  apply rb_remove_finish hloc hd s hv1
  · rw [hc, hce, entries_eq_cells, entries_eq_cells]
    simp [Node.cell, Function.comp_def]
  · rw [hc, hce, cells_root_at hz, cells_node]
    exact List.Sublist.map _ (List.Sublist.append_left
      (List.Sublist.append_right
        (List.Sublist.append_left (List.sublist_cons_self _ _) _) _) _)

/-- The method `Remove` on a valid tree with a black root and distinct node
addresses: it returns, it changes the entries as a deletion does, and the
result is again valid with a black root and distinct addresses. -/
theorem rb_remove_spec (tree : RBTree K V) (k : K) (h : TotalOrder tree.comparator)
    (hs : StrictlyIncreasing tree.comparator (keysOf Node.key tree.root))
    (hv : Valid tree.root) (hb : getColor tree.root = Color.black)
    (hd : PtrsDistinct tree.root) :
    ∃ t, tree.Remove k = some t ∧ t.comparator = tree.comparator ∧
      RemoveSpec tree.comparator k (entries tree.root) (entries t.root) tree.size t.size ∧
      Valid t.root ∧ getColor t.root = Color.black ∧ PtrsDistinct t.root := by
  have hloc0 : tree.get k = getLoop tree.comparator Node.key k tree.root [] := rfl
  generalize hloc : getLoop tree.comparator Node.key k tree.root [] = loc at hloc0
  have hz := @getLoop_zip _ _ tree.comparator Node.key k tree.root []
  rw [hloc] at hz
  simp only [zip] at hz
  obtain ⟨node, p⟩ := loc
  simp only at hz
  have hinv := @rb_zip_valid_inv _ _ node p (by rw [hz]; exact hv)
  have hcells := cells_root_at hz
  cases node with
  | nil =>
    refine ⟨tree, ?_, rfl, remove_absent h hs hloc tree.size, hv, hb, hd⟩
    simp only [Remove, hloc0]
  | node l x r =>
    obtain ⟨⟨v1, v2, v3, v4⟩, hpath⟩ := hinv
    have hpath1 : PathOK p (bh l + blackUnit (getColor (Tree.node l x r)))
        (getColor (Tree.node l x r)) := hpath
    cases l with
    | nil =>
      cases r with
      | nil =>
        obtain ⟨path1, e1, e2, e3⟩ := rb_remove_at (Tree.node Tree.nil x Tree.nil) Tree.nil p
          (bh (Tree.nil : Tree (Node K V))) hpath1 trivial rfl
        obtain ⟨f1, f2, f3, f4⟩ := rb_remove_finish_child hloc hd tree.size e2 e3
          (by simp)
        refine ⟨⟨setColorIfPresent Color.black (zip _ path1), tree.comparator,
          decr32 tree.size⟩, ?_, rfl, f1, f2, f3, f4⟩
        simp only [Remove, hloc0, isNil_nil, Bool.true_eq_false, and_self, if_false, if_true,
          Option.some_bind, e1, Option.bind_eq_bind, replace, replaceNode]
      | node rl y rr =>
        obtain ⟨path1, e1, e2, e3⟩ := rb_remove_at (Tree.node Tree.nil x (Tree.node rl y rr))
          (Tree.node rl y rr) p (bh (Tree.nil : Tree (Node K V))) hpath1 v4 v2.symm
        obtain ⟨f1, f2, f3, f4⟩ := rb_remove_finish_child hloc hd tree.size e2 e3
          (by simp)
        refine ⟨⟨setColorIfPresent Color.black (zip _ path1), tree.comparator,
          decr32 tree.size⟩, ?_, rfl, f1, f2, f3, f4⟩
        simp only [Remove, hloc0, isNil_nil, isNil_node, Bool.true_eq_false,
          Bool.false_eq_true, and_false, false_and, and_self, if_false, if_true,
          Option.some_bind, e1, Option.bind_eq_bind, replace, replaceNode]
    | node ll y lr =>
      cases r with
      | nil =>
        obtain ⟨path1, e1, e2, e3⟩ := rb_remove_at (Tree.node (Tree.node ll y lr) x Tree.nil)
          (Tree.node ll y lr) p (bh (Tree.node ll y lr)) hpath1 v3 rfl
        obtain ⟨f1, f2, f3, f4⟩ := rb_remove_finish_child hloc hd tree.size e2 e3
          (by simp)
        refine ⟨⟨setColorIfPresent Color.black (zip _ path1), tree.comparator,
          decr32 tree.size⟩, ?_, rfl, f1, f2, f3, f4⟩
        simp only [Remove, hloc0, isNil_nil, isNil_node, Bool.true_eq_false,
          Bool.false_eq_true, and_false, false_and, and_self, if_false, if_true,
          Option.some_bind, e1, Option.bind_eq_bind, replace, replaceNode]
      | node rl z rr =>
        obtain ⟨nx, nr, m1, m2, m3, m4⟩ :=
          minLoop_spec rl z rr (Frame.right (Tree.node ll y lr) x :: p)
        generalize hnext : minLoop (Tree.node rl z rr)
          (Frame.right (Tree.node ll y lr) x :: p) = next at m1 m2 m3 m4
        obtain ⟨nnode, q⟩ := next
        simp only at m1 m2 m3 m4
        subst m1
        have hzq : zip (Tree.node Tree.nil nx nr) q = tree.root := by rw [m2]; exact hz
        obtain ⟨n1, n2⟩ := @rb_zip_valid_inv _ _ (Tree.node Tree.nil nx nr) q
          (by rw [hzq]; exact hv)
        obtain ⟨path1, e1, e2, e3⟩ := rb_remove_next x.ptr nx nr q n1 n2
        have hm4 := congrArg (List.map Node.cell) m4
        simp only [pathBefore, pathAfter] at m3 hm4
        have hold : cells tree.root =
            ((pathBefore p).map Node.cell ++ cells (Tree.node ll y lr)) ++
              x.cell :: nx.cell :: (cells nr ++ (pathAfter q).map Node.cell) := by
          rw [hcells, cells_node]
          simp only [cells] at hm4 ⊢
          simp only [List.map_append, List.map_cons, List.append_assoc, List.cons_append] at hm4 ⊢
          rw [hm4]
        have hsubl : (((pathBefore p).map Node.cell ++ cells (Tree.node ll y lr)) ++
              x.cell :: (cells nr ++ (pathAfter q).map Node.cell)).Sublist (cells tree.root) := by
          rw [hold]
          exact List.Sublist.append_left
            (List.Sublist.cons₂ _ (List.sublist_cons_self _ _)) _
        have hd1 := hd
        unfold PtrsDistinct at hd1
        rw [ptrs_eq_cells] at hd1
        have hnew : cells (zip (assign x.ptr nx.key nx.value nr)
            (path1.map (assignFrame x.ptr nx.key nx.value))) =
            ((pathBefore p).map Node.cell ++ cells (Tree.node ll y lr)) ++
              (x.ptr, nx.key, nx.value) :: (cells nr ++ (pathAfter q).map Node.cell) := by
          rw [e3, m3]
          have := map_assign_cells nx.key nx.value
            ((pathBefore p).map Node.cell ++ cells (Tree.node ll y lr)) x.cell
            (cells nr ++ (pathAfter q).map Node.cell) (hd1.sublist (hsubl.map _))
          refine Eq.trans ?_ this
          simp [cells, Node.cell]
        obtain ⟨f1, f2, f3, f4⟩ := rb_remove_finish hloc hd tree.size e2
          (by
            rw [hnew]
            simp only [cells] at hm4 ⊢
            simp only [entries, entriesOf, List.map_append, List.map_cons, List.map_map,
              List.append_assoc, List.cons_append] at hm4 ⊢
            have hm5 := congrArg (List.map (fun c : Nat × K × V => (c.2.1, c.2.2))) hm4
            simp only [List.map_append, List.map_cons, List.map_map] at hm5
            simp only [Function.comp_def, Node.cell] at hm5 ⊢
            rw [hm5])
          (by
            rw [hnew]
            have := hsubl.map (fun c : Nat × K × V => c.1)
            simpa [Node.cell] using this)
        refine ⟨⟨setColorIfPresent Color.black
            (zip (assign x.ptr nx.key nx.value nr)
              (path1.map (assignFrame x.ptr nx.key nx.value))), tree.comparator,
          decr32 tree.size⟩, ?_, rfl, f1, f2, f3, f4⟩
        simp only [Remove, hloc0, isNil_node, and_self, if_true, min, hnext,
          Option.some_bind, e1, Option.bind_eq_bind, replace, replaceNode]

end RBTree

/-! ## Claims on the plain BST engine -/

section BSTClaims

variable {K V : Type}

theorem bstree_inv_of_spec_put {tree t : BSTree K V} {k : K} {v : V}
    (h : TotalOrder tree.comparator) (hinv : tree.Inv) (hroom : tree.size + 1 < uint32Size)
    (hc : t.comparator = tree.comparator)
    (hp : PutSpec tree.comparator k v (entriesOf BSTree.Node.key BSTree.Node.value tree.root)
      (entriesOf BSTree.Node.key BSTree.Node.value t.root) tree.size t.size) : t.Inv := by
  constructor
  · rw [hc, ← @keys_entriesOf _ _ _ BSTree.Node.key BSTree.Node.value]
    apply putSpec_increasing h hp
    rw [keys_entriesOf]; exact hinv.1
  · rw [← @length_entriesOf _ _ _ BSTree.Node.key BSTree.Node.value]
    apply putSpec_size hp _ hroom
    rw [length_entriesOf]; exact hinv.2

/-- C5, as amended: `BSTree.Put` preserves the invariant of the plain BST engine
(strictly increasing in-order keys, `size` equal to the number of reachable
nodes) on every tree under a total-order comparator whose `size` is below the
largest `uint32`, that is, with fewer than 4294967295 nodes. -/
theorem bstree_put_preserves_invariant (tree : BSTree K V) (key : K) (value : V)
    (horder : TotalOrder tree.comparator) (hinv : tree.Inv)
    (hroom : tree.size + 1 < uint32Size) :
    ∃ t, tree.Put key value = some t ∧ t.comparator = tree.comparator ∧ t.Inv := by
  obtain ⟨t, h1, h2, h3⟩ := BSTree.bst_put_spec tree key value horder hinv.1
  exact ⟨t, h1, h2, bstree_inv_of_spec_put horder hinv hroom h2 h3⟩

theorem bstree_sample_inv : BSTree.sample.Inv := by
  constructor
  · simp [BSTree.sample, StrictlyIncreasing, keysOf, natCompare]
  · rfl

theorem bstree_put_preserves_invariant_witness :
    (TotalOrder BSTree.sample.comparator ∧ BSTree.sample.Inv ∧
      BSTree.sample.size + 1 < uint32Size) ∧
    ∃ t, BSTree.sample.Put 5 50 = some t ∧ t.comparator = BSTree.sample.comparator ∧ t.Inv :=
  ⟨⟨natCompare_totalOrder, bstree_sample_inv, by decide⟩,
    bstree_put_preserves_invariant BSTree.sample 5 50 natCompare_totalOrder bstree_sample_inv
      (by decide)⟩

theorem bstree_full_inv : BSTree.full.Inv := by
  constructor
  · show StrictlyIncreasing natCompare
      (keysOf BSTree.Node.key (perfect (fun _ i => (⟨i, i⟩ : BSTree.Node Nat Nat)) 32 1))
    rw [keysOf_perfect BSTree.Node.key _ id (fun _ _ => rfl), List.map_id]
    exact increasing_range' _ _
  · show 4294967295 = (perfect (fun _ i => (⟨i, i⟩ : BSTree.Node Nat Nat)) 32 1).count
    rw [count_perfect]
    norm_num

/-- C5 fails as stated: on the tree `BSTree.full`, which satisfies the invariant
with 4294967295 nodes, `Put` of the new key 0 wraps `size` around to 0 while the
tree has 4294967296 nodes. -/
theorem bstree_put_breaks_size_when_full :
    TotalOrder BSTree.full.comparator ∧ BSTree.full.Inv ∧
    ∃ t, BSTree.full.Put 0 0 = some t ∧ ¬ t.Inv := by
  refine ⟨natCompare_totalOrder, bstree_full_inv, ?_⟩
  obtain ⟨t, h1, -, h3⟩ :=
    BSTree.bst_put_spec BSTree.full 0 0 natCompare_totalOrder bstree_full_inv.1
  refine ⟨t, h1, ?_⟩
  intro hinv
  have hcount := hinv.2
  rw [← @length_entriesOf _ _ _ BSTree.Node.key BSTree.Node.value] at hcount
  rcases h3 with ⟨B, A, -, -, -, hnew, hsize⟩ | ⟨B, x, A, hold, hk, -, -⟩
  · rw [hnew, hsize] at hcount
    have : incr32 BSTree.full.size = 0 := by decide
    rw [this] at hcount
    simp at hcount
    omega
  · have hx : x.1 ∈ keysOf BSTree.Node.key BSTree.full.root := by
      rw [← @keys_entriesOf _ _ _ BSTree.Node.key BSTree.Node.value, hold]
      simp
    have hx0 : x.1 = 0 := (natCompare_eq.1 hk).symm
    rw [hx0] at hx
    change (0 : Nat) ∈ keysOf BSTree.Node.key
      (perfect (fun _ i => (⟨i, i⟩ : BSTree.Node Nat Nat)) 32 1) at hx
    rw [keysOf_perfect BSTree.Node.key _ id (fun _ _ => rfl)] at hx
    simp at hx

/-- C6: `BSTree.Remove` preserves the invariant of the plain BST engine
(strictly increasing in-order keys, `size` equal to the number of reachable
nodes) on every tree under a total-order comparator and for every key, present
or absent; `size` is a `uint32`. -/
theorem bstree_remove_preserves_invariant (tree : BSTree K V) (key : K)
    (horder : TotalOrder tree.comparator) (hinv : tree.Inv)
    (hsize : tree.size < uint32Size) :
    ∃ t, tree.Remove key = some t ∧ t.comparator = tree.comparator ∧ t.Inv := by
  obtain ⟨t, h1, h2, h3⟩ := BSTree.bst_remove_spec tree key horder hinv.1
  refine ⟨t, h1, h2, ?_, ?_⟩
  · rw [h2, ← @keys_entriesOf _ _ _ BSTree.Node.key BSTree.Node.value]
    apply removeSpec_increasing h3
    rw [keys_entriesOf]; exact hinv.1
  · rw [← @length_entriesOf _ _ _ BSTree.Node.key BSTree.Node.value]
    apply removeSpec_size h3 _ hsize
    rw [length_entriesOf]; exact hinv.2

theorem bstree_remove_preserves_invariant_witness :
    (TotalOrder BSTree.sample.comparator ∧ BSTree.sample.Inv ∧
      BSTree.sample.size < uint32Size) ∧
    ∃ t, BSTree.sample.Remove 2 = some t ∧ t.comparator = BSTree.sample.comparator ∧ t.Inv :=
  ⟨⟨natCompare_totalOrder, bstree_sample_inv, by decide⟩,
    bstree_remove_preserves_invariant BSTree.sample 2 natCompare_totalOrder bstree_sample_inv
      (by decide)⟩

end BSTClaims

/-! ## Claims on the AVL engine -/

section AVLClaims

variable {K V : Type}

theorem avltree_get_eq_find (tree : AVLTree K V) (k : K) (h : TotalOrder tree.comparator)
    (hs : StrictlyIncreasing tree.comparator (keysOf AVLTree.Node.key tree.root)) :
    tree.Get k =
      ((AVLTree.entries tree.root).find? (fun e => decide (tree.comparator k e.1 = 0))).map
        Prod.snd := by
  rw [AVLTree.entries, ← @getLoop_value _ _ _ _ AVLTree.Node.key AVLTree.Node.value h k tree.root hs]
  simp only [AVLTree.Get, AVLTree.get]
  cases (getLoop tree.comparator AVLTree.Node.key k tree.root []).node <;> rfl

theorem avltree_inv_valid {tree : AVLTree K V} (hinv : tree.Inv) :
    AVLTree.Valid tree.root ∧ AVLTree.getHeight tree.root ≤ tree.size := by
  have hv := (AVLTree.avl_valid_iff tree.root).2 ⟨hinv.2.2.1, hinv.2.2.2⟩
  refine ⟨hv, ?_⟩
  rw [hinv.2.1]
  exact AVLTree.getHeight_le_count hv

/-- C3, as amended: `AVLTree.Put` preserves the invariant of the AVL engine (BST
ordering, `size` equal to the number of reachable nodes, every stored height one
more than the larger child height, every balance factor in `[-1, 1]`) on every
tree under a total-order comparator whose `size` is below the largest `uint32`,
that is, with fewer than 4294967295 nodes. -/
theorem avltree_put_preserves_invariant (tree : AVLTree K V) (key : K) (value : V)
    (horder : TotalOrder tree.comparator) (hinv : tree.Inv)
    (hroom : tree.size + 1 < uint32Size) :
    ∃ t, tree.Put key value = some t ∧ t.comparator = tree.comparator ∧ t.Inv := by
  obtain ⟨hv, hh⟩ := avltree_inv_valid hinv
  have hs := (isBST_iff_increasing horder tree.root).1 hinv.1
  obtain ⟨t, h1, h2, h3, h4⟩ := AVLTree.avl_put_spec tree key value horder hs hv (by omega)
  refine ⟨t, h1, h2, ?_, ?_, ((AVLTree.avl_valid_iff t.root).1 h4).1,
    ((AVLTree.avl_valid_iff t.root).1 h4).2⟩
  · rw [h2, isBST_iff_increasing horder, ← @keys_entriesOf _ _ _ AVLTree.Node.key AVLTree.Node.value]
    apply putSpec_increasing horder h3
    rw [AVLTree.entries, keys_entriesOf]; exact hs
  · rw [← @length_entriesOf _ _ _ AVLTree.Node.key AVLTree.Node.value]
    apply putSpec_size h3 _ hroom
    rw [AVLTree.entries, length_entriesOf]; exact hinv.2.1

theorem avltree_sample_inv : AVLTree.sample.Inv := by
  refine ⟨?_, rfl, ?_, ?_⟩
  · simp [AVLTree.sample, IsBST, natCompare]
  · simp [AVLTree.sample, AVLTree.HeightsOK, AVLTree.getHeight]
  · simp [AVLTree.sample, AVLTree.Balanced, AVLTree.getHeight]

theorem avltree_put_preserves_invariant_witness :
    (TotalOrder AVLTree.sample.comparator ∧ AVLTree.sample.Inv ∧
      AVLTree.sample.size + 1 < uint32Size) ∧
    ∃ t, AVLTree.sample.Put 5 50 = some t ∧ t.comparator = AVLTree.sample.comparator ∧ t.Inv :=
  ⟨⟨natCompare_totalOrder, avltree_sample_inv, by decide⟩,
    avltree_put_preserves_invariant AVLTree.sample 5 50 natCompare_totalOrder avltree_sample_inv
      (by decide)⟩

theorem avltree_valid_perfect (d lo : Nat) :
    AVLTree.Valid (perfect (fun d i => (⟨i, i, d⟩ : AVLTree.Node Nat Nat)) d lo) ∧
    AVLTree.getHeight (perfect (fun d i => (⟨i, i, d⟩ : AVLTree.Node Nat Nat)) d lo) = d := by
  induction d generalizing lo with
  | zero => exact ⟨trivial, rfl⟩
  | succ d ih =>
    obtain ⟨h1, h2⟩ := ih lo
    obtain ⟨h3, h4⟩ := ih (lo + 2 ^ d)
    refine ⟨⟨?_, ?_, ?_, h1, h3⟩, rfl⟩
    · rw [h2, h4]; simp; omega
    · rw [h2, h4]; omega
    · rw [h2, h4]; omega

theorem avltree_full_inv : AVLTree.full.Inv := by
  have hv := (AVLTree.avl_valid_iff _).1
    (avltree_valid_perfect 32 1).1
  refine ⟨?_, ?_, hv.1, hv.2⟩
  · show IsBST natCompare AVLTree.Node.key
      (perfect (fun d i => (⟨i, i, d⟩ : AVLTree.Node Nat Nat)) 32 1)
    rw [isBST_iff_increasing natCompare_totalOrder]
    rw [keysOf_perfect AVLTree.Node.key _ id (fun _ _ => rfl), List.map_id]
    exact increasing_range' _ _
  · show 4294967295 = (perfect (fun d i => (⟨i, i, d⟩ : AVLTree.Node Nat Nat)) 32 1).count
    rw [count_perfect]
    norm_num

/-- C3 fails as stated: on the tree `AVLTree.full`, which satisfies the invariant
with 4294967295 nodes, `Put` of the new key 0 wraps `size` around to 0 while the
tree has 4294967296 nodes. -/
theorem avltree_put_breaks_size_when_full :
    TotalOrder AVLTree.full.comparator ∧ AVLTree.full.Inv ∧
    ∃ t, AVLTree.full.Put 0 0 = some t ∧ ¬ t.Inv := by
  refine ⟨natCompare_totalOrder, avltree_full_inv, ?_⟩
  have hs := (isBST_iff_increasing natCompare_totalOrder AVLTree.full.root).1 avltree_full_inv.1
  obtain ⟨t, h1, -, h3, -⟩ :=
    AVLTree.avl_put_spec AVLTree.full 0 0 natCompare_totalOrder hs (avltree_valid_perfect 32 1).1
      (by
        show AVLTree.getHeight
          (perfect (fun d i => (⟨i, i, d⟩ : AVLTree.Node Nat Nat)) 32 1) + 1 < uint32Size
        rw [(avltree_valid_perfect 32 1).2]; decide)
  refine ⟨t, h1, ?_⟩
  intro hinv
  have hcount := hinv.2.1
  rw [← @length_entriesOf _ _ _ AVLTree.Node.key AVLTree.Node.value] at hcount
  rcases h3 with ⟨B, A, -, -, -, hnew, hsize⟩ | ⟨B, x, A, hold, hk, -, -⟩
  · rw [AVLTree.entries] at hnew
    rw [hnew, hsize] at hcount
    have : incr32 AVLTree.full.size = 0 := by decide
    rw [this] at hcount
    simp at hcount
    omega
  · have hx : x.1 ∈ keysOf AVLTree.Node.key AVLTree.full.root := by
      rw [← @keys_entriesOf _ _ _ AVLTree.Node.key AVLTree.Node.value, ← AVLTree.entries, hold]
      simp
    have hx0 : x.1 = 0 := (natCompare_eq.1 hk).symm
    rw [hx0] at hx
    change (0 : Nat) ∈ keysOf AVLTree.Node.key
      (perfect (fun d i => (⟨i, i, d⟩ : AVLTree.Node Nat Nat)) 32 1) at hx
    rw [keysOf_perfect AVLTree.Node.key _ id (fun _ _ => rfl)] at hx
    simp at hx

/-- C4: `AVLTree.Remove` preserves the invariant of the AVL engine (BST ordering,
`size` equal to the number of reachable nodes, every stored height one more than
the larger child height, every balance factor in `[-1, 1]`) on every tree under
a total-order comparator and for every key; `size` is a `uint32`. -/
theorem avltree_remove_preserves_invariant (tree : AVLTree K V) (key : K)
    (horder : TotalOrder tree.comparator) (hinv : tree.Inv)
    (hsize : tree.size < uint32Size) :
    ∃ t, tree.Remove key = some t ∧ t.comparator = tree.comparator ∧ t.Inv := by
  obtain ⟨hv, hh⟩ := avltree_inv_valid hinv
  have hs := (isBST_iff_increasing horder tree.root).1 hinv.1
  obtain ⟨t, h1, h2, h3, h4⟩ := AVLTree.avl_remove_spec tree key horder hs hv (by omega)
  refine ⟨t, h1, h2, ?_, ?_, ((AVLTree.avl_valid_iff t.root).1 h4).1,
    ((AVLTree.avl_valid_iff t.root).1 h4).2⟩
  · rw [h2, isBST_iff_increasing horder, ← @keys_entriesOf _ _ _ AVLTree.Node.key AVLTree.Node.value]
    apply removeSpec_increasing h3
    rw [AVLTree.entries, keys_entriesOf]; exact hs
  · rw [← @length_entriesOf _ _ _ AVLTree.Node.key AVLTree.Node.value]
    apply removeSpec_size h3 _ hsize
    rw [AVLTree.entries, length_entriesOf]; exact hinv.2.1

theorem avltree_remove_preserves_invariant_witness :
    (TotalOrder AVLTree.sample.comparator ∧ AVLTree.sample.Inv ∧
      AVLTree.sample.size < uint32Size) ∧
    ∃ t, AVLTree.sample.Remove 2 = some t ∧ t.comparator = AVLTree.sample.comparator ∧ t.Inv :=
  ⟨⟨natCompare_totalOrder, avltree_sample_inv, by decide⟩,
    avltree_remove_preserves_invariant AVLTree.sample 2 natCompare_totalOrder
      avltree_sample_inv (by decide)⟩

/-- A valid AVL subtree of stored height `h` has at least `2 ^ (h / 2) - 1`
nodes. -/
theorem avltree_count_lower {t : Tree (AVLTree.Node K V)} (hv : AVLTree.Valid t) :
    2 ^ (AVLTree.getHeight t / 2) ≤ t.count + 1 := by
  induction t with
  | nil => simp [AVLTree.getHeight, Tree.count]
  | node l x r ihl ihr =>
    obtain ⟨h0, h1, h2, h3, h4⟩ := hv
    have hl := ihl h3
    have hr := ihr h4
    simp only [AVLTree.getHeight_node, Tree.count]
    rcases Nat.eq_zero_or_pos (x.height / 2) with he | he
    · rw [he]; simp
    · obtain ⟨e, he1⟩ : ∃ e, x.height / 2 = e + 1 := ⟨x.height / 2 - 1, by omega⟩
      have hel : e ≤ AVLTree.getHeight l / 2 := by omega
      have her : e ≤ AVLTree.getHeight r / 2 := by omega
      have pl := Nat.pow_le_pow_right (by norm_num : 0 < 2) hel
      have pr := Nat.pow_le_pow_right (by norm_num : 0 < 2) her
      rw [he1, pow_succ]
      omega

/-- The stored root height of a valid AVL tree whose nodes fit in a 64-bit
address space is far below the largest `uint32`. -/
theorem avltree_height_room {t : Tree (AVLTree.Node K V)} (hv : AVLTree.Valid t)
    (hc : t.count < 2 ^ 64) : AVLTree.getHeight t + 1 < uint32Size := by
  by_contra hcon
  have h65 : 65 ≤ AVLTree.getHeight t / 2 := by
    unfold uint32Size at hcon
    omega
  have p := Nat.pow_le_pow_right (by norm_num : 0 < 2) h65
  have q := avltree_count_lower hv
  have e : (2 : Nat) ^ 65 = 2 * 2 ^ 64 := by norm_num
  omega

/-- C9: in the AVL engine `Get(k)` after `Put(k, v)` returns `(v, true)`, for
every valid AVL tree (BST ordering, correct stored heights, balance factors in
`[-1, 1]`) under a total-order comparator whose stored root height, a `uint32`,
has room for one more level. -/
theorem avltree_get_after_put (tree : AVLTree K V) (key : K) (value : V)
    (horder : TotalOrder tree.comparator)
    (hbst : IsBST tree.comparator AVLTree.Node.key tree.root)
    (hheights : AVLTree.HeightsOK tree.root) (hbalanced : AVLTree.Balanced tree.root)
    (hroom : AVLTree.getHeight tree.root + 1 < uint32Size) :
    ∃ t, tree.Put key value = some t ∧ t.Get key = some value := by
  have hv := (AVLTree.avl_valid_iff tree.root).2 ⟨hheights, hbalanced⟩
  have hs := (isBST_iff_increasing horder tree.root).1 hbst
  obtain ⟨t, h1, h2, h3, -⟩ := AVLTree.avl_put_spec tree key value horder hs hv hroom
  refine ⟨t, h1, ?_⟩
  have hs1 : StrictlyIncreasing tree.comparator ((AVLTree.entries tree.root).map Prod.fst) := by
    rw [AVLTree.entries, keys_entriesOf]; exact hs
  have hs2 := putSpec_increasing horder h3 hs1
  rw [AVLTree.entries, keys_entriesOf, ← h2] at hs2
  rw [avltree_get_eq_find t key (h2 ▸ horder) hs2, h2, putSpec_find horder h3 hs1]
  rfl

theorem avltree_get_after_put_witness :
    (TotalOrder AVLTree.sample.comparator ∧
      IsBST AVLTree.sample.comparator AVLTree.Node.key AVLTree.sample.root ∧
      AVLTree.HeightsOK AVLTree.sample.root ∧ AVLTree.Balanced AVLTree.sample.root ∧
      AVLTree.getHeight AVLTree.sample.root + 1 < uint32Size) ∧
    ∃ t, AVLTree.sample.Put 5 50 = some t ∧ t.Get 5 = some 50 :=
  ⟨⟨natCompare_totalOrder, avltree_sample_inv.1, avltree_sample_inv.2.2.1,
      avltree_sample_inv.2.2.2, by decide⟩,
    avltree_get_after_put AVLTree.sample 5 50 natCompare_totalOrder avltree_sample_inv.1
      avltree_sample_inv.2.2.1 avltree_sample_inv.2.2.2 (by decide)⟩

/-- C10: in the AVL engine `Get(k)` after `Remove(k)` reports absence, for every
valid AVL tree (BST ordering, correct stored heights, balance factors in
`[-1, 1]`) under a total-order comparator and every key; the stored root height
is a `uint32`. -/
theorem avltree_get_after_remove (tree : AVLTree K V) (key : K)
    (horder : TotalOrder tree.comparator)
    (hbst : IsBST tree.comparator AVLTree.Node.key tree.root)
    (hheights : AVLTree.HeightsOK tree.root) (hbalanced : AVLTree.Balanced tree.root)
    (hroom : AVLTree.getHeight tree.root < uint32Size) :
    ∃ t, tree.Remove key = some t ∧ t.Get key = none := by
  have hv := (AVLTree.avl_valid_iff tree.root).2 ⟨hheights, hbalanced⟩
  have hs := (isBST_iff_increasing horder tree.root).1 hbst
  obtain ⟨t, h1, h2, h3, -⟩ := AVLTree.avl_remove_spec tree key horder hs hv hroom
  refine ⟨t, h1, ?_⟩
  have hs1 : StrictlyIncreasing tree.comparator ((AVLTree.entries tree.root).map Prod.fst) := by
    rw [AVLTree.entries, keys_entriesOf]; exact hs
  have hs2 := removeSpec_increasing h3 hs1
  rw [AVLTree.entries, keys_entriesOf, ← h2] at hs2
  rw [avltree_get_eq_find t key (h2 ▸ horder) hs2, h2, removeSpec_find horder h3 hs1]
  rfl

theorem avltree_get_after_remove_witness :
    (TotalOrder AVLTree.sample.comparator ∧
      IsBST AVLTree.sample.comparator AVLTree.Node.key AVLTree.sample.root ∧
      AVLTree.HeightsOK AVLTree.sample.root ∧ AVLTree.Balanced AVLTree.sample.root ∧
      AVLTree.getHeight AVLTree.sample.root < uint32Size) ∧
    ∃ t, AVLTree.sample.Remove 2 = some t ∧ t.Get 2 = none :=
  ⟨⟨natCompare_totalOrder, avltree_sample_inv.1, avltree_sample_inv.2.2.1,
      avltree_sample_inv.2.2.2, by decide⟩,
    avltree_get_after_remove AVLTree.sample 2 natCompare_totalOrder avltree_sample_inv.1
      avltree_sample_inv.2.2.1 avltree_sample_inv.2.2.2 (by decide)⟩

end AVLClaims

/-! ## Claims on the Red-Black engine -/

section RBClaims

variable {K V : Type}

theorem rbtree_get_eq_find (tree : RBTree K V) (k : K) (h : TotalOrder tree.comparator)
    (hs : StrictlyIncreasing tree.comparator (keysOf RBTree.Node.key tree.root)) :
    tree.Get k =
      ((RBTree.entries tree.root).find? (fun e => decide (tree.comparator k e.1 = 0))).map
        Prod.snd := by
  rw [RBTree.entries, ← @getLoop_value _ _ _ _ RBTree.Node.key RBTree.Node.value h k tree.root hs]
  simp only [RBTree.Get, RBTree.get]
  cases (getLoop tree.comparator RBTree.Node.key k tree.root []).node <;> rfl

theorem rbtree_inv_of_valid {tree t : RBTree K V} (horder : TotalOrder tree.comparator)
    (hcmp : t.comparator = tree.comparator)
    (hs : StrictlyIncreasing tree.comparator ((RBTree.entries t.root).map Prod.fst))
    (hsize : t.size = (RBTree.entries t.root).length) (hv : RBTree.Valid t.root)
    (hb : RBTree.getColor t.root = Color.black) : t.Inv := by
  refine ⟨?_, ?_, hb, ((RBTree.rb_valid_iff t.root).1 hv).1, ((RBTree.rb_valid_iff t.root).1 hv).2⟩
  · rw [hcmp, isBST_iff_increasing horder,
      ← @keys_entriesOf _ _ _ RBTree.Node.key RBTree.Node.value]
    exact hs
  · rw [← @length_entriesOf _ _ _ RBTree.Node.key RBTree.Node.value]
    exact hsize

theorem rbtree_inv_entries {tree : RBTree K V} (horder : TotalOrder tree.comparator)
    (hinv : tree.Inv) :
    StrictlyIncreasing tree.comparator (keysOf RBTree.Node.key tree.root) ∧
    StrictlyIncreasing tree.comparator ((RBTree.entries tree.root).map Prod.fst) ∧
    tree.size = (RBTree.entries tree.root).length ∧ RBTree.Valid tree.root := by
  have hs := (isBST_iff_increasing horder tree.root).1 hinv.1
  refine ⟨hs, ?_, ?_, (RBTree.rb_valid_iff tree.root).2 ⟨hinv.2.2.2.1, hinv.2.2.2.2⟩⟩
  · rw [RBTree.entries, keys_entriesOf]; exact hs
  · rw [RBTree.entries, length_entriesOf]; exact hinv.2.1

theorem rbtree_sample_inv : RBTree.sample.Inv := by
  refine ⟨?_, rfl, rfl, ?_, ?_⟩
  · simp [RBTree.sample, IsBST, natCompare]
  · simp [RBTree.sample, RBTree.NoRedRed, RBTree.getColor]
  · simp [RBTree.sample, RBTree.BlackBalanced, RBTree.blackCounts]

theorem rbtree_sample_ptrs : RBTree.PtrsDistinct RBTree.sample.root := by
  simp [RBTree.sample, RBTree.PtrsDistinct]

theorem rbtree_valid_perfect (d lo : Nat) :
    RBTree.Valid
      (perfect (fun _ i => (⟨i, i, Color.black, i⟩ : RBTree.Node Nat Nat)) d lo) ∧
    RBTree.bh
      (perfect (fun _ i => (⟨i, i, Color.black, i⟩ : RBTree.Node Nat Nat)) d lo) = d ∧
    RBTree.getColor
      (perfect (fun _ i => (⟨i, i, Color.black, i⟩ : RBTree.Node Nat Nat)) d lo) =
        Color.black := by
  induction d generalizing lo with
  | zero => exact ⟨trivial, rfl, rfl⟩
  | succ d ih =>
    obtain ⟨h1, h2, -⟩ := ih lo
    obtain ⟨h3, h4, -⟩ := ih (lo + 2 ^ d)
    refine ⟨⟨fun hx => absurd hx (by simp), ?_, h1, h3⟩, ?_, rfl⟩
    · rw [h2, h4]
    · show RBTree.bh _ + RBTree.blackUnit Color.black = d + 1
      rw [h2]; rfl

theorem rbtree_full_inv : RBTree.full.Inv := by
  have hv := (RBTree.rb_valid_iff _).1 (rbtree_valid_perfect 32 1).1
  refine ⟨?_, ?_, (rbtree_valid_perfect 32 1).2.2, hv.1, hv.2⟩
  · show IsBST natCompare RBTree.Node.key
      (perfect (fun _ i => (⟨i, i, Color.black, i⟩ : RBTree.Node Nat Nat)) 32 1)
    rw [isBST_iff_increasing natCompare_totalOrder]
    rw [keysOf_perfect RBTree.Node.key _ id (fun _ _ => rfl), List.map_id]
    exact increasing_range' _ _
  · show 4294967295 =
      (perfect (fun _ i => (⟨i, i, Color.black, i⟩ : RBTree.Node Nat Nat)) 32 1).count
    rw [count_perfect]
    norm_num

/-- C1, as amended: `RBTree.Put` preserves the invariant of the Red-Black engine
(BST ordering, `size` equal to the number of reachable nodes, black root, no red
node with a red child, the same number of black nodes on every path from the
root to an absent child) on every tree under a total-order comparator whose
`size` is below the largest `uint32`, that is, with fewer than 4294967295 nodes;
`ptr` is the address of the node that the call allocates. -/
theorem rbtree_put_preserves_invariant (tree : RBTree K V) (key : K) (value : V) (ptr : Nat)
    (horder : TotalOrder tree.comparator) (hinv : tree.Inv)
    (hroom : tree.size + 1 < uint32Size) :
    ∃ t, tree.Put key value ptr = some t ∧ t.comparator = tree.comparator ∧ t.Inv := by
  obtain ⟨hs, hs1, hsize, hv⟩ := rbtree_inv_entries horder hinv
  obtain ⟨t, h1, h2, h3, h4, h5, -⟩ :=
    RBTree.rb_put_spec tree key value ptr horder hs hv hinv.2.2.1
  exact ⟨t, h1, h2, rbtree_inv_of_valid horder h2 (putSpec_increasing horder h3 hs1)
    (putSpec_size h3 hsize hroom) h4 h5⟩

theorem rbtree_put_preserves_invariant_witness :
    (TotalOrder RBTree.sample.comparator ∧ RBTree.sample.Inv ∧
      RBTree.sample.size + 1 < uint32Size) ∧
    ∃ t, RBTree.sample.Put 5 50 104 = some t ∧ t.comparator = RBTree.sample.comparator ∧
      t.Inv :=
  ⟨⟨natCompare_totalOrder, rbtree_sample_inv, by decide⟩,
    rbtree_put_preserves_invariant RBTree.sample 5 50 104 natCompare_totalOrder
      rbtree_sample_inv (by decide)⟩

/-- C1 fails as stated: on the tree `RBTree.full`, which satisfies the invariant
with 4294967295 nodes, `Put` of the new key 0 wraps `size` around to 0 while the
tree has 4294967296 nodes. -/
theorem rbtree_put_breaks_size_when_full :
    TotalOrder RBTree.full.comparator ∧ RBTree.full.Inv ∧
    ∃ t, RBTree.full.Put 0 0 0 = some t ∧ ¬ t.Inv := by
  refine ⟨natCompare_totalOrder, rbtree_full_inv, ?_⟩
  obtain ⟨hs, -, -, hv⟩ := rbtree_inv_entries natCompare_totalOrder rbtree_full_inv
  obtain ⟨t, h1, -, h3, -⟩ :=
    RBTree.rb_put_spec RBTree.full 0 0 0 natCompare_totalOrder hs hv rbtree_full_inv.2.2.1
  refine ⟨t, h1, ?_⟩
  intro hinv
  have hcount := hinv.2.1
  rw [← @length_entriesOf _ _ _ RBTree.Node.key RBTree.Node.value] at hcount
  rcases h3 with ⟨B, A, -, -, -, hnew, hsize⟩ | ⟨B, x, A, hold, hk, -, -⟩
  · rw [RBTree.entries] at hnew
    rw [hnew, hsize] at hcount
    have : incr32 RBTree.full.size = 0 := by decide
    rw [this] at hcount
    simp at hcount
    omega
  · have hx : x.1 ∈ keysOf RBTree.Node.key RBTree.full.root := by
      rw [← @keys_entriesOf _ _ _ RBTree.Node.key RBTree.Node.value, ← RBTree.entries, hold]
      simp
    have hx0 : x.1 = 0 := (natCompare_eq.1 hk).symm
    rw [hx0] at hx
    change (0 : Nat) ∈ keysOf RBTree.Node.key
      (perfect (fun _ i => (⟨i, i, Color.black, i⟩ : RBTree.Node Nat Nat)) 32 1) at hx
    rw [keysOf_perfect RBTree.Node.key _ id (fun _ _ => rfl)] at hx
    simp at hx

/-- C2: `RBTree.Remove` preserves the invariant of the Red-Black engine (BST
ordering, `size` equal to the number of reachable nodes, black root, no red node
with a red child, the same number of black nodes on every path from the root to
an absent child) on every tree under a total-order comparator and for every
key; `size` is a `uint32` and the nodes live at distinct addresses, which the
call keeps distinct. -/
theorem rbtree_remove_preserves_invariant (tree : RBTree K V) (key : K)
    (horder : TotalOrder tree.comparator) (hinv : tree.Inv)
    (hsize : tree.size < uint32Size) (hptrs : RBTree.PtrsDistinct tree.root) :
    ∃ t, tree.Remove key = some t ∧ t.comparator = tree.comparator ∧ t.Inv ∧
      RBTree.PtrsDistinct t.root := by
  obtain ⟨hs, hs1, hlen, hv⟩ := rbtree_inv_entries horder hinv
  obtain ⟨t, h1, h2, h3, h4, h5, h6⟩ :=
    RBTree.rb_remove_spec tree key horder hs hv hinv.2.2.1 hptrs
  exact ⟨t, h1, h2, rbtree_inv_of_valid horder h2 (removeSpec_increasing h3 hs1)
    (removeSpec_size h3 hlen hsize) h4 h5, h6⟩

theorem rbtree_remove_preserves_invariant_witness :
    (TotalOrder RBTree.sample.comparator ∧ RBTree.sample.Inv ∧
      RBTree.sample.size < uint32Size ∧ RBTree.PtrsDistinct RBTree.sample.root) ∧
    ∃ t, RBTree.sample.Remove 2 = some t ∧ t.comparator = RBTree.sample.comparator ∧ t.Inv ∧
      RBTree.PtrsDistinct t.root :=
  ⟨⟨natCompare_totalOrder, rbtree_sample_inv, by decide, rbtree_sample_ptrs⟩,
    rbtree_remove_preserves_invariant RBTree.sample 2 natCompare_totalOrder
      rbtree_sample_inv (by decide) rbtree_sample_ptrs⟩

/-- C7: in the Red-Black engine `Get(k)` after `Put(k, v)` returns `(v, true)`,
for every valid Red-Black tree (BST ordering, black root, no red node with a red
child, equal black counts on all paths) under a total-order comparator, every
key and value, and every address `ptr` of the node that the call allocates. -/
theorem rbtree_get_after_put (tree : RBTree K V) (key : K) (value : V) (ptr : Nat)
    (horder : TotalOrder tree.comparator)
    (hbst : IsBST tree.comparator RBTree.Node.key tree.root)
    (hroot : RBTree.getColor tree.root = Color.black)
    (hred : RBTree.NoRedRed tree.root) (hblack : RBTree.BlackBalanced tree.root) :
    ∃ t, tree.Put key value ptr = some t ∧ t.Get key = some value := by
  have hv := (RBTree.rb_valid_iff tree.root).2 ⟨hred, hblack⟩
  have hs := (isBST_iff_increasing horder tree.root).1 hbst
  obtain ⟨t, h1, h2, h3, -⟩ := RBTree.rb_put_spec tree key value ptr horder hs hv hroot
  refine ⟨t, h1, ?_⟩
  have hs1 : StrictlyIncreasing tree.comparator ((RBTree.entries tree.root).map Prod.fst) := by
    rw [RBTree.entries, keys_entriesOf]; exact hs
  have hs2 := putSpec_increasing horder h3 hs1
  rw [RBTree.entries, keys_entriesOf, ← h2] at hs2
  rw [rbtree_get_eq_find t key (h2 ▸ horder) hs2, h2, putSpec_find horder h3 hs1]
  rfl

theorem rbtree_get_after_put_witness :
    (TotalOrder RBTree.sample.comparator ∧
      IsBST RBTree.sample.comparator RBTree.Node.key RBTree.sample.root ∧
      RBTree.getColor RBTree.sample.root = Color.black ∧
      RBTree.NoRedRed RBTree.sample.root ∧ RBTree.BlackBalanced RBTree.sample.root) ∧
    ∃ t, RBTree.sample.Put 5 50 104 = some t ∧ t.Get 5 = some 50 :=
  ⟨⟨natCompare_totalOrder, rbtree_sample_inv.1, rbtree_sample_inv.2.2.1,
      rbtree_sample_inv.2.2.2.1, rbtree_sample_inv.2.2.2.2⟩,
    rbtree_get_after_put RBTree.sample 5 50 104 natCompare_totalOrder rbtree_sample_inv.1
      rbtree_sample_inv.2.2.1 rbtree_sample_inv.2.2.2.1 rbtree_sample_inv.2.2.2.2⟩

/-- C8: in the Red-Black engine `Get(k)` after `Remove(k)` reports absence, for
every valid Red-Black tree (BST ordering, black root, no red node with a red
child, equal black counts on all paths) under a total-order comparator whose
nodes live at distinct addresses, and every key. -/
theorem rbtree_get_after_remove (tree : RBTree K V) (key : K)
    (horder : TotalOrder tree.comparator)
    (hbst : IsBST tree.comparator RBTree.Node.key tree.root)
    (hroot : RBTree.getColor tree.root = Color.black)
    (hred : RBTree.NoRedRed tree.root) (hblack : RBTree.BlackBalanced tree.root)
    (hptrs : RBTree.PtrsDistinct tree.root) :
    ∃ t, tree.Remove key = some t ∧ t.Get key = none := by
  have hv := (RBTree.rb_valid_iff tree.root).2 ⟨hred, hblack⟩
  have hs := (isBST_iff_increasing horder tree.root).1 hbst
  obtain ⟨t, h1, h2, h3, -⟩ := RBTree.rb_remove_spec tree key horder hs hv hroot hptrs
  refine ⟨t, h1, ?_⟩
  have hs1 : StrictlyIncreasing tree.comparator ((RBTree.entries tree.root).map Prod.fst) := by
    rw [RBTree.entries, keys_entriesOf]; exact hs
  have hs2 := removeSpec_increasing h3 hs1
  rw [RBTree.entries, keys_entriesOf, ← h2] at hs2
  rw [rbtree_get_eq_find t key (h2 ▸ horder) hs2, h2, removeSpec_find horder h3 hs1]
  rfl

theorem rbtree_get_after_remove_witness :
    (TotalOrder RBTree.sample.comparator ∧
      IsBST RBTree.sample.comparator RBTree.Node.key RBTree.sample.root ∧
      RBTree.getColor RBTree.sample.root = Color.black ∧
      RBTree.NoRedRed RBTree.sample.root ∧ RBTree.BlackBalanced RBTree.sample.root ∧
      RBTree.PtrsDistinct RBTree.sample.root) ∧
    ∃ t, RBTree.sample.Remove 2 = some t ∧ t.Get 2 = none :=
  ⟨⟨natCompare_totalOrder, rbtree_sample_inv.1, rbtree_sample_inv.2.2.1,
      rbtree_sample_inv.2.2.2.1, rbtree_sample_inv.2.2.2.2, rbtree_sample_ptrs⟩,
    rbtree_get_after_remove RBTree.sample 2 natCompare_totalOrder rbtree_sample_inv.1
      rbtree_sample_inv.2.2.1 rbtree_sample_inv.2.2.2.1 rbtree_sample_inv.2.2.2.2
      rbtree_sample_ptrs⟩

end RBClaims

/-! ## Further claims on the plain BST engine -/

section BSTLookup

variable {K V : Type}

theorem bstree_get_eq_find (tree : BSTree K V) (k : K) (h : TotalOrder tree.comparator)
    (hs : StrictlyIncreasing tree.comparator (keysOf BSTree.Node.key tree.root)) :
    tree.Get k =
      ((entriesOf BSTree.Node.key BSTree.Node.value tree.root).find?
        (fun e => decide (tree.comparator k e.1 = 0))).map Prod.snd := by
  rw [← @getLoop_value _ _ _ _ BSTree.Node.key BSTree.Node.value h k tree.root hs]
  simp only [BSTree.Get, BSTree.get]
  cases (getLoop tree.comparator BSTree.Node.key k tree.root []).node <;> rfl

/-- C11: in the plain BST engine `Get(k)` after `Put(k, v)` returns `(v, true)`,
for every tree with the BST ordering under a total-order comparator, every key
and every value. -/
theorem bstree_get_after_put (tree : BSTree K V) (key : K) (value : V)
    (horder : TotalOrder tree.comparator)
    (hbst : IsBST tree.comparator BSTree.Node.key tree.root) :
    ∃ t, tree.Put key value = some t ∧ t.Get key = some value := by
  have hs := (isBST_iff_increasing horder tree.root).1 hbst
  obtain ⟨t, h1, h2, h3⟩ := BSTree.bst_put_spec tree key value horder hs
  refine ⟨t, h1, ?_⟩
  have hs1 : StrictlyIncreasing tree.comparator
      ((entriesOf BSTree.Node.key BSTree.Node.value tree.root).map Prod.fst) := by
    rw [keys_entriesOf]; exact hs
  have hs2 := putSpec_increasing horder h3 hs1
  rw [keys_entriesOf, ← h2] at hs2
  rw [bstree_get_eq_find t key (h2 ▸ horder) hs2, h2, putSpec_find horder h3 hs1]
  rfl

theorem bstree_sample_bst :
    IsBST BSTree.sample.comparator BSTree.Node.key BSTree.sample.root :=
  (isBST_iff_increasing natCompare_totalOrder BSTree.sample.root).2 bstree_sample_inv.1

theorem bstree_get_after_put_witness :
    (TotalOrder BSTree.sample.comparator ∧
      IsBST BSTree.sample.comparator BSTree.Node.key BSTree.sample.root) ∧
    ∃ t, BSTree.sample.Put 5 50 = some t ∧ t.Get 5 = some 50 :=
  ⟨⟨natCompare_totalOrder, bstree_sample_bst⟩,
    bstree_get_after_put BSTree.sample 5 50 natCompare_totalOrder bstree_sample_bst⟩

/-- C12: in the plain BST engine `Get(k)` after `Remove(k)` reports absence, for
every tree with the BST ordering under a total-order comparator and every key,
whatever the number of children of the removed node. -/
theorem bstree_get_after_remove (tree : BSTree K V) (key : K)
    (horder : TotalOrder tree.comparator)
    (hbst : IsBST tree.comparator BSTree.Node.key tree.root) :
    ∃ t, tree.Remove key = some t ∧ t.Get key = none := by
  have hs := (isBST_iff_increasing horder tree.root).1 hbst
  obtain ⟨t, h1, h2, h3⟩ := BSTree.bst_remove_spec tree key horder hs
  refine ⟨t, h1, ?_⟩
  have hs1 : StrictlyIncreasing tree.comparator
      ((entriesOf BSTree.Node.key BSTree.Node.value tree.root).map Prod.fst) := by
    rw [keys_entriesOf]; exact hs
  have hs2 := removeSpec_increasing h3 hs1
  rw [keys_entriesOf, ← h2] at hs2
  rw [bstree_get_eq_find t key (h2 ▸ horder) hs2, h2, removeSpec_find horder h3 hs1]
  rfl

theorem bstree_get_after_remove_witness :
    (TotalOrder BSTree.sample.comparator ∧
      IsBST BSTree.sample.comparator BSTree.Node.key BSTree.sample.root) ∧
    ∃ t, BSTree.sample.Remove 2 = some t ∧ t.Get 2 = none :=
  ⟨⟨natCompare_totalOrder, bstree_sample_bst⟩,
    bstree_get_after_remove BSTree.sample 2 natCompare_totalOrder bstree_sample_bst⟩

end BSTLookup

/-! ## Removing an absent key -/

section RemoveAbsent

variable {K V : Type}

theorem bstree_remove_absent (tree : BSTree K V) (key : K) (h : tree.Get key = none) :
    tree.Remove key = some tree := by
  unfold BSTree.Get at h
  unfold BSTree.Remove
  cases hn : (tree.get key).node with
  | nil => simp only [hn]
  | node l x r => rw [hn] at h; simp at h

theorem avltree_remove_absent (tree : AVLTree K V) (key : K) (h : tree.Get key = none) :
    tree.Remove key = some tree := by
  unfold AVLTree.Get at h
  unfold AVLTree.Remove
  cases hn : (tree.get key).node with
  | nil => simp only [hn]
  | node l x r => rw [hn] at h; simp at h

theorem rbtree_remove_absent (tree : RBTree K V) (key : K) (h : tree.Get key = none) :
    tree.Remove key = some tree := by
  unfold RBTree.Get at h
  unfold RBTree.Remove
  cases hn : (tree.get key).node with
  | nil => simp only [hn]
  | node l x r => rw [hn] at h; simp at h

/-- C19: in each of the three engines, for every tree and every key for which
`Get` reports not found, `Remove` returns and leaves the tree as it is: the same
root with the same nodes, keys, values, heights or colours, the same comparator
and the same `size`. -/
theorem remove_absent_is_noop :
    (∀ (tree : BSTree K V) (key : K), tree.Get key = none → tree.Remove key = some tree) ∧
    (∀ (tree : AVLTree K V) (key : K), tree.Get key = none → tree.Remove key = some tree) ∧
    (∀ (tree : RBTree K V) (key : K), tree.Get key = none → tree.Remove key = some tree) :=
  ⟨bstree_remove_absent, avltree_remove_absent, rbtree_remove_absent⟩

theorem remove_absent_is_noop_witness :
    (BSTree.sample.Get 7 = none ∧ BSTree.sample.Remove 7 = some BSTree.sample) ∧
    (AVLTree.sample.Get 7 = none ∧ AVLTree.sample.Remove 7 = some AVLTree.sample) ∧
    (RBTree.sample.Get 7 = none ∧ RBTree.sample.Remove 7 = some RBTree.sample) :=
  ⟨⟨by decide, remove_absent_is_noop.1 BSTree.sample 7 (by decide)⟩,
    ⟨by decide, remove_absent_is_noop.2.1 AVLTree.sample 7 (by decide)⟩,
    ⟨by decide, remove_absent_is_noop.2.2 RBTree.sample 7 (by decide)⟩⟩

end RemoveAbsent

/-! ## Size accounting -/

section SizeAccounting

variable {K V : Type} {cmp : Comparator K}

theorem putSpec_size_absent {k : K} {v : V} {old new : List (K × V)} {s s1 : Nat}
    (hp : PutSpec cmp k v old new s s1)
    (hf : old.find? (fun e => decide (cmp k e.1 = 0)) = none)
    (hlt : s + 1 < uint32Size) : s1 = s + 1 := by
  rcases hp with ⟨B, A, -, -, -, -, h1⟩ | ⟨B, x, A, rfl, hk, -, -⟩
  · rw [h1, incr32_eq hlt]
  · have := List.find?_eq_none.1 hf x (by simp)
    simp [hk] at this

theorem removeSpec_size_present {k : K} {old new : List (K × V)} {s s1 : Nat}
    (hp : RemoveSpec cmp k old new s s1)
    (hf : old.find? (fun e => decide (cmp k e.1 = 0)) ≠ none)
    (hs : s = old.length) (hlt : s < uint32Size) : s1 + 1 = s := by
  rcases hp with ⟨hne, -, -⟩ | ⟨B, x, A, rfl, -, -, h0⟩
  · exfalso
    apply hf
    rw [List.find?_eq_none]
    intro e he
    simpa using hne e he
  · have h1 : 0 < s := by rw [hs]; simp
    rw [h0]
    exact decr32_eq hlt h1

theorem find_of_get_none {old : List (K × V)} {p : K × V → Bool}
    (h : (old.find? p).map Prod.snd = none) : old.find? p = none := by
  simpa using h

theorem find_of_get_some {old : List (K × V)} {p : K × V → Bool} {v0 : V}
    (h : (old.find? p).map Prod.snd = some v0) : old.find? p ≠ none := by
  intro hn
  rw [hn] at h
  simp at h

theorem bstree_size_accounting (tree : BSTree K V) (key : K) (value : V)
    (horder : TotalOrder tree.comparator) (hinv : tree.Inv)
    (hroom : tree.size < 4294967295) :
    (tree.Get key = none → ∃ t, tree.Put key value = some t ∧ t.size = tree.size + 1) ∧
    (∀ v0, tree.Get key = some v0 →
      ∃ t, tree.Remove key = some t ∧ t.size + 1 = tree.size) := by
  have hlen : tree.size = (entriesOf BSTree.Node.key BSTree.Node.value tree.root).length := by
    rw [length_entriesOf]; exact hinv.2
  constructor
  · intro hget
    rw [bstree_get_eq_find tree key horder hinv.1] at hget
    obtain ⟨t, h1, -, h3⟩ := BSTree.bst_put_spec tree key value horder hinv.1
    exact ⟨t, h1, putSpec_size_absent h3 (find_of_get_none hget)
      (by unfold uint32Size; omega)⟩
  · intro v0 hget
    rw [bstree_get_eq_find tree key horder hinv.1] at hget
    obtain ⟨t, h1, -, h3⟩ := BSTree.bst_remove_spec tree key horder hinv.1
    exact ⟨t, h1, removeSpec_size_present h3 (find_of_get_some hget) hlen
      (by unfold uint32Size; omega)⟩

theorem avltree_size_accounting (tree : AVLTree K V) (key : K) (value : V)
    (horder : TotalOrder tree.comparator) (hinv : tree.Inv)
    (hroom : tree.size < 4294967295) :
    (tree.Get key = none → ∃ t, tree.Put key value = some t ∧ t.size = tree.size + 1) ∧
    (∀ v0, tree.Get key = some v0 →
      ∃ t, tree.Remove key = some t ∧ t.size + 1 = tree.size) := by
  obtain ⟨hv, hh⟩ := avltree_inv_valid hinv
  have hs := (isBST_iff_increasing horder tree.root).1 hinv.1
  have hlen : tree.size = (AVLTree.entries tree.root).length := by
    rw [AVLTree.entries, length_entriesOf]; exact hinv.2.1
  constructor
  · intro hget
    rw [avltree_get_eq_find tree key horder hs] at hget
    obtain ⟨t, h1, -, h3, -⟩ := AVLTree.avl_put_spec tree key value horder hs hv
      (by unfold uint32Size; omega)
    exact ⟨t, h1, putSpec_size_absent h3 (find_of_get_none hget)
      (by unfold uint32Size; omega)⟩
  · intro v0 hget
    rw [avltree_get_eq_find tree key horder hs] at hget
    obtain ⟨t, h1, -, h3, -⟩ := AVLTree.avl_remove_spec tree key horder hs hv
      (by unfold uint32Size; omega)
    exact ⟨t, h1, removeSpec_size_present h3 (find_of_get_some hget) hlen
      (by unfold uint32Size; omega)⟩

theorem rbtree_size_accounting (tree : RBTree K V) (key : K) (value : V) (ptr : Nat)
    (horder : TotalOrder tree.comparator) (hinv : tree.Inv)
    (hptrs : RBTree.PtrsDistinct tree.root) (hroom : tree.size < 4294967295) :
    (tree.Get key = none → ∃ t, tree.Put key value ptr = some t ∧ t.size = tree.size + 1) ∧
    (∀ v0, tree.Get key = some v0 →
      ∃ t, tree.Remove key = some t ∧ t.size + 1 = tree.size) := by
  obtain ⟨hs, -, hlen, hv⟩ := rbtree_inv_entries horder hinv
  constructor
  · intro hget
    rw [rbtree_get_eq_find tree key horder hs] at hget
    obtain ⟨t, h1, -, h3, -⟩ := RBTree.rb_put_spec tree key value ptr horder hs hv hinv.2.2.1
    exact ⟨t, h1, putSpec_size_absent h3 (find_of_get_none hget)
      (by unfold uint32Size; omega)⟩
  · intro v0 hget
    rw [rbtree_get_eq_find tree key horder hs] at hget
    obtain ⟨t, h1, -, h3, -⟩ := RBTree.rb_remove_spec tree key horder hs hv hinv.2.2.1 hptrs
    exact ⟨t, h1, removeSpec_size_present h3 (find_of_get_some hget) hlen
      (by unfold uint32Size; omega)⟩

/-- C18: in each of the three engines, on every tree that satisfies the engine's
invariant under a total-order comparator and whose `size` is below `2^32 - 1`,
`Put` of a key that `Get` does not find returns with `size` one larger, and
`Remove` of a key that `Get` finds returns with `size` one smaller.  For the
Red-Black engine `ptr` is the address of the node that `Put` allocates, and the
nodes live at distinct addresses. -/
theorem size_accounting_exact :
    (∀ (tree : BSTree K V) (key : K) (value : V), TotalOrder tree.comparator → tree.Inv →
      tree.size < 4294967295 →
      (tree.Get key = none → ∃ t, tree.Put key value = some t ∧ t.size = tree.size + 1) ∧
      (∀ v0, tree.Get key = some v0 →
        ∃ t, tree.Remove key = some t ∧ t.size + 1 = tree.size)) ∧
    (∀ (tree : AVLTree K V) (key : K) (value : V), TotalOrder tree.comparator → tree.Inv →
      tree.size < 4294967295 →
      (tree.Get key = none → ∃ t, tree.Put key value = some t ∧ t.size = tree.size + 1) ∧
      (∀ v0, tree.Get key = some v0 →
        ∃ t, tree.Remove key = some t ∧ t.size + 1 = tree.size)) ∧
    (∀ (tree : RBTree K V) (key : K) (value : V) (ptr : Nat), TotalOrder tree.comparator →
      tree.Inv → RBTree.PtrsDistinct tree.root → tree.size < 4294967295 →
      (tree.Get key = none →
        ∃ t, tree.Put key value ptr = some t ∧ t.size = tree.size + 1) ∧
      (∀ v0, tree.Get key = some v0 →
        ∃ t, tree.Remove key = some t ∧ t.size + 1 = tree.size)) :=
  ⟨bstree_size_accounting, avltree_size_accounting, rbtree_size_accounting⟩

theorem size_accounting_exact_witness :
    ((TotalOrder BSTree.sample.comparator ∧ BSTree.sample.Inv ∧
        BSTree.sample.size < 4294967295 ∧
        BSTree.sample.Get 5 = none ∧ BSTree.sample.Get 2 = some 20) ∧
      (∃ t, BSTree.sample.Put 5 50 = some t ∧ t.size = BSTree.sample.size + 1) ∧
      ∃ t, BSTree.sample.Remove 2 = some t ∧ t.size + 1 = BSTree.sample.size) ∧
    ((TotalOrder AVLTree.sample.comparator ∧ AVLTree.sample.Inv ∧
        AVLTree.sample.size < 4294967295 ∧
        AVLTree.sample.Get 5 = none ∧ AVLTree.sample.Get 2 = some 20) ∧
      (∃ t, AVLTree.sample.Put 5 50 = some t ∧ t.size = AVLTree.sample.size + 1) ∧
      ∃ t, AVLTree.sample.Remove 2 = some t ∧ t.size + 1 = AVLTree.sample.size) ∧
    ((TotalOrder RBTree.sample.comparator ∧ RBTree.sample.Inv ∧
        RBTree.PtrsDistinct RBTree.sample.root ∧ RBTree.sample.size < 4294967295 ∧
        RBTree.sample.Get 5 = none ∧ RBTree.sample.Get 2 = some 20) ∧
      (∃ t, RBTree.sample.Put 5 50 104 = some t ∧ t.size = RBTree.sample.size + 1) ∧
      ∃ t, RBTree.sample.Remove 2 = some t ∧ t.size + 1 = RBTree.sample.size) :=
  ⟨⟨⟨natCompare_totalOrder, bstree_sample_inv, by decide, by decide, by decide⟩,
      (size_accounting_exact.1 BSTree.sample 5 50 natCompare_totalOrder bstree_sample_inv
        (by decide)).1 (by decide),
      (size_accounting_exact.1 BSTree.sample 2 0 natCompare_totalOrder bstree_sample_inv
        (by decide)).2 20 (by decide)⟩,
    ⟨⟨natCompare_totalOrder, avltree_sample_inv, by decide, by decide, by decide⟩,
      (size_accounting_exact.2.1 AVLTree.sample 5 50 natCompare_totalOrder avltree_sample_inv
        (by decide)).1 (by decide),
      (size_accounting_exact.2.1 AVLTree.sample 2 0 natCompare_totalOrder avltree_sample_inv
        (by decide)).2 20 (by decide)⟩,
    ⟨⟨natCompare_totalOrder, rbtree_sample_inv, rbtree_sample_ptrs, by decide, by decide,
        by decide⟩,
      (size_accounting_exact.2.2 RBTree.sample 5 50 104 natCompare_totalOrder rbtree_sample_inv
        rbtree_sample_ptrs (by decide)).1 (by decide),
      (size_accounting_exact.2.2 RBTree.sample 2 0 104 natCompare_totalOrder rbtree_sample_inv
        rbtree_sample_ptrs (by decide)).2 20 (by decide)⟩⟩

end SizeAccounting

/-! ## Overwriting the node that `get` finds -/

section Overwrite

variable {α β K V : Type} {cmp : Comparator K} {keyOf : α → K}

/-- The descent of `get` reaches the same place once the node found there is
given other fields with a key that compares equal. -/
theorem getLoop_overwrite_aux (k : K) (x1 : α) (hk : cmp k (keyOf x1) = 0) (t : Tree α) :
    ∀ (base : List (Frame α)) (l : Tree α) (x : α) (r : Tree α) (p : List (Frame α)),
      getLoop cmp keyOf k t base = ⟨Tree.node l x r, p⟩ →
      ∃ q, p = q ++ base ∧ zip (Tree.node l x r) q = t ∧
        getLoop cmp keyOf k (zip (Tree.node l x1 r) q) base = ⟨Tree.node l x1 r, q ++ base⟩ := by
  induction t with
  | nil => intro base l x r p h; simp [getLoop] at h
  | node tl tx tr ihl ihr =>
    intro base l x r p h
    unfold getLoop at h
    simp only at h
    split_ifs at h with h1 h2
    · simp only [Loc.mk.injEq, Tree.node.injEq] at h
      obtain ⟨⟨rfl, rfl, rfl⟩, rfl⟩ := h
      refine ⟨[], rfl, rfl, ?_⟩
      simp [zip, getLoop, hk]
    · obtain ⟨q, e1, e2, e3⟩ := ihl _ l x r p h
      refine ⟨q ++ [Frame.left tx tr], by simp [e1], ?_, ?_⟩
      · rw [zip_append, e2]; rfl
      · rw [zip_append]
        show getLoop cmp keyOf k (Tree.node (zip (Tree.node l x1 r) q) tx tr) base = _
        unfold getLoop
        simp only [h1, h2, if_false, if_true]
        rw [e3]; simp
    · obtain ⟨q, e1, e2, e3⟩ := ihr _ l x r p h
      refine ⟨q ++ [Frame.right tl tx], by simp [e1], ?_, ?_⟩
      · rw [zip_append, e2]; rfl
      · rw [zip_append]
        show getLoop cmp keyOf k (Tree.node tl tx (zip (Tree.node l x1 r) q)) base = _
        unfold getLoop
        simp only [h1, h2, if_false]
        rw [e3]; simp

theorem getLoop_overwrite (k : K) (x1 : α) (hk : cmp k (keyOf x1) = 0) {root l r : Tree α}
    {x : α} {p : List (Frame α)}
    (h : getLoop cmp keyOf k root [] = ⟨Tree.node l x r, p⟩) :
    getLoop cmp keyOf k (zip (Tree.node l x1 r) p) [] = ⟨Tree.node l x1 r, p⟩ := by
  obtain ⟨q, e1, -, e3⟩ := getLoop_overwrite_aux k x1 hk root [] l x r p h
  simp only [List.append_nil] at e1 e3
  rw [e1]; exact e3

theorem map_zip_congr (f : α → β) (p : List (Frame α)) :
    ∀ (t t1 : Tree α), Tree.map f t = Tree.map f t1 →
      Tree.map f (zip t p) = Tree.map f (zip t1 p) := by
  induction p with
  | nil => intro t t1 h; exact h
  | cons fr p ih =>
    intro t t1 h
    cases fr with
    | left x r => exact ih _ _ (by simp only [Frame.plug, Tree.map, h])
    | right l x => exact ih _ _ (by simp only [Frame.plug, Tree.map, h])

theorem map_overwrite (f : α → β) (l : Tree α) (x x1 : α) (r : Tree α) (p : List (Frame α))
    (h : f x1 = f x) :
    Tree.map f (zip (Tree.node l x1 r) p) = Tree.map f (zip (Tree.node l x r) p) :=
  map_zip_congr f p _ _ (by simp only [Tree.map, h])

theorem putSpec_mem {k : K} {v : V} {old new : List (K × V)} {s s1 : Nat}
    (hp : PutSpec cmp k v old new s s1) : (k, v) ∈ new := by
  rcases hp with ⟨B, A, -, -, -, rfl, -⟩ | ⟨B, x, A, -, -, rfl, -⟩ <;> simp

/-- After `Put(k, v)` the descent of `get` for a key that compares equal to `k`
stops at a node. -/
theorem find_after_put {k k2 : K} {v : V} {old new : List (K × V)} {s s1 : Nat}
    (hp : PutSpec cmp k v old new s s1) (heq : cmp k2 k = 0) :
    new.find? (fun e => decide (cmp k2 e.1 = 0)) ≠ none := by
  intro hn
  have := List.find?_eq_none.1 hn (k, v) (putSpec_mem hp)
  simp [heq] at this

end Overwrite

/-! ## Put of a key that is present -/

section PutPresent

variable {K V : Type}

theorem bstree_put_present (tree : BSTree K V) (k : K) (v : V)
    (hkk : tree.comparator k k = 0) {l r : Tree (BSTree.Node K V)} {x : BSTree.Node K V}
    {p : List (Frame (BSTree.Node K V))}
    (hloc : getLoop tree.comparator BSTree.Node.key k tree.root [] = ⟨Tree.node l x r, p⟩) :
    ∃ t, tree.Put k v = some t ∧ t.comparator = tree.comparator ∧ t.size = tree.size ∧
      t.root.map (fun _ => ()) = tree.root.map (fun _ => ()) ∧
      t.get k = ⟨Tree.node l ⟨k, v⟩ r, p⟩ := by
  have hz := @getLoop_zip _ _ tree.comparator BSTree.Node.key k tree.root []
  rw [hloc] at hz
  simp only [zip] at hz
  refine ⟨⟨zip (Tree.node l ⟨k, v⟩ r) p, tree.comparator, tree.size⟩, ?_, rfl, rfl, ?_, ?_⟩
  · cases hr : tree.root with
    | nil => rw [hr] at hloc; simp [getLoop] at hloc
    | node rl rx rr =>
      rw [hr] at hloc
      simp only [BSTree.Put, hr, BSTree.bst_putLoop_eq, hloc]
  · rw [← hz]
    exact map_overwrite _ l x ⟨k, v⟩ r p rfl
  · exact getLoop_overwrite k (⟨k, v⟩ : BSTree.Node K V) hkk hloc

theorem avltree_put_present (tree : AVLTree K V) (k : K) (v : V)
    (hkk : tree.comparator k k = 0) {l r : Tree (AVLTree.Node K V)} {x : AVLTree.Node K V}
    {p : List (Frame (AVLTree.Node K V))}
    (hloc : getLoop tree.comparator AVLTree.Node.key k tree.root [] = ⟨Tree.node l x r, p⟩) :
    ∃ t, tree.Put k v = some t ∧ t.comparator = tree.comparator ∧ t.size = tree.size ∧
      t.root.map AVLTree.Node.height = tree.root.map AVLTree.Node.height ∧
      t.get k = ⟨Tree.node l { x with key := k, value := v } r, p⟩ := by
  have hz := @getLoop_zip _ _ tree.comparator AVLTree.Node.key k tree.root []
  rw [hloc] at hz
  simp only [zip] at hz
  refine ⟨⟨zip (Tree.node l { x with key := k, value := v } r) p, tree.comparator, tree.size⟩,
    ?_, rfl, rfl, ?_, ?_⟩
  · cases hr : tree.root with
    | nil => rw [hr] at hloc; simp [getLoop] at hloc
    | node rl rx rr =>
      rw [hr] at hloc
      simp only [AVLTree.Put, hr, AVLTree.avl_putLoop_eq, hloc]
  · rw [← hz]
    exact map_overwrite _ l x { x with key := k, value := v } r p rfl
  · exact getLoop_overwrite k ({ x with key := k, value := v } : AVLTree.Node K V) hkk hloc

theorem rbtree_put_present (tree : RBTree K V) (k : K) (v : V) (ptr : Nat)
    (hkk : tree.comparator k k = 0) {l r : Tree (RBTree.Node K V)} {x : RBTree.Node K V}
    {p : List (Frame (RBTree.Node K V))}
    (hloc : getLoop tree.comparator RBTree.Node.key k tree.root [] = ⟨Tree.node l x r, p⟩) :
    ∃ t, tree.Put k v ptr = some t ∧ t.comparator = tree.comparator ∧ t.size = tree.size ∧
      t.root.map RBTree.Node.color = tree.root.map RBTree.Node.color ∧
      t.get k = ⟨Tree.node l { x with key := k, value := v } r, p⟩ := by
  have hz := @getLoop_zip _ _ tree.comparator RBTree.Node.key k tree.root []
  rw [hloc] at hz
  simp only [zip] at hz
  refine ⟨⟨zip (Tree.node l { x with key := k, value := v } r) p, tree.comparator, tree.size⟩,
    ?_, rfl, rfl, ?_, ?_⟩
  · cases hr : tree.root with
    | nil => rw [hr] at hloc; simp [getLoop] at hloc
    | node rl rx rr =>
      rw [hr] at hloc
      simp only [RBTree.Put, hr, RBTree.rb_putLoop_eq, hloc]
  · rw [← hz]
    exact map_overwrite _ l x { x with key := k, value := v } r p rfl
  · exact getLoop_overwrite k ({ x with key := k, value := v } : RBTree.Node K V) hkk hloc

theorem cmp_self {cmp : Comparator K} (h : TotalOrder cmp) (k : K) : cmp k k = 0 := by
  have h1 := h.not_lt_self k
  have h2 := h.swap k k
  omega

end PutPresent

/-! ## Putting twice -/

section PutTwice

variable {K V : Type}

/-- After `Put(k, v)` on a tree with increasing keys, `get` of a key that
compares equal to `k` returns a node. -/
theorem found_after_put {α : Type} {cmp : Comparator K} {keyOf : α → K} {valOf : α → V}
    (horder : TotalOrder cmp) {k k2 : K} {v : V} {old : List (K × V)} {root1 : Tree α}
    {s s1 : Nat} (hp : PutSpec cmp k v old (entriesOf keyOf valOf root1) s s1)
    (hs : StrictlyIncreasing cmp (keysOf keyOf root1)) (heq : cmp k2 k = 0) :
    ∃ l x r p, getLoop cmp keyOf k2 root1 [] = ⟨Tree.node l x r, p⟩ := by
  have hv := @getLoop_value _ _ _ _ keyOf valOf horder k2 root1 hs
  have hf := find_after_put hp heq
  cases hloc : getLoop cmp keyOf k2 root1 [] with
  | mk node p =>
    cases node with
    | nil =>
      rw [hloc] at hv
      exact absurd (find_of_get_none hv.symm) hf
    | node l x r => exact ⟨l, x, r, p, rfl⟩

theorem bstree_put_twice (tree : BSTree K V) (k : K) (v1 : V) (k2 : K) (v2 : V)
    (horder : TotalOrder tree.comparator)
    (hbst : IsBST tree.comparator BSTree.Node.key tree.root)
    (heq : tree.comparator k2 k = 0) :
    ∃ t1 t2, tree.Put k v1 = some t1 ∧ t1.Put k2 v2 = some t2 ∧ t2.size = t1.size ∧
      t2.root.map (fun _ => ()) = t1.root.map (fun _ => ()) ∧ t2.Get k2 = some v2 ∧
      ∃ l x r, (t2.get k2).node = Tree.node l x r ∧ x.key = k2 := by
  have hs := (isBST_iff_increasing horder tree.root).1 hbst
  obtain ⟨t1, h1, h2, h3⟩ := BSTree.bst_put_spec tree k v1 horder hs
  have hs1 : StrictlyIncreasing tree.comparator
      ((entriesOf BSTree.Node.key BSTree.Node.value tree.root).map Prod.fst) := by
    rw [keys_entriesOf]; exact hs
  have hs2 := putSpec_increasing horder h3 hs1
  rw [keys_entriesOf] at hs2
  obtain ⟨l, x, r, p, hloc⟩ := found_after_put horder h3 hs2 heq
  rw [← h2] at hloc
  obtain ⟨t2, e1, -, e3, e4, e5⟩ :=
    bstree_put_present t1 k2 v2 (by rw [h2]; exact cmp_self horder k2) hloc
  refine ⟨t1, t2, h1, e1, e3, e4, ?_, _, _, _, congrArg Loc.node e5, rfl⟩
  simp only [BSTree.Get, e5]

theorem avltree_put_twice (tree : AVLTree K V) (k : K) (v1 : V) (k2 : K) (v2 : V)
    (horder : TotalOrder tree.comparator)
    (hbst : IsBST tree.comparator AVLTree.Node.key tree.root)
    (hheights : AVLTree.HeightsOK tree.root) (hbalanced : AVLTree.Balanced tree.root)
    (hroom : AVLTree.getHeight tree.root + 1 < uint32Size)
    (heq : tree.comparator k2 k = 0) :
    ∃ t1 t2, tree.Put k v1 = some t1 ∧ t1.Put k2 v2 = some t2 ∧ t2.size = t1.size ∧
      t2.root.map AVLTree.Node.height = t1.root.map AVLTree.Node.height ∧
      t2.Get k2 = some v2 ∧
      ∃ l x r, (t2.get k2).node = Tree.node l x r ∧ x.key = k2 := by
  have hv := (AVLTree.avl_valid_iff tree.root).2 ⟨hheights, hbalanced⟩
  have hs := (isBST_iff_increasing horder tree.root).1 hbst
  obtain ⟨t1, h1, h2, h3, -⟩ := AVLTree.avl_put_spec tree k v1 horder hs hv hroom
  have hs1 : StrictlyIncreasing tree.comparator ((AVLTree.entries tree.root).map Prod.fst) := by
    rw [AVLTree.entries, keys_entriesOf]; exact hs
  have hs2 := putSpec_increasing horder h3 hs1
  rw [AVLTree.entries, keys_entriesOf] at hs2
  obtain ⟨l, x, r, p, hloc⟩ := found_after_put horder h3 hs2 heq
  rw [← h2] at hloc
  obtain ⟨t2, e1, -, e3, e4, e5⟩ :=
    avltree_put_present t1 k2 v2 (by rw [h2]; exact cmp_self horder k2) hloc
  refine ⟨t1, t2, h1, e1, e3, e4, ?_, _, _, _, congrArg Loc.node e5, rfl⟩
  simp only [AVLTree.Get, e5]

theorem rbtree_put_twice (tree : RBTree K V) (k : K) (v1 : V) (ptr : Nat) (k2 : K) (v2 : V)
    (ptr2 : Nat) (horder : TotalOrder tree.comparator)
    (hbst : IsBST tree.comparator RBTree.Node.key tree.root)
    (hroot : RBTree.getColor tree.root = Color.black)
    (hred : RBTree.NoRedRed tree.root) (hblack : RBTree.BlackBalanced tree.root)
    (heq : tree.comparator k2 k = 0) :
    ∃ t1 t2, tree.Put k v1 ptr = some t1 ∧ t1.Put k2 v2 ptr2 = some t2 ∧ t2.size = t1.size ∧
      t2.root.map RBTree.Node.color = t1.root.map RBTree.Node.color ∧
      t2.Get k2 = some v2 ∧
      ∃ l x r, (t2.get k2).node = Tree.node l x r ∧ x.key = k2 := by
  have hv := (RBTree.rb_valid_iff tree.root).2 ⟨hred, hblack⟩
  have hs := (isBST_iff_increasing horder tree.root).1 hbst
  obtain ⟨t1, h1, h2, h3, -⟩ := RBTree.rb_put_spec tree k v1 ptr horder hs hv hroot
  have hs1 : StrictlyIncreasing tree.comparator ((RBTree.entries tree.root).map Prod.fst) := by
    rw [RBTree.entries, keys_entriesOf]; exact hs
  have hs2 := putSpec_increasing horder h3 hs1
  rw [RBTree.entries, keys_entriesOf] at hs2
  obtain ⟨l, x, r, p, hloc⟩ := found_after_put horder h3 hs2 heq
  rw [← h2] at hloc
  obtain ⟨t2, e1, -, e3, e4, e5⟩ :=
    rbtree_put_present t1 k2 v2 ptr2 (by rw [h2]; exact cmp_self horder k2) hloc
  refine ⟨t1, t2, h1, e1, e3, e4, ?_, _, _, _, congrArg Loc.node e5, rfl⟩
  simp only [RBTree.Get, e5]

/-- C17: in each of the three engines, on every valid tree under a total-order
comparator, `Put(k, v1)` followed by `Put(k2, v2)` with a key `k2` that the
comparator reports equal to `k` (the key `k` itself in particular) returns; the
second `Put` leaves `size` as the first one left it and leaves the shape of the
tree (with the heights of the AVL engine, the colours of the Red-Black engine)
as it was; afterwards `Get(k2)` returns `(v2, true)` and the node that `get`
finds holds the key `k2` that was supplied last. -/
theorem put_twice_overwrites :
    (∀ (tree : BSTree K V) (k : K) (v1 : V) (k2 : K) (v2 : V),
      TotalOrder tree.comparator → IsBST tree.comparator BSTree.Node.key tree.root →
      tree.comparator k2 k = 0 →
      ∃ t1 t2, tree.Put k v1 = some t1 ∧ t1.Put k2 v2 = some t2 ∧ t2.size = t1.size ∧
        t2.root.map (fun _ => ()) = t1.root.map (fun _ => ()) ∧ t2.Get k2 = some v2 ∧
        ∃ l x r, (t2.get k2).node = Tree.node l x r ∧ x.key = k2) ∧
    (∀ (tree : AVLTree K V) (k : K) (v1 : V) (k2 : K) (v2 : V),
      TotalOrder tree.comparator → IsBST tree.comparator AVLTree.Node.key tree.root →
      AVLTree.HeightsOK tree.root → AVLTree.Balanced tree.root →
      AVLTree.getHeight tree.root + 1 < uint32Size → tree.comparator k2 k = 0 →
      ∃ t1 t2, tree.Put k v1 = some t1 ∧ t1.Put k2 v2 = some t2 ∧ t2.size = t1.size ∧
        t2.root.map AVLTree.Node.height = t1.root.map AVLTree.Node.height ∧
        t2.Get k2 = some v2 ∧
        ∃ l x r, (t2.get k2).node = Tree.node l x r ∧ x.key = k2) ∧
    (∀ (tree : RBTree K V) (k : K) (v1 : V) (ptr : Nat) (k2 : K) (v2 : V) (ptr2 : Nat),
      TotalOrder tree.comparator → IsBST tree.comparator RBTree.Node.key tree.root →
      RBTree.getColor tree.root = Color.black → RBTree.NoRedRed tree.root →
      RBTree.BlackBalanced tree.root → tree.comparator k2 k = 0 →
      ∃ t1 t2, tree.Put k v1 ptr = some t1 ∧ t1.Put k2 v2 ptr2 = some t2 ∧
        t2.size = t1.size ∧
        t2.root.map RBTree.Node.color = t1.root.map RBTree.Node.color ∧
        t2.Get k2 = some v2 ∧
        ∃ l x r, (t2.get k2).node = Tree.node l x r ∧ x.key = k2) :=
  ⟨bstree_put_twice, avltree_put_twice, rbtree_put_twice⟩

theorem put_twice_overwrites_witness :
    ((TotalOrder BSTree.sample.comparator ∧
        IsBST BSTree.sample.comparator BSTree.Node.key BSTree.sample.root ∧
        BSTree.sample.comparator 5 5 = 0) ∧
      ∃ t1 t2, BSTree.sample.Put 5 50 = some t1 ∧ t1.Put 5 51 = some t2 ∧ t2.size = t1.size ∧
        t2.root.map (fun _ => ()) = t1.root.map (fun _ => ()) ∧ t2.Get 5 = some 51 ∧
        ∃ l x r, (t2.get 5).node = Tree.node l x r ∧ x.key = 5) ∧
    ((TotalOrder AVLTree.sample.comparator ∧
        IsBST AVLTree.sample.comparator AVLTree.Node.key AVLTree.sample.root ∧
        AVLTree.HeightsOK AVLTree.sample.root ∧ AVLTree.Balanced AVLTree.sample.root ∧
        AVLTree.getHeight AVLTree.sample.root + 1 < uint32Size ∧
        AVLTree.sample.comparator 5 5 = 0) ∧
      ∃ t1 t2, AVLTree.sample.Put 5 50 = some t1 ∧ t1.Put 5 51 = some t2 ∧
        t2.size = t1.size ∧
        t2.root.map AVLTree.Node.height = t1.root.map AVLTree.Node.height ∧
        t2.Get 5 = some 51 ∧
        ∃ l x r, (t2.get 5).node = Tree.node l x r ∧ x.key = 5) ∧
    ((TotalOrder RBTree.sample.comparator ∧
        IsBST RBTree.sample.comparator RBTree.Node.key RBTree.sample.root ∧
        RBTree.getColor RBTree.sample.root = Color.black ∧
        RBTree.NoRedRed RBTree.sample.root ∧ RBTree.BlackBalanced RBTree.sample.root ∧
        RBTree.sample.comparator 5 5 = 0) ∧
      ∃ t1 t2, RBTree.sample.Put 5 50 104 = some t1 ∧ t1.Put 5 51 105 = some t2 ∧
        t2.size = t1.size ∧
        t2.root.map RBTree.Node.color = t1.root.map RBTree.Node.color ∧
        t2.Get 5 = some 51 ∧
        ∃ l x r, (t2.get 5).node = Tree.node l x r ∧ x.key = 5) :=
  ⟨⟨⟨natCompare_totalOrder, bstree_sample_bst, by decide⟩,
      put_twice_overwrites.1 BSTree.sample 5 50 5 51 natCompare_totalOrder bstree_sample_bst
        (by decide)⟩,
    ⟨⟨natCompare_totalOrder, avltree_sample_inv.1, avltree_sample_inv.2.2.1,
        avltree_sample_inv.2.2.2, by decide, by decide⟩,
      put_twice_overwrites.2.1 AVLTree.sample 5 50 5 51 natCompare_totalOrder
        avltree_sample_inv.1 avltree_sample_inv.2.2.1 avltree_sample_inv.2.2.2 (by decide)
        (by decide)⟩,
    ⟨⟨natCompare_totalOrder, rbtree_sample_inv.1, rbtree_sample_inv.2.2.1,
        rbtree_sample_inv.2.2.2.1, rbtree_sample_inv.2.2.2.2, by decide⟩,
      put_twice_overwrites.2.2 RBTree.sample 5 50 104 5 51 105 natCompare_totalOrder
        rbtree_sample_inv.1 rbtree_sample_inv.2.2.1 rbtree_sample_inv.2.2.2.1
        rbtree_sample_inv.2.2.2.2 (by decide)⟩⟩

end PutTwice

/-! ## Height of the balanced trees -/

section Height

variable {K V : Type}

theorem two_pow_le_fib_sq (h : Nat) :
    2 ^ h ≤ Nat.fib (h + 2) ^ 2 ∧ 2 ^ (h + 1) ≤ Nat.fib (h + 3) ^ 2 := by
  induction h with
  | zero => exact ⟨by decide, by decide⟩
  | succ h ih =>
    refine ⟨ih.2, ?_⟩
    have e : Nat.fib (h + 1 + 3) = Nat.fib (h + 2) + Nat.fib (h + 3) := Nat.fib_add_two
    have hab : Nat.fib (h + 2) ≤ Nat.fib (h + 3) := Nat.fib_le_fib_succ
    have haa : Nat.fib (h + 2) * Nat.fib (h + 2) ≤ Nat.fib (h + 2) * Nat.fib (h + 3) :=
      Nat.mul_le_mul_left _ hab
    have h1 := ih.1
    have h2 := ih.2
    rw [e]
    have p1 : 2 ^ (h + 1) = 2 * 2 ^ h := by rw [pow_succ]; omega
    have p2 : 2 ^ (h + 1 + 1) = 4 * 2 ^ h := by rw [pow_succ, pow_succ]; omega
    rw [p1] at h2
    rw [p2]
    nlinarith

theorem putSpec_length {cmp : Comparator K} {k : K} {v : V} {old new : List (K × V)}
    {s s1 : Nat} (hp : PutSpec cmp k v old new s s1) : new.length ≤ old.length + 1 := by
  rcases hp with ⟨B, A, rfl, -, -, rfl, -⟩ | ⟨B, x, A, rfl, -, rfl, -⟩
  · simp only [List.length_append, List.length_cons]; omega
  · simp

theorem removeSpec_length {cmp : Comparator K} {k : K} {old new : List (K × V)}
    {s s1 : Nat} (hp : RemoveSpec cmp k old new s s1) : new.length ≤ old.length := by
  rcases hp with ⟨-, rfl, -⟩ | ⟨B, x, A, rfl, -, rfl, -⟩ <;> simp

theorem avltree_height_eq_depth {t : Tree (AVLTree.Node K V)} (hv : AVLTree.Valid t) :
    AVLTree.getHeight t = t.depth := by
  induction t with
  | nil => rfl
  | node l x r ihl ihr =>
    obtain ⟨h0, -, -, h3, h4⟩ := hv
    simp only [AVLTree.getHeight_node, Tree.depth, h0, ihl h3, ihr h4]

/-- A valid AVL subtree of stored height `h` has at least `fib (h + 2) - 1`
nodes. -/
theorem avltree_fib_le_count {t : Tree (AVLTree.Node K V)} (hv : AVLTree.Valid t) :
    Nat.fib (AVLTree.getHeight t + 2) ≤ t.count + 1 := by
  induction t with
  | nil => simp [Tree.count]
  | node l x r ihl ihr =>
    obtain ⟨h0, h1, h2, h3, h4⟩ := hv
    have il := ihl h3
    have ir := ihr h4
    simp only [AVLTree.getHeight_node, Tree.count, h0]
    rcases Nat.le_total (AVLTree.getHeight l) (AVLTree.getHeight r) with hle | hle
    · have hm : 1 + Max.max (AVLTree.getHeight l) (AVLTree.getHeight r) + 2 =
          AVLTree.getHeight r + 1 + 2 := by rw [max_eq_right hle]; omega
      rw [hm, Nat.fib_add_two]
      have := Nat.fib_mono (show AVLTree.getHeight r + 1 ≤ AVLTree.getHeight l + 2 by omega)
      have e : AVLTree.getHeight r + 1 + 1 = AVLTree.getHeight r + 2 := rfl
      rw [e]
      omega
    · have hm : 1 + Max.max (AVLTree.getHeight l) (AVLTree.getHeight r) + 2 =
          AVLTree.getHeight l + 1 + 2 := by rw [max_eq_left hle]; omega
      rw [hm, Nat.fib_add_two]
      have := Nat.fib_mono (show AVLTree.getHeight l + 1 ≤ AVLTree.getHeight r + 2 by omega)
      have e : AVLTree.getHeight l + 1 + 1 = AVLTree.getHeight l + 2 := rfl
      rw [e]
      omega

/-- The height of a valid AVL tree is at most twice the binary logarithm of its
number of nodes plus one. -/
theorem avltree_valid_logarithmic {t : Tree (AVLTree.Node K V)} (hv : AVLTree.Valid t) :
    2 ^ t.depth ≤ (t.count + 1) ^ 2 := by
  rw [← avltree_height_eq_depth hv]
  exact le_trans (two_pow_le_fib_sq _).1 (Nat.pow_le_pow_left (avltree_fib_le_count hv) 2)

theorem avltree_height_room_le {t : Tree (AVLTree.Node K V)} (hv : AVLTree.Valid t)
    (hc : t.count ≤ 2 ^ 64) : AVLTree.getHeight t + 1 < uint32Size := by
  by_contra hcon
  have h65 : 66 ≤ AVLTree.getHeight t / 2 := by
    unfold uint32Size at hcon
    omega
  have p := Nat.pow_le_pow_right (by norm_num : 0 < 2) h65
  have q := avltree_count_lower hv
  have e : (2 : Nat) ^ 66 = 4 * 2 ^ 64 := by norm_num
  have e1 : 0 < 2 ^ 64 := by norm_num
  omega

/-- What holds of every AVL tree built from the empty tree. -/
theorem avltree_reachable_valid {cmp : Comparator K} (horder : TotalOrder cmp)
    {t : AVLTree K V} (hr : AVLTree.Reachable cmp t) :
    t.comparator = cmp ∧ StrictlyIncreasing cmp (keysOf AVLTree.Node.key t.root) ∧
      AVLTree.Valid t.root ∧ t.root.count ≤ 2 ^ 64 := by
  induction hr with
  | new => exact ⟨rfl, List.Pairwise.nil, trivial, Nat.zero_le _⟩
  | @put t t1 key value _ hfit hput ih =>
    obtain ⟨hc, hs, hv, -⟩ := ih
    subst hc
    obtain ⟨t2, e1, e2, e3, e4⟩ :=
      AVLTree.avl_put_spec t key value horder hs hv (avltree_height_room hv hfit)
    rw [hput] at e1
    cases e1
    have hs1 : StrictlyIncreasing t.comparator ((AVLTree.entries t.root).map Prod.fst) := by
      rw [AVLTree.entries, keys_entriesOf]; exact hs
    have hs2 := putSpec_increasing horder e3 hs1
    rw [AVLTree.entries, keys_entriesOf] at hs2
    have hl := putSpec_length e3
    rw [AVLTree.entries, AVLTree.entries, length_entriesOf, length_entriesOf] at hl
    exact ⟨e2, hs2, e4, by omega⟩
  | @remove t t1 key _ hrem ih =>
    obtain ⟨hc, hs, hv, hcount⟩ := ih
    subst hc
    obtain ⟨t2, e1, e2, e3, e4⟩ :=
      AVLTree.avl_remove_spec t key horder hs hv
        (Nat.lt_of_succ_lt (avltree_height_room_le hv hcount))
    rw [hrem] at e1
    cases e1
    have hs1 : StrictlyIncreasing t.comparator ((AVLTree.entries t.root).map Prod.fst) := by
      rw [AVLTree.entries, keys_entriesOf]; exact hs
    have hs2 := removeSpec_increasing e3 hs1
    rw [AVLTree.entries, keys_entriesOf] at hs2
    have hl := removeSpec_length e3
    rw [AVLTree.entries, AVLTree.entries, length_entriesOf, length_entriesOf] at hl
    exact ⟨e2, hs2, e4, by omega⟩

end Height

section Height

variable {K V : Type}

theorem rbtree_depth_le {t : Tree (RBTree.Node K V)} (hv : RBTree.Valid t) :
    t.depth ≤ 2 * RBTree.bh t + (if RBTree.getColor t = Color.red then 1 else 0) := by
  induction t with
  | nil => simp [Tree.depth]
  | node l x r ihl ihr =>
    obtain ⟨h1, h2, h3, h4⟩ := hv
    have il := ihl h3
    have ir := ihr h4
    simp only [Tree.depth, RBTree.bh_node, RBTree.getColor_node]
    rcases RBTree.color_cases x.color with hc | hc
    · simp only [hc, RBTree.blackUnit_black, reduceCtorEq, if_false]
      split_ifs at il ir <;> omega
    · obtain ⟨cl, cr⟩ := h1 hc
      simp only [cl, cr, reduceCtorEq, if_false] at il ir
      simp only [hc, RBTree.blackUnit_red, if_true]
      omega

theorem rbtree_pow_bh_le_count {t : Tree (RBTree.Node K V)} (hv : RBTree.Valid t) :
    2 ^ RBTree.bh t ≤ t.count + 1 := by
  induction t with
  | nil => simp [Tree.count]
  | node l x r ihl ihr =>
    obtain ⟨-, h2, h3, h4⟩ := hv
    have il := ihl h3
    have ir := ihr h4
    simp only [Tree.count, RBTree.bh_node]
    rcases RBTree.color_cases x.color with hc | hc
    · rw [hc, RBTree.blackUnit_black, pow_succ]
      rw [← h2] at ir
      omega
    · rw [hc, RBTree.blackUnit_red]
      simp only [Nat.add_zero]
      omega

/-- The height of a valid Red-Black tree with a black root is at most twice the
binary logarithm of its number of nodes plus one. -/
theorem rbtree_valid_logarithmic {t : Tree (RBTree.Node K V)} (hv : RBTree.Valid t)
    (hb : RBTree.getColor t = Color.black) : 2 ^ t.depth ≤ (t.count + 1) ^ 2 := by
  have h1 := rbtree_depth_le hv
  rw [hb] at h1
  simp only [reduceCtorEq, if_false, Nat.add_zero] at h1
  have h2 := rbtree_pow_bh_le_count hv
  calc 2 ^ t.depth ≤ 2 ^ (2 * RBTree.bh t) := Nat.pow_le_pow_right (by norm_num) h1
    _ = (2 ^ RBTree.bh t) ^ 2 := by rw [Nat.mul_comm, pow_mul]
    _ ≤ (t.count + 1) ^ 2 := Nat.pow_le_pow_left h2 2

/-- What holds of every Red-Black tree built from the empty tree. -/
theorem rbtree_reachable_valid {cmp : Comparator K} (horder : TotalOrder cmp)
    {t : RBTree K V} (hr : RBTree.Reachable cmp t) :
    t.comparator = cmp ∧ StrictlyIncreasing cmp (keysOf RBTree.Node.key t.root) ∧
      RBTree.Valid t.root ∧ RBTree.getColor t.root = Color.black ∧
      RBTree.PtrsDistinct t.root := by
  induction hr with
  | new => exact ⟨rfl, List.Pairwise.nil, trivial, rfl, List.nodup_nil⟩
  | @put t t1 key value ptr _ hfresh hput ih =>
    obtain ⟨hc, hs, hv, hb, hd⟩ := ih
    subst hc
    obtain ⟨t2, e1, e2, e3, e4, e5, e6⟩ := RBTree.rb_put_spec t key value ptr horder hs hv hb
    rw [hput] at e1
    cases e1
    have hs1 : StrictlyIncreasing t.comparator ((RBTree.entries t.root).map Prod.fst) := by
      rw [RBTree.entries, keys_entriesOf]; exact hs
    have hs2 := putSpec_increasing horder e3 hs1
    rw [RBTree.entries, keys_entriesOf] at hs2
    exact ⟨e2, hs2, e4, e5, e6 hd hfresh⟩
  | @remove t t1 key _ hrem ih =>
    obtain ⟨hc, hs, hv, hb, hd⟩ := ih
    subst hc
    obtain ⟨t2, e1, e2, e3, e4, e5, e6⟩ := RBTree.rb_remove_spec t key horder hs hv hb hd
    rw [hrem] at e1
    cases e1
    have hs1 : StrictlyIncreasing t.comparator ((RBTree.entries t.root).map Prod.fst) := by
      rw [RBTree.entries, keys_entriesOf]; exact hs
    have hs2 := removeSpec_increasing e3 hs1
    rw [RBTree.entries, keys_entriesOf] at hs2
    exact ⟨e2, hs2, e4, e5, e6⟩

/-- C16: every AVL tree and every Red-Black tree that a finite sequence of `Put`
and `Remove` calls builds from the empty tree, under a total-order comparator,
has `2 ^ h ≤ (n + 1) ^ 2` for its number of nodes `n` and its height `h` (the
number of nodes on the longest path from the root to a leaf, 0 for the empty
tree).  In the AVL engine every `Put` is made on a tree that fits in a 64-bit
address space; in the Red-Black engine every `Put` allocates its node at an
address that no node of the tree occupies. -/
theorem balanced_height_logarithmic (cmp : Comparator K) (horder : TotalOrder cmp) :
    (∀ t : AVLTree K V, AVLTree.Reachable cmp t →
      2 ^ t.root.depth ≤ (t.root.count + 1) ^ 2) ∧
    (∀ t : RBTree K V, RBTree.Reachable cmp t →
      2 ^ t.root.depth ≤ (t.root.count + 1) ^ 2) :=
  ⟨fun _ hr => avltree_valid_logarithmic (avltree_reachable_valid horder hr).2.2.1,
    fun _ hr => rbtree_valid_logarithmic (rbtree_reachable_valid horder hr).2.2.1
      (rbtree_reachable_valid horder hr).2.2.2.1⟩

theorem avltree_sample_reachable : AVLTree.Reachable natCompare AVLTree.sample :=
  AVLTree.Reachable.put 3 30
    (AVLTree.Reachable.put 1 10
      (AVLTree.Reachable.put 2 20 AVLTree.Reachable.new (by decide) rfl) (by decide) rfl)
    (by decide) rfl

theorem rbtree_sample_reachable : RBTree.Reachable natCompare RBTree.sample :=
  RBTree.Reachable.put 3 30 103
    (RBTree.Reachable.put 1 10 101
      (RBTree.Reachable.put 2 20 102 RBTree.Reachable.new (by decide) rfl) (by decide) rfl)
    (by decide) rfl

theorem balanced_height_logarithmic_witness :
    (TotalOrder natCompare ∧ AVLTree.Reachable natCompare AVLTree.sample ∧
      RBTree.Reachable natCompare RBTree.sample) ∧
    2 ^ AVLTree.sample.root.depth ≤ (AVLTree.sample.root.count + 1) ^ 2 ∧
    2 ^ RBTree.sample.root.depth ≤ (RBTree.sample.root.count + 1) ^ 2 :=
  ⟨⟨natCompare_totalOrder, avltree_sample_reachable, rbtree_sample_reachable⟩,
    (balanced_height_logarithmic natCompare natCompare_totalOrder).1 AVLTree.sample
      avltree_sample_reachable,
    (balanced_height_logarithmic natCompare natCompare_totalOrder).2 RBTree.sample
      rbtree_sample_reachable⟩

end Height

/-! ## The iterator of the plain BST engine -/

namespace BSTree

variable {K V : Type}

theorem next_right (tree : BSTree K V) (l : Tree (Node K V)) (x : Node K V)
    (rl : Tree (Node K V)) (rx : Node K V) (rr : Tree (Node K V))
    (p : List (Frame (Node K V))) :
    tree.next ⟨Tree.node l x (Tree.node rl rx rr), p⟩ =
      minLoop (Tree.node rl rx rr) (Frame.right l x :: p) := by
  cases p with
  | nil => rfl
  | cons f rest => cases f <;> rfl

theorem next_leftChild (tree : BSTree K V) (l : Tree (Node K V)) (x px : Node K V)
    (ps : Tree (Node K V)) (rest : List (Frame (Node K V))) :
    tree.next ⟨Tree.node l x Tree.nil, Frame.left px ps :: rest⟩ =
      ⟨Tree.node (Tree.node l x Tree.nil) px ps, rest⟩ := rfl

theorem next_last (tree : BSTree K V) (l : Tree (Node K V)) (x : Node K V)
    (p : List (Frame (Node K V))) (hp : ∀ px ps rest, p ≠ Frame.left px ps :: rest) :
    (tree.next ⟨Tree.node l x Tree.nil, p⟩).node = Tree.nil := by
  cases p with
  | nil => rfl
  | cons f rest =>
    cases f with
    | left px ps => exact absurd rfl (hp px ps rest)
    | right pl px => rfl

theorem Next_found (iter : Iterator K V) (hpos : iter.position ≠ Position.end_)
    {a : Tree (Node K V)} {b : Node K V} {c : Tree (Node K V)}
    (hn : (iter.tree.next iter.node).node = Tree.node a b c) :
    iter.Next = (⟨iter.tree, iter.tree.next iter.node, Position.between⟩, true) := by
  unfold Iterator.Next
  rw [if_neg hpos]
  simp only [hn, isNil_node, Bool.false_eq_true, if_false]
  cases hq : iter.position with
  | begin => simp
  | between => simp
  | end_ => exact absurd hq hpos

theorem Next_done (iter : Iterator K V)
    (hn : (iter.tree.next iter.node).node = Tree.nil) : iter.Next.2 = false := by
  unfold Iterator.Next
  by_cases h : iter.position = Position.end_
  · simp [h]
  · simp [h, hn]

/-- From a node of the tree the loop of `Next` yields, in order, nodes that
follow it in the in-order sequence without a gap, and ends. -/
theorem forward_from (tree : BSTree K V) (fuel : Nat) :
    ∀ (l : Tree (Node K V)) (x : Node K V) (r : Tree (Node K V))
      (p : List (Frame (Node K V))), (r.toList ++ pathAfter p).length < fuel →
      ∃ ns, Iterator.forward fuel ⟨tree, ⟨Tree.node l x r, p⟩, Position.between⟩ =
          some (ns.map fun y => some y.key) ∧
        ns <+: r.toList ++ pathAfter p := by
  induction fuel with
  | zero => intro l x r p h; omega
  | succ fuel ih =>
    intro l x r p hlen
    cases r with
    | node rl rx rr =>
      obtain ⟨nx, nr, m1, -, -, m4⟩ := minLoop_spec rl rx rr (Frame.right l x :: p)
      have hnext := next_right tree l x rl rx rr p
      generalize minLoop (Tree.node rl rx rr) (Frame.right l x :: p) = loc at m1 m4 hnext
      obtain ⟨node1, q⟩ := loc
      simp only at m1 m4
      subst m1
      simp only [pathAfter] at m4
      have hN := Next_found ⟨tree, ⟨Tree.node l x (Tree.node rl rx rr), p⟩, Position.between⟩
        (by simp) (a := Tree.nil) (b := nx) (c := nr) (by rw [hnext])
      rw [hnext] at hN
      rw [m4] at hlen ⊢
      obtain ⟨ns, e1, e2⟩ := ih Tree.nil nx nr q (by simpa using hlen)
      refine ⟨nx :: ns, ?_, ?_⟩
      · unfold Iterator.forward
        rw [hN]
        simp only [if_true, e1, Option.map_some', Iterator.Key, List.map_cons]
      · exact (List.prefix_cons_inj nx).2 e2
    | nil =>
      cases p with
      | cons f rest =>
        cases f with
        | left px ps =>
          have hN := Next_found
            ⟨tree, ⟨Tree.node l x Tree.nil, Frame.left px ps :: rest⟩, Position.between⟩
            (by simp) (a := Tree.node l x Tree.nil) (b := px) (c := ps) rfl
          rw [next_leftChild] at hN
          simp only [toList_nil, List.nil_append, pathAfter, List.cons_append,
            List.length_cons] at hlen ⊢
          obtain ⟨ns, e1, e2⟩ := ih (Tree.node l x Tree.nil) px ps rest (by omega)
          refine ⟨px :: ns, ?_, ?_⟩
          · unfold Iterator.forward
            rw [hN]
            simp only [if_true, e1, Option.map_some', Iterator.Key, List.map_cons]
          · exact (List.prefix_cons_inj px).2 e2
        | right pl px =>
          refine ⟨[], ?_, List.nil_prefix⟩
          unfold Iterator.forward
          rw [Next_done ⟨tree, ⟨Tree.node l x Tree.nil, Frame.right pl px :: rest⟩,
            Position.between⟩ rfl]
          simp
      | nil =>
        refine ⟨[], ?_, List.nil_prefix⟩
        unfold Iterator.forward
        rw [Next_done ⟨tree, ⟨Tree.node l x Tree.nil, []⟩, Position.between⟩ rfl]
        simp

/-- The loop of `Next` started from `Begin` ends, and yields a beginning of the
in-order key sequence of the tree. -/
theorem forward_prefix (tree : BSTree K V) :
    ∃ ks, Iterator.forward (tree.root.count + 1) tree.Iter.Begin = some (ks.map some) ∧
      ks <+: keysOf Node.key tree.root := by
  cases hroot : tree.root with
  | nil =>
    refine ⟨[], ?_, List.nil_prefix⟩
    unfold Iterator.forward
    rw [Next_done _ (by simp [Iter, Iterator.Begin, next, min, minLoop, hroot])]
    simp
  | node l x r =>
    obtain ⟨nx, nr, m1, -, -, m4⟩ := minLoop_spec l x r []
    have hnext : tree.next ⟨Tree.nil, []⟩ = minLoop (Tree.node l x r) [] := by
      simp [next, min, hroot]
    generalize minLoop (Tree.node l x r) [] = loc at m1 m4 hnext
    obtain ⟨node1, q⟩ := loc
    simp only at m1 m4
    subst m1
    simp only [pathAfter, List.append_nil] at m4
    have hN := Next_found tree.Iter.Begin (by simp [Iter, Iterator.Begin])
      (a := Tree.nil) (b := nx) (c := nr)
      (by simp only [Iter, Iterator.Begin]; rw [hnext])
    simp only [Iter, Iterator.Begin] at hN
    rw [hnext] at hN
    have hcount : (Tree.node l x r).count = (nr.toList ++ pathAfter q).length + 1 := by
      rw [count_eq_length, m4]; rfl
    obtain ⟨ns, e1, e2⟩ := forward_from tree (Tree.node l x r).count Tree.nil nx nr q
      (by omega)
    refine ⟨nx.key :: ns.map Node.key, ?_, ?_⟩
    · unfold Iterator.forward
      simp only [Iter, Iterator.Begin]
      rw [hN]
      simp only [if_true, e1, Option.map_some', Iterator.Key, List.map_cons, List.map_map]
      rfl
    · unfold keysOf
      rw [m4, List.map_cons]
      exact (List.prefix_cons_inj nx.key).2 (List.IsPrefix.map Node.key e2)

end BSTree

/-! ## Claims on the iterator -/

section IteratorClaims

variable {K V : Type}

/-- C20: on every tree with strictly increasing in-order keys the loop of `Next`
started from `Begin` ends within one call more than there are nodes; after every
`Next` that returned true `Key` reports `ok = true`; and the keys so returned
are strictly increasing under the comparator: they are a beginning of the
in-order key sequence of the tree. -/
theorem forward_iteration_increasing (tree : BSTree K V)
    (hs : StrictlyIncreasing tree.comparator (keysOf BSTree.Node.key tree.root)) :
    ∃ ks, BSTree.Iterator.forward (tree.root.count + 1) tree.Iter.Begin = some (ks.map some) ∧
      StrictlyIncreasing tree.comparator ks ∧ ks <+: keysOf BSTree.Node.key tree.root := by
  obtain ⟨ks, h1, h2⟩ := BSTree.forward_prefix tree
  exact ⟨ks, h1, List.Pairwise.sublist h2.sublist hs, h2⟩

theorem forward_iteration_increasing_witness :
    StrictlyIncreasing BSTree.sample.comparator (keysOf BSTree.Node.key BSTree.sample.root) ∧
    ∃ ks, BSTree.Iterator.forward (BSTree.sample.root.count + 1) BSTree.sample.Iter.Begin =
        some (ks.map some) ∧
      StrictlyIncreasing BSTree.sample.comparator ks ∧
      ks <+: keysOf BSTree.Node.key BSTree.sample.root :=
  ⟨bstree_sample_inv.1, forward_iteration_increasing BSTree.sample bstree_sample_inv.1⟩

/-- C13 at a failing input: on the tree built by `Put(3, 30)`, `Put(1, 10)`,
`Put(2, 20)`, whose keys in order are 1, 2, 3, the loop of `Next` started from
`Begin` yields the keys 1 and 2 and then `Next` returns false: the key 3 is
never visited. -/
theorem forward_iteration_stops_early :
    (((BSTree.NewWith natCompare : BSTree Nat Nat).Put 3 30).bind fun t =>
      (t.Put 1 10).bind fun t => t.Put 2 20).map (fun t => (t.root, t.size)) =
      some (BSTree.nextGap.root, BSTree.nextGap.size) ∧
    keysOf BSTree.Node.key BSTree.nextGap.root = [1, 2, 3] ∧
    BSTree.Iterator.forward 4 BSTree.nextGap.Iter.Begin = some [some 1, some 2] :=
  ⟨rfl, rfl, rfl⟩

/-- C14 at a failing input: on the tree built by `Put(1, 10)`, `Put(3, 30)`,
`Put(2, 20)`, whose keys in order are 1, 2, 3, the loop of `Prev` started from
`End` yields the keys 3 and 2 and then `Prev` returns false: the key 1 is never
visited, and the sequence is not the reverse of the forward sequence 1, 2, 3. -/
theorem backward_iteration_stops_early :
    (((BSTree.NewWith natCompare : BSTree Nat Nat).Put 1 10).bind fun t =>
      (t.Put 3 30).bind fun t => t.Put 2 20).map (fun t => (t.root, t.size)) =
      some (BSTree.prevGap.root, BSTree.prevGap.size) ∧
    keysOf BSTree.Node.key BSTree.prevGap.root = [1, 2, 3] ∧
    BSTree.Iterator.backward 4 BSTree.prevGap.Iter.End = some [some 3, some 2] ∧
    BSTree.Iterator.forward 4 BSTree.prevGap.Iter.Begin = some [some 1, some 2, some 3] :=
  ⟨rfl, rfl, rfl, rfl⟩

/-- C15 at failing inputs: in the tree with root 3, left child 1 and the node 2
as right child of 1, `next` of the node 2 is nil although 2 is not the largest
key; in the tree with root 1, right child 3 and the node 2 as left child of 3,
`prev` of the node 2 is nil although 2 is not the smallest key; and in the tree
with root 3, left child 2 and the node 1 as left child of 2, `prev` of the node
2 is nil although its left subtree holds the key 1. -/
theorem next_prev_miss_neighbour :
    ((BSTree.nextGap.get 2).node = Tree.node Tree.nil ⟨2, 20⟩ Tree.nil ∧
      (BSTree.nextGap.next (BSTree.nextGap.get 2)).node = Tree.nil ∧
      BSTree.nextGap.Get 3 = some 30) ∧
    ((BSTree.prevGap.get 2).node = Tree.node Tree.nil ⟨2, 20⟩ Tree.nil ∧
      (BSTree.prevGap.prev (BSTree.prevGap.get 2)).node = Tree.nil ∧
      BSTree.prevGap.Get 1 = some 10) ∧
    ((BSTree.leftSpine.get 2).node =
        Tree.node (Tree.node Tree.nil ⟨1, 10⟩ Tree.nil) ⟨2, 20⟩ Tree.nil ∧
      (BSTree.leftSpine.prev (BSTree.leftSpine.get 2)).node = Tree.nil) :=
  ⟨⟨rfl, rfl, rfl⟩, ⟨rfl, rfl, rfl⟩, ⟨rfl, rfl⟩⟩

end IteratorClaims

/-! ## The descent of `max` -/

section Max

variable {α : Type}

theorem maxLoop_spec (l : Tree α) (x : α) (r : Tree α) (path : List (Frame α)) :
    ∃ nx nl, (maxLoop (Tree.node l x r) path).node = Tree.node nl nx Tree.nil ∧
      zip (maxLoop (Tree.node l x r) path).node (maxLoop (Tree.node l x r) path).path
        = zip (Tree.node l x r) path ∧
      pathAfter (maxLoop (Tree.node l x r) path).path = pathAfter path ∧
      pathBefore path ++ (Tree.node l x r).toList
        = (pathBefore (maxLoop (Tree.node l x r) path).path ++ nl.toList) ++ [nx] := by
  induction r generalizing l x path with
  | nil => exact ⟨x, l, rfl, rfl, rfl, by simp [maxLoop]⟩
  | node rl y rr _ ihr =>
    obtain ⟨nx, nl, h1, h2, h3, h4⟩ := ihr rl y (Frame.right l x :: path)
    refine ⟨nx, nl, ?_, ?_, ?_, ?_⟩
    · simpa [maxLoop] using h1
    · simpa [maxLoop] using h2
    · simpa [maxLoop, pathAfter] using h3
    · simp only [maxLoop]
      rw [← h4]
      simp [pathBefore]

end Max

/-! ## Backward iteration -/

namespace BSTree

variable {K V : Type}

theorem prev_left (tree : BSTree K V) (ll : Tree (Node K V)) (lx : Node K V)
    (lr : Tree (Node K V)) (x : Node K V) (r : Tree (Node K V))
    (p : List (Frame (Node K V))) :
    tree.prev ⟨Tree.node (Tree.node ll lx lr) x r, p⟩ =
        maxLoop (Tree.node ll lx lr) (Frame.left x r :: p) ∨
      (tree.prev ⟨Tree.node (Tree.node ll lx lr) x r, p⟩).node = Tree.nil := by
  cases p with
  | nil => exact Or.inl rfl
  | cons f rest =>
    cases f with
    | right pl px => exact Or.inl rfl
    | left px ps =>
      cases r with
      | nil => exact Or.inr rfl
      | node rl rx rr => exact Or.inl rfl

theorem prev_rightChild (tree : BSTree K V) (x : Node K V) (r pl : Tree (Node K V))
    (px : Node K V) (rest : List (Frame (Node K V))) :
    tree.prev ⟨Tree.node Tree.nil x r, Frame.right pl px :: rest⟩ =
      ⟨Tree.node pl px (Tree.node Tree.nil x r), rest⟩ := rfl

theorem prev_first (tree : BSTree K V) (x : Node K V) (r : Tree (Node K V))
    (p : List (Frame (Node K V))) (hp : ∀ pl px rest, p ≠ Frame.right pl px :: rest) :
    (tree.prev ⟨Tree.node Tree.nil x r, p⟩).node = Tree.nil := by
  cases p with
  | nil => rfl
  | cons f rest =>
    cases f with
    | right pl px => exact absurd rfl (hp pl px rest)
    | left px ps => cases r <;> rfl

theorem Prev_found (iter : Iterator K V) (hpos : iter.position ≠ Position.begin)
    {a : Tree (Node K V)} {b : Node K V} {c : Tree (Node K V)}
    (hn : (iter.tree.prev iter.node).node = Tree.node a b c) :
    iter.Prev = (⟨iter.tree, iter.tree.prev iter.node, Position.between⟩, true) := by
  unfold Iterator.Prev
  rw [if_neg hpos]
  simp only [hn, isNil_node, Bool.false_eq_true, if_false]
  cases hq : iter.position with
  | begin => exact absurd hq hpos
  | between => simp
  | end_ => simp

theorem Prev_done (iter : Iterator K V)
    (hn : (iter.tree.prev iter.node).node = Tree.nil) : iter.Prev.2 = false := by
  unfold Iterator.Prev
  by_cases h : iter.position = Position.begin
  · simp [h]
  · simp [h, hn]

theorem backward_stop (fuel : Nat) (iter : Iterator K V)
    (hn : (iter.tree.prev iter.node).node = Tree.nil) :
    Iterator.backward (fuel + 1) iter = some [] := by
  unfold Iterator.backward
  rw [Prev_done iter hn]
  simp

/-- From a node of the tree the loop of `Prev` yields, in order, nodes that
precede it in the in-order sequence without a gap, and ends. -/
theorem backward_from (tree : BSTree K V) (fuel : Nat) :
    ∀ (l : Tree (Node K V)) (x : Node K V) (r : Tree (Node K V))
      (p : List (Frame (Node K V))), (pathBefore p ++ l.toList).length < fuel →
      ∃ ns, Iterator.backward fuel ⟨tree, ⟨Tree.node l x r, p⟩, Position.between⟩ =
          some (ns.map fun y => some y.key) ∧
        ns <+: (pathBefore p ++ l.toList).reverse := by
  induction fuel with
  | zero => intro l x r p h; omega
  | succ fuel ih =>
    intro l x r p hlen
    cases l with
    | node ll lx lr =>
      rcases prev_left tree ll lx lr x r p with hprev | hprev
      · obtain ⟨nx, nl, m1, -, -, m4⟩ := maxLoop_spec ll lx lr (Frame.left x r :: p)
        generalize maxLoop (Tree.node ll lx lr) (Frame.left x r :: p) = loc at m1 m4 hprev
        obtain ⟨node1, q⟩ := loc
        simp only at m1 m4
        subst m1
        simp only [pathBefore] at m4
        have hN := Prev_found
          ⟨tree, ⟨Tree.node (Tree.node ll lx lr) x r, p⟩, Position.between⟩
          (by simp) (a := nl) (b := nx) (c := Tree.nil) (by rw [hprev])
        rw [hprev] at hN
        rw [m4] at hlen ⊢
        obtain ⟨ns, e1, e2⟩ := ih nl nx Tree.nil q (by
          simp only [List.length_append, List.length_cons, List.length_nil] at hlen ⊢
          omega)
        refine ⟨nx :: ns, ?_, ?_⟩
        · unfold Iterator.backward
          rw [hN]
          simp only [if_true, e1, Option.map_some', Iterator.Key, List.map_cons]
        · rw [List.reverse_append, List.reverse_singleton, List.singleton_append]
          exact (List.prefix_cons_inj nx).2 e2
      · exact ⟨[], backward_stop fuel _ hprev, List.nil_prefix⟩
    | nil =>
      cases p with
      | cons f rest =>
        cases f with
        | right pl px =>
          have hN := Prev_found
            ⟨tree, ⟨Tree.node Tree.nil x r, Frame.right pl px :: rest⟩, Position.between⟩
            (by simp) (a := pl) (b := px) (c := Tree.node Tree.nil x r) rfl
          rw [prev_rightChild] at hN
          simp only [toList_nil, List.append_nil, pathBefore, List.length_append,
            List.length_cons, List.length_nil] at hlen
          obtain ⟨ns, e1, e2⟩ := ih pl px (Tree.node Tree.nil x r) rest
            (by simp only [List.length_append]; omega)
          refine ⟨px :: ns, ?_, ?_⟩
          · unfold Iterator.backward
            rw [hN]
            simp only [if_true, e1, Option.map_some', Iterator.Key, List.map_cons]
          · simp only [toList_nil, List.append_nil, pathBefore]
            rw [← List.append_assoc, List.reverse_append, List.reverse_singleton,
              List.singleton_append]
            exact (List.prefix_cons_inj px).2 e2
        | left px ps =>
          exact ⟨[], backward_stop fuel _
            (prev_first tree x r _ (fun _ _ _ h => by cases h)), List.nil_prefix⟩
      | nil =>
        exact ⟨[], backward_stop fuel _
          (prev_first tree x r _ (fun _ _ _ h => by cases h)), List.nil_prefix⟩

/-- The loop of `Prev` started from `End` ends, and yields a beginning of the
reversed in-order key sequence of the tree. -/
theorem backward_prefix (tree : BSTree K V) :
    ∃ ks, Iterator.backward (tree.root.count + 1) tree.Iter.End = some (ks.map some) ∧
      ks <+: (keysOf Node.key tree.root).reverse := by
  cases hroot : tree.root with
  | nil =>
    exact ⟨[], backward_stop _ _ (by simp [Iter, Iterator.End, prev, max, maxLoop, hroot]),
      List.nil_prefix⟩
  | node l x r =>
    obtain ⟨nx, nl, m1, -, -, m4⟩ := maxLoop_spec l x r []
    have hprev : tree.prev ⟨Tree.nil, []⟩ = maxLoop (Tree.node l x r) [] := by
      simp [prev, max, hroot]
    generalize maxLoop (Tree.node l x r) [] = loc at m1 m4 hprev
    obtain ⟨node1, q⟩ := loc
    simp only at m1 m4
    subst m1
    simp only [pathBefore, List.nil_append] at m4
    have hN := Prev_found tree.Iter.End (by simp [Iter, Iterator.End])
      (a := nl) (b := nx) (c := Tree.nil)
      (by simp only [Iter, Iterator.End]; rw [hprev])
    simp only [Iter, Iterator.End] at hN
    rw [hprev] at hN
    have hcount : (Tree.node l x r).count = (pathBefore q ++ nl.toList).length + 1 := by
      rw [count_eq_length, m4]; simp only [List.length_append, List.length_cons, List.length_nil]
    obtain ⟨ns, e1, e2⟩ := backward_from tree (Tree.node l x r).count nl nx Tree.nil q
      (by omega)
    refine ⟨nx.key :: ns.map Node.key, ?_, ?_⟩
    · unfold Iterator.backward
      simp only [Iter, Iterator.End]
      rw [hN]
      simp only [if_true, e1, Option.map_some', Iterator.Key, List.map_cons, List.map_map]
      rfl
    · unfold keysOf
      rw [m4, List.map_append, List.reverse_append, List.map_singleton,
        List.reverse_singleton, List.singleton_append, ← List.map_reverse]
      exact (List.prefix_cons_inj nx.key).2 (List.IsPrefix.map Node.key e2)

end BSTree

/-! ## Claims on the iterator: positions -/

section IteratorPositions

variable {K V : Type}

/-- C21: on every tree with strictly increasing in-order keys the loop of `Prev`
started from `End` ends within one call more than there are nodes; after every
`Prev` that returned true `Key` reports `ok = true`; and the keys so returned
are strictly decreasing under the comparator: they are a beginning of the
reversed in-order key sequence of the tree. -/
theorem backward_iteration_decreasing (tree : BSTree K V)
    (hs : StrictlyIncreasing tree.comparator (keysOf BSTree.Node.key tree.root)) :
    ∃ ks, BSTree.Iterator.backward (tree.root.count + 1) tree.Iter.End = some (ks.map some) ∧
      ks.Pairwise (fun a b => tree.comparator b a < 0) ∧
      ks <+: (keysOf BSTree.Node.key tree.root).reverse := by
  obtain ⟨ks, h1, h2⟩ := BSTree.backward_prefix tree
  exact ⟨ks, h1, List.Pairwise.sublist h2.sublist (List.pairwise_reverse.2 hs), h2⟩

theorem backward_iteration_decreasing_witness :
    StrictlyIncreasing BSTree.sample.comparator (keysOf BSTree.Node.key BSTree.sample.root) ∧
    ∃ ks, BSTree.Iterator.backward (BSTree.sample.root.count + 1) BSTree.sample.Iter.End =
        some (ks.map some) ∧
      ks.Pairwise (fun a b => BSTree.sample.comparator b a < 0) ∧
      ks <+: (keysOf BSTree.Node.key BSTree.sample.root).reverse :=
  ⟨bstree_sample_inv.1, backward_iteration_decreasing BSTree.sample bstree_sample_inv.1⟩

theorem iterator_next_presence (iter : BSTree.Iterator K V)
    (h : iter.node.node = Tree.nil ↔ iter.position ≠ BSTree.Position.between) :
    iter.Next.1.node.node = Tree.nil ↔ iter.Next.1.position ≠ BSTree.Position.between := by
  unfold BSTree.Iterator.Next
  by_cases hp : iter.position = BSTree.Position.end_
  · simpa [hp] using h
  · simp only [hp, if_false]
    cases hn : (iter.tree.next iter.node).node with
    | nil => simp
    | node a b c =>
      cases hq : iter.position with
      | begin => simp
      | between => simp
      | end_ => exact absurd hq hp

theorem iterator_prev_presence (iter : BSTree.Iterator K V)
    (h : iter.node.node = Tree.nil ↔ iter.position ≠ BSTree.Position.between) :
    iter.Prev.1.node.node = Tree.nil ↔ iter.Prev.1.position ≠ BSTree.Position.between := by
  unfold BSTree.Iterator.Prev
  by_cases hp : iter.position = BSTree.Position.begin
  · simpa [hp] using h
  · simp only [hp, if_false]
    cases hn : (iter.tree.prev iter.node).node with
    | nil => simp
    | node a b c =>
      cases hq : iter.position with
      | begin => exact absurd hq hp
      | between => simp
      | end_ => simp

theorem iterator_run_presence (calls : List BSTree.IterCall) :
    ∀ iter : BSTree.Iterator K V,
      (iter.node.node = Tree.nil ↔ iter.position ≠ BSTree.Position.between) →
      ((iter.run calls).node.node = Tree.nil ↔
        (iter.run calls).position ≠ BSTree.Position.between) ∧
      (iter.run calls).tree = iter.tree := by
  induction calls with
  | nil => intro iter h; exact ⟨h, rfl⟩
  | cons c cs ih =>
    intro iter h
    cases c with
    | Begin =>
      obtain ⟨e1, e2⟩ := ih iter.Begin (by simp [BSTree.Iterator.Begin])
      exact ⟨e1, e2⟩
    | End =>
      obtain ⟨e1, e2⟩ := ih iter.End (by simp [BSTree.Iterator.End])
      exact ⟨e1, e2⟩
    | Next =>
      obtain ⟨e1, e2⟩ := ih iter.Next.1 (iterator_next_presence iter h)
      refine ⟨e1, e2.trans ?_⟩
      unfold BSTree.Iterator.Next
      split_ifs <;> rfl
    | Prev =>
      obtain ⟨e1, e2⟩ := ih iter.Prev.1 (iterator_prev_presence iter h)
      refine ⟨e1, e2.trans ?_⟩
      unfold BSTree.Iterator.Prev
      split_ifs <;> rfl

theorem position_sentinel (p : BSTree.Position) :
    p ≠ BSTree.Position.between ↔ p = BSTree.Position.begin ∨ p = BSTree.Position.end_ := by
  cases p <;> simp

/-- C22: in every iterator state that a sequence of `Begin`, `End`, `Next` and
`Prev` calls reaches from `Iter()`, on the tree the iterator was made for, the
current node is nil exactly when the position is `begin` or `end`; `Key`,
`Value` and `ValuePtr` report `ok = false` exactly at these two positions, and
otherwise return the key, the value and the address of the value of the current
node with `ok = true`. -/
theorem iterator_presence_matches_position (tree : BSTree K V)
    (calls : List BSTree.IterCall) :
    (tree.Iter.run calls).tree = tree ∧
    ((tree.Iter.run calls).node.node = Tree.nil ↔
      ((tree.Iter.run calls).position = BSTree.Position.begin ∨
        (tree.Iter.run calls).position = BSTree.Position.end_)) ∧
    ((tree.Iter.run calls).Key = none ↔
      ((tree.Iter.run calls).position = BSTree.Position.begin ∨
        (tree.Iter.run calls).position = BSTree.Position.end_)) ∧
    ((tree.Iter.run calls).Value = none ↔
      ((tree.Iter.run calls).position = BSTree.Position.begin ∨
        (tree.Iter.run calls).position = BSTree.Position.end_)) ∧
    ((tree.Iter.run calls).ValuePtr = none ↔
      ((tree.Iter.run calls).position = BSTree.Position.begin ∨
        (tree.Iter.run calls).position = BSTree.Position.end_)) ∧
    ∀ l x r, (tree.Iter.run calls).node.node = Tree.node l x r →
      (tree.Iter.run calls).Key = some x.key ∧ (tree.Iter.run calls).Value = some x.value ∧
      (tree.Iter.run calls).ValuePtr = some (tree.Iter.run calls).node := by
  obtain ⟨h1, h2⟩ := iterator_run_presence calls tree.Iter (by simp [BSTree.Iter])
  rw [position_sentinel] at h1
  generalize tree.Iter.run calls = it at h1 h2
  refine ⟨h2, h1, ?_, ?_, ?_, ?_⟩
  · rw [← h1]; unfold BSTree.Iterator.Key; cases it.node.node <;> simp
  · rw [← h1]; unfold BSTree.Iterator.Value; cases it.node.node <;> simp
  · rw [← h1]; unfold BSTree.Iterator.ValuePtr; cases it.node.node <;> simp
  · intro l x r hn
    simp [BSTree.Iterator.Key, BSTree.Iterator.Value, BSTree.Iterator.ValuePtr, hn]

/-- C23: `Next` on an iterator at `end` returns false and leaves the iterator as
it is, `Prev` on an iterator at `begin` returns false and leaves the iterator as
it is; at every other position `Next` returns true exactly when the new position
is not `end`, and `Prev` returns true exactly when the new position is not
`begin`. -/
theorem step_past_sentinel_fails (iter : BSTree.Iterator K V) :
    (iter.position = BSTree.Position.end_ → iter.Next = (iter, false)) ∧
    (iter.position = BSTree.Position.begin → iter.Prev = (iter, false)) ∧
    (iter.position ≠ BSTree.Position.end_ →
      (iter.Next.2 = true ↔ iter.Next.1.position ≠ BSTree.Position.end_)) ∧
    (iter.position ≠ BSTree.Position.begin →
      (iter.Prev.2 = true ↔ iter.Prev.1.position ≠ BSTree.Position.begin)) := by
  refine ⟨?_, ?_, ?_, ?_⟩
  · intro h; simp [BSTree.Iterator.Next, h]
  · intro h; simp [BSTree.Iterator.Prev, h]
  · intro h; simp [BSTree.Iterator.Next, h]
  · intro h; simp [BSTree.Iterator.Prev, h]

theorem step_past_sentinel_fails_witness :
    (BSTree.sample.Iter.End.position = BSTree.Position.end_ ∧
      BSTree.sample.Iter.End.Next = (BSTree.sample.Iter.End, false)) ∧
    (BSTree.sample.Iter.position = BSTree.Position.begin ∧
      BSTree.sample.Iter.Prev = (BSTree.sample.Iter, false)) ∧
    (BSTree.sample.Iter.position ≠ BSTree.Position.end_ ∧
      (BSTree.sample.Iter.Next.2 = true ↔
        BSTree.sample.Iter.Next.1.position ≠ BSTree.Position.end_)) ∧
    (BSTree.sample.Iter.End.position ≠ BSTree.Position.begin ∧
      (BSTree.sample.Iter.End.Prev.2 = true ↔
        BSTree.sample.Iter.End.Prev.1.position ≠ BSTree.Position.begin)) :=
  ⟨⟨rfl, (step_past_sentinel_fails BSTree.sample.Iter.End).1 rfl⟩,
    ⟨rfl, (step_past_sentinel_fails BSTree.sample.Iter).2.1 rfl⟩,
    ⟨by decide, (step_past_sentinel_fails BSTree.sample.Iter).2.2.1 (by decide)⟩,
    ⟨by decide, (step_past_sentinel_fails BSTree.sample.Iter.End).2.2.2 (by decide)⟩⟩

/-- C24: an iterator as `Iter()` returns it, and the same iterator after
`Begin()`, is at `begin` with a nil current node.  On a tree with strictly
increasing in-order keys the first `Next` returns false and moves to `end` when
the tree is empty; otherwise it returns true, moves to `between` and makes
current the node with the first in-order key, which is smaller than every other
key of the tree. -/
theorem iterator_starts_before_first (tree : BSTree K V)
    (hs : StrictlyIncreasing tree.comparator (keysOf BSTree.Node.key tree.root)) :
    (tree.Iter.position = BSTree.Position.begin ∧ tree.Iter.node.node = Tree.nil) ∧
    (tree.Iter.Begin.position = BSTree.Position.begin ∧
      tree.Iter.Begin.node.node = Tree.nil) ∧
    (tree.root = Tree.nil →
      tree.Iter.Next.2 = false ∧ tree.Iter.Next.1.position = BSTree.Position.end_) ∧
    (tree.root ≠ Tree.nil →
      ∃ k rest, keysOf BSTree.Node.key tree.root = k :: rest ∧
        tree.Iter.Next.2 = true ∧ tree.Iter.Next.1.Key = some k ∧
        tree.Iter.Next.1.position = BSTree.Position.between ∧
        ∀ k1 ∈ rest, tree.comparator k k1 < 0) := by
  refine ⟨⟨rfl, rfl⟩, ⟨rfl, rfl⟩, ?_, ?_⟩
  · intro hroot
    simp [BSTree.Iterator.Next, BSTree.Iter, BSTree.next, BSTree.min, minLoop, hroot]
  · intro hroot
    cases hr : tree.root with
    | nil => exact absurd hr hroot
    | node l x r =>
      obtain ⟨nx, nr, m1, -, -, m4⟩ := minLoop_spec l x r []
      have hnext : tree.next ⟨Tree.nil, []⟩ = minLoop (Tree.node l x r) [] := by
        simp [BSTree.next, BSTree.min, hr]
      generalize minLoop (Tree.node l x r) [] = loc at m1 m4 hnext
      obtain ⟨node1, q⟩ := loc
      simp only at m1 m4
      subst m1
      simp only [pathAfter, List.append_nil] at m4
      have hN := BSTree.Next_found tree.Iter (by simp [BSTree.Iter])
        (a := Tree.nil) (b := nx) (c := nr) (by simp only [BSTree.Iter]; rw [hnext])
      simp only [BSTree.Iter] at hN
      rw [hnext] at hN
      have hk : keysOf BSTree.Node.key (Tree.node l x r) =
          nx.key :: (nr.toList ++ pathAfter q).map BSTree.Node.key := by
        unfold keysOf; rw [m4]; rfl
      refine ⟨nx.key, _, hk, ?_, ?_, ?_, ?_⟩
      · simp only [BSTree.Iter]; rw [hN]
      · simp only [BSTree.Iter]; rw [hN]; rfl
      · simp only [BSTree.Iter]; rw [hN]
      · rw [hr, hk] at hs
        exact (List.pairwise_cons.1 hs).1

theorem iterator_starts_before_first_witness :
    StrictlyIncreasing BSTree.sample.comparator (keysOf BSTree.Node.key BSTree.sample.root) ∧
    BSTree.sample.root ≠ Tree.nil ∧
    ∃ k rest, keysOf BSTree.Node.key BSTree.sample.root = k :: rest ∧
      BSTree.sample.Iter.Next.2 = true ∧ BSTree.sample.Iter.Next.1.Key = some k ∧
      BSTree.sample.Iter.Next.1.position = BSTree.Position.between ∧
      ∀ k1 ∈ rest, BSTree.sample.comparator k k1 < 0 :=
  ⟨bstree_sample_inv.1, by decide,
    (iterator_starts_before_first BSTree.sample bstree_sample_inv.1).2.2.2 (by decide)⟩

end IteratorPositions

/-! ## The hash-map wrapper -/

section GoMapClaims

variable {K V : Type}

theorem forEachMutableLoop_keys (f : K → V → V × Bool) (m : List (K × V)) :
    (GoMap.forEachMutableLoop f m).map Prod.fst = m.map Prod.fst := by
  induction m with
  | nil => rfl
  | cons e rest ih =>
    obtain ⟨k, v⟩ := e
    unfold GoMap.forEachMutableLoop
    split_ifs
    · rfl
    · simp [ih]

/-- When the callback returns true on every entry, every entry holds the value
that the callback left behind. -/
theorem forEachMutableLoop_all (f : K → V → V × Bool) (m : List (K × V))
    (h : ∀ e ∈ m, (f e.1 e.2).2 = true) :
    GoMap.forEachMutableLoop f m = m.map fun e => (e.1, (f e.1 e.2).1) := by
  induction m with
  | nil => rfl
  | cons e rest ih =>
    obtain ⟨k, v⟩ := e
    unfold GoMap.forEachMutableLoop
    have hk := h (k, v) (List.mem_cons_self _ _)
    simp only at hk
    simp only [hk, Bool.true_eq_false, if_false, List.map_cons]
    rw [ih fun e he => h e (List.mem_cons_of_mem _ he)]

/-- The entry on which the callback returns false keeps the value it had, and
so do the entries after it. -/
theorem forEachMutableLoop_stop (f : K → V → V × Bool) (k : K) (v : V) (rest : List (K × V))
    (h : (f k v).2 = false) :
    GoMap.forEachMutableLoop f ((k, v) :: rest) = (k, v) :: rest := by
  unfold GoMap.forEachMutableLoop
  simp [h]

/-- C25 at a failing input: on the map built by `Put(1, 1)`, `Put(2, 2)`,
`Put(3, 3)` and visited in that order, with a callback that doubles the value
through the pointer and returns false at the key 2, the entry of the key 1 holds
the doubled value 2, but the entry of the key 2 still holds 2 and not the value
4 that the callback left behind; a callback that always returns true doubles
every value. -/
theorem forEachMutable_loses_update_on_stop :
    (((GoMap.New : GoMap Nat Nat).Put 1 1).Put 2 2).Put 3 3 =
      (⟨[(1, 1), (2, 2), (3, 3)]⟩ : GoMap Nat Nat) ∧
    ((fun (k v : Nat) => (2 * v, decide (k ≠ 2))) 2 2 = (4, false)) ∧
    ((⟨[(1, 1), (2, 2), (3, 3)]⟩ : GoMap Nat Nat).ForEachMutable
      fun k v => (2 * v, decide (k ≠ 2))).m = [(1, 2), (2, 2), (3, 3)] ∧
    ((⟨[(1, 1), (2, 2), (3, 3)]⟩ : GoMap Nat Nat).ForEachMutable
      fun k v => (2 * v, decide (k ≠ 2))).Get 2 = some 2 ∧
    ((⟨[(1, 1), (2, 2), (3, 3)]⟩ : GoMap Nat Nat).ForEachMutable
      fun _ v => (2 * v, true)).m = [(1, 2), (2, 4), (3, 6)] :=
  ⟨rfl, rfl, rfl, rfl, rfl⟩

end GoMapClaims

/-! ## No abort in the balanced engines -/

namespace AVLTree

variable {K V : Type}

/-- On a valid AVL tree `Put` returns, whatever the comparator. -/
theorem avl_put_some (tree : AVLTree K V) (k : K) (v : V) (hv : Valid tree.root)
    (hroom : getHeight tree.root + 1 < uint32Size) : ∃ t, tree.Put k v = some t := by
  obtain ⟨root, cmp, size⟩ := tree
  simp only at hv hroom ⊢
  cases root with
  | nil => exact ⟨_, rfl⟩
  | node l x r =>
    simp only [Put, avl_putLoop_eq]
    generalize hloc : getLoop cmp Node.key k (Tree.node l x r) [] = loc
    have hz := @getLoop_zip _ _ cmp Node.key k (Tree.node l x r) []
    rw [hloc] at hz
    simp only [zip] at hz
    obtain ⟨node, p⟩ := loc
    simp only at hz
    have hinv := @avl_zip_valid_inv _ _ (getHeight (Tree.node l x r) + 1) node p
      (by rw [hz]; exact hv) (by rw [hz]; omega)
    cases node with
    | nil =>
      cases p with
      | nil => simp [zip] at hz
      | cons f rest =>
        obtain ⟨hpre, hpath⟩ := plug_putPre (valid_leaf k v) hinv.2
        obtain ⟨root1, h1, -, -⟩ := avl_putFix_spec (by omega) _ _ rest hpre hpath
        exact ⟨_, by simp only [h1, Option.map_some']; rfl⟩
    | node l1 x1 r1 => exact ⟨_, rfl⟩

end AVLTree

namespace RBTree

variable {K V : Type}

/-- On a valid Red-Black tree with a black root `Put` returns, whatever the
comparator. -/
theorem rb_put_some (tree : RBTree K V) (k : K) (v : V) (ptr : Nat) (hv : Valid tree.root)
    (hb : getColor tree.root = Color.black) : ∃ t, tree.Put k v ptr = some t := by
  obtain ⟨root, cmp, size⟩ := tree
  simp only at hv hb ⊢
  cases root with
  | nil => exact ⟨_, rfl⟩
  | node l x r =>
    simp only [Put, rb_putLoop_eq]
    generalize hloc : getLoop cmp Node.key k (Tree.node l x r) [] = loc
    have hz := @getLoop_zip _ _ cmp Node.key k (Tree.node l x r) []
    rw [hloc] at hz
    simp only [zip] at hz
    obtain ⟨node, p⟩ := loc
    simp only at hz
    have hinv := @rb_zip_valid_inv _ _ node p (by rw [hz]; exact hv)
    have htop := (zip_color node p).1 (by rw [hz]; exact hb)
    cases node with
    | nil =>
      obtain ⟨root1, h1, -, -, -⟩ := rb_putFix_spec p.length Tree.nil
        (⟨k, v, Color.red, ptr⟩ : Node K V) Tree.nil p (le_refl _) rfl
        ⟨fun _ => ⟨rfl, rfl⟩, rfl, trivial, trivial⟩ hinv.2 htop
      exact ⟨_, by simp only [h1, Option.map_some']; rfl⟩
    | node l1 x1 r1 => exact ⟨_, rfl⟩

/-- On a valid Red-Black tree `Remove` returns, whatever the comparator. -/
theorem rb_remove_some (tree : RBTree K V) (k : K) (hv : Valid tree.root) :
    ∃ t, tree.Remove k = some t := by
  have hloc0 : tree.get k = getLoop tree.comparator Node.key k tree.root [] := rfl
  generalize hloc : getLoop tree.comparator Node.key k tree.root [] = loc at hloc0
  have hz := @getLoop_zip _ _ tree.comparator Node.key k tree.root []
  rw [hloc] at hz
  simp only [zip] at hz
  obtain ⟨node, p⟩ := loc
  simp only at hz
  have hinv := @rb_zip_valid_inv _ _ node p (by rw [hz]; exact hv)
  cases node with
  | nil => exact ⟨tree, by simp only [Remove, hloc0]⟩
  | node l x r =>
    obtain ⟨⟨v1, v2, v3, v4⟩, hpath⟩ := hinv
    have hpath1 : PathOK p (bh l + blackUnit (getColor (Tree.node l x r)))
        (getColor (Tree.node l x r)) := hpath
    cases l with
    | nil =>
      cases r with
      | nil =>
        obtain ⟨path1, e1, -, -⟩ := rb_remove_at (Tree.node Tree.nil x Tree.nil) Tree.nil p
          (bh (Tree.nil : Tree (Node K V))) hpath1 trivial rfl
        refine ⟨⟨setColorIfPresent Color.black (zip Tree.nil path1), tree.comparator,
          decr32 tree.size⟩, ?_⟩
        simp only [Remove, hloc0, isNil_nil, Bool.true_eq_false, and_self, if_false, if_true,
          Option.some_bind, e1, Option.bind_eq_bind, replace, replaceNode]
      | node rl y rr =>
        obtain ⟨path1, e1, -, -⟩ := rb_remove_at (Tree.node Tree.nil x (Tree.node rl y rr))
          (Tree.node rl y rr) p (bh (Tree.nil : Tree (Node K V))) hpath1 v4 v2.symm
        refine ⟨⟨setColorIfPresent Color.black (zip (Tree.node rl y rr) path1), tree.comparator,
          decr32 tree.size⟩, ?_⟩
        simp only [Remove, hloc0, isNil_nil, isNil_node, Bool.true_eq_false,
          Bool.false_eq_true, and_false, false_and, and_self, if_false, if_true,
          Option.some_bind, e1, Option.bind_eq_bind, replace, replaceNode]
    | node ll y lr =>
      cases r with
      | nil =>
        obtain ⟨path1, e1, -, -⟩ := rb_remove_at (Tree.node (Tree.node ll y lr) x Tree.nil)
          (Tree.node ll y lr) p (bh (Tree.node ll y lr)) hpath1 v3 rfl
        refine ⟨⟨setColorIfPresent Color.black (zip (Tree.node ll y lr) path1), tree.comparator,
          decr32 tree.size⟩, ?_⟩
        simp only [Remove, hloc0, isNil_nil, isNil_node, Bool.true_eq_false,
          Bool.false_eq_true, and_false, false_and, and_self, if_false, if_true,
          Option.some_bind, e1, Option.bind_eq_bind, replace, replaceNode]
      | node rl z rr =>
        obtain ⟨nx, nr, m1, m2, -, -⟩ :=
          minLoop_spec rl z rr (Frame.right (Tree.node ll y lr) x :: p)
        generalize hnext : minLoop (Tree.node rl z rr)
          (Frame.right (Tree.node ll y lr) x :: p) = next at m1 m2
        obtain ⟨nnode, q⟩ := next
        simp only at m1 m2
        subst m1
        have hzq : zip (Tree.node Tree.nil nx nr) q = tree.root := by rw [m2]; exact hz
        obtain ⟨n1, n2⟩ := @rb_zip_valid_inv _ _ (Tree.node Tree.nil nx nr) q
          (by rw [hzq]; exact hv)
        obtain ⟨path1, e1, -, -⟩ := rb_remove_next x.ptr nx nr q n1 n2
        refine ⟨⟨setColorIfPresent Color.black
            (zip (assign x.ptr nx.key nx.value nr)
              (path1.map (assignFrame x.ptr nx.key nx.value))), tree.comparator,
          decr32 tree.size⟩, ?_⟩
        simp only [Remove, hloc0, isNil_node, and_self, if_true, min, hnext,
          Option.some_bind, e1, Option.bind_eq_bind, replace, replaceNode]

end RBTree

/-! ## Claims on the fix-up passes and the rotations -/

section FixupClaims

variable {K V : Type}

/-- C26: on every valid AVL tree (correct stored heights, balance factors in
`[-1, 1]`; the stored root height, a `uint32`, with room for one more level) and
for every key and value, `Put` returns: no `panic("tree structure error")` of
`Put`, `putFix`, `rotateLeft` or `rotateRight` and no dereference of nil is
reached, each of which is the result `none` here. -/
theorem avltree_put_no_abort (tree : AVLTree K V) (key : K) (value : V)
    (hheights : AVLTree.HeightsOK tree.root) (hbalanced : AVLTree.Balanced tree.root)
    (hroom : AVLTree.getHeight tree.root + 1 < uint32Size) :
    ∃ t, tree.Put key value = some t :=
  AVLTree.avl_put_some tree key value
    ((AVLTree.avl_valid_iff tree.root).2 ⟨hheights, hbalanced⟩) hroom

theorem avltree_put_no_abort_witness :
    (AVLTree.HeightsOK AVLTree.sample.root ∧ AVLTree.Balanced AVLTree.sample.root ∧
      AVLTree.getHeight AVLTree.sample.root + 1 < uint32Size) ∧
    ∃ t, AVLTree.sample.Put 5 50 = some t :=
  ⟨⟨avltree_sample_inv.2.2.1, avltree_sample_inv.2.2.2, by decide⟩,
    avltree_put_no_abort AVLTree.sample 5 50 avltree_sample_inv.2.2.1
      avltree_sample_inv.2.2.2 (by decide)⟩

/-- C27: on every valid Red-Black tree (black root, no red node with a red
child, equal black counts on all paths) and for every key and value, `Put` and
`Remove` return: no `panic("tree structure error")` of `Put`, `Remove`, `putFix`,
`removeFix`, `replace`, `rotateLeft` or `rotateRight` and no dereference of nil
is reached, each of which is the result `none` here. -/
theorem rbtree_put_remove_no_abort (tree : RBTree K V) (key : K) (value : V) (ptr : Nat)
    (hroot : RBTree.getColor tree.root = Color.black)
    (hred : RBTree.NoRedRed tree.root) (hblack : RBTree.BlackBalanced tree.root) :
    (∃ t, tree.Put key value ptr = some t) ∧ ∃ t, tree.Remove key = some t :=
  ⟨RBTree.rb_put_some tree key value ptr ((RBTree.rb_valid_iff tree.root).2 ⟨hred, hblack⟩)
      hroot,
    RBTree.rb_remove_some tree key ((RBTree.rb_valid_iff tree.root).2 ⟨hred, hblack⟩)⟩

theorem rbtree_put_remove_no_abort_witness :
    (RBTree.getColor RBTree.sample.root = Color.black ∧ RBTree.NoRedRed RBTree.sample.root ∧
      RBTree.BlackBalanced RBTree.sample.root) ∧
    (∃ t, RBTree.sample.Put 5 50 104 = some t) ∧ ∃ t, RBTree.sample.Remove 2 = some t :=
  ⟨⟨rbtree_sample_inv.2.2.1, rbtree_sample_inv.2.2.2.1, rbtree_sample_inv.2.2.2.2⟩,
    (rbtree_put_remove_no_abort RBTree.sample 5 50 104 rbtree_sample_inv.2.2.1
      rbtree_sample_inv.2.2.2.1 rbtree_sample_inv.2.2.2.2).1,
    (rbtree_put_remove_no_abort RBTree.sample 2 50 104 rbtree_sample_inv.2.2.1
      rbtree_sample_inv.2.2.2.1 rbtree_sample_inv.2.2.2.2).2⟩

/-- C28 fails as stated: in the tree `RBTree.sample` the node with key 1 is red;
`removeFix` of that node returns with the tree as it was, in which the node is
still red. -/
theorem removeFix_leaves_red_node_red :
    (RBTree.sample.get 1).node =
      Tree.node Tree.nil ⟨1, 10, Color.red, 101⟩ Tree.nil ∧
    RBTree.getColor (RBTree.sample.get 1).node = Color.red ∧
    (RBTree.removeFix (RBTree.sample.get 1).node (RBTree.sample.get 1).path).map
      (zip (RBTree.sample.get 1).node) = some RBTree.sample.root :=
  ⟨rfl, rfl, rfl⟩

/-- C28, as amended: for every tree and every red node `x`, `removeFix(x)`
returns at once and changes nothing in the tree: the ancestors of `x` are as they
were, and `x`, whose fields `removeFix` never writes, stays red. -/
theorem removeFix_red_returns (node : Tree (RBTree.Node K V))
    (path : List (Frame (RBTree.Node K V))) (hred : RBTree.getColor node = Color.red) :
    RBTree.removeFix node path = some path ∧
    (RBTree.removeFix node path).map (zip node) = some (zip node path) := by
  have h : RBTree.removeFix node path = some path := by
    unfold RBTree.removeFix
    exact RBTree.removeFixAux_red _ node path hred
  exact ⟨h, by rw [h]; rfl⟩

theorem removeFix_red_returns_witness :
    RBTree.getColor (RBTree.sample.get 1).node = Color.red ∧
    RBTree.removeFix (RBTree.sample.get 1).node (RBTree.sample.get 1).path =
      some (RBTree.sample.get 1).path ∧
    (RBTree.removeFix (RBTree.sample.get 1).node (RBTree.sample.get 1).path).map
      (zip (RBTree.sample.get 1).node) =
      some (zip (RBTree.sample.get 1).node (RBTree.sample.get 1).path) :=
  ⟨rfl, removeFix_red_returns (RBTree.sample.get 1).node (RBTree.sample.get 1).path rfl⟩

/-- C30: for every node whose children have stored heights `hl` and `hr` that
differ by at most 127, `getBalance` returns exactly the integer `hl - hr`,
although it is computed as a `uint32` difference converted to `int8`. -/
theorem avltree_getBalance_exact (l : Tree (AVLTree.Node K V)) (x : AVLTree.Node K V)
    (r : Tree (AVLTree.Node K V))
    (h1 : AVLTree.getHeight l ≤ AVLTree.getHeight r + 127)
    (h2 : AVLTree.getHeight r ≤ AVLTree.getHeight l + 127) :
    AVLTree.getBalance (Tree.node l x r) =
      some ((AVLTree.getHeight l : Int) - (AVLTree.getHeight r : Int)) := by
  simp only [AVLTree.getBalance]
  unfold toInt8 sub32
  split_ifs <;> simp only [Option.some.injEq] <;> omega

theorem avltree_getBalance_exact_witness :
    (AVLTree.getHeight (Tree.node Tree.nil (⟨1, 10, 1⟩ : AVLTree.Node Nat Nat) Tree.nil) ≤
        AVLTree.getHeight (Tree.nil : Tree (AVLTree.Node Nat Nat)) + 127 ∧
      AVLTree.getHeight (Tree.nil : Tree (AVLTree.Node Nat Nat)) ≤
        AVLTree.getHeight (Tree.node Tree.nil (⟨1, 10, 1⟩ : AVLTree.Node Nat Nat) Tree.nil)
          + 127) ∧
    AVLTree.getBalance
        (Tree.node (Tree.node Tree.nil ⟨1, 10, 1⟩ Tree.nil) (⟨2, 20, 2⟩ : AVLTree.Node Nat Nat)
          Tree.nil) =
      some ((AVLTree.getHeight
          (Tree.node Tree.nil (⟨1, 10, 1⟩ : AVLTree.Node Nat Nat) Tree.nil) : Int) -
        (AVLTree.getHeight (Tree.nil : Tree (AVLTree.Node Nat Nat)) : Int)) :=
  ⟨⟨by decide, by decide⟩,
    avltree_getBalance_exact (Tree.node Tree.nil ⟨1, 10, 1⟩ Tree.nil) ⟨2, 20, 2⟩ Tree.nil
      (by decide) (by decide)⟩

end FixupClaims

/-! ## Rotations -/

section Rotations

variable {K V : Type}

theorem avltree_rotateLeft_order (l : Tree (AVLTree.Node K V)) (x : AVLTree.Node K V)
    (cl : Tree (AVLTree.Node K V)) (y : AVLTree.Node K V) (cr : Tree (AVLTree.Node K V))
    (path : List (Frame (AVLTree.Node K V))) :
    ∃ x1 y1, AVLTree.rotateLeft (Tree.node l x (Tree.node cl y cr)) =
        some (Tree.node (Tree.node l x1 cl) y1 cr) ∧
      (x1.key, x1.value) = (x.key, x.value) ∧ (y1.key, y1.value) = (y.key, y.value) ∧
      AVLTree.entries (zip (Tree.node (Tree.node l x1 cl) y1 cr) path) =
        AVLTree.entries (zip (Tree.node l x (Tree.node cl y cr)) path) ∧
      x1.height = incr32 (Max.max (AVLTree.getHeight l) (AVLTree.getHeight cl)) ∧
      y1.height = incr32 (Max.max x1.height (AVLTree.getHeight cr)) ∧
      (Max.max (AVLTree.getHeight l) (AVLTree.getHeight cl) + 2 < uint32Size →
        AVLTree.getHeight cr + 1 < uint32Size →
        x1.height = 1 + Max.max (AVLTree.getHeight l) (AVLTree.getHeight cl) ∧
        y1.height = 1 + Max.max x1.height (AVLTree.getHeight cr)) := by
  refine ⟨{ x with height := incr32 (Max.max (AVLTree.getHeight l) (AVLTree.getHeight cl)) },
    { y with height := incr32 (Max.max
      (incr32 (Max.max (AVLTree.getHeight l) (AVLTree.getHeight cl)))
      (AVLTree.getHeight cr)) }, rfl, rfl, rfl, ?_, rfl, rfl, ?_⟩
  · unfold AVLTree.entries
    rw [entriesOf_zip, entriesOf_zip]
    simp [entriesOf]
  · intro h1 h2
    simp only
    have e1 := incr32_eq (x := Max.max (AVLTree.getHeight l) (AVLTree.getHeight cl))
      (by omega)
    rw [e1]
    have e2 := incr32_eq
      (x := Max.max (Max.max (AVLTree.getHeight l) (AVLTree.getHeight cl) + 1)
        (AVLTree.getHeight cr)) (by omega)
    rw [e2]
    omega

theorem avltree_rotateRight_order (cl : Tree (AVLTree.Node K V)) (y : AVLTree.Node K V)
    (cr : Tree (AVLTree.Node K V)) (x : AVLTree.Node K V) (r : Tree (AVLTree.Node K V))
    (path : List (Frame (AVLTree.Node K V))) :
    ∃ x1 y1, AVLTree.rotateRight (Tree.node (Tree.node cl y cr) x r) =
        some (Tree.node cl y1 (Tree.node cr x1 r)) ∧
      (x1.key, x1.value) = (x.key, x.value) ∧ (y1.key, y1.value) = (y.key, y.value) ∧
      AVLTree.entries (zip (Tree.node cl y1 (Tree.node cr x1 r)) path) =
        AVLTree.entries (zip (Tree.node (Tree.node cl y cr) x r) path) ∧
      x1.height = incr32 (Max.max (AVLTree.getHeight cr) (AVLTree.getHeight r)) ∧
      y1.height = incr32 (Max.max (AVLTree.getHeight cl) x1.height) ∧
      (Max.max (AVLTree.getHeight cr) (AVLTree.getHeight r) + 2 < uint32Size →
        AVLTree.getHeight cl + 1 < uint32Size →
        x1.height = 1 + Max.max (AVLTree.getHeight cr) (AVLTree.getHeight r) ∧
        y1.height = 1 + Max.max (AVLTree.getHeight cl) x1.height) := by
  refine ⟨{ x with height := incr32 (Max.max (AVLTree.getHeight cr) (AVLTree.getHeight r)) },
    { y with height := incr32 (Max.max (AVLTree.getHeight cl)
      (incr32 (Max.max (AVLTree.getHeight cr) (AVLTree.getHeight r)))) },
    rfl, rfl, rfl, ?_, rfl, rfl, ?_⟩
  · unfold AVLTree.entries
    rw [entriesOf_zip, entriesOf_zip]
    simp [entriesOf]
  · intro h1 h2
    simp only
    have e1 := incr32_eq (x := Max.max (AVLTree.getHeight cr) (AVLTree.getHeight r))
      (by omega)
    rw [e1]
    have e2 := incr32_eq
      (x := Max.max (AVLTree.getHeight cl)
        (Max.max (AVLTree.getHeight cr) (AVLTree.getHeight r) + 1)) (by omega)
    rw [e2]
    omega

theorem rbtree_rotateLeft_order (l : Tree (RBTree.Node K V)) (x : RBTree.Node K V)
    (cl : Tree (RBTree.Node K V)) (y : RBTree.Node K V) (cr : Tree (RBTree.Node K V))
    (path : List (Frame (RBTree.Node K V))) :
    RBTree.rotateLeft (Tree.node l x (Tree.node cl y cr)) =
        some (Tree.node (Tree.node l x cl) y cr) ∧
      RBTree.entries (zip (Tree.node (Tree.node l x cl) y cr) path) =
        RBTree.entries (zip (Tree.node l x (Tree.node cl y cr)) path) := by
  refine ⟨rfl, ?_⟩
  unfold RBTree.entries
  rw [entriesOf_zip, entriesOf_zip]
  simp [entriesOf]

theorem rbtree_rotateRight_order (cl : Tree (RBTree.Node K V)) (y : RBTree.Node K V)
    (cr : Tree (RBTree.Node K V)) (x : RBTree.Node K V) (r : Tree (RBTree.Node K V))
    (path : List (Frame (RBTree.Node K V))) :
    RBTree.rotateRight (Tree.node (Tree.node cl y cr) x r) =
        some (Tree.node cl y (Tree.node cr x r)) ∧
      RBTree.entries (zip (Tree.node cl y (Tree.node cr x r)) path) =
        RBTree.entries (zip (Tree.node (Tree.node cl y cr) x r) path) := by
  refine ⟨rfl, ?_⟩
  unfold RBTree.entries
  rw [entriesOf_zip, entriesOf_zip]
  simp [entriesOf]

/-- C29: for every node `x` with a right child `y`, at any place `path` of a
tree, `rotateLeft(x)` of the AVL and of the Red-Black engine returns, hangs `y`
where `x` hung with `x` as its left child and the former left subtree of `y` as
the right subtree of `x`, leaves the three subtrees and all ancestors as they
were, and leaves the in-order sequence of `(key, value)` pairs of the whole tree
as it was; `rotateRight` is the mirror image.  In the AVL engine the keys and
values of `x` and `y` stay, and the stored heights of `x` and then of `y` are
`max(...) + 1` of their children's stored heights in `uint32` arithmetic, which
is one more than the maximum whenever that fits a `uint32`; the Red-Black
engine leaves the fields of `x` and `y` as they were. -/
theorem rotations_preserve_order :
    (∀ (l : Tree (AVLTree.Node K V)) (x : AVLTree.Node K V) (cl : Tree (AVLTree.Node K V))
      (y : AVLTree.Node K V) (cr : Tree (AVLTree.Node K V))
      (path : List (Frame (AVLTree.Node K V))),
      ∃ x1 y1, AVLTree.rotateLeft (Tree.node l x (Tree.node cl y cr)) =
          some (Tree.node (Tree.node l x1 cl) y1 cr) ∧
        (x1.key, x1.value) = (x.key, x.value) ∧ (y1.key, y1.value) = (y.key, y.value) ∧
        AVLTree.entries (zip (Tree.node (Tree.node l x1 cl) y1 cr) path) =
          AVLTree.entries (zip (Tree.node l x (Tree.node cl y cr)) path) ∧
        x1.height = incr32 (Max.max (AVLTree.getHeight l) (AVLTree.getHeight cl)) ∧
        y1.height = incr32 (Max.max x1.height (AVLTree.getHeight cr)) ∧
        (Max.max (AVLTree.getHeight l) (AVLTree.getHeight cl) + 2 < uint32Size →
          AVLTree.getHeight cr + 1 < uint32Size →
          x1.height = 1 + Max.max (AVLTree.getHeight l) (AVLTree.getHeight cl) ∧
          y1.height = 1 + Max.max x1.height (AVLTree.getHeight cr))) ∧
    (∀ (cl : Tree (AVLTree.Node K V)) (y : AVLTree.Node K V) (cr : Tree (AVLTree.Node K V))
      (x : AVLTree.Node K V) (r : Tree (AVLTree.Node K V))
      (path : List (Frame (AVLTree.Node K V))),
      ∃ x1 y1, AVLTree.rotateRight (Tree.node (Tree.node cl y cr) x r) =
          some (Tree.node cl y1 (Tree.node cr x1 r)) ∧
        (x1.key, x1.value) = (x.key, x.value) ∧ (y1.key, y1.value) = (y.key, y.value) ∧
        AVLTree.entries (zip (Tree.node cl y1 (Tree.node cr x1 r)) path) =
          AVLTree.entries (zip (Tree.node (Tree.node cl y cr) x r) path) ∧
        x1.height = incr32 (Max.max (AVLTree.getHeight cr) (AVLTree.getHeight r)) ∧
        y1.height = incr32 (Max.max (AVLTree.getHeight cl) x1.height) ∧
        (Max.max (AVLTree.getHeight cr) (AVLTree.getHeight r) + 2 < uint32Size →
          AVLTree.getHeight cl + 1 < uint32Size →
          x1.height = 1 + Max.max (AVLTree.getHeight cr) (AVLTree.getHeight r) ∧
          y1.height = 1 + Max.max (AVLTree.getHeight cl) x1.height)) ∧
    (∀ (l : Tree (RBTree.Node K V)) (x : RBTree.Node K V) (cl : Tree (RBTree.Node K V))
      (y : RBTree.Node K V) (cr : Tree (RBTree.Node K V))
      (path : List (Frame (RBTree.Node K V))),
      RBTree.rotateLeft (Tree.node l x (Tree.node cl y cr)) =
          some (Tree.node (Tree.node l x cl) y cr) ∧
        RBTree.entries (zip (Tree.node (Tree.node l x cl) y cr) path) =
          RBTree.entries (zip (Tree.node l x (Tree.node cl y cr)) path)) ∧
    (∀ (cl : Tree (RBTree.Node K V)) (y : RBTree.Node K V) (cr : Tree (RBTree.Node K V))
      (x : RBTree.Node K V) (r : Tree (RBTree.Node K V))
      (path : List (Frame (RBTree.Node K V))),
      RBTree.rotateRight (Tree.node (Tree.node cl y cr) x r) =
          some (Tree.node cl y (Tree.node cr x r)) ∧
        RBTree.entries (zip (Tree.node cl y (Tree.node cr x r)) path) =
          RBTree.entries (zip (Tree.node (Tree.node cl y cr) x r) path)) :=
  ⟨avltree_rotateLeft_order, avltree_rotateRight_order, rbtree_rotateLeft_order,
    rbtree_rotateRight_order⟩

theorem rotations_preserve_order_witness :
    (Max.max (AVLTree.getHeight (Tree.nil : Tree (AVLTree.Node Nat Nat)))
        (AVLTree.getHeight (Tree.nil : Tree (AVLTree.Node Nat Nat))) + 2 < uint32Size ∧
      AVLTree.getHeight (Tree.node Tree.nil (⟨3, 30, 1⟩ : AVLTree.Node Nat Nat) Tree.nil) + 1 <
        uint32Size) ∧
    ∃ x1 y1, AVLTree.rotateLeft (Tree.node Tree.nil (⟨1, 10, 3⟩ : AVLTree.Node Nat Nat)
          (Tree.node Tree.nil ⟨2, 20, 2⟩ (Tree.node Tree.nil ⟨3, 30, 1⟩ Tree.nil))) =
        some (Tree.node (Tree.node Tree.nil x1 Tree.nil) y1
          (Tree.node Tree.nil ⟨3, 30, 1⟩ Tree.nil)) ∧
      x1.height = 1 ∧ y1.height = 2 := by
  obtain ⟨x1, y1, h1, -, -, -, -, -, h7⟩ :=
    (rotations_preserve_order (K := Nat) (V := Nat)).1 Tree.nil ⟨1, 10, 3⟩ Tree.nil ⟨2, 20, 2⟩
      (Tree.node Tree.nil ⟨3, 30, 1⟩ Tree.nil) []
  obtain ⟨h8, h9⟩ := h7 (by decide) (by decide)
  refine ⟨⟨by decide, by decide⟩, x1, y1, h1, ?_, ?_⟩
  · rw [h8]; rfl
  · rw [h9, h8]; rfl

end Rotations

/-! ## Insertion scenarios -/

section Scenarios

/-- C31: inserting the keys 5, 3, 8, 1, 4, 7, 9 in this order into an empty AVL
tree with the natural integer ordering (each key `k` with the value `10 * k`)
succeeds seven times; after each
insertion every node's balance factor lies in `[-1, 1]` (and the stored heights
are the true ones), and the keys of the final tree in order are
`[1, 3, 4, 5, 7, 8, 9]`. -/
theorem avltree_scenario_balanced :
    ∃ ts : List (AVLTree Int Int),
      AVLTree.putEach AVLTree.New ([5, 3, 8, 1, 4, 7, 9].map fun k => (k, 10 * k)) = some ts ∧
      ts.length = 7 ∧
      (∀ t ∈ ts, AVLTree.Balanced t.root ∧ AVLTree.HeightsOK t.root) ∧
      (ts.getLast?.map fun t => keysOf AVLTree.Node.key t.root) =
        some [1, 3, 4, 5, 7, 8, 9] := by
  refine ⟨
    [⟨Tree.node Tree.nil ⟨5, 50, 1⟩ Tree.nil, intCompare, 1⟩,
     ⟨Tree.node (Tree.node Tree.nil ⟨3, 30, 1⟩ Tree.nil) ⟨5, 50, 2⟩ Tree.nil, intCompare, 2⟩,
     ⟨Tree.node (Tree.node Tree.nil ⟨3, 30, 1⟩ Tree.nil) ⟨5, 50, 2⟩
        (Tree.node Tree.nil ⟨8, 80, 1⟩ Tree.nil), intCompare, 3⟩,
     ⟨Tree.node (Tree.node (Tree.node Tree.nil ⟨1, 10, 1⟩ Tree.nil) ⟨3, 30, 2⟩ Tree.nil)
        ⟨5, 50, 3⟩ (Tree.node Tree.nil ⟨8, 80, 1⟩ Tree.nil), intCompare, 4⟩,
     ⟨Tree.node (Tree.node (Tree.node Tree.nil ⟨1, 10, 1⟩ Tree.nil) ⟨3, 30, 2⟩
          (Tree.node Tree.nil ⟨4, 40, 1⟩ Tree.nil))
        ⟨5, 50, 3⟩ (Tree.node Tree.nil ⟨8, 80, 1⟩ Tree.nil), intCompare, 5⟩,
     ⟨Tree.node (Tree.node (Tree.node Tree.nil ⟨1, 10, 1⟩ Tree.nil) ⟨3, 30, 2⟩
          (Tree.node Tree.nil ⟨4, 40, 1⟩ Tree.nil))
        ⟨5, 50, 3⟩
        (Tree.node (Tree.node Tree.nil ⟨7, 70, 1⟩ Tree.nil) ⟨8, 80, 2⟩ Tree.nil),
        intCompare, 6⟩,
     ⟨Tree.node (Tree.node (Tree.node Tree.nil ⟨1, 10, 1⟩ Tree.nil) ⟨3, 30, 2⟩
          (Tree.node Tree.nil ⟨4, 40, 1⟩ Tree.nil))
        ⟨5, 50, 3⟩
        (Tree.node (Tree.node Tree.nil ⟨7, 70, 1⟩ Tree.nil) ⟨8, 80, 2⟩
          (Tree.node Tree.nil ⟨9, 90, 1⟩ Tree.nil)), intCompare, 7⟩],
    rfl, rfl, ?_, rfl⟩
  intro t ht
  simp only [List.mem_cons, List.mem_singleton, List.not_mem_nil, or_false] at ht
  rcases ht with h | h | h | h | h | h | h <;> subst h <;>
    simp [AVLTree.Balanced, AVLTree.HeightsOK, AVLTree.getHeight]

/-- C32: inserting the keys 10, 20, 30 in this order into an empty Red-Black
tree: after two insertions the tree is the black root 10 with the red right
child 20; the third insertion attaches 30 as a red leaf below 20 and the
fix-up changes that tree (it recolours and rotates), giving the black root 20
with the red children 10 and 30 and size 3; the root is black and both sides
of the root have the same black-height. -/
theorem rbtree_scenario_fixup {V : Type} (v1 v2 v3 : V) (p1 p2 p3 : Nat) :
    ∃ t1 t2 t3 : RBTree Int V,
      RBTree.putEach RBTree.New [(10, v1, p1), (20, v2, p2), (30, v3, p3)] =
        some [t1, t2, t3] ∧
      t2.root = Tree.node Tree.nil ⟨10, v1, Color.black, p1⟩
        (Tree.node Tree.nil ⟨20, v2, Color.red, p2⟩ Tree.nil) ∧
      RBTree.putFix (Tree.node Tree.nil ⟨30, v3, Color.red, p3⟩ Tree.nil)
        [Frame.right Tree.nil ⟨20, v2, Color.red, p2⟩,
         Frame.right Tree.nil ⟨10, v1, Color.black, p1⟩] = some t3.root ∧
      t3.root ≠ zip (Tree.node Tree.nil ⟨30, v3, Color.red, p3⟩ Tree.nil)
        [Frame.right Tree.nil ⟨20, v2, Color.red, p2⟩,
         Frame.right Tree.nil ⟨10, v1, Color.black, p1⟩] ∧
      t3.root = Tree.node (Tree.node Tree.nil ⟨10, v1, Color.red, p1⟩ Tree.nil)
        ⟨20, v2, Color.black, p2⟩
        (Tree.node Tree.nil ⟨30, v3, Color.red, p3⟩ Tree.nil) ∧
      t3.size = 3 ∧
      RBTree.getColor t3.root = Color.black ∧
      RBTree.bh t3.root.left = RBTree.bh t3.root.right ∧
      RBTree.BlackBalanced t3.root ∧
      RBTree.NoRedRed t3.root := by
  refine ⟨⟨Tree.node Tree.nil ⟨10, v1, Color.black, p1⟩ Tree.nil, intCompare, 1⟩,
    ⟨Tree.node Tree.nil ⟨10, v1, Color.black, p1⟩
      (Tree.node Tree.nil ⟨20, v2, Color.red, p2⟩ Tree.nil), intCompare, 2⟩,
    ⟨Tree.node (Tree.node Tree.nil ⟨10, v1, Color.red, p1⟩ Tree.nil)
      ⟨20, v2, Color.black, p2⟩
      (Tree.node Tree.nil ⟨30, v3, Color.red, p3⟩ Tree.nil), intCompare, 3⟩,
    rfl, rfl, rfl, ?_, rfl, rfl, rfl, rfl, ?_, ?_⟩
  · simp [zip, Frame.plug]
  · simp [RBTree.BlackBalanced, RBTree.blackCounts]
  · simp [RBTree.NoRedRed, RBTree.getColor]

end Scenarios

/-! ## Updates leave other keys alone -/

section Frame

variable {K V : Type} {cmp : Comparator K}

theorem TotalOrder.eq_trans (h : TotalOrder cmp) {a b c : K} (hab : cmp a b = 0)
    (hbc : cmp b c = 0) : cmp a c = 0 := by
  have h1 := h.trans a b c (by omega) (by omega)
  have h2 := h.trans c b a (by have := h.eq_symm hbc; omega) (by have := h.eq_symm hab; omega)
  have h3 := h.swap a c
  omega

theorem other_key_misses (h : TotalOrder cmp) {k k' x : K} (hne : cmp k' k ≠ 0)
    (hk : cmp k x = 0) : decide (cmp k' x = 0) = false := by
  simp only [decide_eq_false_iff_not]
  intro h1
  exact hne (h.eq_trans h1 (h.eq_symm hk))

theorem putSpec_find_other (h : TotalOrder cmp) {k k' : K} {v : V} {old new : List (K × V)}
    {s s1 : Nat} (hp : PutSpec cmp k v old new s s1) (hne : cmp k' k ≠ 0) :
    new.find? (fun e => decide (cmp k' e.1 = 0)) =
      old.find? (fun e => decide (cmp k' e.1 = 0)) := by
  have hkk : cmp k k = 0 := by
    have := h.not_lt_self k
    have := h.swap k k
    omega
  have h0 := other_key_misses h hne hkk
  rcases hp with ⟨B, A, rfl, -, -, rfl, -⟩ | ⟨B, x, A, rfl, hk, rfl, -⟩
  · simp only [List.find?_append, List.find?_cons, h0]
  · have h1 := other_key_misses h hne hk
    simp only [List.find?_append, List.find?_cons, h0, h1]

theorem removeSpec_find_other (h : TotalOrder cmp) {k k' : K} {old new : List (K × V)}
    {s s1 : Nat} (hp : RemoveSpec cmp k old new s s1) (hne : cmp k' k ≠ 0) :
    new.find? (fun e => decide (cmp k' e.1 = 0)) =
      old.find? (fun e => decide (cmp k' e.1 = 0)) := by
  rcases hp with ⟨-, rfl, -⟩ | ⟨B, x, A, rfl, hk, rfl, -⟩
  · rfl
  · have h1 := other_key_misses h hne hk
    simp only [List.find?_append, List.find?_cons, h1]

/-- C33: in the Red-Black engine an update of the key `k` does not disturb
another key: for every valid Red-Black tree (BST ordering, black root, no red
node with a red child, equal black counts on all paths) under a total-order
comparator and every key `k'` that the comparator distinguishes from `k`,
`Put(k, v)` returns and `Get(k')` gives the same result after it as before,
and, the nodes living at distinct addresses, `Remove(k)` returns and `Get(k')`
gives the same result after it as before. -/
theorem rbtree_update_keeps_other_keys (tree : RBTree K V) (k k' : K) (v : V) (ptr : Nat)
    (horder : TotalOrder tree.comparator)
    (hbst : IsBST tree.comparator RBTree.Node.key tree.root)
    (hroot : RBTree.getColor tree.root = Color.black)
    (hred : RBTree.NoRedRed tree.root) (hblack : RBTree.BlackBalanced tree.root)
    (hne : tree.comparator k' k ≠ 0) :
    (∃ t, tree.Put k v ptr = some t ∧ t.Get k' = tree.Get k') ∧
    (RBTree.PtrsDistinct tree.root → ∃ t, tree.Remove k = some t ∧ t.Get k' = tree.Get k') := by
  have hv := (RBTree.rb_valid_iff tree.root).2 ⟨hred, hblack⟩
  have hs := (isBST_iff_increasing horder tree.root).1 hbst
  have hs1 : StrictlyIncreasing tree.comparator ((RBTree.entries tree.root).map Prod.fst) := by
    rw [RBTree.entries, keys_entriesOf]; exact hs
  constructor
  · obtain ⟨t, h1, h2, h3, -⟩ := RBTree.rb_put_spec tree k v ptr horder hs hv hroot
    refine ⟨t, h1, ?_⟩
    have hs2 := putSpec_increasing horder h3 hs1
    rw [RBTree.entries, keys_entriesOf, ← h2] at hs2
    rw [rbtree_get_eq_find t k' (h2 ▸ horder) hs2, h2, putSpec_find_other horder h3 hne,
      rbtree_get_eq_find tree k' horder hs]
  · intro hptrs
    obtain ⟨t, h1, h2, h3, -⟩ := RBTree.rb_remove_spec tree k horder hs hv hroot hptrs
    refine ⟨t, h1, ?_⟩
    have hs2 := removeSpec_increasing h3 hs1
    rw [RBTree.entries, keys_entriesOf, ← h2] at hs2
    rw [rbtree_get_eq_find t k' (h2 ▸ horder) hs2, h2, removeSpec_find_other horder h3 hne,
      rbtree_get_eq_find tree k' horder hs]

theorem rbtree_update_keeps_other_keys_witness :
    (TotalOrder RBTree.sample.comparator ∧
      IsBST RBTree.sample.comparator RBTree.Node.key RBTree.sample.root ∧
      RBTree.getColor RBTree.sample.root = Color.black ∧
      RBTree.NoRedRed RBTree.sample.root ∧ RBTree.BlackBalanced RBTree.sample.root ∧
      RBTree.sample.comparator 3 2 ≠ 0 ∧ RBTree.PtrsDistinct RBTree.sample.root) ∧
    (∃ t, RBTree.sample.Put 2 25 104 = some t ∧ t.Get 3 = RBTree.sample.Get 3) ∧
    (∃ t, RBTree.sample.Remove 2 = some t ∧ t.Get 3 = RBTree.sample.Get 3) ∧
    RBTree.sample.Get 3 = some 30 :=
  ⟨⟨natCompare_totalOrder, rbtree_sample_inv.1, rbtree_sample_inv.2.2.1,
      rbtree_sample_inv.2.2.2.1, rbtree_sample_inv.2.2.2.2, by decide, rbtree_sample_ptrs⟩,
    (rbtree_update_keeps_other_keys RBTree.sample 2 3 25 104 natCompare_totalOrder
      rbtree_sample_inv.1 rbtree_sample_inv.2.2.1 rbtree_sample_inv.2.2.2.1
      rbtree_sample_inv.2.2.2.2 (by decide)).1,
    (rbtree_update_keeps_other_keys RBTree.sample 2 3 25 104 natCompare_totalOrder
      rbtree_sample_inv.1 rbtree_sample_inv.2.2.1 rbtree_sample_inv.2.2.2.1
      rbtree_sample_inv.2.2.2.2 (by decide)).2 rbtree_sample_ptrs,
    rfl⟩

end Frame

/-! ## Heaps that hold a tree -/

namespace Heap

section Basics

variable {α β K : Type} {addr : β → Nat} {dat : β → α}

theorem heap_update_cells (s : Store α K) (a b : Nat) (c : Cell α) :
    (s.update a c).cells b = if b = a then some c else s.cells b := rfl

@[simp] theorem heap_update_self (s : Store α K) (a : Nat) (c : Cell α) :
    (s.update a c).cells a = some c := by simp [Store.update]

@[simp] theorem heap_update_ne (s : Store α K) {a b : Nat} (c : Cell α) (h : b ≠ a) :
    (s.update a c).cells b = s.cells b := by simp [Store.update, h]

@[simp] theorem heap_update_root (s : Store α K) (a : Nat) (c : Cell α) :
    (s.update a c).root = s.root := rfl

@[simp] theorem heap_update_size (s : Store α K) (a : Nat) (c : Cell α) :
    (s.update a c).size = s.size := rfl

@[simp] theorem heap_update_comparator (s : Store α K) (a : Nat) (c : Cell α) :
    (s.update a c).comparator = s.comparator := rfl

@[simp] theorem heap_setRoot_cells (s : Store α K) (v : Option Nat) :
    (s.setRoot v).cells = s.cells := rfl

@[simp] theorem heap_setRoot_root (s : Store α K) (v : Option Nat) :
    (s.setRoot v).root = v := rfl

@[simp] theorem heap_setRoot_size (s : Store α K) (v : Option Nat) :
    (s.setRoot v).size = s.size := rfl

@[simp] theorem heap_setRoot_comparator (s : Store α K) (v : Option Nat) :
    (s.setRoot v).comparator = s.comparator := rfl

theorem heap_modify_eq {s : Store α K} {a : Nat} {c : Cell α} (f : Cell α → Cell α)
    (h : s.cells a = some c) : s.modify a f = some (s.update a (f c)) := by
  simp [Store.modify, h]

theorem heap_setLeft_eq {s : Store α K} {a : Nat} {c : Cell α} (v : Option Nat)
    (h : s.cells a = some c) : s.setLeft a v = some (s.update a { c with left := v }) :=
  heap_modify_eq _ h

theorem heap_setRight_eq {s : Store α K} {a : Nat} {c : Cell α} (v : Option Nat)
    (h : s.cells a = some c) : s.setRight a v = some (s.update a { c with right := v }) :=
  heap_modify_eq _ h

theorem heap_setParent_eq {s : Store α K} {a : Nat} {c : Cell α} (v : Option Nat)
    (h : s.cells a = some c) : s.setParent a v = some (s.update a { c with parent := v }) :=
  heap_modify_eq _ h

theorem heap_setData_eq {s : Store α K} {a : Nat} {c : Cell α} (f : α → α)
    (h : s.cells a = some c) :
    s.setData a f = some (s.update a { c with data := f c.data }) :=
  heap_modify_eq _ h

@[simp] theorem rootAddr_nil : rootAddr addr (Tree.nil : Tree β) = none := rfl

@[simp] theorem rootAddr_node (l : Tree β) (x : β) (r : Tree β) :
    rootAddr addr (Tree.node l x r) = some (addr x) := rfl

@[simp] theorem pathAddr_nil : pathAddr addr ([] : List (Frame β)) = none := rfl

@[simp] theorem pathAddr_left (x : β) (r : Tree β) (path : List (Frame β)) :
    pathAddr addr (Frame.left x r :: path) = some (addr x) := rfl

@[simp] theorem pathAddr_right (l : Tree β) (x : β) (path : List (Frame β)) :
    pathAddr addr (Frame.right l x :: path) = some (addr x) := rfl

@[simp] theorem addrs_nil : addrs addr (Tree.nil : Tree β) = [] := rfl

@[simp] theorem addrs_node (l : Tree β) (x : β) (r : Tree β) :
    addrs addr (Tree.node l x r) = addrs addr l ++ addr x :: addrs addr r := by
  simp [addrs]

theorem addrs_zip (t : Tree β) (path : List (Frame β)) :
    addrs addr (zip t path) =
      (pathBefore path).map addr ++ (addrs addr t ++ (pathAfter path).map addr) := by
  simp [addrs, toList_zip]

theorem rootAddr_mem {t : Tree β} {a : Nat} (h : rootAddr addr t = some a) :
    a ∈ addrs addr t := by
  cases t with
  | nil => simp at h
  | node l x r => simp at h; simp [h]

theorem mem_addrs_zip (t : Tree β) (path : List (Frame β)) (b : Nat) :
    b ∈ addrs addr (zip t path) ↔ b ∈ addrs addr t ∨ b ∈ addrs addr (zip Tree.nil path) := by
  simp only [addrs_zip, List.mem_append, addrs_nil, List.not_mem_nil, false_or]
  tauto

theorem mem_addrs_path_left (x : β) (r : Tree β) (rest : List (Frame β)) (b : Nat) :
    b ∈ addrs addr (zip Tree.nil (Frame.left x r :: rest)) ↔
      b = addr x ∨ b ∈ addrs addr r ∨ b ∈ addrs addr (zip Tree.nil rest) := by
  show b ∈ addrs addr (zip (Tree.node Tree.nil x r) rest) ↔ _
  rw [mem_addrs_zip]
  simp only [addrs_node, addrs_nil, List.nil_append, List.mem_cons]
  tauto

theorem mem_addrs_path_right (l : Tree β) (x : β) (rest : List (Frame β)) (b : Nat) :
    b ∈ addrs addr (zip Tree.nil (Frame.right l x :: rest)) ↔
      b = addr x ∨ b ∈ addrs addr l ∨ b ∈ addrs addr (zip Tree.nil rest) := by
  show b ∈ addrs addr (zip (Tree.node l x Tree.nil) rest) ↔ _
  rw [mem_addrs_zip]
  simp only [addrs_node, addrs_nil, List.mem_append, List.mem_cons, List.not_mem_nil, or_false]
  tauto

theorem nodup_addrs_node (l : Tree β) (x : β) (r : Tree β) :
    (addrs addr (Tree.node l x r)).Nodup ↔
      (addrs addr l).Nodup ∧ (addrs addr r).Nodup ∧ addr x ∉ addrs addr l ∧
      addr x ∉ addrs addr r ∧ ∀ b ∈ addrs addr l, b ∉ addrs addr r := by
  simp only [addrs_node, List.nodup_append, List.nodup_cons, List.Disjoint]
  constructor
  · rintro ⟨h1, ⟨h2, h3⟩, h4⟩
    exact ⟨h1, h3, fun hx => h4 hx (List.mem_cons_self _ _), h2,
      fun b hb hr => h4 hb (List.mem_cons_of_mem _ hr)⟩
  · rintro ⟨h1, h2, h3, h4, h5⟩
    refine ⟨h1, ⟨h4, h2⟩, fun a ha hr => ?_⟩
    rcases List.mem_cons.1 hr with rfl | hr
    · exact h3 ha
    · exact h5 a ha hr

theorem nodup_addrs_zip (t : Tree β) (path : List (Frame β)) :
    (addrs addr (zip t path)).Nodup ↔
      (addrs addr t).Nodup ∧ (addrs addr (zip Tree.nil path)).Nodup ∧
      ∀ b ∈ addrs addr t, b ∉ addrs addr (zip Tree.nil path) := by
  have hp : (addrs addr (zip t path)).Perm (addrs addr t ++ addrs addr (zip Tree.nil path)) := by
    simp only [addrs_zip, addrs_nil, List.nil_append]
    exact List.perm_append_comm_assoc _ _ _
  rw [hp.nodup_iff, List.nodup_append]
  simp only [List.Disjoint]

theorem rootAddr_zip_congr {t t1 : Tree β} (path : List (Frame β))
    (h : rootAddr addr t = rootAddr addr t1) :
    rootAddr addr (zip t path) = rootAddr addr (zip t1 path) := by
  cases path with
  | nil => exact h
  | cons f rest =>
    have : ∀ (rest : List (Frame β)) (u u1 : Tree β), rootAddr addr u = rootAddr addr u1 →
        u ≠ Tree.nil → u1 ≠ Tree.nil →
        rootAddr addr (zip u rest) = rootAddr addr (zip u1 rest) := by
      intro rest
      induction rest with
      | nil => intro u u1 h _ _; exact h
      | cons g rest ih =>
        intro u u1 _ _ _
        cases g <;> exact ih _ _ rfl (by simp [Frame.plug]) (by simp [Frame.plug])
    cases f <;> exact this rest _ _ rfl (by simp [Frame.plug]) (by simp [Frame.plug])

@[simp] theorem owns_nil (cells : Nat → Option (Cell α)) (p : Option Nat) :
    Owns addr dat cells Tree.nil p := trivial

theorem owns_node (cells : Nat → Option (Cell α)) (l : Tree β) (x : β) (r : Tree β)
    (p : Option Nat) :
    Owns addr dat cells (Tree.node l x r) p ↔
      cells (addr x) = some ⟨dat x, rootAddr addr l, rootAddr addr r, p⟩ ∧
      Owns addr dat cells l (some (addr x)) ∧ Owns addr dat cells r (some (addr x)) :=
  Iff.rfl

theorem owns_congr {cells cells1 : Nat → Option (Cell α)} {t : Tree β} {p : Option Nat}
    (h : ∀ b ∈ addrs addr t, cells1 b = cells b) (ho : Owns addr dat cells t p) :
    Owns addr dat cells1 t p := by
  induction t generalizing p with
  | nil => trivial
  | node l x r ihl ihr =>
    obtain ⟨h1, h2, h3⟩ := ho
    refine ⟨?_, ihl (fun b hb => h b (by simp [hb])) h2, ihr (fun b hb => h b (by simp [hb])) h3⟩
    rw [h _ (by simp), h1]

/-- A subtree whose top node gets a new parent. -/
theorem owns_reparent {cells cells1 : Nat → Option (Cell α)} {t : Tree β} {p p1 : Option Nat}
    (hd : (addrs addr t).Nodup)
    (h : ∀ b ∈ addrs addr t, rootAddr addr t ≠ some b → cells1 b = cells b)
    (hr : ∀ a, rootAddr addr t = some a →
      cells1 a = (cells a).map fun c => { c with parent := p1 })
    (ho : Owns addr dat cells t p) : Owns addr dat cells1 t p1 := by
  cases t with
  | nil => trivial
  | node l x r =>
    obtain ⟨h1, h2, h3⟩ := ho
    obtain ⟨-, -, d3, d4, -⟩ := (nodup_addrs_node l x r).1 hd
    refine ⟨?_, owns_congr (fun b hb => ?_) h2, owns_congr (fun b hb => ?_) h3⟩
    · rw [hr _ rfl, h1]; rfl
    · apply h b (by simp [hb])
      simp only [rootAddr_node, ne_eq, Option.some.injEq]
      rintro rfl
      exact d3 hb
    · apply h b (by simp [hb])
      simp only [rootAddr_node, ne_eq, Option.some.injEq]
      rintro rfl
      exact d4 hb

theorem ownsPath_congr {cells cells1 : Nat → Option (Cell α)} {path : List (Frame β)}
    {c : Option Nat}
    (h : ∀ b ∈ addrs addr (zip Tree.nil path), cells1 b = cells b)
    (ho : OwnsPath addr dat cells path c) : OwnsPath addr dat cells1 path c := by
  induction path generalizing c with
  | nil => trivial
  | cons f rest ih =>
    cases f with
    | left x r =>
      obtain ⟨h1, h2, h3⟩ := ho
      refine ⟨?_, owns_congr (fun b hb => h b ?_) h2, ih (fun b hb => h b ?_) h3⟩
      · rw [h _ ((mem_addrs_path_left x r rest _).2 (Or.inl rfl)), h1]
      · exact (mem_addrs_path_left x r rest _).2 (Or.inr (Or.inl hb))
      · exact (mem_addrs_path_left x r rest _).2 (Or.inr (Or.inr hb))
    | right l x =>
      obtain ⟨h1, h2, h3⟩ := ho
      refine ⟨?_, owns_congr (fun b hb => h b ?_) h2, ih (fun b hb => h b ?_) h3⟩
      · rw [h _ ((mem_addrs_path_right l x rest _).2 (Or.inl rfl)), h1]
      · exact (mem_addrs_path_right l x rest _).2 (Or.inr (Or.inl hb))
      · exact (mem_addrs_path_right l x rest _).2 (Or.inr (Or.inr hb))

theorem owns_zip (cells : Nat → Option (Cell α)) (t : Tree β) (path : List (Frame β)) :
    Owns addr dat cells (zip t path) none ↔
      Owns addr dat cells t (pathAddr addr path) ∧
      OwnsPath addr dat cells path (rootAddr addr t) := by
  induction path generalizing t with
  | nil => simp [zip, OwnsPath]
  | cons f rest ih =>
    cases f with
    | left x r =>
      simp only [zip, Frame.plug, ih, owns_node, OwnsPath, pathAddr_left, rootAddr_node,
        Frame.data]
      cases rest <;> simp only [pathAddr, Frame.data] <;> tauto
    | right l x =>
      simp only [zip, Frame.plug, ih, owns_node, OwnsPath, pathAddr_right, rootAddr_node,
        Frame.data]
      cases rest <;> simp only [pathAddr, Frame.data] <;> tauto

theorem rep_zip_iff (s : Store α K) (t : Tree β) (path : List (Frame β)) :
    Rep addr dat s (zip t path) ↔
      Owns addr dat s.cells t (pathAddr addr path) ∧
      OwnsPath addr dat s.cells path (rootAddr addr t) ∧
      s.root = rootAddr addr (zip t path) ∧ (addrs addr (zip t path)).Nodup := by
  simp only [Rep, owns_zip, and_assoc]

/-- The node at a location lives at its address, with its links. -/
theorem rep_lookup {s : Store α K} {l : Tree β} {x : β} {r : Tree β} {path : List (Frame β)}
    (h : Rep addr dat s (zip (Tree.node l x r) path)) :
    s.cells (addr x) =
      some ⟨dat x, rootAddr addr l, rootAddr addr r, pathAddr addr path⟩ :=
  ((rep_zip_iff s _ path).1 h).1.1

end Basics

end Heap

namespace Heap

section Steps

variable {α β K : Type} {addr : β → Nat} {dat : β → α}

theorem keeps_refl (live : List Nat) (s : Store α K) : Keeps live s s :=
  ⟨fun _ _ => rfl, rfl, rfl⟩

theorem keeps_trans {live : List Nat} {s s1 s2 : Store α K} (h1 : Keeps live s s1)
    (h2 : Keeps live s1 s2) : Keeps live s s2 :=
  ⟨fun b hb => (h2.1 b hb).trans (h1.1 b hb), h2.2.1.trans h1.2.1, h2.2.2.trans h1.2.2⟩

theorem keeps_mono {live live1 : List Nat} {s s1 : Store α K} (h : Keeps live s s1)
    (hsub : ∀ b ∈ live, b ∈ live1) : Keeps live1 s s1 :=
  ⟨fun b hb => h.1 b (fun hl => hb (hsub b hl)), h.2⟩

theorem keeps_update {live : List Nat} (s : Store α K) {a : Nat} (c : Cell α) (ha : a ∈ live) :
    Keeps live s (s.update a c) :=
  ⟨fun _ hb => heap_update_ne s c (fun h => hb (h ▸ ha)), rfl, rfl⟩

theorem addrs_zip_congr {t t1 : Tree β} (path : List (Frame β))
    (h : addrs addr t = addrs addr t1) : addrs addr (zip t path) = addrs addr (zip t1 path) := by
  simp only [addrs_zip, h]

/-- The parts of a tree around a location, from a heap that holds the tree. -/
theorem rep_parts {s : Store α K} {l : Tree β} {x : β} {r : Tree β} {path : List (Frame β)}
    (h : Rep addr dat s (zip (Tree.node l x r) path)) :
    s.cells (addr x) = some ⟨dat x, rootAddr addr l, rootAddr addr r, pathAddr addr path⟩ ∧
    Owns addr dat s.cells l (some (addr x)) ∧ Owns addr dat s.cells r (some (addr x)) ∧
    OwnsPath addr dat s.cells path (some (addr x)) ∧
    s.root = rootAddr addr (zip (Tree.node l x r) path) ∧
    ((addrs addr l).Nodup ∧ (addrs addr r).Nodup ∧ addr x ∉ addrs addr l ∧
      addr x ∉ addrs addr r ∧ ∀ b ∈ addrs addr l, b ∉ addrs addr r) ∧
    (addrs addr (zip Tree.nil path)).Nodup ∧
    (∀ b ∈ addrs addr (Tree.node l x r), b ∉ addrs addr (zip Tree.nil path)) := by
  obtain ⟨⟨h1, h2, h3⟩, h4, h5, h6⟩ := (rep_zip_iff s _ path).1 h
  obtain ⟨h7, h8, h9⟩ := (nodup_addrs_zip _ path).1 h6
  exact ⟨h1, h2, h3, h4, h5, (nodup_addrs_node l x r).1 h7, h8, h9⟩

/-- A write to the fields of a node that are no links. -/
theorem rep_setData {s : Store α K} {l : Tree β} {x : β} {r : Tree β} {path : List (Frame β)}
    (x1 : β) (f : α → α) (h : Rep addr dat s (zip (Tree.node l x r) path))
    (ha : addr x1 = addr x) (hd : dat x1 = f (dat x)) :
    ∃ s1, s.setData (addr x) f = some s1 ∧
      Rep addr dat s1 (zip (Tree.node l x1 r) path) ∧
      Keeps (addrs addr (zip (Tree.node l x r) path)) s s1 := by
  obtain ⟨h1, h2, h3, h4, h5, ⟨d1, d2, d3, d4, d5⟩, d6, d7⟩ := rep_parts h
  refine ⟨_, heap_setData_eq f h1, ?_, keeps_update s _ ?_⟩
  · rw [rep_zip_iff]
    refine ⟨⟨?_, ?_, ?_⟩, ?_, ?_, ?_⟩
    · simp [ha, hd]
    · rw [ha]
      exact owns_congr (fun b hb => heap_update_ne s _ (fun e => d3 (e ▸ hb))) h2
    · rw [ha]
      exact owns_congr (fun b hb => heap_update_ne s _ (fun e => d4 (e ▸ hb))) h3
    · rw [rootAddr_node, ha]
      exact ownsPath_congr (fun b hb => heap_update_ne s _
        (fun e => d7 (addr x) (by simp) (e ▸ hb))) h4
    · rw [heap_update_root, h5]
      exact rootAddr_zip_congr path (by simp [ha])
    · rw [addrs_zip_congr path (show addrs addr (Tree.node l x1 r) =
        addrs addr (Tree.node l x r) by simp [ha])]
      exact h.2.2
  · rw [mem_addrs_zip]; simp

theorem rootAddr_zip_cons (t : Tree β) (f : Frame β) (rest : List (Frame β)) :
    rootAddr addr (zip t (f :: rest)) = rootAddr addr (zip Tree.nil (f :: rest)) := by
  show rootAddr addr (zip (f.plug t) rest) = rootAddr addr (zip (f.plug Tree.nil) rest)
  apply rootAddr_zip_congr
  cases f <;> rfl

/-- The statements that hang `child` where `node` hung. -/
theorem hang_spec {s : Store α K} {path : List (Frame β)} {nx ny : Nat} {cy : Cell α}
    (hp : OwnsPath addr dat s.cells path (some nx))
    (hd : (addrs addr (zip Tree.nil path)).Nodup)
    (hx : nx ∉ addrs addr (zip Tree.nil path)) (hy : ny ∉ addrs addr (zip Tree.nil path))
    (hc : s.cells ny = some cy) :
    ∃ s2, hang s nx (pathAddr addr path) ny = some s2 ∧
      OwnsPath addr dat s2.cells path (some ny) ∧
      s2.cells ny = some { cy with parent := pathAddr addr path } ∧
      (∀ b, b ≠ ny → b ∉ addrs addr (zip Tree.nil path) → s2.cells b = s.cells b) ∧
      (∀ t t1 : Tree β, s.root = rootAddr addr (zip t path) → rootAddr addr t1 = some ny →
        s2.root = rootAddr addr (zip t1 path)) ∧
      s2.comparator = s.comparator ∧ s2.size = s.size := by
  cases path with
  | nil =>
    refine ⟨(s.update ny { cy with parent := none }).setRoot (some ny), ?_, trivial, ?_, ?_, ?_,
      rfl, rfl⟩
    · simp [hang, heap_setParent_eq none hc]
    · simp
    · intro b hb _; simp [hb]
    · intro t t1 _ h1; simp [zip, h1]
  | cons f rest =>
    cases f with
    | left px pr =>
      obtain ⟨h1, h2, h3⟩ := hp
      rw [mem_addrs_path_left] at hx hy
      have hyp : ny ≠ addr px := fun e => hy (Or.inl e)
      have key : (s.update (addr px) ⟨dat px, some ny, rootAddr addr pr, pathAddr addr rest⟩).cells
          ny = some cy := by rw [heap_update_ne _ _ hyp, hc]
      refine ⟨(s.update (addr px) ⟨dat px, some ny, rootAddr addr pr,
          pathAddr addr rest⟩).update ny { cy with parent := some (addr px) }, ?_, ⟨?_, ?_, ?_⟩, ?_,
        ?_, ?_, rfl, rfl⟩
      · simp only [hang, pathAddr_left, h1, Option.some_bind, if_true,
          heap_setLeft_eq (some ny) h1, heap_setParent_eq (some (addr px)) key]
      · rw [heap_update_ne _ _ (Ne.symm hyp), heap_update_self]
      · refine owns_congr (fun b hb => ?_) h2
        have hb1 : b ≠ ny := fun e => hy (Or.inr (Or.inl (e ▸ hb)))
        have hb2 : b ≠ addr px := by
          rintro rfl
          have := (nodup_addrs_zip (Tree.node Tree.nil px pr) rest).1 hd
          exact ((nodup_addrs_node _ _ _).1 this.1).2.2.2.1 hb
        rw [heap_update_ne _ _ hb1, heap_update_ne _ _ hb2]
      · refine ownsPath_congr (fun b hb => ?_) h3
        have hb1 : b ≠ ny := fun e => hy (Or.inr (Or.inr (e ▸ hb)))
        have hb2 : b ≠ addr px := by
          rintro rfl
          have := (nodup_addrs_zip (Tree.node Tree.nil px pr) rest).1 hd
          exact this.2.2 _ (by simp) hb
        rw [heap_update_ne _ _ hb1, heap_update_ne _ _ hb2]
      · simp
      · intro b hb hn
        rw [mem_addrs_path_left] at hn
        rw [heap_update_ne _ _ hb, heap_update_ne _ _ (fun e => hn (Or.inl e))]
      · intro t t1 h0 _
        rw [heap_update_root, heap_update_root, h0, rootAddr_zip_cons, ← rootAddr_zip_cons t1]
    | right pl px =>
      obtain ⟨h1, h2, h3⟩ := hp
      rw [mem_addrs_path_right] at hx hy
      have hyp : ny ≠ addr px := fun e => hy (Or.inl e)
      have hxl : rootAddr addr pl ≠ some nx := fun e => hx (Or.inr (Or.inl (rootAddr_mem e)))
      have key : (s.update (addr px) ⟨dat px, rootAddr addr pl, some ny, pathAddr addr rest⟩).cells
          ny = some cy := by rw [heap_update_ne _ _ hyp, hc]
      refine ⟨(s.update (addr px) ⟨dat px, rootAddr addr pl, some ny,
          pathAddr addr rest⟩).update ny { cy with parent := some (addr px) }, ?_, ⟨?_, ?_, ?_⟩, ?_,
        ?_, ?_, rfl, rfl⟩
      · simp only [hang, pathAddr_right, h1, Option.some_bind, hxl, if_false, if_true,
          heap_setRight_eq (some ny) h1, heap_setParent_eq (some (addr px)) key]
      · rw [heap_update_ne _ _ (Ne.symm hyp), heap_update_self]
      · refine owns_congr (fun b hb => ?_) h2
        have hb1 : b ≠ ny := fun e => hy (Or.inr (Or.inl (e ▸ hb)))
        have hb2 : b ≠ addr px := by
          rintro rfl
          have := (nodup_addrs_zip (Tree.node pl px Tree.nil) rest).1 hd
          exact ((nodup_addrs_node _ _ _).1 this.1).2.2.1 hb
        rw [heap_update_ne _ _ hb1, heap_update_ne _ _ hb2]
      · refine ownsPath_congr (fun b hb => ?_) h3
        have hb1 : b ≠ ny := fun e => hy (Or.inr (Or.inr (e ▸ hb)))
        have hb2 : b ≠ addr px := by
          rintro rfl
          have := (nodup_addrs_zip (Tree.node pl px Tree.nil) rest).1 hd
          exact this.2.2 _ (by simp) hb
        rw [heap_update_ne _ _ hb1, heap_update_ne _ _ hb2]
      · simp
      · intro b hb hn
        rw [mem_addrs_path_right] at hn
        rw [heap_update_ne _ _ hb, heap_update_ne _ _ (fun e => hn (Or.inl e))]
      · intro t t1 h0 _
        rw [heap_update_root, heap_update_root, h0, rootAddr_zip_cons, ← rootAddr_zip_cons t1]

/-- The guarded assignment of a parent to the top node of a subtree. -/
theorem setParentIfPresent_spec {s : Store α K} {t : Tree β} {p : Option Nat} (p1 : Option Nat)
    (ho : Owns addr dat s.cells t p) (hd : (addrs addr t).Nodup) :
    ∃ s1, s.setParentIfPresent (rootAddr addr t) p1 = some s1 ∧
      Owns addr dat s1.cells t p1 ∧
      (∀ b, rootAddr addr t ≠ some b → s1.cells b = s.cells b) ∧
      s1.root = s.root ∧ s1.comparator = s.comparator ∧ s1.size = s.size := by
  cases t with
  | nil => exact ⟨s, rfl, trivial, fun _ _ => rfl, rfl, rfl, rfl⟩
  | node l x r =>
    have h1 := ho.1
    refine ⟨_, heap_setParent_eq p1 h1, ?_, ?_, rfl, rfl, rfl⟩
    · refine owns_reparent hd (fun b _ hb => ?_) (fun a ha => ?_) ho
      · exact heap_update_ne s _ (fun e => hb (by simp [e]))
      · simp only [rootAddr_node, Option.some.injEq] at ha
        subst ha
        simp [h1]
    · intro b hb
      exact heap_update_ne s _ (fun e => hb (by simp [e]))

/-- The pointer part of `rotateLeft` at a location: the right child comes up
and the node becomes its left child. -/
theorem rep_rotateLeft {s : Store α K} {l : Tree β} {x : β} {cl : Tree β} {y : β}
    {cr : Tree β} {path : List (Frame β)}
    (h : Rep addr dat s (zip (Tree.node l x (Tree.node cl y cr)) path)) :
    ∃ s1, rotateLeft s (addr x) = some s1 ∧
      Rep addr dat s1 (zip (Tree.node (Tree.node l x cl) y cr) path) ∧
      Keeps (addrs addr (zip (Tree.node l x (Tree.node cl y cr)) path)) s s1 := by
  obtain ⟨h1, h2, h3, h4, h5, ⟨d1, d2, d3, d4, d5⟩, d6, d7⟩ := rep_parts h
  obtain ⟨h3a, h3b, h3c⟩ := h3
  obtain ⟨e1, e2, e3, e4, e5⟩ := (nodup_addrs_node cl y cr).1 d2
  have hxy : addr x ≠ addr y := fun e => d4 (by simp [e])
  have hxp : addr x ∉ addrs addr (zip Tree.nil path) := d7 _ (by simp)
  have hyp : addr y ∉ addrs addr (zip Tree.nil path) := d7 _ (by simp)
  obtain ⟨s2, g1, g2, g3, g4, g5, g6, g7⟩ := hang_spec h4 d6 hxp hyp h3a
  have k3 : s2.cells (addr x) = _ := (g4 _ hxy hxp).trans h1
  have k4 : (s2.update (addr x) ⟨dat x, rootAddr addr l, some (addr y), some (addr y)⟩).cells
      (addr y) = _ := (heap_update_ne _ _ (Ne.symm hxy)).trans g3
  have ocl : Owns addr dat ((s2.update (addr x) ⟨dat x, rootAddr addr l, some (addr y),
      some (addr y)⟩).update (addr x) ⟨dat x, rootAddr addr l, rootAddr addr cl,
      some (addr y)⟩).cells cl (some (addr y)) := by
    refine owns_congr (fun b hb => ?_) h3b
    have b1 : b ≠ addr x := fun e => d4 (by simp [← e, hb])
    have b2 : b ≠ addr y := fun e => e3 (e ▸ hb)
    rw [heap_update_ne _ _ b1, heap_update_ne _ _ b1]
    exact g4 _ b2 (d7 _ (by simp [hb]))
  obtain ⟨s5, f1, f2, f3, f4, f5, f6⟩ := setParentIfPresent_spec (some (addr x)) ocl e1
  have hycl : rootAddr addr cl ≠ some (addr y) := fun e => e3 (rootAddr_mem e)
  have hxcl : rootAddr addr cl ≠ some (addr x) := fun e => d4 (by simp [rootAddr_mem e])
  have k5 : s5.cells (addr y) = _ :=
    (f3 _ hycl).trans ((heap_update_ne _ _ (Ne.symm hxy)).trans k4)
  have k6 : s5.cells (addr x) = some ⟨dat x, rootAddr addr l, rootAddr addr cl,
      some (addr y)⟩ := (f3 _ hxcl).trans (heap_update_self _ _ _)
  have frame : ∀ b, b ≠ addr x → b ≠ addr y → rootAddr addr cl ≠ some b →
      (s5.update (addr y) ⟨dat y, some (addr x), rootAddr addr cr, pathAddr addr path⟩).cells b =
        s2.cells b := by
    intro b b1 b2 b3
    rw [heap_update_ne _ _ b2, f3 _ b3, heap_update_ne _ _ b1, heap_update_ne _ _ b1]
  refine ⟨s5.update (addr y) ⟨dat y, some (addr x), rootAddr addr cr, pathAddr addr path⟩, ?_, ?_,
    ?_, ?_, ?_⟩
  · simp only [rotateLeft, h1, rootAddr_node, Option.some_bind, g1,
      heap_setParent_eq (some (addr y)) k3, k4,
      heap_setRight_eq (rootAddr addr cl) (heap_update_self _ _ _), f1,
      heap_setLeft_eq (some (addr x)) k5]
  · rw [rep_zip_iff]
    refine ⟨⟨?_, ⟨?_, ?_, ?_⟩, ?_⟩, ?_, ?_, ?_⟩
    · simp
    · rw [heap_update_ne _ _ hxy, k6]
    · refine owns_congr (fun b hb => ?_) h2
      have b1 : b ≠ addr x := fun e => d3 (e ▸ hb)
      have b2 : b ≠ addr y := fun e => d5 b hb (by simp [e])
      have b3 : rootAddr addr cl ≠ some b := fun e => d5 b hb (by simp [rootAddr_mem e])
      rw [frame b b1 b2 b3, g4 b b2 (d7 b (by simp [hb]))]
    · exact owns_congr (fun b hb => heap_update_ne _ _ (fun e => e3 (e ▸ hb))) f2
    · refine owns_congr (fun b hb => ?_) h3c
      have b1 : b ≠ addr x := fun e => d4 (by simp [← e, hb])
      have b2 : b ≠ addr y := fun e => e4 (e ▸ hb)
      have b3 : rootAddr addr cl ≠ some b := fun e => e5 b (rootAddr_mem e) hb
      rw [frame b b1 b2 b3, g4 b b2 (d7 b (by simp [hb]))]
    · refine ownsPath_congr (fun b hb => ?_) g2
      have b1 : b ≠ addr x := fun e => hxp (e ▸ hb)
      have b2 : b ≠ addr y := fun e => hyp (e ▸ hb)
      have b3 : rootAddr addr cl ≠ some b :=
        fun e => d7 b (by simp [rootAddr_mem e]) hb
      exact frame b b1 b2 b3
    · rw [heap_update_root, f4, heap_update_root, heap_update_root]
      exact g5 _ _ h5 rfl
    · rw [addrs_zip_congr path (show addrs addr (Tree.node (Tree.node l x cl) y cr) =
        addrs addr (Tree.node l x (Tree.node cl y cr)) by simp)]
      exact h.2.2
  · intro b hb
    rw [mem_addrs_zip] at hb
    have b1 : b ≠ addr x := fun e => hb (Or.inl (by simp [e]))
    have b2 : b ≠ addr y := fun e => hb (Or.inl (by simp [e]))
    have b3 : rootAddr addr cl ≠ some b := fun e => hb (Or.inl (by simp [rootAddr_mem e]))
    rw [frame b b1 b2 b3]
    exact g4 b b2 (fun e => hb (Or.inr e))
  · rw [heap_update_comparator, f5, heap_update_comparator, heap_update_comparator, g6]
  · rw [heap_update_size, f6, heap_update_size, heap_update_size, g7]

/-- The pointer part of `rotateRight` at a location: the left child comes up
and the node becomes its right child. -/
theorem rep_rotateRight {s : Store α K} {cl : Tree β} {y : β} {cr : Tree β} {x : β}
    {r : Tree β} {path : List (Frame β)}
    (h : Rep addr dat s (zip (Tree.node (Tree.node cl y cr) x r) path)) :
    ∃ s1, rotateRight s (addr x) = some s1 ∧
      Rep addr dat s1 (zip (Tree.node cl y (Tree.node cr x r)) path) ∧
      Keeps (addrs addr (zip (Tree.node (Tree.node cl y cr) x r) path)) s s1 := by
  obtain ⟨h1, h2, h3, h4, h5, ⟨d1, d2, d3, d4, d5⟩, d6, d7⟩ := rep_parts h
  obtain ⟨h2a, h2b, h2c⟩ := h2
  obtain ⟨e1, e2, e3, e4, e5⟩ := (nodup_addrs_node cl y cr).1 d1
  have hxy : addr x ≠ addr y := fun e => d3 (by simp [e])
  have hxp : addr x ∉ addrs addr (zip Tree.nil path) := d7 _ (by simp)
  have hyp : addr y ∉ addrs addr (zip Tree.nil path) := d7 _ (by simp)
  obtain ⟨s2, g1, g2, g3, g4, g5, g6, g7⟩ := hang_spec h4 d6 hxp hyp h2a
  have k3 : s2.cells (addr x) = _ := (g4 _ hxy hxp).trans h1
  have k4 : (s2.update (addr x) ⟨dat x, some (addr y), rootAddr addr r, some (addr y)⟩).cells
      (addr y) = _ := (heap_update_ne _ _ (Ne.symm hxy)).trans g3
  have ocr : Owns addr dat ((s2.update (addr x) ⟨dat x, some (addr y), rootAddr addr r,
      some (addr y)⟩).update (addr x) ⟨dat x, rootAddr addr cr, rootAddr addr r,
      some (addr y)⟩).cells cr (some (addr y)) := by
    refine owns_congr (fun b hb => ?_) h2c
    have b1 : b ≠ addr x := fun e => d3 (by simp [← e, hb])
    have b2 : b ≠ addr y := fun e => e4 (e ▸ hb)
    rw [heap_update_ne _ _ b1, heap_update_ne _ _ b1]
    exact g4 _ b2 (d7 _ (by simp [hb]))
  obtain ⟨s5, f1, f2, f3, f4, f5, f6⟩ := setParentIfPresent_spec (some (addr x)) ocr e2
  have hycr : rootAddr addr cr ≠ some (addr y) := fun e => e4 (rootAddr_mem e)
  have hxcr : rootAddr addr cr ≠ some (addr x) := fun e => d3 (by simp [rootAddr_mem e])
  have k5 : s5.cells (addr y) = _ :=
    (f3 _ hycr).trans ((heap_update_ne _ _ (Ne.symm hxy)).trans k4)
  have k6 : s5.cells (addr x) = some ⟨dat x, rootAddr addr cr, rootAddr addr r,
      some (addr y)⟩ := (f3 _ hxcr).trans (heap_update_self _ _ _)
  have frame : ∀ b, b ≠ addr x → b ≠ addr y → rootAddr addr cr ≠ some b →
      (s5.update (addr y) ⟨dat y, rootAddr addr cl, some (addr x), pathAddr addr path⟩).cells b =
        s2.cells b := by
    intro b b1 b2 b3
    rw [heap_update_ne _ _ b2, f3 _ b3, heap_update_ne _ _ b1, heap_update_ne _ _ b1]
  refine ⟨s5.update (addr y) ⟨dat y, rootAddr addr cl, some (addr x), pathAddr addr path⟩, ?_, ?_,
    ?_, ?_, ?_⟩
  · simp only [rotateRight, h1, rootAddr_node, Option.some_bind, g1,
      heap_setParent_eq (some (addr y)) k3, k4,
      heap_setLeft_eq (rootAddr addr cr) (heap_update_self _ _ _), f1,
      heap_setRight_eq (some (addr x)) k5]
  · rw [rep_zip_iff]
    refine ⟨⟨?_, ?_, ⟨?_, ?_, ?_⟩⟩, ?_, ?_, ?_⟩
    · simp
    · refine owns_congr (fun b hb => ?_) h2b
      have b1 : b ≠ addr x := fun e => d3 (by simp [← e, hb])
      have b2 : b ≠ addr y := fun e => e3 (e ▸ hb)
      have b3 : rootAddr addr cr ≠ some b := fun e => e5 b hb (rootAddr_mem e)
      rw [frame b b1 b2 b3, g4 b b2 (d7 b (by simp [hb]))]
    · rw [heap_update_ne _ _ hxy, k6]
    · exact owns_congr (fun b hb => heap_update_ne _ _ (fun e => e4 (e ▸ hb))) f2
    · refine owns_congr (fun b hb => ?_) h3
      have b1 : b ≠ addr x := fun e => d4 (e ▸ hb)
      have b2 : b ≠ addr y := fun e => d5 (addr y) (by simp) (e ▸ hb)
      have b3 : rootAddr addr cr ≠ some b := fun e => d5 b (by simp [rootAddr_mem e]) hb
      rw [frame b b1 b2 b3, g4 b b2 (d7 b (by simp [hb]))]
    · refine ownsPath_congr (fun b hb => ?_) g2
      have b1 : b ≠ addr x := fun e => hxp (e ▸ hb)
      have b2 : b ≠ addr y := fun e => hyp (e ▸ hb)
      have b3 : rootAddr addr cr ≠ some b :=
        fun e => d7 b (by simp [rootAddr_mem e]) hb
      exact frame b b1 b2 b3
    · rw [heap_update_root, f4, heap_update_root, heap_update_root]
      exact g5 _ _ h5 rfl
    · rw [addrs_zip_congr path (show addrs addr (Tree.node cl y (Tree.node cr x r)) =
        addrs addr (Tree.node (Tree.node cl y cr) x r) by simp)]
      exact h.2.2
  · intro b hb
    rw [mem_addrs_zip] at hb
    have b1 : b ≠ addr x := fun e => hb (Or.inl (by simp [e]))
    have b2 : b ≠ addr y := fun e => hb (Or.inl (by simp [e]))
    have b3 : rootAddr addr cr ≠ some b := fun e => hb (Or.inl (by simp [rootAddr_mem e]))
    rw [frame b b1 b2 b3]
    exact g4 b b2 (fun e => hb (Or.inr e))
  · rw [heap_update_comparator, f5, heap_update_comparator, heap_update_comparator, g6]
  · rw [heap_update_size, f6, heap_update_size, heap_update_size, g7]

/-- The assignment of `v` to the parent's link that held `node`. -/
theorem relink_spec {s : Store α K} {f : Frame β} {rest : List (Frame β)} {nx : Nat}
    (v : Option Nat) (hp : OwnsPath addr dat s.cells (f :: rest) (some nx))
    (hd : (addrs addr (zip Tree.nil (f :: rest))).Nodup)
    (hx : nx ∉ addrs addr (zip Tree.nil (f :: rest))) :
    ∃ p s1, s.cells (addr f.data) = some p ∧
      (if p.left = some nx then s.setLeft (addr f.data) v
        else if p.right = some nx then s.setRight (addr f.data) v else none) = some s1 ∧
      OwnsPath addr dat s1.cells (f :: rest) v ∧
      (∀ b, b ≠ addr f.data → s1.cells b = s.cells b) ∧
      s1.root = s.root ∧ s1.comparator = s.comparator ∧ s1.size = s.size := by
  cases f with
  | left px pr =>
    obtain ⟨h1, h2, h3⟩ := hp
    refine ⟨_, s.update (addr px) ⟨dat px, v, rootAddr addr pr, pathAddr addr rest⟩, h1, ?_,
      ⟨?_, ?_, ?_⟩, ?_, rfl, rfl, rfl⟩
    · simp only [Frame.data, if_true, heap_setLeft_eq v h1]
    · simp
    · refine owns_congr (fun b hb => heap_update_ne _ _ ?_) h2
      rintro rfl
      have := (nodup_addrs_zip (Tree.node Tree.nil px pr) rest).1 hd
      exact ((nodup_addrs_node _ _ _).1 this.1).2.2.2.1 hb
    · refine ownsPath_congr (fun b hb => heap_update_ne _ _ ?_) h3
      rintro rfl
      have := (nodup_addrs_zip (Tree.node Tree.nil px pr) rest).1 hd
      exact this.2.2 _ (by simp) hb
    · intro b hb
      exact heap_update_ne _ _ hb
  | right pl px =>
    obtain ⟨h1, h2, h3⟩ := hp
    rw [mem_addrs_path_right] at hx
    have hxl : rootAddr addr pl ≠ some nx := fun e => hx (Or.inr (Or.inl (rootAddr_mem e)))
    refine ⟨_, s.update (addr px) ⟨dat px, rootAddr addr pl, v, pathAddr addr rest⟩, h1, ?_,
      ⟨?_, ?_, ?_⟩, ?_, rfl, rfl, rfl⟩
    · simp only [Frame.data, hxl, if_false, if_true, heap_setRight_eq v h1]
    · simp
    · refine owns_congr (fun b hb => heap_update_ne _ _ ?_) h2
      rintro rfl
      have := (nodup_addrs_zip (Tree.node pl px Tree.nil) rest).1 hd
      exact ((nodup_addrs_node _ _ _).1 this.1).2.2.1 hb
    · refine ownsPath_congr (fun b hb => heap_update_ne _ _ ?_) h3
      rintro rfl
      have := (nodup_addrs_zip (Tree.node pl px Tree.nil) rest).1 hd
      exact this.2.2 _ (by simp) hb
    · intro b hb
      exact heap_update_ne _ _ hb

theorem mem_path_head (f : Frame β) (rest : List (Frame β)) :
    addr f.data ∈ addrs addr (zip Tree.nil (f :: rest)) := by
  cases f
  · exact (mem_addrs_path_left _ _ _ _).2 (Or.inl rfl)
  · exact (mem_addrs_path_right _ _ _ _).2 (Or.inl rfl)

/-- The splice `replace(oldNode, newNode)` where `newNode` is the only child of
`oldNode` or nil: the child hangs where the node hung, and the three links of
the node are nil afterwards. -/
theorem rep_replace_core {s : Store α K} {x : β} {c : Tree β} {path : List (Frame β)}
    {lp rp : Option Nat}
    (h1 : s.cells (addr x) = some ⟨dat x, lp, rp, pathAddr addr path⟩)
    (hc : Owns addr dat s.cells c (some (addr x)))
    (hp : OwnsPath addr dat s.cells path (some (addr x)))
    (hroot : ∀ t : Tree β, rootAddr addr t = some (addr x) → s.root = rootAddr addr (zip t path))
    (dc : (addrs addr c).Nodup) (dp : (addrs addr (zip Tree.nil path)).Nodup)
    (dxc : addr x ∉ addrs addr c) (dxp : addr x ∉ addrs addr (zip Tree.nil path))
    (dcp : ∀ b ∈ addrs addr c, b ∉ addrs addr (zip Tree.nil path)) :
    ∃ s1, replace s (addr x) (rootAddr addr c) = some (s1, pathAddr addr path) ∧
      Rep addr dat s1 (zip c path) ∧ Cleared s1 (addr x) ∧
      Keeps (addr x :: addrs addr (zip c path)) s s1 := by
  have hxc : rootAddr addr c ≠ some (addr x) := fun e => dxc (rootAddr_mem e)
  cases path with
  | nil =>
    have hc0 : Owns addr dat (s.setRoot (rootAddr addr c)).cells c (some (addr x)) := hc
    obtain ⟨s1, f1, f2, f3, f4, f5, f6⟩ := setParentIfPresent_spec none hc0 dc
    have k1 : s1.cells (addr x) = _ := (f3 _ hxc).trans h1
    refine ⟨(s1.update (addr x) ⟨dat x, none, rp, none⟩).update (addr x) ⟨dat x, none, none, none⟩,
      ?_, ?_, ?_, ?_, ?_, ?_⟩
    · simp only [replace, h1, pathAddr_nil, Option.some_bind, f1, heap_setLeft_eq none k1,
        heap_setRight_eq none (heap_update_self _ _ _), Option.map_some']
    · refine ⟨owns_congr (fun b hb => ?_) f2, ?_, dc⟩
      · have b1 : b ≠ addr x := fun e => dxc (e ▸ hb)
        rw [heap_update_ne _ _ b1, heap_update_ne _ _ b1]
      · rw [heap_update_root, heap_update_root, f4]; rfl
    · exact ⟨_, heap_update_self _ _ _, rfl, rfl, rfl⟩
    · intro b hb
      have b1 : b ≠ addr x := fun e => hb (by simp [e])
      have b2 : rootAddr addr c ≠ some b := fun e => hb (by simp [zip, rootAddr_mem e])
      rw [heap_update_ne _ _ b1, heap_update_ne _ _ b1, f3 _ b2]; rfl
    · rw [heap_update_comparator, heap_update_comparator, f5]; rfl
    · rw [heap_update_size, heap_update_size, f6]; rfl
  | cons f rest =>
    obtain ⟨p, s1, r1, r2, r3, r4, r5, r6, r7⟩ := relink_spec (rootAddr addr c) hp dp dxp
    have hpx : addr f.data ≠ addr x := fun e => dxp (e ▸ mem_path_head f rest)
    have hc1 : Owns addr dat s1.cells c (some (addr x)) :=
      owns_congr (fun b hb => r4 b (fun e => dcp b hb (e ▸ mem_path_head f rest))) hc
    obtain ⟨s2, f1, f2, f3, f4, f5, f6⟩ := setParentIfPresent_spec (some (addr f.data)) hc1 dc
    have k1 : s2.cells (addr x) = _ := (f3 _ hxc).trans ((r4 _ (Ne.symm hpx)).trans h1)
    have hpa : pathAddr addr (f :: rest) = some (addr f.data) := rfl
    have frame : ∀ b, b ≠ addr x → (((s2.update (addr x) ⟨dat x, lp, rp, none⟩).update (addr x)
        ⟨dat x, none, rp, none⟩).update (addr x) ⟨dat x, none, none, none⟩).cells b =
        s2.cells b := by
      intro b b1
      rw [heap_update_ne _ _ b1, heap_update_ne _ _ b1, heap_update_ne _ _ b1]
    refine ⟨((s2.update (addr x) ⟨dat x, lp, rp, none⟩).update (addr x)
        ⟨dat x, none, rp, none⟩).update (addr x) ⟨dat x, none, none, none⟩, ?_, ?_, ?_, ?_, ?_, ?_⟩
    · simp only [replace, h1, hpa, Option.some_bind, r1, r2, f1, heap_setParent_eq none k1,
        heap_setLeft_eq none (heap_update_self _ _ _),
        heap_setRight_eq none (heap_update_self _ _ _), Option.map_some']
    · rw [rep_zip_iff]
      refine ⟨owns_congr (fun b hb => frame b (fun e => dxc (e ▸ hb))) f2, ?_, ?_, ?_⟩
      · refine ownsPath_congr (fun b hb => ?_) r3
        have b1 : b ≠ addr x := fun e => dxp (e ▸ hb)
        have b2 : rootAddr addr c ≠ some b := fun e => dcp b (rootAddr_mem e) hb
        rw [frame b b1, f3 b b2]
      · rw [heap_update_root, heap_update_root, heap_update_root, f4, r5,
          hroot (Tree.node Tree.nil x Tree.nil) rfl, rootAddr_zip_cons, ← rootAddr_zip_cons c]
      · exact (nodup_addrs_zip c _).2 ⟨dc, dp, dcp⟩
    · exact ⟨_, heap_update_self _ _ _, rfl, rfl, rfl⟩
    · intro b hb
      have b1 : b ≠ addr x := fun e => hb (by simp [e])
      have b2 : rootAddr addr c ≠ some b :=
        fun e => hb (List.mem_cons_of_mem _ ((mem_addrs_zip c _ b).2 (Or.inl (rootAddr_mem e))))
      have b3 : b ≠ addr f.data :=
        fun e => hb (List.mem_cons_of_mem _ ((mem_addrs_zip c _ b).2
          (Or.inr (e ▸ mem_path_head f rest))))
      rw [frame b b1, f3 b b2, r4 b b3]
    · rw [heap_update_comparator, heap_update_comparator, heap_update_comparator, f5, r6]
    · rw [heap_update_size, heap_update_size, heap_update_size, f6, r7]

end Steps

end Heap

namespace Heap

section Walks

variable {α β K : Type} {addr : β → Nat} {dat : β → α}

theorem rep_root_of {s : Store α K} {x : β} {t : Tree β} {path : List (Frame β)}
    (h : s.root = rootAddr addr (zip t path)) (ht : rootAddr addr t = some (addr x))
    (u : Tree β) (hu : rootAddr addr u = some (addr x)) :
    s.root = rootAddr addr (zip u path) := by
  rw [h]; exact rootAddr_zip_congr path (ht.trans hu.symm)

/-- The splice of a node without a left child: its right child takes its place. -/
theorem rep_replace_right {s : Store α K} {x : β} {r : Tree β} {path : List (Frame β)}
    (h : Rep addr dat s (zip (Tree.node Tree.nil x r) path)) :
    ∃ s1, replace s (addr x) (rootAddr addr r) = some (s1, pathAddr addr path) ∧
      Rep addr dat s1 (zip r path) ∧ Cleared s1 (addr x) ∧
      Keeps (addrs addr (zip (Tree.node Tree.nil x r) path)) s s1 := by
  obtain ⟨h1, -, h3, h4, h5, ⟨-, d2, -, d4, -⟩, d6, d7⟩ := rep_parts h
  obtain ⟨s1, e1, e2, e3, e4⟩ := rep_replace_core h1 h3 h4
    (fun t ht => rep_root_of h5 rfl t ht) d2 d6 d4 (d7 _ (by simp))
    (fun b hb => d7 b (by simp [hb]))
  refine ⟨s1, e1, e2, e3, keeps_mono e4 (fun b hb => ?_)⟩
  rw [mem_addrs_zip]
  rcases List.mem_cons.1 hb with rfl | hb
  · simp
  · rcases (mem_addrs_zip _ _ _).1 hb with hb | hb
    · simp [hb]
    · exact Or.inr hb

/-- The splice of a node without a right child: its left child takes its place. -/
theorem rep_replace_left {s : Store α K} {l : Tree β} {x : β} {path : List (Frame β)}
    (h : Rep addr dat s (zip (Tree.node l x Tree.nil) path)) :
    ∃ s1, replace s (addr x) (rootAddr addr l) = some (s1, pathAddr addr path) ∧
      Rep addr dat s1 (zip l path) ∧ Cleared s1 (addr x) ∧
      Keeps (addrs addr (zip (Tree.node l x Tree.nil) path)) s s1 := by
  obtain ⟨h1, h2, -, h4, h5, ⟨d1, -, d3, -, -⟩, d6, d7⟩ := rep_parts h
  obtain ⟨s1, e1, e2, e3, e4⟩ := rep_replace_core h1 h2 h4
    (fun t ht => rep_root_of h5 rfl t ht) d1 d6 d3 (d7 _ (by simp))
    (fun b hb => d7 b (by simp [hb]))
  refine ⟨s1, e1, e2, e3, keeps_mono e4 (fun b hb => ?_)⟩
  rw [mem_addrs_zip]
  rcases List.mem_cons.1 hb with rfl | hb
  · simp
  · rcases (mem_addrs_zip _ _ _).1 hb with hb | hb
    · simp [hb]
    · exact Or.inr hb

/-- A new leaf allocated at a fresh address and hung on the left of a node. -/
theorem rep_attach_left {s : Store α K} {x : β} {r : Tree β} {path : List (Frame β)} (n : β)
    (h : Rep addr dat s (zip (Tree.node Tree.nil x r) path))
    (hn : addr n ∉ addrs addr (zip (Tree.node Tree.nil x r) path)) :
    ∃ s1, (s.update (addr n) ⟨dat n, none, none, some (addr x)⟩).setLeft (addr x)
        (some (addr n)) = some s1 ∧
      Rep addr dat s1 (zip (Tree.node (Tree.node Tree.nil n Tree.nil) x r) path) ∧
      Keeps (addr n :: addrs addr (zip (Tree.node Tree.nil x r) path)) s s1 := by
  obtain ⟨h1, -, h3, h4, h5, ⟨-, d2, -, d4, -⟩, d6, d7⟩ := rep_parts h
  rw [mem_addrs_zip] at hn
  have hnx : addr x ≠ addr n := fun e => hn (Or.inl (by simp [e]))
  have k1 : (s.update (addr n) ⟨dat n, none, none, some (addr x)⟩).cells (addr x) = _ :=
    (heap_update_ne _ _ hnx).trans h1
  have frame : ∀ b, b ≠ addr x → b ≠ addr n →
      ((s.update (addr n) ⟨dat n, none, none, some (addr x)⟩).update (addr x)
        ⟨dat x, some (addr n), rootAddr addr r, pathAddr addr path⟩).cells b = s.cells b := by
    intro b b1 b2
    rw [heap_update_ne _ _ b1, heap_update_ne _ _ b2]
  refine ⟨_, heap_setLeft_eq _ k1, ?_, ?_, rfl, rfl⟩
  · rw [rep_zip_iff]
    refine ⟨⟨?_, ⟨?_, trivial, trivial⟩, ?_⟩, ?_, ?_, ?_⟩
    · simp
    · rw [heap_update_ne _ _ (Ne.symm hnx), heap_update_self]; rfl
    · refine owns_congr (fun b hb => frame b (fun e => d4 (e ▸ hb)) (fun e => hn ?_)) h3
      exact Or.inl (by simp [← e, hb])
    · refine ownsPath_congr (fun b hb => frame b (fun e => d7 _ (by simp) (e ▸ hb))
        (fun e => hn (Or.inr (e ▸ hb)))) h4
    · rw [heap_update_root, heap_update_root, h5]
      exact rootAddr_zip_congr path rfl
    · rw [nodup_addrs_zip]
      refine ⟨?_, d6, fun b hb => ?_⟩
      · rw [nodup_addrs_node]
        refine ⟨by simp, d2, ?_, d4, ?_⟩
        · simpa using hnx
        · intro b hb
          simp only [addrs_node, addrs_nil, List.nil_append, List.mem_singleton] at hb
          subst hb
          exact fun e => hn (Or.inl (by simp [e]))
      · simp only [addrs_node, addrs_nil, List.nil_append, List.mem_cons, List.mem_append,
          List.mem_singleton] at hb
        rcases hb with (rfl | hb) | rfl | hb
        · exact fun e => hn (Or.inr e)
        · simp at hb
        · exact d7 _ (by simp)
        · exact d7 _ (by simp [hb])
  · intro b hb
    simp only [List.mem_cons, not_or] at hb
    refine frame b (fun e => hb.2 ?_) hb.1
    rw [mem_addrs_zip]; simp [e]

/-- A new leaf allocated at a fresh address and hung on the right of a node. -/
theorem rep_attach_right {s : Store α K} {l : Tree β} {x : β} {path : List (Frame β)} (n : β)
    (h : Rep addr dat s (zip (Tree.node l x Tree.nil) path))
    (hn : addr n ∉ addrs addr (zip (Tree.node l x Tree.nil) path)) :
    ∃ s1, (s.update (addr n) ⟨dat n, none, none, some (addr x)⟩).setRight (addr x)
        (some (addr n)) = some s1 ∧
      Rep addr dat s1 (zip (Tree.node l x (Tree.node Tree.nil n Tree.nil)) path) ∧
      Keeps (addr n :: addrs addr (zip (Tree.node l x Tree.nil) path)) s s1 := by
  obtain ⟨h1, h2, -, h4, h5, ⟨d1, -, d3, -, -⟩, d6, d7⟩ := rep_parts h
  rw [mem_addrs_zip] at hn
  have hnx : addr x ≠ addr n := fun e => hn (Or.inl (by simp [e]))
  have k1 : (s.update (addr n) ⟨dat n, none, none, some (addr x)⟩).cells (addr x) = _ :=
    (heap_update_ne _ _ hnx).trans h1
  have frame : ∀ b, b ≠ addr x → b ≠ addr n →
      ((s.update (addr n) ⟨dat n, none, none, some (addr x)⟩).update (addr x)
        ⟨dat x, rootAddr addr l, some (addr n), pathAddr addr path⟩).cells b = s.cells b := by
    intro b b1 b2
    rw [heap_update_ne _ _ b1, heap_update_ne _ _ b2]
  refine ⟨_, heap_setRight_eq _ k1, ?_, ?_, rfl, rfl⟩
  · rw [rep_zip_iff]
    refine ⟨⟨?_, ?_, ⟨?_, trivial, trivial⟩⟩, ?_, ?_, ?_⟩
    · simp
    · refine owns_congr (fun b hb => frame b (fun e => d3 (e ▸ hb)) (fun e => hn ?_)) h2
      exact Or.inl (by simp [← e, hb])
    · rw [heap_update_ne _ _ (Ne.symm hnx), heap_update_self]; rfl
    · refine ownsPath_congr (fun b hb => frame b (fun e => d7 _ (by simp) (e ▸ hb))
        (fun e => hn (Or.inr (e ▸ hb)))) h4
    · rw [heap_update_root, heap_update_root, h5]
      exact rootAddr_zip_congr path rfl
    · rw [nodup_addrs_zip]
      refine ⟨?_, d6, fun b hb => ?_⟩
      · rw [nodup_addrs_node]
        refine ⟨d1, by simp, d3, ?_, ?_⟩
        · simpa using hnx
        · intro b hb
          simp only [addrs_node, addrs_nil, List.nil_append, List.mem_singleton]
          rintro rfl
          exact hn (Or.inl (by simp [hb]))
      · simp only [addrs_node, addrs_nil, List.nil_append, List.mem_cons, List.mem_append,
          List.mem_singleton] at hb
        rcases hb with hb | rfl | rfl | hb
        · exact d7 _ (by simp [hb])
        · exact d7 _ (by simp)
        · exact fun e => hn (Or.inr e)
        · simp at hb
  · intro b hb
    simp only [List.mem_cons, not_or] at hb
    refine frame b (fun e => hb.2 ?_) hb.1
    rw [mem_addrs_zip]; simp [e]

/-- The first node of an empty tree. -/
theorem rep_attach_root (s : Store α K) (n : β) :
    Rep addr dat ((s.update (addr n) ⟨dat n, none, none, none⟩).setRoot (some (addr n)))
      (Tree.node Tree.nil n Tree.nil) := by
  refine ⟨⟨?_, trivial, trivial⟩, rfl, by simp⟩
  simp

/-- The loop of `get` on the heap finds the node that the loop of `get` on the
tree finds. -/
theorem heap_getLoop_eq {s : Store α K} (cmp : Comparator K) (keyOf : β → K) (keyOf1 : α → K)
    (hk : ∀ x, keyOf1 (dat x) = keyOf x) (hcmp : s.comparator = cmp) (key : K)
    (t : Tree β) (path : List (Frame β)) (h : Rep addr dat s (zip t path)) (fuel : Nat)
    (hf : t.depth < fuel) :
    getLoop keyOf1 s key fuel (rootAddr addr t) =
      some (rootAddr addr (Structo.getLoop cmp keyOf key t path).node) := by
  induction t generalizing path fuel with
  | nil => cases fuel <;> rfl
  | node l x r ihl ihr =>
    cases fuel with
    | zero => omega
    | succ fuel =>
      simp only [Tree.depth] at hf
      have h1 := rep_lookup h
      simp only [rootAddr_node, getLoop, h1, Option.some_bind, hk, hcmp, Structo.getLoop]
      split_ifs
      · rfl
      · exact ihl (Frame.left x r :: path) h fuel (by omega)
      · exact ihr (Frame.right l x :: path) h fuel (by omega)

/-- The loop of `min` on the heap finds the node that the loop of `min` on the
tree finds. -/
theorem heap_minLoop_eq {s : Store α K} (l : Tree β) (x : β) (r : Tree β)
    (path : List (Frame β)) (h : Rep addr dat s (zip (Tree.node l x r) path)) (fuel : Nat)
    (hf : (Tree.node l x r).depth < fuel) :
    (minLoop s fuel (addr x)).map some =
      some (rootAddr addr (Structo.minLoop (Tree.node l x r) path).node) := by
  induction l generalizing x r path fuel with
  | nil =>
    cases fuel with
    | zero => omega
    | succ fuel =>
      have h1 := rep_lookup h
      simp only [minLoop, h1, Option.some_bind, rootAddr_nil, Structo.minLoop, Option.map_some',
        rootAddr_node]
  | node ll y lr ihl _ =>
    cases fuel with
    | zero => omega
    | succ fuel =>
      simp only [Tree.depth] at hf
      have h1 := rep_lookup h
      simp only [minLoop, h1, Option.some_bind, rootAddr_node, Structo.minLoop]
      exact ihl y lr (Frame.left x r :: path) h fuel (by simp only [Tree.depth]; omega)

end Walks

end Heap

namespace Heap

section Consistency

variable {α β K : Type} {addr : β → Nat} {dat : β → α}

/-- Below a node of a tree that the heap holds, the children are nodes of the
tree and record the node as their parent. -/
theorem owns_cell_of_mem {cells : Nat → Option (Cell α)} {t : Tree β} {p : Option Nat}
    (ho : Owns addr dat cells t p) {a : Nat} (ha : a ∈ addrs addr t) :
    ∃ c, cells a = some c ∧
      (∀ ch, c.left = some ch → ch ∈ addrs addr t ∧ ∃ m, cells ch = some m ∧ m.parent = some a) ∧
      (∀ ch, c.right = some ch →
        ch ∈ addrs addr t ∧ ∃ m, cells ch = some m ∧ m.parent = some a) := by
  induction t generalizing p with
  | nil => simp at ha
  | node l x r ihl ihr =>
    obtain ⟨h1, h2, h3⟩ := ho
    simp only [addrs_node, List.mem_append, List.mem_cons] at ha
    rcases ha with ha | rfl | ha
    · obtain ⟨c, e1, e2, e3⟩ := ihl h2 ha
      refine ⟨c, e1, fun ch hch => ?_, fun ch hch => ?_⟩
      · exact ⟨by simp [(e2 ch hch).1], (e2 ch hch).2⟩
      · exact ⟨by simp [(e3 ch hch).1], (e3 ch hch).2⟩
    · refine ⟨_, h1, fun ch hch => ?_, fun ch hch => ?_⟩
      · simp only at hch
        cases l with
        | nil => simp at hch
        | node ll y lr =>
          simp only [rootAddr_node, Option.some.injEq] at hch
          subst hch
          exact ⟨by simp, _, h2.1, rfl⟩
      · simp only at hch
        cases r with
        | nil => simp at hch
        | node rl y rr =>
          simp only [rootAddr_node, Option.some.injEq] at hch
          subst hch
          exact ⟨by simp, _, h3.1, rfl⟩
    · obtain ⟨c, e1, e2, e3⟩ := ihr h3 ha
      refine ⟨c, e1, fun ch hch => ?_, fun ch hch => ?_⟩
      · exact ⟨by simp [(e2 ch hch).1], (e2 ch hch).2⟩
      · exact ⟨by simp [(e3 ch hch).1], (e3 ch hch).2⟩

/-- Every node that the links reach from the root is a node of the tree. -/
theorem reaches_mem {s : Store α K} {t : Tree β} (h : Rep addr dat s t) {a : Nat}
    (hr : Reaches s a) : a ∈ addrs addr t := by
  induction hr with
  | root h0 => exact rootAddr_mem (h.2.1.symm.trans h0)
  | left _ hc hl ih =>
    obtain ⟨c, e1, e2, -⟩ := owns_cell_of_mem h.1 ih
    rw [hc, Option.some.injEq] at e1
    subst e1
    exact (e2 _ hl).1
  | right _ hc hl ih =>
    obtain ⟨c, e1, -, e3⟩ := owns_cell_of_mem h.1 ih
    rw [hc, Option.some.injEq] at e1
    subst e1
    exact (e3 _ hl).1

theorem mem_reaches_aux {s : Store α K} {t : Tree β} {p : Option Nat}
    (ho : Owns addr dat s.cells t p) (hroot : ∀ r, rootAddr addr t = some r → Reaches s r)
    {a : Nat} (ha : a ∈ addrs addr t) : Reaches s a := by
  induction t generalizing p with
  | nil => simp at ha
  | node l x r ihl ihr =>
    obtain ⟨h1, h2, h3⟩ := ho
    have hx : Reaches s (addr x) := hroot _ rfl
    simp only [addrs_node, List.mem_append, List.mem_cons] at ha
    rcases ha with ha | rfl | ha
    · exact ihl h2 (fun r hr => Reaches.left hx h1 hr) ha
    · exact hx
    · exact ihr h3 (fun r hr => Reaches.right hx h1 hr) ha

/-- Every node of the tree is reached from the root. -/
theorem mem_reaches {s : Store α K} {t : Tree β} (h : Rep addr dat s t) {a : Nat}
    (ha : a ∈ addrs addr t) : Reaches s a :=
  mem_reaches_aux h.1 (fun _ hr => Reaches.root (h.2.1.trans hr)) ha

/-- A heap that holds a tree has consistent parent links. -/
theorem rep_parentsConsistent {s : Store α K} {t : Tree β} (h : Rep addr dat s t) :
    ParentsConsistent s := by
  refine ⟨fun r hr => ?_, fun a n ha hn => ?_⟩
  · obtain ⟨h1, h2, -⟩ := h
    cases t with
    | nil => rw [h2] at hr; simp at hr
    | node l x r1 =>
      rw [h2, rootAddr_node, Option.some.injEq] at hr
      subst hr
      exact ⟨_, h1.1, rfl⟩
  · obtain ⟨c, e1, e2, e3⟩ := owns_cell_of_mem h.1 (reaches_mem h ha)
    rw [hn, Option.some.injEq] at e1
    subst e1
    exact ⟨fun ch hch => (e2 ch hch).2, fun ch hch => (e3 ch hch).2⟩

end Consistency

end Heap

section ZipperFacts

variable {α : Type}

theorem minLoop_append (t : Tree α) (path : List (Frame α)) :
    minLoop t path = ⟨(minLoop t []).node, (minLoop t []).path ++ path⟩ := by
  have key : ∀ (t : Tree α) (p q : List (Frame α)),
      minLoop t (p ++ q) = ⟨(minLoop t p).node, (minLoop t p).path ++ q⟩ := by
    intro t
    induction t with
    | nil => intro p q; rfl
    | node l x r ihl _ =>
      intro p q
      cases l with
      | nil => rfl
      | node ll y lr =>
        simp only [minLoop]
        exact ihl (Frame.left x r :: p) q
  simpa using key t [] path

theorem depth_le_zip (t : Tree α) (path : List (Frame α)) : t.depth ≤ (zip t path).depth := by
  induction path generalizing t with
  | nil => exact le_refl _
  | cons f rest ih =>
    refine le_trans ?_ (ih (f.plug t))
    cases f <;> simp only [Frame.plug, Tree.depth] <;> omega

theorem depth_left_lt (l : Tree α) (x : α) (r : Tree α) :
    l.depth < (Tree.node l x r).depth := by
  show l.depth < 1 + Max.max l.depth r.depth
  omega

theorem depth_right_lt (l : Tree α) (x : α) (r : Tree α) :
    r.depth < (Tree.node l x r).depth := by
  show r.depth < 1 + Max.max l.depth r.depth
  omega

theorem depth_le_count (t : Tree α) : t.depth ≤ t.count := by
  induction t with
  | nil => exact le_refl _
  | node l x r ihl ihr => simp only [Tree.depth, Tree.count]; omega

end ZipperFacts

namespace Heap

section Congruence

variable {α β K : Type} {addr : β → Nat} {dat : β → α}

theorem rep_congr {s s1 : Store α K} {t : Tree β} (hc : s1.cells = s.cells)
    (hr : s1.root = s.root) (h : Rep addr dat s t) : Rep addr dat s1 t := by
  obtain ⟨h1, h2, h3⟩ := h
  exact ⟨hc ▸ h1, hr.trans h2, h3⟩

theorem rep_size {s : Store α K} {t : Tree β} (n : Nat) (h : Rep addr dat s t) :
    Rep addr dat { s with size := n } t := h

theorem cleared_size {s : Store α K} {a : Nat} (n : Nat) (h : Cleared s a) :
    Cleared { s with size := n } a := h

/-- A node that left the tree at a location is the node that was there. -/
theorem mem_left_out {t : Tree β} {x : β} {c : Tree β} {path : List (Frame β)} {a : Nat}
    (ht : ∀ b, b ∈ addrs addr t → b = addr x ∨ b ∈ addrs addr c)
    (ha : a ∈ addrs addr (zip t path)) (hn : a ∉ addrs addr (zip c path)) : a = addr x := by
  rw [mem_addrs_zip] at ha hn
  rcases ha with ha | ha
  · rcases ht a ha with h | h
    · exact h
    · exact absurd (Or.inl h) hn
  · exact absurd (Or.inr ha) hn

/-- The two-children case of `Remove` up to the splice: the successor is found
below the right child and its key and value are copied to the node. -/
theorem heap_remove_next {s : Store α K}
    {l : Tree β} {x : β} {rl : Tree β} {z : β} {rr : Tree β} {path : List (Frame β)}
    (h : Rep addr dat s (zip (Tree.node l x (Tree.node rl z rr)) path)) (fuel : Nat)
    (hf : (Tree.node rl z rr).depth < fuel) (copy : β → β → β) (f : α → α → α)
    (ha : ∀ n, addr (copy x n) = addr x) (hd : ∀ n, dat (copy x n) = f (dat n) (dat x)) :
    ∃ nx nr q s1,
      zip (Tree.node Tree.nil nx nr) q = Tree.node rl z rr ∧
      Heap.minLoop s fuel (addr z) = some (addr nx) ∧
      s.cells (addr nx) = some ⟨dat nx, none, rootAddr addr nr,
        pathAddr addr (q ++ Frame.right l x :: path)⟩ ∧
      s.setData (addr x) (f (dat nx)) = some s1 ∧
      Rep addr dat s1 (zip (Tree.node Tree.nil nx nr) (q ++ Frame.right l (copy x nx) :: path)) ∧
      Keeps (addrs addr (zip (Tree.node l x (Tree.node rl z rr)) path)) s s1 ∧
      addrs addr (zip (Tree.node Tree.nil nx nr) (q ++ Frame.right l (copy x nx) :: path)) =
        addrs addr (zip (Tree.node l x (Tree.node rl z rr)) path) := by
  obtain ⟨nx, nr, m1, m2, -, -⟩ := minLoop_spec rl z rr []
  generalize hnext : Structo.minLoop (Tree.node rl z rr) [] = next at m1 m2
  obtain ⟨nnode, q⟩ := next
  simp only at m1 m2
  subst m1
  simp only [zip] at m2
  have hz : ∀ y, zip (Tree.node Tree.nil nx nr) (q ++ Frame.right l y :: path) =
      zip (Tree.node l y (Tree.node rl z rr)) path := by
    intro y
    rw [zip_append, m2]; rfl
  have hm := heap_minLoop_eq rl z rr (Frame.right l x :: path) h fuel hf
  rw [minLoop_append, hnext] at hm
  simp only [rootAddr_node, Option.map_eq_some', Option.some.injEq] at hm
  obtain ⟨a, hm1, hm2⟩ := hm
  subst hm2
  have h0 : Rep addr dat s (zip (Tree.node Tree.nil nx nr) (q ++ Frame.right l x :: path)) := by
    rw [hz]; exact h
  obtain ⟨s1, e1, e2, e3⟩ := rep_setData (copy x nx) (f (dat nx)) h (ha nx) (hd nx)
  refine ⟨nx, nr, q, s1, m2, hm1, rep_lookup h0, e1, ?_, e3, ?_⟩
  · rw [hz]; exact e2
  · rw [hz]
    exact addrs_zip_congr path (by simp [ha])

end Congruence

end Heap

namespace HeapBST

open Heap

section Simulation

variable {K V : Type}

theorem heap_bst_putLoop (key : K) (value : V) (ptr : Nat)
    {s : Store (BSTree.Node K V) K} (l : Tree (BSTree.Node K (Nat × V)))
    (x : BSTree.Node K (Nat × V)) (r : Tree (BSTree.Node K (Nat × V)))
    (path : List (Frame (BSTree.Node K (Nat × V)))) (fuel : Nat)
    (h : Rep addr dat s (zip (Tree.node l x r) path))
    (hf : (Tree.node l x r).depth < fuel)
    (hp : ptr ∉ addrs addr (zip (Tree.node l x r) path)) :
    ∃ s1 t1, putLoop key value ptr fuel s (addr x) = some s1 ∧ Rep addr dat s1 t1 ∧
      (∀ b, b ∉ ptr :: addrs addr (zip (Tree.node l x r) path) → s1.cells b = s.cells b) ∧
      s1.comparator = s.comparator := by
  induction fuel generalizing l x r path with
  | zero => omega
  | succ fuel ih =>
    have h1 := rep_lookup h
    unfold putLoop
    simp only [h1, Option.some_bind]
    split_ifs with c1 c2
    · obtain ⟨s1, e1, e2, e3⟩ := rep_setData (⟨key, (addr x, value)⟩ : BSTree.Node K (Nat × V))
        (fun d => { d with key := key, value := value }) h rfl rfl
      exact ⟨s1, _, e1, e2, fun b hb => e3.1 b (fun e => hb (List.mem_cons_of_mem _ e)), e3.2.1⟩
    · cases l with
      | nil =>
        obtain ⟨s1, e1, e2, e3⟩ := rep_attach_left
          (⟨key, (ptr, value)⟩ : BSTree.Node K (Nat × V)) h hp
        refine ⟨{ s1 with size := incr32 s1.size }, _, ?_, rep_congr rfl rfl e2, e3.1, e3.2.1⟩
        simp only [rootAddr_nil]
        exact congrArg (Option.map _) e1
      | node ll y lr =>
        exact ih ll y lr (Frame.left x r :: path) h
          (by have := depth_left_lt (Tree.node ll y lr) x r; omega) hp
    · cases r with
      | nil =>
        obtain ⟨s1, e1, e2, e3⟩ := rep_attach_right
          (⟨key, (ptr, value)⟩ : BSTree.Node K (Nat × V)) h hp
        refine ⟨{ s1 with size := incr32 s1.size }, _, ?_, rep_congr rfl rfl e2, e3.1, e3.2.1⟩
        simp only [rootAddr_nil]
        exact congrArg (Option.map _) e1
      | node rl y rr =>
        exact ih rl y rr (Frame.right l x :: path) h
          (by have := depth_right_lt l x (Tree.node rl y rr); omega) hp

/-- `Put` on a heap that holds a tree returns, and the heap holds a tree
afterwards. -/
theorem heap_bst_put {s : Store (BSTree.Node K V) K} {t : Tree (BSTree.Node K (Nat × V))}
    (h : Rep addr dat s t) (key : K) (value : V) (ptr : Nat) (hp : ptr ∉ addrs addr t)
    (fuel : Nat) (hf : t.depth < fuel) :
    ∃ s1 t1, Put fuel s key value ptr = some s1 ∧ Rep addr dat s1 t1 := by
  cases t with
  | nil =>
    refine ⟨{ (s.update ptr ⟨⟨key, value⟩, none, none, none⟩).setRoot (some ptr) with
        size := incr32 s.size },
      Tree.node Tree.nil (⟨key, (ptr, value)⟩ : BSTree.Node K (Nat × V)) Tree.nil, ?_,
      rep_congr rfl rfl (@rep_attach_root _ _ _ addr dat s _)⟩
    simp only [Put, h.2.1, rootAddr_nil]
  | node l x r =>
    obtain ⟨s1, t1, e1, e2, -⟩ := heap_bst_putLoop key value ptr l x r [] fuel h hf hp
    refine ⟨s1, t1, ?_, e2⟩
    simp only [Put, h.2.1, rootAddr_node]
    exact e1

/-- `Remove` on a heap that holds a tree returns, the heap holds a tree
afterwards, and every node that left the tree has its three links nil. -/
theorem heap_bst_remove {s : Store (BSTree.Node K V) K} {t : Tree (BSTree.Node K (Nat × V))}
    (h : Rep addr dat s t) (key : K) (fuel : Nat) (hf : t.depth < fuel) :
    ∃ s1 t1, Remove fuel s key = some s1 ∧ Rep addr dat s1 t1 ∧
      ∀ a ∈ addrs addr t, a ∉ addrs addr t1 → Cleared s1 a := by
  have hg := @heap_getLoop_eq _ _ _ addr dat s s.comparator BSTree.Node.key BSTree.Node.key
    (fun _ => rfl) rfl key t [] h fuel hf
  have hz := @getLoop_zip _ _ s.comparator BSTree.Node.key key t []
  generalize Structo.getLoop s.comparator BSTree.Node.key key t [] = loc at hg hz
  obtain ⟨node, path⟩ := loc
  simp only [zip] at hz hg
  subst hz
  rw [← h.2.1] at hg
  cases node with
  | nil =>
    refine ⟨s, _, ?_, h, fun a ha hn => absurd ha hn⟩
    simp only [Remove, hg, rootAddr_nil, Option.some_bind]
  | node l x r =>
    have h1 := rep_lookup h
    cases l with
    | nil =>
      obtain ⟨s1, e1, e2, e3, -⟩ := rep_replace_right h
      refine ⟨{ s1 with size := decr32 s1.size }, _, ?_, rep_size _ e2, fun a ha hn => ?_⟩
      · cases r <;>
          simp only [Remove, hg, rootAddr_node, rootAddr_nil, Option.some_bind, h1] <;>
          simp only [rootAddr_node, rootAddr_nil] at e1 <;>
          simp only [e1, Option.map_some']
      · rw [mem_left_out (fun b hb => by simpa using hb) ha hn]
        exact cleared_size _ e3
    | node ll y lr =>
      cases r with
      | nil =>
        obtain ⟨s1, e1, e2, e3, -⟩ := rep_replace_left h
        refine ⟨{ s1 with size := decr32 s1.size }, _, ?_, rep_size _ e2,
          fun a ha hn => ?_⟩
        · simp only [Remove, hg, rootAddr_node, rootAddr_nil, Option.some_bind, h1]
          simp only [rootAddr_node] at e1
          simp only [e1, Option.map_some']
        · rw [mem_left_out (x := x) (fun b hb => by
            simp only [addrs_node, addrs_nil, List.mem_append, List.mem_cons,
              List.not_mem_nil, or_false] at hb ⊢
            tauto) ha hn]
          exact cleared_size _ e3
      | node rl z rr =>
        obtain ⟨nx, nr, q, s1, m1, m2, m3, m4, m5, m6, m7⟩ := heap_remove_next h fuel
          (lt_of_le_of_lt (le_trans (Nat.le_of_lt (depth_right_lt _ x _)) (depth_le_zip _ path)) hf)
          (fun (x n : BSTree.Node K (Nat × V)) => ⟨n.key, (addr x, n.value.2)⟩)
          (fun (n d : BSTree.Node K V) => { d with key := n.key, value := n.value })
          (fun _ => rfl) (fun _ => rfl)
        obtain ⟨s2, e1, e2, e3, e4⟩ := rep_replace_right m5
        have k1 := rep_lookup m5
        refine ⟨{ s2 with size := decr32 s2.size }, _, ?_, rep_size _ e2,
          fun a ha hn => ?_⟩
        · simp only [Remove, hg, rootAddr_node, Option.some_bind, h1, m2, m3, m4, k1, e1,
            Option.map_some']
        · rw [← m7] at ha
          rw [mem_left_out (fun b hb => by simpa using hb) ha hn]
          exact cleared_size _ e3

end Simulation

end HeapBST

namespace HeapRB

open Heap

section Colours

variable {K V : Type}

theorem heap_rb_getColor {s : Store (RBTree.Node K V) K} {t : Tree (RBTree.Node K V)}
    {path : List (Frame (RBTree.Node K V))}
    (h : Rep RBTree.Node.ptr id s (zip t path)) :
    getColor s (rootAddr RBTree.Node.ptr t) = some (RBTree.getColor t) := by
  cases t with
  | nil => rfl
  | node l x r =>
    have h1 := rep_lookup h
    simp only [getColor, rootAddr_node, h1, Option.map_some', RBTree.getColor, id]

theorem heap_rb_setColor {s : Store (RBTree.Node K V) K} {l : Tree (RBTree.Node K V)}
    {x : RBTree.Node K V} {r : Tree (RBTree.Node K V)} {path : List (Frame (RBTree.Node K V))}
    (c : Color) (h : Rep RBTree.Node.ptr id s (zip (Tree.node l x r) path)) :
    ∃ s1, setColor s (some x.ptr) c = some s1 ∧
      Rep RBTree.Node.ptr id s1 (zip (Tree.node l { x with color := c } r) path) ∧
      Keeps (addrs RBTree.Node.ptr (zip (Tree.node l x r) path)) s s1 :=
  rep_setData ({ x with color := c } : RBTree.Node K V)
    (fun (d : RBTree.Node K V) => { d with color := c }) h rfl rfl

theorem heap_rb_setColorIfPresent {s : Store (RBTree.Node K V) K} {t : Tree (RBTree.Node K V)}
    {path : List (Frame (RBTree.Node K V))}
    (c : Color) (h : Rep RBTree.Node.ptr id s (zip t path)) :
    ∃ s1, setColorIfPresent s (rootAddr RBTree.Node.ptr t) c = some s1 ∧
      Rep RBTree.Node.ptr id s1 (zip (RBTree.setColorIfPresent c t) path) ∧
      Keeps (addrs RBTree.Node.ptr (zip t path)) s s1 := by
  cases t with
  | nil => exact ⟨s, rfl, h, keeps_refl _ _⟩
  | node l x r => exact heap_rb_setColor c h

/-- The left child and the right child of a node live at different addresses. -/
theorem rep_children_ne {α β K : Type} {addr : β → Nat} {dat : β → α} {s : Store α K}
    {l : Tree β} {x : β} {r : Tree β} {path : List (Frame β)}
    (h : Rep addr dat s (zip (Tree.node l x r) path)) {a : Nat}
    (hl : rootAddr addr l = some a) : rootAddr addr r ≠ some a := by
  obtain ⟨-, -, -, -, -, ⟨-, -, -, -, d5⟩, -, -⟩ := rep_parts h
  exact fun e => d5 a (rootAddr_mem hl) (rootAddr_mem e)

end Colours

section PutFix

variable {K V : Type}

theorem heap_rb_putFix_root {s : Store (RBTree.Node K V) K} {l : Tree (RBTree.Node K V)}
    {x : RBTree.Node K V} {r : Tree (RBTree.Node K V)} (fuel : Nat)
    (h : Rep RBTree.Node.ptr id s (Tree.node l x r)) :
    ∃ s1, putFix (fuel + 1) s x.ptr = some s1 ∧
      Rep RBTree.Node.ptr id s1 (Tree.node l { x with color := Color.black } r) := by
  have h0 : Rep RBTree.Node.ptr id s (zip (Tree.node l x r) []) := h
  have h1 := rep_lookup h0
  obtain ⟨s1, e1, e2, -⟩ := heap_rb_setColor Color.black h0
  refine ⟨s1, ?_, e2⟩
  simp only [putFix, h1, Option.some_bind, pathAddr_nil, e1]

theorem heap_rb_putFix_blackParent {s : Store (RBTree.Node K V) K}
    {l : Tree (RBTree.Node K V)} {x : RBTree.Node K V} {r : Tree (RBTree.Node K V)}
    {parent : Frame (RBTree.Node K V)} {path : List (Frame (RBTree.Node K V))} (fuel : Nat)
    (h : Rep RBTree.Node.ptr id s (zip (Tree.node l x r) (parent :: path)))
    (hc : parent.data.color = Color.black) :
    putFix (fuel + 1) s x.ptr = some s := by
  have h1 := rep_lookup h
  cases parent with
  | left px ps =>
    have h2 : Rep RBTree.Node.ptr id s (zip (Tree.node (Tree.node l x r) px ps) path) := h
    have h3 := heap_rb_getColor h2
    simp only [Frame.data] at hc
    simp only [rootAddr_node, RBTree.getColor_node, hc] at h3
    simp only [putFix, h1, Option.some_bind, pathAddr_left, pathAddr_right, h3, if_true]
  | right pl px =>
    have h2 : Rep RBTree.Node.ptr id s (zip (Tree.node pl px (Tree.node l x r)) path) := h
    have h3 := heap_rb_getColor h2
    simp only [Frame.data] at hc
    simp only [rootAddr_node, RBTree.getColor_node, hc] at h3
    simp only [putFix, h1, Option.some_bind, pathAddr_left, pathAddr_right, h3, if_true]

theorem heap_rb_putFix_LL {s : Store (RBTree.Node K V) K} {l : Tree (RBTree.Node K V)}
    {x : RBTree.Node K V} {r : Tree (RBTree.Node K V)} {px : RBTree.Node K V}
    {ps : Tree (RBTree.Node K V)} {gx : RBTree.Node K V} {uncle : Tree (RBTree.Node K V)}
    {path : List (Frame (RBTree.Node K V))} (fuel : Nat)
    (h : Rep RBTree.Node.ptr id s
      (zip (Tree.node l x r) (Frame.left px ps :: Frame.left gx uncle :: path)))
    (hc : px.color = Color.red) (hu : RBTree.getColor uncle = Color.black) :
    ∃ s1, putFix (fuel + 1) s x.ptr = some s1 ∧
      Rep RBTree.Node.ptr id s1 (zip (Tree.node (Tree.node l x r) { px with color := Color.black }
        (Tree.node ps { gx with color := Color.red } uncle)) path) := by
  have h1 := rep_lookup h
  have hp : Rep RBTree.Node.ptr id s
      (zip (Tree.node (Tree.node l x r) px ps) (Frame.left gx uncle :: path)) := h
  have h2 := rep_lookup hp
  have h3 := heap_rb_getColor hp
  simp only [rootAddr_node, RBTree.getColor_node, hc] at h3
  have hg : Rep RBTree.Node.ptr id s
      (zip (Tree.node (Tree.node (Tree.node l x r) px ps) gx uncle) path) := h
  have h4 := rep_lookup hg
  have hun : Rep RBTree.Node.ptr id s
      (zip uncle (Frame.right (Tree.node (Tree.node l x r) px ps) gx :: path)) := h
  have h5 := heap_rb_getColor hun
  rw [hu] at h5
  have hne : ¬ some x.ptr = rootAddr RBTree.Node.ptr ps :=
    fun e => rep_children_ne hp rfl e.symm
  obtain ⟨s1, e1, e2, -⟩ := heap_rb_setColor Color.black hp
  have e2a : Rep RBTree.Node.ptr id s1 (zip (Tree.node (Tree.node (Tree.node l x r)
      { px with color := Color.black } ps) gx uncle) path) := e2
  obtain ⟨s2, f1, f2, -⟩ := heap_rb_setColor Color.red e2a
  obtain ⟨s3, g1, g2, -⟩ := rep_rotateRight f2
  refine ⟨s3, ?_, g2⟩
  simp only [putFix, h1, Option.some_bind, pathAddr_left, pathAddr_right, h3, reduceCtorEq, if_false, h2, h4,
    rootAddr_node, if_true, h5, hne, e1, f1]
  exact g1

theorem heap_rb_putFix_LR {s : Store (RBTree.Node K V) K} {l : Tree (RBTree.Node K V)}
    {x : RBTree.Node K V} {r : Tree (RBTree.Node K V)} {px : RBTree.Node K V}
    {ps : Tree (RBTree.Node K V)} {gx : RBTree.Node K V} {uncle : Tree (RBTree.Node K V)}
    {path : List (Frame (RBTree.Node K V))} (fuel : Nat)
    (h : Rep RBTree.Node.ptr id s
      (zip (Tree.node l x r) (Frame.right ps px :: Frame.left gx uncle :: path)))
    (hc : px.color = Color.red) (hu : RBTree.getColor uncle = Color.black) :
    ∃ s1, putFix (fuel + 1) s x.ptr = some s1 ∧
      Rep RBTree.Node.ptr id s1 (zip (Tree.node (Tree.node ps px l) { x with color := Color.black }
        (Tree.node r { gx with color := Color.red } uncle)) path) := by
  have h1 := rep_lookup h
  have hp : Rep RBTree.Node.ptr id s
      (zip (Tree.node ps px (Tree.node l x r)) (Frame.left gx uncle :: path)) := h
  have h2 := rep_lookup hp
  have h3 := heap_rb_getColor hp
  simp only [rootAddr_node, RBTree.getColor_node, hc] at h3
  have hg : Rep RBTree.Node.ptr id s
      (zip (Tree.node (Tree.node ps px (Tree.node l x r)) gx uncle) path) := h
  have h4 := rep_lookup hg
  have hun : Rep RBTree.Node.ptr id s
      (zip uncle (Frame.right (Tree.node ps px (Tree.node l x r)) gx :: path)) := h
  have h5 := heap_rb_getColor hun
  rw [hu] at h5
  obtain ⟨s1, e1, e2, -⟩ := rep_rotateLeft hp
  obtain ⟨s2, f1, f2, -⟩ := heap_rb_setColor Color.black e2
  have f2a : Rep RBTree.Node.ptr id s2 (zip (Tree.node (Tree.node (Tree.node ps px l)
      { x with color := Color.black } r) gx uncle) path) := f2
  obtain ⟨s3, g1, g2, -⟩ := heap_rb_setColor Color.red f2a
  obtain ⟨s4, k1, k2, -⟩ := rep_rotateRight g2
  refine ⟨s4, ?_, k2⟩
  simp only [putFix, h1, Option.some_bind, pathAddr_left, pathAddr_right, h3, reduceCtorEq, if_false, h2, h4,
    rootAddr_node, if_true, h5, e1, Option.map_some', f1, g1]
  exact k1

theorem heap_rb_putFix_RR {s : Store (RBTree.Node K V) K} {l : Tree (RBTree.Node K V)}
    {x : RBTree.Node K V} {r : Tree (RBTree.Node K V)} {px : RBTree.Node K V}
    {ps : Tree (RBTree.Node K V)} {gx : RBTree.Node K V} {uncle : Tree (RBTree.Node K V)}
    {path : List (Frame (RBTree.Node K V))} (fuel : Nat)
    (h : Rep RBTree.Node.ptr id s
      (zip (Tree.node l x r) (Frame.right ps px :: Frame.right uncle gx :: path)))
    (hc : px.color = Color.red) (hu : RBTree.getColor uncle = Color.black) :
    ∃ s1, putFix (fuel + 1) s x.ptr = some s1 ∧
      Rep RBTree.Node.ptr id s1 (zip (Tree.node (Tree.node uncle { gx with color := Color.red } ps)
        { px with color := Color.black } (Tree.node l x r)) path) := by
  have h1 := rep_lookup h
  have hp : Rep RBTree.Node.ptr id s
      (zip (Tree.node ps px (Tree.node l x r)) (Frame.right uncle gx :: path)) := h
  have h2 := rep_lookup hp
  have h3 := heap_rb_getColor hp
  simp only [rootAddr_node, RBTree.getColor_node, hc] at h3
  have hg : Rep RBTree.Node.ptr id s
      (zip (Tree.node uncle gx (Tree.node ps px (Tree.node l x r))) path) := h
  have h4 := rep_lookup hg
  have hun : Rep RBTree.Node.ptr id s
      (zip uncle (Frame.left gx (Tree.node ps px (Tree.node l x r)) :: path)) := h
  have h5 := heap_rb_getColor hun
  rw [hu] at h5
  have hne : ¬ some x.ptr = rootAddr RBTree.Node.ptr ps :=
    fun e => rep_children_ne hp e.symm rfl
  have hnu : ¬ rootAddr RBTree.Node.ptr uncle = some px.ptr :=
    fun e => rep_children_ne hg e rfl
  obtain ⟨s1, e1, e2, -⟩ := heap_rb_setColor Color.black hp
  have e2a : Rep RBTree.Node.ptr id s1 (zip (Tree.node uncle gx (Tree.node ps
      { px with color := Color.black } (Tree.node l x r))) path) := e2
  obtain ⟨s2, f1, f2, -⟩ := heap_rb_setColor Color.red e2a
  obtain ⟨s3, g1, g2, -⟩ := rep_rotateLeft f2
  refine ⟨s3, ?_, g2⟩
  simp only [putFix, h1, Option.some_bind, pathAddr_left, pathAddr_right, h3, reduceCtorEq, if_false, h2, h4,
    rootAddr_node, if_true, h5, hne, hnu, e1, f1]
  exact g1

theorem heap_rb_putFix_RL {s : Store (RBTree.Node K V) K} {l : Tree (RBTree.Node K V)}
    {x : RBTree.Node K V} {r : Tree (RBTree.Node K V)} {px : RBTree.Node K V}
    {ps : Tree (RBTree.Node K V)} {gx : RBTree.Node K V} {uncle : Tree (RBTree.Node K V)}
    {path : List (Frame (RBTree.Node K V))} (fuel : Nat)
    (h : Rep RBTree.Node.ptr id s
      (zip (Tree.node l x r) (Frame.left px ps :: Frame.right uncle gx :: path)))
    (hc : px.color = Color.red) (hu : RBTree.getColor uncle = Color.black) :
    ∃ s1, putFix (fuel + 1) s x.ptr = some s1 ∧
      Rep RBTree.Node.ptr id s1 (zip (Tree.node (Tree.node uncle { gx with color := Color.red } l)
        { x with color := Color.black } (Tree.node r px ps)) path) := by
  have h1 := rep_lookup h
  have hp : Rep RBTree.Node.ptr id s
      (zip (Tree.node (Tree.node l x r) px ps) (Frame.right uncle gx :: path)) := h
  have h2 := rep_lookup hp
  have h3 := heap_rb_getColor hp
  simp only [rootAddr_node, RBTree.getColor_node, hc] at h3
  have hg : Rep RBTree.Node.ptr id s
      (zip (Tree.node uncle gx (Tree.node (Tree.node l x r) px ps)) path) := h
  have h4 := rep_lookup hg
  have hun : Rep RBTree.Node.ptr id s
      (zip uncle (Frame.left gx (Tree.node (Tree.node l x r) px ps) :: path)) := h
  have h5 := heap_rb_getColor hun
  rw [hu] at h5
  have hnu : ¬ rootAddr RBTree.Node.ptr uncle = some px.ptr :=
    fun e => rep_children_ne hg e rfl
  obtain ⟨s1, e1, e2, -⟩ := rep_rotateRight hp
  obtain ⟨s2, f1, f2, -⟩ := heap_rb_setColor Color.black e2
  have f2a : Rep RBTree.Node.ptr id s2 (zip (Tree.node uncle gx (Tree.node l
      { x with color := Color.black } (Tree.node r px ps))) path) := f2
  obtain ⟨s3, g1, g2, -⟩ := heap_rb_setColor Color.red f2a
  obtain ⟨s4, k1, k2, -⟩ := rep_rotateLeft g2
  refine ⟨s4, ?_, k2⟩
  simp only [putFix, h1, Option.some_bind, pathAddr_left, pathAddr_right, h3, reduceCtorEq, if_false, h2, h4,
    rootAddr_node, if_true, h5, hnu, e1, Option.map_some', f1, g1]
  exact k1

/-- The case of a red uncle on the right: three nodes change colour and the
fix-up goes on at the grandparent. -/
theorem heap_rb_putFix_redUncle_left {s : Store (RBTree.Node K V) K}
    {l : Tree (RBTree.Node K V)} {x : RBTree.Node K V} {r : Tree (RBTree.Node K V)}
    {parent : Frame (RBTree.Node K V)} {gx : RBTree.Node K V} {uncle : Tree (RBTree.Node K V)}
    {path : List (Frame (RBTree.Node K V))} (fuel : Nat)
    (h : Rep RBTree.Node.ptr id s
      (zip (Tree.node l x r) (parent :: Frame.left gx uncle :: path)))
    (hc : parent.data.color = Color.red) (hu : RBTree.getColor uncle = Color.red) :
    ∃ s3 p1, RBTree.setColor Color.black (parent.plug (Tree.node l x r)) = some p1 ∧
      putFix (fuel + 1) s x.ptr = putFix fuel s3 gx.ptr ∧
      Rep RBTree.Node.ptr id s3 (zip (Tree.node p1 { gx with color := Color.red }
        (RBTree.setColorIfPresent Color.black uncle)) path) := by
  have h1 := rep_lookup h
  cases parent with
  | left px ps =>
    simp only [Frame.data] at hc
    have hp : Rep RBTree.Node.ptr id s
        (zip (Tree.node (Tree.node l x r) px ps) (Frame.left gx uncle :: path)) := h
    have h2 := rep_lookup hp
    have h3 := heap_rb_getColor hp
    simp only [rootAddr_node, RBTree.getColor_node, hc] at h3
    have hg : Rep RBTree.Node.ptr id s
        (zip (Tree.node (Tree.node (Tree.node l x r) px ps) gx uncle) path) := h
    have h4 := rep_lookup hg
    have hun : Rep RBTree.Node.ptr id s
        (zip uncle (Frame.right (Tree.node (Tree.node l x r) px ps) gx :: path)) := h
    have h5 := heap_rb_getColor hun
    rw [hu] at h5
    obtain ⟨s1, e1, e2, -⟩ := heap_rb_setColor Color.black hp
    have e2a : Rep RBTree.Node.ptr id s1 (zip (Tree.node (Tree.node (Tree.node l x r)
        { px with color := Color.black } ps) gx uncle) path) := e2
    obtain ⟨s2, f1, f2, -⟩ := heap_rb_setColor Color.red e2a
    have f2a : Rep RBTree.Node.ptr id s2 (zip uncle (Frame.right (Tree.node (Tree.node l x r)
        { px with color := Color.black } ps) { gx with color := Color.red } :: path)) := f2
    obtain ⟨s3, g1, g2, -⟩ := heap_rb_setColorIfPresent Color.black f2a
    refine ⟨s3, _, rfl, ?_, g2⟩
    simp only [putFix, h1, Option.some_bind, pathAddr_left, pathAddr_right, h3, reduceCtorEq, if_false, h2, h4,
      rootAddr_node, if_true, h5, e1, f1, g1]
  | right ps px =>
    simp only [Frame.data] at hc
    have hp : Rep RBTree.Node.ptr id s
        (zip (Tree.node ps px (Tree.node l x r)) (Frame.left gx uncle :: path)) := h
    have h2 := rep_lookup hp
    have h3 := heap_rb_getColor hp
    simp only [rootAddr_node, RBTree.getColor_node, hc] at h3
    have hg : Rep RBTree.Node.ptr id s
        (zip (Tree.node (Tree.node ps px (Tree.node l x r)) gx uncle) path) := h
    have h4 := rep_lookup hg
    have hun : Rep RBTree.Node.ptr id s
        (zip uncle (Frame.right (Tree.node ps px (Tree.node l x r)) gx :: path)) := h
    have h5 := heap_rb_getColor hun
    rw [hu] at h5
    obtain ⟨s1, e1, e2, -⟩ := heap_rb_setColor Color.black hp
    have e2a : Rep RBTree.Node.ptr id s1 (zip (Tree.node (Tree.node ps
        { px with color := Color.black } (Tree.node l x r)) gx uncle) path) := e2
    obtain ⟨s2, f1, f2, -⟩ := heap_rb_setColor Color.red e2a
    have f2a : Rep RBTree.Node.ptr id s2 (zip uncle (Frame.right (Tree.node ps
        { px with color := Color.black } (Tree.node l x r)) { gx with color := Color.red } ::
        path)) := f2
    obtain ⟨s3, g1, g2, -⟩ := heap_rb_setColorIfPresent Color.black f2a
    refine ⟨s3, _, rfl, ?_, g2⟩
    simp only [putFix, h1, Option.some_bind, pathAddr_left, pathAddr_right, h3, reduceCtorEq, if_false, h2, h4,
      rootAddr_node, if_true, h5, e1, f1, g1]

/-- The case of a red uncle on the left. -/
theorem heap_rb_putFix_redUncle_right {s : Store (RBTree.Node K V) K}
    {l : Tree (RBTree.Node K V)} {x : RBTree.Node K V} {r : Tree (RBTree.Node K V)}
    {parent : Frame (RBTree.Node K V)} {gx : RBTree.Node K V} {uncle : Tree (RBTree.Node K V)}
    {path : List (Frame (RBTree.Node K V))} (fuel : Nat)
    (h : Rep RBTree.Node.ptr id s
      (zip (Tree.node l x r) (parent :: Frame.right uncle gx :: path)))
    (hc : parent.data.color = Color.red) (hu : RBTree.getColor uncle = Color.red) :
    ∃ s3 p1, RBTree.setColor Color.black (parent.plug (Tree.node l x r)) = some p1 ∧
      putFix (fuel + 1) s x.ptr = putFix fuel s3 gx.ptr ∧
      Rep RBTree.Node.ptr id s3 (zip (Tree.node (RBTree.setColorIfPresent Color.black uncle)
        { gx with color := Color.red } p1) path) := by
  have h1 := rep_lookup h
  cases parent with
  | left px ps =>
    simp only [Frame.data] at hc
    have hp : Rep RBTree.Node.ptr id s
        (zip (Tree.node (Tree.node l x r) px ps) (Frame.right uncle gx :: path)) := h
    have h2 := rep_lookup hp
    have h3 := heap_rb_getColor hp
    simp only [rootAddr_node, RBTree.getColor_node, hc] at h3
    have hg : Rep RBTree.Node.ptr id s
        (zip (Tree.node uncle gx (Tree.node (Tree.node l x r) px ps)) path) := h
    have h4 := rep_lookup hg
    have hun : Rep RBTree.Node.ptr id s
        (zip uncle (Frame.left gx (Tree.node (Tree.node l x r) px ps) :: path)) := h
    have h5 := heap_rb_getColor hun
    rw [hu] at h5
    have hnu : ¬ rootAddr RBTree.Node.ptr uncle = some px.ptr :=
      fun e => rep_children_ne hg e rfl
    obtain ⟨s1, e1, e2, -⟩ := heap_rb_setColor Color.black hp
    have e2a : Rep RBTree.Node.ptr id s1 (zip (Tree.node uncle gx (Tree.node (Tree.node l x r)
        { px with color := Color.black } ps)) path) := e2
    obtain ⟨s2, f1, f2, -⟩ := heap_rb_setColor Color.red e2a
    have f2a : Rep RBTree.Node.ptr id s2 (zip uncle (Frame.left { gx with color := Color.red }
        (Tree.node (Tree.node l x r) { px with color := Color.black } ps) :: path)) := f2
    obtain ⟨s3, g1, g2, -⟩ := heap_rb_setColorIfPresent Color.black f2a
    refine ⟨s3, _, rfl, ?_, g2⟩
    simp only [putFix, h1, Option.some_bind, pathAddr_left, pathAddr_right, h3, reduceCtorEq, if_false, h2, h4,
      rootAddr_node, if_true, h5, hnu, e1, f1, g1]
  | right ps px =>
    simp only [Frame.data] at hc
    have hp : Rep RBTree.Node.ptr id s
        (zip (Tree.node ps px (Tree.node l x r)) (Frame.right uncle gx :: path)) := h
    have h2 := rep_lookup hp
    have h3 := heap_rb_getColor hp
    simp only [rootAddr_node, RBTree.getColor_node, hc] at h3
    have hg : Rep RBTree.Node.ptr id s
        (zip (Tree.node uncle gx (Tree.node ps px (Tree.node l x r))) path) := h
    have h4 := rep_lookup hg
    have hun : Rep RBTree.Node.ptr id s
        (zip uncle (Frame.left gx (Tree.node ps px (Tree.node l x r)) :: path)) := h
    have h5 := heap_rb_getColor hun
    rw [hu] at h5
    have hnu : ¬ rootAddr RBTree.Node.ptr uncle = some px.ptr :=
      fun e => rep_children_ne hg e rfl
    obtain ⟨s1, e1, e2, -⟩ := heap_rb_setColor Color.black hp
    have e2a : Rep RBTree.Node.ptr id s1 (zip (Tree.node uncle gx (Tree.node ps
        { px with color := Color.black } (Tree.node l x r))) path) := e2
    obtain ⟨s2, f1, f2, -⟩ := heap_rb_setColor Color.red e2a
    have f2a : Rep RBTree.Node.ptr id s2 (zip uncle (Frame.left { gx with color := Color.red }
        (Tree.node ps { px with color := Color.black } (Tree.node l x r)) :: path)) := f2
    obtain ⟨s3, g1, g2, -⟩ := heap_rb_setColorIfPresent Color.black f2a
    refine ⟨s3, _, rfl, ?_, g2⟩
    simp only [putFix, h1, Option.some_bind, pathAddr_left, pathAddr_right, h3, reduceCtorEq, if_false, h2, h4,
      rootAddr_node, if_true, h5, hnu, e1, f1, g1]

/-- The fix-up after an insertion on the heap does what `putFix` does on the
tree. -/
theorem heap_rb_putFix {s : Store (RBTree.Node K V) K} (l : Tree (RBTree.Node K V))
    (x : RBTree.Node K V) (r : Tree (RBTree.Node K V)) (path : List (Frame (RBTree.Node K V)))
    (fuel : Nat) (h : Rep RBTree.Node.ptr id s (zip (Tree.node l x r) path))
    {root1 : Tree (RBTree.Node K V)} (hfix : RBTree.putFix (Tree.node l x r) path = some root1)
    (hf : path.length < fuel) :
    ∃ s1, putFix fuel s x.ptr = some s1 ∧ Rep RBTree.Node.ptr id s1 root1 := by
  induction fuel generalizing s l x r path with
  | zero => omega
  | succ fuel ih =>
    cases path with
    | nil =>
      rw [RBTree.putFix_root, Option.some.injEq] at hfix
      subst hfix
      exact heap_rb_putFix_root fuel h
    | cons parent rest =>
      rcases RBTree.color_cases parent.data.color with hc | hc
      · rw [RBTree.putFix_blackParent _ _ _ _ _ hc, Option.some.injEq] at hfix
        subst hfix
        exact ⟨s, heap_rb_putFix_blackParent fuel h hc, h⟩
      cases rest with
      | nil => simp [RBTree.putFix, hc] at hfix
      | cons g rest =>
        simp only [List.length_cons] at hf
        cases g with
        | left gx uncle =>
          rcases RBTree.color_cases (RBTree.getColor uncle) with hu | hu
          · cases parent with
            | left px ps =>
              have hc : px.color = Color.red := hc
              rw [RBTree.putFix_LL _ _ _ _ _ _ _ _ hc hu, Option.some.injEq] at hfix
              subst hfix
              exact heap_rb_putFix_LL fuel h hc hu
            | right ps px =>
              have hc : px.color = Color.red := hc
              rw [RBTree.putFix_LR _ _ _ _ _ _ _ _ hc hu, Option.some.injEq] at hfix
              subst hfix
              exact heap_rb_putFix_LR fuel h hc hu
          · obtain ⟨s3, p1, e0, e1, e2⟩ := heap_rb_putFix_redUncle_left fuel h hc hu
            rw [RBTree.putFix_redUncle_left _ _ _ _ _ _ _ hc hu, e0, Option.some_bind] at hfix
            obtain ⟨s1, k1, k2⟩ := ih p1 _ _ rest e2 hfix (by omega)
            exact ⟨s1, e1.trans k1, k2⟩
        | right uncle gx =>
          rcases RBTree.color_cases (RBTree.getColor uncle) with hu | hu
          · cases parent with
            | left px ps =>
              have hc : px.color = Color.red := hc
              rw [RBTree.putFix_RL _ _ _ _ _ _ _ _ hc hu, Option.some.injEq] at hfix
              subst hfix
              exact heap_rb_putFix_RL fuel h hc hu
            | right ps px =>
              have hc : px.color = Color.red := hc
              rw [RBTree.putFix_RR _ _ _ _ _ _ _ _ hc hu, Option.some.injEq] at hfix
              subst hfix
              exact heap_rb_putFix_RR fuel h hc hu
          · obtain ⟨s3, p1, e0, e1, e2⟩ := heap_rb_putFix_redUncle_right fuel h hc hu
            rw [RBTree.putFix_redUncle_right _ _ _ _ _ _ _ hc hu, e0, Option.some_bind] at hfix
            obtain ⟨s1, k1, k2⟩ := ih _ _ p1 rest e2 hfix (by omega)
            exact ⟨s1, e1.trans k1, k2⟩

end PutFix

end HeapRB

namespace HeapRB

open Heap

section RemoveFix

variable {K V : Type}

theorem heap_rb_removeFix_red {s : Store (RBTree.Node K V) K} {l : Tree (RBTree.Node K V)}
    {x : RBTree.Node K V} {r : Tree (RBTree.Node K V)} {path : List (Frame (RBTree.Node K V))}
    (fuel : Nat) (h : Rep RBTree.Node.ptr id s (zip (Tree.node l x r) path))
    (hn : x.color = Color.red) : removeFix (fuel + 1) s x.ptr = some s := by
  have h0 := heap_rb_getColor h
  simp only [rootAddr_node, RBTree.getColor_node, hn] at h0
  simp only [removeFix, h0, Option.some_bind, if_true]

theorem heap_rb_removeFix_root {s : Store (RBTree.Node K V) K} {l : Tree (RBTree.Node K V)}
    {x : RBTree.Node K V} {r : Tree (RBTree.Node K V)} (fuel : Nat)
    (h : Rep RBTree.Node.ptr id s (Tree.node l x r))
    (hn : x.color = Color.black) : removeFix (fuel + 1) s x.ptr = some s := by
  have h' : Rep RBTree.Node.ptr id s (zip (Tree.node l x r) []) := h
  have h0 := heap_rb_getColor h'
  have h1 := rep_lookup h'
  simp only [rootAddr_node, RBTree.getColor_node, hn] at h0
  simp only [removeFix, h0, Option.some_bind, reduceCtorEq, if_false, h1, pathAddr_nil]

theorem heap_rb_removeFix_left_redSibling {s : Store (RBTree.Node K V) K}
    {l : Tree (RBTree.Node K V)} {x : RBTree.Node K V} {r : Tree (RBTree.Node K V)}
    {px : RBTree.Node K V} {inner : Tree (RBTree.Node K V)} {sx : RBTree.Node K V}
    {outer : Tree (RBTree.Node K V)} {rest : List (Frame (RBTree.Node K V))} (fuel : Nat)
    (h : Rep RBTree.Node.ptr id s
      (zip (Tree.node l x r) (Frame.left px (Tree.node inner sx outer) :: rest)))
    (hn : x.color = Color.black) (hs : sx.color = Color.red) :
    ∃ s3, removeFix (fuel + 1) s x.ptr = removeFix fuel s3 x.ptr ∧
      Rep RBTree.Node.ptr id s3 (zip (Tree.node l x r)
        (Frame.left { px with color := Color.red } inner ::
          Frame.left { sx with color := Color.black } outer :: rest)) := by
  have h0 := heap_rb_getColor h
  simp only [rootAddr_node, RBTree.getColor_node, hn] at h0
  have h1 := rep_lookup h
  have hp : Rep RBTree.Node.ptr id s
      (zip (Tree.node (Tree.node l x r) px (Tree.node inner sx outer)) rest) := h
  have h2 := rep_lookup hp
  have hsb : Rep RBTree.Node.ptr id s
      (zip (Tree.node inner sx outer) (Frame.right (Tree.node l x r) px :: rest)) := h
  have h3 := heap_rb_getColor hsb
  simp only [rootAddr_node, RBTree.getColor_node, hs] at h3
  obtain ⟨s1, e1, e2, -⟩ := heap_rb_setColor Color.red hp
  have e2a : Rep RBTree.Node.ptr id s1 (zip (Tree.node inner sx outer)
      (Frame.right (Tree.node l x r) { px with color := Color.red } :: rest)) := e2
  obtain ⟨s2, f1, f2, -⟩ := heap_rb_setColor Color.black e2a
  have f2a : Rep RBTree.Node.ptr id s2 (zip (Tree.node (Tree.node l x r)
      { px with color := Color.red } (Tree.node inner { sx with color := Color.black } outer))
      rest) := f2
  obtain ⟨s3, g1, g2, -⟩ := rep_rotateLeft f2a
  refine ⟨s3, ?_, g2⟩
  simp only [removeFix, h0, Option.some_bind, reduceCtorEq, if_false, h1, pathAddr_left,
    pathAddr_right, h2, rootAddr_node, if_true, h3, e1, f1]
  rw [show rotateLeft s2 px.ptr = some s3 from g1]
  rfl

theorem heap_rb_removeFix_left_redParent {s : Store (RBTree.Node K V) K}
    {l : Tree (RBTree.Node K V)} {x : RBTree.Node K V} {r : Tree (RBTree.Node K V)}
    {px : RBTree.Node K V} {inner : Tree (RBTree.Node K V)} {sx : RBTree.Node K V}
    {outer : Tree (RBTree.Node K V)} {rest : List (Frame (RBTree.Node K V))} (fuel : Nat)
    (h : Rep RBTree.Node.ptr id s
      (zip (Tree.node l x r) (Frame.left px (Tree.node inner sx outer) :: rest)))
    (hn : x.color = Color.black) (hs : sx.color = Color.black)
    (hi : RBTree.getColor inner = Color.black) (ho : RBTree.getColor outer = Color.black)
    (hpc : px.color = Color.red) :
    ∃ s2, removeFix (fuel + 1) s x.ptr = some s2 ∧
      Rep RBTree.Node.ptr id s2 (zip (Tree.node l x r)
        (Frame.left { px with color := Color.black }
          (Tree.node inner { sx with color := Color.red } outer) :: rest)) := by
  have h0 := heap_rb_getColor h
  simp only [rootAddr_node, RBTree.getColor_node, hn] at h0
  have h1 := rep_lookup h
  have hp : Rep RBTree.Node.ptr id s
      (zip (Tree.node (Tree.node l x r) px (Tree.node inner sx outer)) rest) := h
  have h2 := rep_lookup hp
  have hsb : Rep RBTree.Node.ptr id s
      (zip (Tree.node inner sx outer) (Frame.right (Tree.node l x r) px :: rest)) := h
  have h3 := heap_rb_getColor hsb
  simp only [rootAddr_node, RBTree.getColor_node, hs] at h3
  have h4 := rep_lookup hsb
  have hin : Rep RBTree.Node.ptr id s (zip inner (Frame.left sx outer ::
      Frame.right (Tree.node l x r) px :: rest)) := h
  have h5 := heap_rb_getColor hin
  rw [hi] at h5
  have hou : Rep RBTree.Node.ptr id s (zip outer (Frame.right inner sx ::
      Frame.right (Tree.node l x r) px :: rest)) := h
  have h6 := heap_rb_getColor hou
  rw [ho] at h6
  obtain ⟨s1, e1, e2, -⟩ := heap_rb_setColor Color.red hsb
  have e2a : Rep RBTree.Node.ptr id s1 (zip (Tree.node (Tree.node l x r) px
      (Tree.node inner { sx with color := Color.red } outer)) rest) := e2
  have h7 := heap_rb_getColor e2a
  simp only [rootAddr_node, RBTree.getColor_node, hpc] at h7
  obtain ⟨s2, f1, f2, -⟩ := heap_rb_setColor Color.black e2a
  refine ⟨s2, ?_, f2⟩
  simp only [removeFix, h0, Option.some_bind, reduceCtorEq, if_false, h1, pathAddr_left,
    pathAddr_right, h2, rootAddr_node, if_true, h3, h4, h5, h6, and_self, e1, h7, f1]

theorem heap_rb_removeFix_left_blackParent {s : Store (RBTree.Node K V) K}
    {l : Tree (RBTree.Node K V)} {x : RBTree.Node K V} {r : Tree (RBTree.Node K V)}
    {px : RBTree.Node K V} {inner : Tree (RBTree.Node K V)} {sx : RBTree.Node K V}
    {outer : Tree (RBTree.Node K V)} {rest : List (Frame (RBTree.Node K V))} (fuel : Nat)
    (h : Rep RBTree.Node.ptr id s
      (zip (Tree.node l x r) (Frame.left px (Tree.node inner sx outer) :: rest)))
    (hn : x.color = Color.black) (hs : sx.color = Color.black)
    (hi : RBTree.getColor inner = Color.black) (ho : RBTree.getColor outer = Color.black)
    (hpc : px.color = Color.black) :
    ∃ s1, removeFix (fuel + 1) s x.ptr = removeFix fuel s1 px.ptr ∧
      Rep RBTree.Node.ptr id s1 (zip (Tree.node (Tree.node l x r) px
        (Tree.node inner { sx with color := Color.red } outer)) rest) := by
  have h0 := heap_rb_getColor h
  simp only [rootAddr_node, RBTree.getColor_node, hn] at h0
  have h1 := rep_lookup h
  have hp : Rep RBTree.Node.ptr id s
      (zip (Tree.node (Tree.node l x r) px (Tree.node inner sx outer)) rest) := h
  have h2 := rep_lookup hp
  have hsb : Rep RBTree.Node.ptr id s
      (zip (Tree.node inner sx outer) (Frame.right (Tree.node l x r) px :: rest)) := h
  have h3 := heap_rb_getColor hsb
  simp only [rootAddr_node, RBTree.getColor_node, hs] at h3
  have h4 := rep_lookup hsb
  have hin : Rep RBTree.Node.ptr id s (zip inner (Frame.left sx outer ::
      Frame.right (Tree.node l x r) px :: rest)) := h
  have h5 := heap_rb_getColor hin
  rw [hi] at h5
  have hou : Rep RBTree.Node.ptr id s (zip outer (Frame.right inner sx ::
      Frame.right (Tree.node l x r) px :: rest)) := h
  have h6 := heap_rb_getColor hou
  rw [ho] at h6
  obtain ⟨s1, e1, e2, -⟩ := heap_rb_setColor Color.red hsb
  have e2a : Rep RBTree.Node.ptr id s1 (zip (Tree.node (Tree.node l x r) px
      (Tree.node inner { sx with color := Color.red } outer)) rest) := e2
  have h7 := heap_rb_getColor e2a
  simp only [rootAddr_node, RBTree.getColor_node, hpc] at h7
  refine ⟨s1, ?_, e2a⟩
  simp only [removeFix, h0, Option.some_bind, reduceCtorEq, if_false, h1, pathAddr_left,
    pathAddr_right, h2, rootAddr_node, if_true, h3, h4, h5, h6, and_self, e1, h7]

theorem heap_rb_removeFix_left_redInner {s : Store (RBTree.Node K V) K}
    {l : Tree (RBTree.Node K V)} {x : RBTree.Node K V} {r : Tree (RBTree.Node K V)}
    {px : RBTree.Node K V} {il : Tree (RBTree.Node K V)} {ix : RBTree.Node K V}
    {ir : Tree (RBTree.Node K V)} {sx : RBTree.Node K V}
    {outer : Tree (RBTree.Node K V)} {rest : List (Frame (RBTree.Node K V))} (fuel : Nat)
    (h : Rep RBTree.Node.ptr id s (zip (Tree.node l x r)
      (Frame.left px (Tree.node (Tree.node il ix ir) sx outer) :: rest)))
    (hn : x.color = Color.black) (hs : sx.color = Color.black)
    (hi : ix.color = Color.red) (ho : RBTree.getColor outer = Color.black) :
    ∃ s7, removeFix (fuel + 1) s x.ptr = some s7 ∧
      Rep RBTree.Node.ptr id s7 (zip (Tree.node l x r)
        (Frame.left { px with color := Color.black } il ::
          Frame.left { ix with color := px.color }
            (Tree.node ir { sx with color := Color.black } outer) :: rest)) := by
  have h0 := heap_rb_getColor h
  simp only [rootAddr_node, RBTree.getColor_node, hn] at h0
  have h1 := rep_lookup h
  have hp : Rep RBTree.Node.ptr id s (zip (Tree.node (Tree.node l x r) px
      (Tree.node (Tree.node il ix ir) sx outer)) rest) := h
  have h2 := rep_lookup hp
  have hsb : Rep RBTree.Node.ptr id s (zip (Tree.node (Tree.node il ix ir) sx outer)
      (Frame.right (Tree.node l x r) px :: rest)) := h
  have h3 := heap_rb_getColor hsb
  simp only [rootAddr_node, RBTree.getColor_node, hs] at h3
  have h4 := rep_lookup hsb
  have hin : Rep RBTree.Node.ptr id s (zip (Tree.node il ix ir) (Frame.left sx outer ::
      Frame.right (Tree.node l x r) px :: rest)) := h
  have h5 := heap_rb_getColor hin
  simp only [rootAddr_node, RBTree.getColor_node, hi] at h5
  have hou : Rep RBTree.Node.ptr id s (zip outer (Frame.right (Tree.node il ix ir) sx ::
      Frame.right (Tree.node l x r) px :: rest)) := h
  have h6 := heap_rb_getColor hou
  rw [ho] at h6
  obtain ⟨s1, e1, e2, -⟩ := heap_rb_setColor Color.black hin
  have e2a : Rep RBTree.Node.ptr id s1 (zip (Tree.node (Tree.node il
      { ix with color := Color.black } ir) sx outer)
      (Frame.right (Tree.node l x r) px :: rest)) := e2
  obtain ⟨s2, f1, f2, -⟩ := heap_rb_setColor Color.red e2a
  obtain ⟨s3, g1, g2, -⟩ := rep_rotateRight f2
  have g2a : Rep RBTree.Node.ptr id s3 (zip (Tree.node (Tree.node l x r) px
      (Tree.node il { ix with color := Color.black }
        (Tree.node ir { sx with color := Color.red } outer))) rest) := g2
  have h7 := heap_rb_getColor g2a
  simp only [rootAddr_node, RBTree.getColor_node] at h7
  obtain ⟨s4, k1, k2, -⟩ := heap_rb_setColor px.color g2
  have k2a : Rep RBTree.Node.ptr id s4 (zip (Tree.node (Tree.node l x r) px
      (Tree.node il { ix with color := px.color }
        (Tree.node ir { sx with color := Color.red } outer))) rest) := k2
  obtain ⟨s5, m1, m2, -⟩ := heap_rb_setColor Color.black k2a
  have m2a : Rep RBTree.Node.ptr id s5 (zip (Tree.node ir { sx with color := Color.red } outer)
      (Frame.right il { ix with color := px.color } ::
        Frame.right (Tree.node l x r) { px with color := Color.black } :: rest)) := m2
  obtain ⟨s6, n1, n2, -⟩ := heap_rb_setColor Color.black m2a
  have n2a : Rep RBTree.Node.ptr id s6 (zip (Tree.node (Tree.node l x r)
      { px with color := Color.black } (Tree.node il { ix with color := px.color }
        (Tree.node ir { sx with color := Color.black } outer))) rest) := n2
  obtain ⟨s7, q1, q2, -⟩ := rep_rotateLeft n2a
  refine ⟨s7, ?_, q2⟩
  simp only [removeFix, h0, Option.some_bind, reduceCtorEq, if_false, h1, pathAddr_left,
    pathAddr_right, h2, rootAddr_node, if_true, h3, h4, h5, h6, false_and, e1, f1]
  rw [show rotateRight s2 sx.ptr = some s3 from g1]
  simp only [Option.map_some', Option.some_bind, h7]
  rw [show setColor s3 (some ix.ptr) px.color = some s4 from k1]
  simp only [Option.some_bind, m1]
  rw [show setColor s5 (some sx.ptr) Color.black = some s6 from n1]
  exact q1

theorem heap_rb_removeFix_left_redOuter {s : Store (RBTree.Node K V) K}
    {l : Tree (RBTree.Node K V)} {x : RBTree.Node K V} {r : Tree (RBTree.Node K V)}
    {px : RBTree.Node K V} {inner : Tree (RBTree.Node K V)} {sx : RBTree.Node K V}
    {ol : Tree (RBTree.Node K V)} {ox : RBTree.Node K V} {or : Tree (RBTree.Node K V)}
    {rest : List (Frame (RBTree.Node K V))} (fuel : Nat)
    (h : Rep RBTree.Node.ptr id s (zip (Tree.node l x r)
      (Frame.left px (Tree.node inner sx (Tree.node ol ox or)) :: rest)))
    (hn : x.color = Color.black) (hs : sx.color = Color.black) (ho : ox.color = Color.red) :
    ∃ s4, removeFix (fuel + 1) s x.ptr = some s4 ∧
      Rep RBTree.Node.ptr id s4 (zip (Tree.node l x r)
        (Frame.left { px with color := Color.black } inner ::
          Frame.left { sx with color := px.color }
            (Tree.node ol { ox with color := Color.black } or) :: rest)) := by
  have h0 := heap_rb_getColor h
  simp only [rootAddr_node, RBTree.getColor_node, hn] at h0
  have h1 := rep_lookup h
  have hp : Rep RBTree.Node.ptr id s (zip (Tree.node (Tree.node l x r) px
      (Tree.node inner sx (Tree.node ol ox or))) rest) := h
  have h2 := rep_lookup hp
  have hsb : Rep RBTree.Node.ptr id s (zip (Tree.node inner sx (Tree.node ol ox or))
      (Frame.right (Tree.node l x r) px :: rest)) := h
  have h3 := heap_rb_getColor hsb
  simp only [rootAddr_node, RBTree.getColor_node, hs] at h3
  have h4 := rep_lookup hsb
  have hin : Rep RBTree.Node.ptr id s (zip inner (Frame.left sx (Tree.node ol ox or) ::
      Frame.right (Tree.node l x r) px :: rest)) := h
  have h5 := heap_rb_getColor hin
  have hou : Rep RBTree.Node.ptr id s (zip (Tree.node ol ox or) (Frame.right inner sx ::
      Frame.right (Tree.node l x r) px :: rest)) := h
  have h6 := heap_rb_getColor hou
  simp only [rootAddr_node, RBTree.getColor_node, ho] at h6
  have h7 := heap_rb_getColor hp
  simp only [rootAddr_node, RBTree.getColor_node] at h7
  obtain ⟨s1, e1, e2, -⟩ := heap_rb_setColor px.color hsb
  have e2a : Rep RBTree.Node.ptr id s1 (zip (Tree.node (Tree.node l x r) px
      (Tree.node inner { sx with color := px.color } (Tree.node ol ox or))) rest) := e2
  obtain ⟨s2, f1, f2, -⟩ := heap_rb_setColor Color.black e2a
  have f2a : Rep RBTree.Node.ptr id s2 (zip (Tree.node ol ox or)
      (Frame.right inner { sx with color := px.color } ::
        Frame.right (Tree.node l x r) { px with color := Color.black } :: rest)) := f2
  obtain ⟨s3, g1, g2, -⟩ := heap_rb_setColor Color.black f2a
  have g2a : Rep RBTree.Node.ptr id s3 (zip (Tree.node (Tree.node l x r)
      { px with color := Color.black } (Tree.node inner { sx with color := px.color }
        (Tree.node ol { ox with color := Color.black } or))) rest) := g2
  obtain ⟨s4, k1, k2, -⟩ := rep_rotateLeft g2a
  refine ⟨s4, ?_, k2⟩
  simp only [removeFix, h0, Option.some_bind, reduceCtorEq, if_false, h1, pathAddr_left,
    pathAddr_right, h2, rootAddr_node, if_true, h3, h4, h5, h6, and_false, h7, e1, f1, g1]
  exact k1

theorem heap_rb_removeFix_right_redSibling {s : Store (RBTree.Node K V) K}
    {l : Tree (RBTree.Node K V)} {x : RBTree.Node K V} {r : Tree (RBTree.Node K V)}
    {px : RBTree.Node K V} {inner : Tree (RBTree.Node K V)} {sx : RBTree.Node K V}
    {outer : Tree (RBTree.Node K V)} {rest : List (Frame (RBTree.Node K V))} (fuel : Nat)
    (h : Rep RBTree.Node.ptr id s
      (zip (Tree.node l x r) (Frame.right (Tree.node outer sx inner) px :: rest)))
    (hn : x.color = Color.black) (hs : sx.color = Color.red) :
    ∃ s3, removeFix (fuel + 1) s x.ptr = removeFix fuel s3 x.ptr ∧
      Rep RBTree.Node.ptr id s3 (zip (Tree.node l x r)
        (Frame.right inner { px with color := Color.red } ::
          Frame.right outer { sx with color := Color.black } :: rest)) := by
  have h0 := heap_rb_getColor h
  simp only [rootAddr_node, RBTree.getColor_node, hn] at h0
  have h1 := rep_lookup h
  have hp : Rep RBTree.Node.ptr id s
      (zip (Tree.node (Tree.node outer sx inner) px (Tree.node l x r)) rest) := h
  have h2 := rep_lookup hp
  have hne : ¬ some sx.ptr = some x.ptr := fun e => rep_children_ne hp rfl e.symm
  have hsb : Rep RBTree.Node.ptr id s
      (zip (Tree.node outer sx inner) (Frame.left px (Tree.node l x r) :: rest)) := h
  have h3 := heap_rb_getColor hsb
  simp only [rootAddr_node, RBTree.getColor_node, hs] at h3
  obtain ⟨s1, e1, e2, -⟩ := heap_rb_setColor Color.red hp
  have e2a : Rep RBTree.Node.ptr id s1 (zip (Tree.node outer sx inner)
      (Frame.left { px with color := Color.red } (Tree.node l x r) :: rest)) := e2
  obtain ⟨s2, f1, f2, -⟩ := heap_rb_setColor Color.black e2a
  have f2a : Rep RBTree.Node.ptr id s2 (zip (Tree.node
      (Tree.node outer { sx with color := Color.black } inner) { px with color := Color.red }
      (Tree.node l x r)) rest) := f2
  obtain ⟨s3, g1, g2, -⟩ := rep_rotateRight f2a
  refine ⟨s3, ?_, g2⟩
  simp only [removeFix, h0, Option.some_bind, reduceCtorEq, if_false, h1, pathAddr_left,
    pathAddr_right, h2, rootAddr_node, hne, if_true, h3, e1, f1]
  rw [show rotateRight s2 px.ptr = some s3 from g1]
  rfl

theorem heap_rb_removeFix_right_redParent {s : Store (RBTree.Node K V) K}
    {l : Tree (RBTree.Node K V)} {x : RBTree.Node K V} {r : Tree (RBTree.Node K V)}
    {px : RBTree.Node K V} {inner : Tree (RBTree.Node K V)} {sx : RBTree.Node K V}
    {outer : Tree (RBTree.Node K V)} {rest : List (Frame (RBTree.Node K V))} (fuel : Nat)
    (h : Rep RBTree.Node.ptr id s
      (zip (Tree.node l x r) (Frame.right (Tree.node outer sx inner) px :: rest)))
    (hn : x.color = Color.black) (hs : sx.color = Color.black)
    (hi : RBTree.getColor inner = Color.black) (ho : RBTree.getColor outer = Color.black)
    (hpc : px.color = Color.red) :
    ∃ s2, removeFix (fuel + 1) s x.ptr = some s2 ∧
      Rep RBTree.Node.ptr id s2 (zip (Tree.node l x r)
        (Frame.right (Tree.node outer { sx with color := Color.red } inner)
          { px with color := Color.black } :: rest)) := by
  have h0 := heap_rb_getColor h
  simp only [rootAddr_node, RBTree.getColor_node, hn] at h0
  have h1 := rep_lookup h
  have hp : Rep RBTree.Node.ptr id s
      (zip (Tree.node (Tree.node outer sx inner) px (Tree.node l x r)) rest) := h
  have h2 := rep_lookup hp
  have hne : ¬ some sx.ptr = some x.ptr := fun e => rep_children_ne hp rfl e.symm
  have hsb : Rep RBTree.Node.ptr id s
      (zip (Tree.node outer sx inner) (Frame.left px (Tree.node l x r) :: rest)) := h
  have h3 := heap_rb_getColor hsb
  simp only [rootAddr_node, RBTree.getColor_node, hs] at h3
  have h4 := rep_lookup hsb
  have hin : Rep RBTree.Node.ptr id s (zip inner (Frame.right outer sx ::
      Frame.left px (Tree.node l x r) :: rest)) := h
  have h5 := heap_rb_getColor hin
  rw [hi] at h5
  have hou : Rep RBTree.Node.ptr id s (zip outer (Frame.left sx inner ::
      Frame.left px (Tree.node l x r) :: rest)) := h
  have h6 := heap_rb_getColor hou
  rw [ho] at h6
  obtain ⟨s1, e1, e2, -⟩ := heap_rb_setColor Color.red hsb
  have e2a : Rep RBTree.Node.ptr id s1 (zip (Tree.node
      (Tree.node outer { sx with color := Color.red } inner) px (Tree.node l x r)) rest) := e2
  have h7 := heap_rb_getColor e2a
  simp only [rootAddr_node, RBTree.getColor_node, hpc] at h7
  obtain ⟨s2, f1, f2, -⟩ := heap_rb_setColor Color.black e2a
  refine ⟨s2, ?_, f2⟩
  simp only [removeFix, h0, Option.some_bind, reduceCtorEq, if_false, h1, pathAddr_left,
    pathAddr_right, h2, rootAddr_node, hne, if_true, h3, h4, h5, h6, and_self, e1, h7, f1]

theorem heap_rb_removeFix_right_blackParent {s : Store (RBTree.Node K V) K}
    {l : Tree (RBTree.Node K V)} {x : RBTree.Node K V} {r : Tree (RBTree.Node K V)}
    {px : RBTree.Node K V} {inner : Tree (RBTree.Node K V)} {sx : RBTree.Node K V}
    {outer : Tree (RBTree.Node K V)} {rest : List (Frame (RBTree.Node K V))} (fuel : Nat)
    (h : Rep RBTree.Node.ptr id s
      (zip (Tree.node l x r) (Frame.right (Tree.node outer sx inner) px :: rest)))
    (hn : x.color = Color.black) (hs : sx.color = Color.black)
    (hi : RBTree.getColor inner = Color.black) (ho : RBTree.getColor outer = Color.black)
    (hpc : px.color = Color.black) :
    ∃ s1, removeFix (fuel + 1) s x.ptr = removeFix fuel s1 px.ptr ∧
      Rep RBTree.Node.ptr id s1 (zip (Tree.node
        (Tree.node outer { sx with color := Color.red } inner) px (Tree.node l x r)) rest) := by
  have h0 := heap_rb_getColor h
  simp only [rootAddr_node, RBTree.getColor_node, hn] at h0
  have h1 := rep_lookup h
  have hp : Rep RBTree.Node.ptr id s
      (zip (Tree.node (Tree.node outer sx inner) px (Tree.node l x r)) rest) := h
  have h2 := rep_lookup hp
  have hne : ¬ some sx.ptr = some x.ptr := fun e => rep_children_ne hp rfl e.symm
  have hsb : Rep RBTree.Node.ptr id s
      (zip (Tree.node outer sx inner) (Frame.left px (Tree.node l x r) :: rest)) := h
  have h3 := heap_rb_getColor hsb
  simp only [rootAddr_node, RBTree.getColor_node, hs] at h3
  have h4 := rep_lookup hsb
  have hin : Rep RBTree.Node.ptr id s (zip inner (Frame.right outer sx ::
      Frame.left px (Tree.node l x r) :: rest)) := h
  have h5 := heap_rb_getColor hin
  rw [hi] at h5
  have hou : Rep RBTree.Node.ptr id s (zip outer (Frame.left sx inner ::
      Frame.left px (Tree.node l x r) :: rest)) := h
  have h6 := heap_rb_getColor hou
  rw [ho] at h6
  obtain ⟨s1, e1, e2, -⟩ := heap_rb_setColor Color.red hsb
  have e2a : Rep RBTree.Node.ptr id s1 (zip (Tree.node
      (Tree.node outer { sx with color := Color.red } inner) px (Tree.node l x r)) rest) := e2
  have h7 := heap_rb_getColor e2a
  simp only [rootAddr_node, RBTree.getColor_node, hpc] at h7
  refine ⟨s1, ?_, e2a⟩
  simp only [removeFix, h0, Option.some_bind, reduceCtorEq, if_false, h1, pathAddr_left,
    pathAddr_right, h2, rootAddr_node, hne, if_true, h3, h4, h5, h6, and_self, e1, h7]

theorem heap_rb_removeFix_right_redInner {s : Store (RBTree.Node K V) K}
    {l : Tree (RBTree.Node K V)} {x : RBTree.Node K V} {r : Tree (RBTree.Node K V)}
    {px : RBTree.Node K V} {il : Tree (RBTree.Node K V)} {ix : RBTree.Node K V}
    {ir : Tree (RBTree.Node K V)} {sx : RBTree.Node K V}
    {outer : Tree (RBTree.Node K V)} {rest : List (Frame (RBTree.Node K V))} (fuel : Nat)
    (h : Rep RBTree.Node.ptr id s (zip (Tree.node l x r)
      (Frame.right (Tree.node outer sx (Tree.node il ix ir)) px :: rest)))
    (hn : x.color = Color.black) (hs : sx.color = Color.black)
    (hi : ix.color = Color.red) (ho : RBTree.getColor outer = Color.black) :
    ∃ s7, removeFix (fuel + 1) s x.ptr = some s7 ∧
      Rep RBTree.Node.ptr id s7 (zip (Tree.node l x r)
        (Frame.right ir { px with color := Color.black } ::
          Frame.right (Tree.node outer { sx with color := Color.black } il)
            { ix with color := px.color } :: rest)) := by
  have h0 := heap_rb_getColor h
  simp only [rootAddr_node, RBTree.getColor_node, hn] at h0
  have h1 := rep_lookup h
  have hp : Rep RBTree.Node.ptr id s (zip (Tree.node
      (Tree.node outer sx (Tree.node il ix ir)) px (Tree.node l x r)) rest) := h
  have h2 := rep_lookup hp
  have hne : ¬ some sx.ptr = some x.ptr := fun e => rep_children_ne hp rfl e.symm
  have hsb : Rep RBTree.Node.ptr id s (zip (Tree.node outer sx (Tree.node il ix ir))
      (Frame.left px (Tree.node l x r) :: rest)) := h
  have h3 := heap_rb_getColor hsb
  simp only [rootAddr_node, RBTree.getColor_node, hs] at h3
  have h4 := rep_lookup hsb
  have hin : Rep RBTree.Node.ptr id s (zip (Tree.node il ix ir) (Frame.right outer sx ::
      Frame.left px (Tree.node l x r) :: rest)) := h
  have h5 := heap_rb_getColor hin
  simp only [rootAddr_node, RBTree.getColor_node, hi] at h5
  have hou : Rep RBTree.Node.ptr id s (zip outer (Frame.left sx (Tree.node il ix ir) ::
      Frame.left px (Tree.node l x r) :: rest)) := h
  have h6 := heap_rb_getColor hou
  rw [ho] at h6
  obtain ⟨s1, e1, e2, -⟩ := heap_rb_setColor Color.black hin
  have e2a : Rep RBTree.Node.ptr id s1 (zip (Tree.node outer sx (Tree.node il
      { ix with color := Color.black } ir))
      (Frame.left px (Tree.node l x r) :: rest)) := e2
  obtain ⟨s2, f1, f2, -⟩ := heap_rb_setColor Color.red e2a
  obtain ⟨s3, g1, g2, -⟩ := rep_rotateLeft f2
  have g2a : Rep RBTree.Node.ptr id s3 (zip (Tree.node
      (Tree.node (Tree.node outer { sx with color := Color.red } il)
        { ix with color := Color.black } ir) px (Tree.node l x r)) rest) := g2
  have h7 := heap_rb_getColor g2a
  simp only [rootAddr_node, RBTree.getColor_node] at h7
  obtain ⟨s4, k1, k2, -⟩ := heap_rb_setColor px.color g2
  have k2a : Rep RBTree.Node.ptr id s4 (zip (Tree.node
      (Tree.node (Tree.node outer { sx with color := Color.red } il)
        { ix with color := px.color } ir) px (Tree.node l x r)) rest) := k2
  obtain ⟨s5, m1, m2, -⟩ := heap_rb_setColor Color.black k2a
  have m2a : Rep RBTree.Node.ptr id s5 (zip (Tree.node outer { sx with color := Color.red } il)
      (Frame.left { ix with color := px.color } ir ::
        Frame.left { px with color := Color.black } (Tree.node l x r) :: rest)) := m2
  obtain ⟨s6, n1, n2, -⟩ := heap_rb_setColor Color.black m2a
  have n2a : Rep RBTree.Node.ptr id s6 (zip (Tree.node
      (Tree.node (Tree.node outer { sx with color := Color.black } il)
        { ix with color := px.color } ir) { px with color := Color.black }
      (Tree.node l x r)) rest) := n2
  obtain ⟨s7, q1, q2, -⟩ := rep_rotateRight n2a
  refine ⟨s7, ?_, q2⟩
  simp only [removeFix, h0, Option.some_bind, reduceCtorEq, if_false, h1, pathAddr_left,
    pathAddr_right, h2, rootAddr_node, hne, if_true, h3, h4, h5, h6, false_and, e1, f1]
  rw [show rotateLeft s2 sx.ptr = some s3 from g1]
  simp only [Option.map_some', Option.some_bind, h7]
  rw [show setColor s3 (some ix.ptr) px.color = some s4 from k1]
  simp only [Option.some_bind, m1]
  rw [show setColor s5 (some sx.ptr) Color.black = some s6 from n1]
  exact q1

theorem heap_rb_removeFix_right_redOuter {s : Store (RBTree.Node K V) K}
    {l : Tree (RBTree.Node K V)} {x : RBTree.Node K V} {r : Tree (RBTree.Node K V)}
    {px : RBTree.Node K V} {inner : Tree (RBTree.Node K V)} {sx : RBTree.Node K V}
    {ol : Tree (RBTree.Node K V)} {ox : RBTree.Node K V} {or : Tree (RBTree.Node K V)}
    {rest : List (Frame (RBTree.Node K V))} (fuel : Nat)
    (h : Rep RBTree.Node.ptr id s (zip (Tree.node l x r)
      (Frame.right (Tree.node (Tree.node ol ox or) sx inner) px :: rest)))
    (hn : x.color = Color.black) (hs : sx.color = Color.black) (ho : ox.color = Color.red) :
    ∃ s4, removeFix (fuel + 1) s x.ptr = some s4 ∧
      Rep RBTree.Node.ptr id s4 (zip (Tree.node l x r)
        (Frame.right inner { px with color := Color.black } ::
          Frame.right (Tree.node ol { ox with color := Color.black } or)
            { sx with color := px.color } :: rest)) := by
  have h0 := heap_rb_getColor h
  simp only [rootAddr_node, RBTree.getColor_node, hn] at h0
  have h1 := rep_lookup h
  have hp : Rep RBTree.Node.ptr id s (zip (Tree.node
      (Tree.node (Tree.node ol ox or) sx inner) px (Tree.node l x r)) rest) := h
  have h2 := rep_lookup hp
  have hne : ¬ some sx.ptr = some x.ptr := fun e => rep_children_ne hp rfl e.symm
  have hsb : Rep RBTree.Node.ptr id s (zip (Tree.node (Tree.node ol ox or) sx inner)
      (Frame.left px (Tree.node l x r) :: rest)) := h
  have h3 := heap_rb_getColor hsb
  simp only [rootAddr_node, RBTree.getColor_node, hs] at h3
  have h4 := rep_lookup hsb
  have hin : Rep RBTree.Node.ptr id s (zip inner (Frame.right (Tree.node ol ox or) sx ::
      Frame.left px (Tree.node l x r) :: rest)) := h
  have h5 := heap_rb_getColor hin
  have hou : Rep RBTree.Node.ptr id s (zip (Tree.node ol ox or) (Frame.left sx inner ::
      Frame.left px (Tree.node l x r) :: rest)) := h
  have h6 := heap_rb_getColor hou
  simp only [rootAddr_node, RBTree.getColor_node, ho] at h6
  have h7 := heap_rb_getColor hp
  simp only [rootAddr_node, RBTree.getColor_node] at h7
  obtain ⟨s1, e1, e2, -⟩ := heap_rb_setColor px.color hsb
  have e2a : Rep RBTree.Node.ptr id s1 (zip (Tree.node
      (Tree.node (Tree.node ol ox or) { sx with color := px.color } inner) px
      (Tree.node l x r)) rest) := e2
  obtain ⟨s2, f1, f2, -⟩ := heap_rb_setColor Color.black e2a
  have f2a : Rep RBTree.Node.ptr id s2 (zip (Tree.node ol ox or)
      (Frame.left { sx with color := px.color } inner ::
        Frame.left { px with color := Color.black } (Tree.node l x r) :: rest)) := f2
  obtain ⟨s3, g1, g2, -⟩ := heap_rb_setColor Color.black f2a
  have g2a : Rep RBTree.Node.ptr id s3 (zip (Tree.node
      (Tree.node (Tree.node ol { ox with color := Color.black } or)
        { sx with color := px.color } inner) { px with color := Color.black }
      (Tree.node l x r)) rest) := g2
  obtain ⟨s4, k1, k2, -⟩ := rep_rotateRight g2a
  refine ⟨s4, ?_, k2⟩
  simp only [removeFix, h0, Option.some_bind, reduceCtorEq, if_false, h1, pathAddr_left,
    pathAddr_right, h2, rootAddr_node, hne, if_true, h3, h4, h5, h6, and_false, h7, e1, f1, g1]
  exact k1

end RemoveFix

end HeapRB

namespace HeapRB

open Heap

section RemoveFixLoop

variable {K V : Type}

/-- The fix-up before a removal on the heap does what `removeFix` does on the
tree: the node keeps its subtree and gets the ancestors that the tree model
computes. -/
theorem heap_rb_removeFix (f : Nat) : ∀ {s : Store (RBTree.Node K V) K}
    (l : Tree (RBTree.Node K V)) (x : RBTree.Node K V) (r : Tree (RBTree.Node K V))
    (path : List (Frame (RBTree.Node K V)))
    (_ : Rep RBTree.Node.ptr id s (zip (Tree.node l x r) path))
    {path1 : List (Frame (RBTree.Node K V))}
    (_ : RBTree.removeFixAux f (Tree.node l x r) path = some path1) (fuel : Nat)
    (_ : f ≤ fuel),
    ∃ s1, removeFix fuel s x.ptr = some s1 ∧
      Rep RBTree.Node.ptr id s1 (zip (Tree.node l x r) path1) := by
  induction f with
  | zero => intro s l x r path h path1 hfix; simp [RBTree.removeFixAux] at hfix
  | succ f ih =>
    intro s l x r path h path1 hfix fuel hf
    obtain ⟨fuel, rfl⟩ : ∃ k, fuel = k + 1 := ⟨fuel - 1, by omega⟩
    have hf1 : f ≤ fuel := by omega
    rcases RBTree.color_cases x.color with hn | hn
    swap
    · rw [RBTree.removeFixAux_red f _ _ (by simpa using hn), Option.some.injEq] at hfix
      subst hfix
      exact ⟨s, heap_rb_removeFix_red fuel h hn, h⟩
    have hn1 : RBTree.getColor (Tree.node l x r) = Color.black := by simpa using hn
    cases path with
    | nil =>
      rw [RBTree.removeFixAux_root f _ hn1, Option.some.injEq] at hfix
      subst hfix
      exact ⟨s, heap_rb_removeFix_root fuel h hn, h⟩
    | cons fr rest =>
      cases fr with
      | left px sibling =>
        cases sibling with
        | nil => simp [RBTree.removeFixAux, hn] at hfix
        | node inner sx outer =>
          rcases RBTree.color_cases sx.color with hs | hs
          swap
          · rw [RBTree.removeFixAux_left_redSibling f _ _ _ _ _ _ hn1 hs] at hfix
            obtain ⟨s3, e1, e2⟩ := heap_rb_removeFix_left_redSibling fuel h hn hs
            obtain ⟨s4, k1, k2⟩ := ih l x r _ e2 hfix fuel hf1
            exact ⟨s4, e1.trans k1, k2⟩
          rcases RBTree.color_cases (RBTree.getColor outer) with ho | ho
          swap
          · cases outer with
            | nil => simp at ho
            | node ol ox or =>
              rw [RBTree.removeFixAux_left_redOuter f _ _ _ _ _ _ _ _ hn1 hs
                (by simpa using ho), Option.some.injEq] at hfix
              subst hfix
              exact heap_rb_removeFix_left_redOuter fuel h hn hs (by simpa using ho)
          rcases RBTree.color_cases (RBTree.getColor inner) with hi | hi
          swap
          · cases inner with
            | nil => simp at hi
            | node il ix ir =>
              rw [RBTree.removeFixAux_left_redInner f _ _ _ _ _ _ _ _ hn1 hs
                (by simpa using hi) ho, Option.some.injEq] at hfix
              subst hfix
              exact heap_rb_removeFix_left_redInner fuel h hn hs (by simpa using hi) ho
          rcases RBTree.color_cases px.color with hpc | hpc
          · rw [RBTree.removeFixAux_left_blackParent f _ _ _ _ _ _ hn1 hs hi ho hpc] at hfix
            obtain ⟨rest1, hr1, hr2⟩ := Option.bind_eq_some.1 hfix
            rw [Option.some.injEq] at hr2
            subst hr2
            obtain ⟨s1, e1, e2⟩ := heap_rb_removeFix_left_blackParent fuel h hn hs hi ho hpc
            obtain ⟨s2, k1, k2⟩ := ih _ px _ rest e2 hr1 fuel hf1
            exact ⟨s2, e1.trans k1, k2⟩
          · rw [RBTree.removeFixAux_left_redParent f _ _ _ _ _ _ hn1 hs hi ho hpc,
              Option.some.injEq] at hfix
            subst hfix
            exact heap_rb_removeFix_left_redParent fuel h hn hs hi ho hpc
      | right sibling px =>
        cases sibling with
        | nil => simp [RBTree.removeFixAux, hn] at hfix
        | node outer sx inner =>
          rcases RBTree.color_cases sx.color with hs | hs
          swap
          · rw [RBTree.removeFixAux_right_redSibling f _ _ _ _ _ _ hn1 hs] at hfix
            obtain ⟨s3, e1, e2⟩ := heap_rb_removeFix_right_redSibling fuel h hn hs
            obtain ⟨s4, k1, k2⟩ := ih l x r _ e2 hfix fuel hf1
            exact ⟨s4, e1.trans k1, k2⟩
          rcases RBTree.color_cases (RBTree.getColor outer) with ho | ho
          swap
          · cases outer with
            | nil => simp at ho
            | node ol ox or =>
              rw [RBTree.removeFixAux_right_redOuter f _ _ _ _ _ _ _ _ hn1 hs
                (by simpa using ho), Option.some.injEq] at hfix
              subst hfix
              exact heap_rb_removeFix_right_redOuter fuel h hn hs (by simpa using ho)
          rcases RBTree.color_cases (RBTree.getColor inner) with hi | hi
          swap
          · cases inner with
            | nil => simp at hi
            | node il ix ir =>
              rw [RBTree.removeFixAux_right_redInner f _ _ _ _ _ _ _ _ hn1 hs
                (by simpa using hi) ho, Option.some.injEq] at hfix
              subst hfix
              exact heap_rb_removeFix_right_redInner fuel h hn hs (by simpa using hi) ho
          rcases RBTree.color_cases px.color with hpc | hpc
          · rw [RBTree.removeFixAux_right_blackParent f _ _ _ _ _ _ hn1 hs hi ho hpc] at hfix
            obtain ⟨rest1, hr1, hr2⟩ := Option.bind_eq_some.1 hfix
            rw [Option.some.injEq] at hr2
            subst hr2
            obtain ⟨s1, e1, e2⟩ := heap_rb_removeFix_right_blackParent fuel h hn hs hi ho hpc
            obtain ⟨s2, k1, k2⟩ := ih _ px _ rest e2 hr1 fuel hf1
            exact ⟨s2, e1.trans k1, k2⟩
          · rw [RBTree.removeFixAux_right_redParent f _ _ _ _ _ _ hn1 hs hi ho hpc,
              Option.some.injEq] at hfix
            subst hfix
            exact heap_rb_removeFix_right_redParent fuel h hn hs hi ho hpc

end RemoveFixLoop

end HeapRB

section Counting

variable {α : Type}

theorem count_zip (t : Tree α) (path : List (Frame α)) :
    (zip t path).count = t.count + pathCount path := by
  induction path generalizing t with
  | nil => simp [zip, pathCount]
  | cons f rest ih =>
    cases f <;> simp only [zip, ih, Frame.plug, Tree.count, pathCount, Frame.sibling] <;> omega

end Counting

namespace HeapRB

open Heap

section PutRemove

variable {K V : Type}

theorem removeFixDepth_le (path : List (Frame (RBTree.Node K V))) :
    RBTree.removeFixDepth path ≤ 2 * pathCount path := by
  induction path with
  | nil => simp [RBTree.removeFixDepth, pathCount]
  | cons f rest ih => simp only [RBTree.removeFixDepth, pathCount]; omega

theorem cleared_keeps {α : Type} {live : List Nat} {s s1 : Store α K} {a : Nat}
    (hk : Keeps live s s1) (ha : a ∉ live) (hc : Cleared s a) : Cleared s1 a := by
  obtain ⟨n, h1, h2⟩ := hc
  exact ⟨n, (hk.1 a ha).trans h1, h2⟩

theorem rootAddr_assign (ptr : Nat) (key : K) (value : V) (t : Tree (RBTree.Node K V)) :
    rootAddr RBTree.Node.ptr (RBTree.assign ptr key value t) = rootAddr RBTree.Node.ptr t := by
  cases t with
  | nil => rfl
  | node l x r =>
    simp only [RBTree.assign, rootAddr_node, RBTree.Node.assign]
    split_ifs <;> rfl

theorem addrs_assign (ptr : Nat) (key : K) (value : V) (t : Tree (RBTree.Node K V)) :
    addrs RBTree.Node.ptr (RBTree.assign ptr key value t) = addrs RBTree.Node.ptr t := by
  simp only [addrs, RBTree.toList_assign, List.map_map]
  apply List.map_congr_left
  intro x _
  simp only [Function.comp, RBTree.Node.assign]
  split_ifs <;> rfl

theorem assign_zip (ptr : Nat) (key : K) (value : V) (t : Tree (RBTree.Node K V))
    (path : List (Frame (RBTree.Node K V))) :
    RBTree.assign ptr key value (zip t path) =
      zip (RBTree.assign ptr key value t) (path.map (RBTree.assignFrame ptr key value)) := by
  induction path generalizing t with
  | nil => rfl
  | cons f rest ih =>
    cases f <;> simp only [zip, Frame.plug, ih, List.map_cons, RBTree.assignFrame, RBTree.assign]

theorem owns_assign (ptr : Nat) (key : K) (value : V)
    {s : Store (RBTree.Node K V) K} {c : Cell (RBTree.Node K V)} (hc : s.cells ptr = some c)
    {t : Tree (RBTree.Node K V)} {p : Option Nat}
    (ho : Owns RBTree.Node.ptr id s.cells t p) :
    Owns RBTree.Node.ptr id
      (s.update ptr { c with data := { c.data with key := key, value := value } }).cells
      (RBTree.assign ptr key value t) p := by
  induction t generalizing p with
  | nil => trivial
  | node l x r ihl ihr =>
    obtain ⟨h1, h2, h3⟩ := ho
    have e : (RBTree.Node.assign ptr key value x).ptr = x.ptr := by
      simp only [RBTree.Node.assign]; split_ifs <;> rfl
    refine ⟨?_, ?_, ?_⟩
    · rw [e, rootAddr_assign, rootAddr_assign]
      by_cases hx : x.ptr = ptr
      · rw [hx, heap_update_self]
        rw [hx, hc, Option.some.injEq] at h1
        subst h1
        simp [RBTree.Node.assign, hx]
      · rw [heap_update_ne _ _ hx, h1]
        simp [RBTree.Node.assign, hx]
    · simpa only [e] using ihl h2
    · simpa only [e] using ihr h3

/-- The assignments `node.key = key; node.value = value` through the address
of a node of the tree. -/
theorem heap_rb_assign {s : Store (RBTree.Node K V) K} {t : Tree (RBTree.Node K V)}
    (h : Rep RBTree.Node.ptr id s t) {ptr : Nat} (hp : ptr ∈ addrs RBTree.Node.ptr t)
    (key : K) (value : V) :
    ∃ s1, s.setData ptr (fun d => { d with key := key, value := value }) = some s1 ∧
      Rep RBTree.Node.ptr id s1 (RBTree.assign ptr key value t) ∧
      Keeps (addrs RBTree.Node.ptr t) s s1 := by
  obtain ⟨c, hc, -⟩ := owns_cell_of_mem h.1 hp
  refine ⟨_, heap_setData_eq _ hc, ⟨owns_assign ptr key value hc h.1, ?_, ?_⟩,
    keeps_update s _ hp⟩
  · rw [heap_update_root, rootAddr_assign]; exact h.2.1
  · rw [addrs_assign]; exact h.2.2

theorem heap_rb_putLoop (tree : RBTree K V) (key : K) (value : V) (ptr : Nat) (fuel : Nat) :
    ∀ {s : Store (RBTree.Node K V) K} (l : Tree (RBTree.Node K V)) (x : RBTree.Node K V)
      (r : Tree (RBTree.Node K V)) (path : List (Frame (RBTree.Node K V)))
      (_ : Rep RBTree.Node.ptr id s (zip (Tree.node l x r) path))
      (_ : s.comparator = tree.comparator) {t1 : RBTree K V}
      (_ : RBTree.putLoop tree key value ptr (Tree.node l x r) path = some t1)
      (_ : 2 * (Tree.node l x r).depth + path.length < fuel)
      (_ : ptr ∉ addrs RBTree.Node.ptr (zip (Tree.node l x r) path)),
      ∃ s1, putLoop key value ptr fuel s x.ptr = some s1 ∧
        Rep RBTree.Node.ptr id s1 t1.root := by
  induction fuel with
  | zero => intro s l x r path h hcmp t1 hput hf; omega
  | succ fuel ih =>
    intro s l x r path h hcmp t1 hput hf hp
    have h1 := rep_lookup h
    have hd1 := depth_left_lt l x r
    have hd2 := depth_right_lt l x r
    unfold RBTree.putLoop at hput
    unfold putLoop
    simp only [h1, Option.some_bind, id, hcmp] at hput ⊢
    split_ifs at hput ⊢ with c1 c2
    · rw [Option.some.injEq] at hput
      subst hput
      obtain ⟨s1, e1, e2, -⟩ := rep_setData ({ x with key := key, value := value } : RBTree.Node K V)
        (fun (d : RBTree.Node K V) => { d with key := key, value := value }) h rfl rfl
      exact ⟨s1, e1, e2⟩
    · cases l with
      | nil =>
        simp only [Option.map_eq_some'] at hput
        obtain ⟨root1, hfix, rfl⟩ := hput
        obtain ⟨s1, e1, e2, -⟩ := rep_attach_left
          (⟨key, value, Color.red, ptr⟩ : RBTree.Node K V) h hp
        have k1 := rep_lookup e2
        have e2a : Rep RBTree.Node.ptr id s1 (zip (Tree.node Tree.nil
            (⟨key, value, Color.red, ptr⟩ : RBTree.Node K V) Tree.nil)
            (Frame.left x r :: path)) := e2
        obtain ⟨s2, f1, f2⟩ := heap_rb_putFix _ _ _ _ (fuel + 1) e2a hfix
          (by simp only [List.length_cons]; omega)
        refine ⟨{ s2 with size := incr32 s2.size }, ?_, rep_size _ f2⟩
        simp only [rootAddr_nil]
        rw [show (s.update ptr ⟨⟨key, value, Color.red, ptr⟩, none, none, some x.ptr⟩).setLeft
          x.ptr (some ptr) = some s1 from e1]
        simp only [Option.some_bind, k1, rootAddr_node]
        rw [show putFix (fuel + 1) s1 ptr = some s2 from f1]
        rfl
      | node ll y lr =>
        exact ih ll y lr (Frame.left x r :: path) h hcmp hput
          (by simp only [List.length_cons]; omega) hp
    · cases r with
      | nil =>
        simp only [Option.map_eq_some'] at hput
        obtain ⟨root1, hfix, rfl⟩ := hput
        obtain ⟨s1, e1, e2, -⟩ := rep_attach_right
          (⟨key, value, Color.red, ptr⟩ : RBTree.Node K V) h hp
        have k1 := rep_lookup e2
        have e2a : Rep RBTree.Node.ptr id s1 (zip (Tree.node Tree.nil
            (⟨key, value, Color.red, ptr⟩ : RBTree.Node K V) Tree.nil)
            (Frame.right l x :: path)) := e2
        obtain ⟨s2, f1, f2⟩ := heap_rb_putFix _ _ _ _ (fuel + 1) e2a hfix
          (by simp only [List.length_cons]; omega)
        refine ⟨{ s2 with size := incr32 s2.size }, ?_, rep_size _ f2⟩
        simp only [rootAddr_nil]
        rw [show (s.update ptr ⟨⟨key, value, Color.red, ptr⟩, none, none, some x.ptr⟩).setRight
          x.ptr (some ptr) = some s1 from e1]
        simp only [Option.some_bind, k1, rootAddr_node]
        rw [show putFix (fuel + 1) s1 ptr = some s2 from f1]
        rfl
      | node rl y rr =>
        exact ih rl y rr (Frame.right l x :: path) h hcmp hput
          (by simp only [List.length_cons]; omega) hp

/-- `Put` on a heap that holds a valid Red-Black tree returns, and the heap
holds the tree that `Put` of the tree model computes. -/
theorem heap_rb_put {s : Store (RBTree.Node K V) K} {t : Tree (RBTree.Node K V)}
    (h : Rep RBTree.Node.ptr id s t) (hv : RBTree.Valid t)
    (hb : RBTree.getColor t = Color.black) (key : K) (value : V) (ptr : Nat)
    (hp : ptr ∉ addrs RBTree.Node.ptr t) (fuel : Nat) (hf : 2 * t.depth < fuel) :
    ∃ s1 t1, Put fuel s key value ptr = some s1 ∧
      RBTree.Put ⟨t, s.comparator, s.size⟩ key value ptr = some t1 ∧
      Rep RBTree.Node.ptr id s1 t1.root := by
  obtain ⟨t1, ht1⟩ := RBTree.rb_put_some ⟨t, s.comparator, s.size⟩ key value ptr hv hb
  cases t with
  | nil =>
    simp only [RBTree.Put, Option.some.injEq] at ht1
    subst ht1
    refine ⟨{ (s.update ptr ⟨⟨key, value, Color.black, ptr⟩, none, none, none⟩).setRoot
        (some ptr) with size := incr32 s.size }, _, ?_, rfl,
      rep_size _ (@rep_attach_root _ _ _ RBTree.Node.ptr id s
        (⟨key, value, Color.black, ptr⟩ : RBTree.Node K V))⟩
    simp only [Put, h.2.1, rootAddr_nil]
  | node l x r =>
    have ht2 : RBTree.putLoop ⟨Tree.node l x r, s.comparator, s.size⟩ key value ptr
        (Tree.node l x r) [] = some t1 := ht1
    obtain ⟨s1, e1, e2⟩ := heap_rb_putLoop _ key value ptr fuel l x r [] h rfl ht2
      (by simpa using hf) hp
    refine ⟨s1, t1, ?_, ht1, e2⟩
    simp only [Put, h.2.1, rootAddr_node]
    exact e1

end PutRemove

end HeapRB

namespace Heap

section Splice

variable {α β K : Type} {addr : β → Nat} {dat : β → α}

/-- The address of a node is not among the nodes that stay when one of its
children takes its place. -/
theorem not_mem_after_splice {s : Store α K} {l : Tree β} {x : β} {r : Tree β}
    {path : List (Frame β)} (h : Rep addr dat s (zip (Tree.node l x r) path)) {c : Tree β}
    (hc : c = l ∨ c = r) : addr x ∉ addrs addr (zip c path) := by
  obtain ⟨-, -, -, -, -, ⟨-, -, d3, d4, -⟩, -, d7⟩ := rep_parts h
  rw [mem_addrs_zip]
  rintro (e | e)
  · rcases hc with rfl | rfl
    · exact d3 e
    · exact d4 e
  · exact d7 _ (by simp) e

end Splice

end Heap

namespace HeapRB

open Heap

section Remove

variable {K V : Type}

theorem map_ptr_of_cell {l1 l2 : List (RBTree.Node K V)}
    (h : l1.map RBTree.Node.cell = l2.map RBTree.Node.cell) :
    l1.map RBTree.Node.ptr = l2.map RBTree.Node.ptr := by
  have := congrArg (List.map Prod.fst) h
  simpa [List.map_map, Function.comp, RBTree.Node.cell] using this

theorem addrs_zip_of_cells (t : Tree (RBTree.Node K V)) {p p1 : List (Frame (RBTree.Node K V))}
    (e3 : (pathBefore p1).map RBTree.Node.cell = (pathBefore p).map RBTree.Node.cell)
    (e4 : (pathAfter p1).map RBTree.Node.cell = (pathAfter p).map RBTree.Node.cell) :
    addrs RBTree.Node.ptr (zip t p1) = addrs RBTree.Node.ptr (zip t p) := by
  rw [addrs_zip, addrs_zip, map_ptr_of_cell e3, map_ptr_of_cell e4]

theorem addrs_setColorIfPresent (c : Color) (t : Tree (RBTree.Node K V)) :
    addrs RBTree.Node.ptr (RBTree.setColorIfPresent c t) = addrs RBTree.Node.ptr t := by
  cases t with
  | nil => rfl
  | node l x r => simp [RBTree.setColorIfPresent]

/-- The end of `Remove`: the root is painted black and `size` goes down. -/
theorem heap_rb_finish {s : Store (RBTree.Node K V) K} {t : Tree (RBTree.Node K V)}
    (h : Rep RBTree.Node.ptr id s t) :
    ∃ s1, (setColorIfPresent s s.root Color.black).map
        (fun (s3 : Store (RBTree.Node K V) K) => { s3 with size := decr32 s3.size }) = some s1 ∧
      Rep RBTree.Node.ptr id s1 (RBTree.setColorIfPresent Color.black t) ∧
      ∀ u, u ∉ addrs RBTree.Node.ptr t → Cleared s u → Cleared s1 u := by
  have h0 : Rep RBTree.Node.ptr id s (zip t []) := h
  obtain ⟨s1, e1, e2, e3⟩ := heap_rb_setColorIfPresent Color.black h0
  refine ⟨{ s1 with size := decr32 s1.size }, ?_, rep_size _ e2, fun u hu hc => ?_⟩
  · rw [h.2.1, e1]; rfl
  · exact cleared_size _ (cleared_keeps e3 hu hc)

/-- The removal of a node with at most one child: the fix-up runs at the node,
then its child (or nil) takes its place. -/
theorem heap_rb_remove_at {s : Store (RBTree.Node K V) K} {l : Tree (RBTree.Node K V)}
    {x : RBTree.Node K V} {r : Tree (RBTree.Node K V)} {p : List (Frame (RBTree.Node K V))}
    (h : Rep RBTree.Node.ptr id s (zip (Tree.node l x r) p))
    (hv : RBTree.Valid (zip (Tree.node l x r) p)) (c : Tree (RBTree.Node K V))
    (hc : (l = c ∧ r = Tree.nil) ∨ (l = Tree.nil ∧ r = c)) (fuel : Nat)
    (hf : RBTree.removeFixDepth p + 1 ≤ fuel) :
    ∃ s1 s2 p1, removeFix fuel s x.ptr = some s1 ∧
      s1.cells x.ptr = some ⟨x, rootAddr RBTree.Node.ptr l, rootAddr RBTree.Node.ptr r,
        pathAddr RBTree.Node.ptr p1⟩ ∧
      Heap.replace s1 x.ptr (rootAddr RBTree.Node.ptr c) =
        some (s2, pathAddr RBTree.Node.ptr p1) ∧
      Rep RBTree.Node.ptr id s2 (zip c p1) ∧ Cleared s2 x.ptr ∧
      x.ptr ∉ addrs RBTree.Node.ptr (zip c p1) ∧
      ∀ a ∈ addrs RBTree.Node.ptr (zip (Tree.node l x r) p),
        a ∉ addrs RBTree.Node.ptr (zip c p1) → a = x.ptr := by
  obtain ⟨-, hpath⟩ := @RBTree.rb_zip_valid_inv _ _ (Tree.node l x r) p hv
  have hpath1 : RBTree.PathOK p (RBTree.bh l + RBTree.blackUnit
      (RBTree.getColor (Tree.node l x r))) (RBTree.getColor (Tree.node l x r)) := hpath
  obtain ⟨p1, e1, -, e3, e4⟩ := RBTree.removeFixAux_spec (RBTree.removeFixDepth p + 1)
    (Tree.node l x r) p (RBTree.bh l) (Nat.lt_succ_self _) hpath1
  obtain ⟨s1, f1, f2⟩ := heap_rb_removeFix _ l x r p h e1 fuel hf
  have haddr := addrs_zip_of_cells (Tree.node l x r) e3 e4
  have k1 := rep_lookup f2
  rcases hc with ⟨rfl, rfl⟩ | ⟨rfl, rfl⟩
  · obtain ⟨s2, g1, g2, g3, -⟩ := rep_replace_left f2
    refine ⟨s1, s2, p1, f1, k1, g1, g2, g3, not_mem_after_splice f2 (Or.inl rfl),
      fun a ha hn => ?_⟩
    rw [← haddr] at ha
    exact mem_left_out (x := x) (fun b hb => by
      simp only [addrs_node, addrs_nil, List.mem_append, List.mem_cons, List.not_mem_nil,
        or_false] at hb ⊢
      tauto) ha hn
  · obtain ⟨s2, g1, g2, g3, -⟩ := rep_replace_right f2
    refine ⟨s1, s2, p1, f1, k1, g1, g2, g3, not_mem_after_splice f2 (Or.inr rfl),
      fun a ha hn => ?_⟩
    rw [← haddr] at ha
    exact mem_left_out (fun b hb => by simpa using hb) ha hn

/-- `Remove` on a heap that holds a valid Red-Black tree returns, the heap
holds a tree afterwards, and every node that left the tree has its three links
nil. -/
theorem heap_rb_remove {s : Store (RBTree.Node K V) K} {t : Tree (RBTree.Node K V)}
    (h : Rep RBTree.Node.ptr id s t) (hv : RBTree.Valid t) (key : K) (fuel : Nat)
    (hf : 2 * t.count + 1 ≤ fuel) :
    ∃ s1 t1, Remove fuel s key = some s1 ∧ Rep RBTree.Node.ptr id s1 t1 ∧
      ∀ a ∈ addrs RBTree.Node.ptr t, a ∉ addrs RBTree.Node.ptr t1 → Cleared s1 a := by
  have hdepth : t.depth < fuel := by
    have := depth_le_count t
    omega
  have hg := @heap_getLoop_eq _ _ _ RBTree.Node.ptr id s s.comparator RBTree.Node.key
    RBTree.Node.key (fun _ => rfl) rfl key t [] h fuel hdepth
  have hz := @getLoop_zip _ _ s.comparator RBTree.Node.key key t []
  generalize Structo.getLoop s.comparator RBTree.Node.key key t [] = loc at hg hz
  obtain ⟨node, p⟩ := loc
  simp only [zip] at hz hg
  subst hz
  rw [← h.2.1] at hg
  cases node with
  | nil =>
    refine ⟨s, _, ?_, h, fun a ha hn => absurd ha hn⟩
    simp only [Remove, hg, rootAddr_nil, Option.some_bind]
  | node l x r =>
    have h1 := rep_lookup h
    have hcount := count_zip (Tree.node l x r) p
    have hfd : RBTree.removeFixDepth p + 1 ≤ fuel := by
      have := removeFixDepth_le p
      simp only [Tree.count] at hcount
      omega
    cases l with
    | nil =>
      obtain ⟨s1, s2, p1, e1, e2, e3, e4, e5, e6, e7⟩ :=
        heap_rb_remove_at h hv r (Or.inr ⟨rfl, rfl⟩) fuel hfd
      obtain ⟨s3, g1, g2, g3⟩ := heap_rb_finish e4
      refine ⟨s3, _, ?_, g2, fun a ha hn => ?_⟩
      · cases r with
        | nil =>
          simp only [rootAddr_nil] at e3
          simp only [Remove, hg, rootAddr_node, rootAddr_nil, Option.some_bind, h1, e1, e3]
          exact g1
        | node rl y rr =>
          simp only [rootAddr_node] at e2 e3
          simp only [Remove, hg, rootAddr_node, rootAddr_nil, Option.some_bind, h1, e1, e2, e3]
          exact g1
      · rw [addrs_setColorIfPresent] at hn
        rw [e7 a ha hn]
        exact g3 _ e6 e5
    | node ll y lr =>
      cases r with
      | nil =>
        obtain ⟨s1, s2, p1, e1, e2, e3, e4, e5, e6, e7⟩ :=
          heap_rb_remove_at h hv (Tree.node ll y lr) (Or.inl ⟨rfl, rfl⟩) fuel hfd
        obtain ⟨s3, g1, g2, g3⟩ := heap_rb_finish e4
        refine ⟨s3, _, ?_, g2, fun a ha hn => ?_⟩
        · simp only [rootAddr_node] at e2 e3
          simp only [Remove, hg, rootAddr_node, rootAddr_nil, Option.some_bind, h1, e1, e2, e3]
          exact g1
        · rw [addrs_setColorIfPresent] at hn
          rw [e7 a ha hn]
          exact g3 _ e6 e5
      | node rl z rr =>
        obtain ⟨nx, nr, m1, m2, -, -⟩ :=
          minLoop_spec rl z rr (Frame.right (Tree.node ll y lr) x :: p)
        have hm := heap_minLoop_eq rl z rr (Frame.right (Tree.node ll y lr) x :: p) h fuel
          (lt_of_le_of_lt (le_trans (Nat.le_of_lt (depth_right_lt _ x _)) (depth_le_zip _ p))
            hdepth)
        generalize Structo.minLoop (Tree.node rl z rr)
          (Frame.right (Tree.node ll y lr) x :: p) = next at m1 m2 hm
        obtain ⟨nnode, q⟩ := next
        simp only at m1 m2 hm
        subst m1
        simp only [rootAddr_node, Option.map_eq_some', Option.some.injEq] at hm
        obtain ⟨a0, hm1, hm2⟩ := hm
        subst hm2
        have hz : zip (Tree.node Tree.nil nx nr) q =
            zip (Tree.node (Tree.node ll y lr) x (Tree.node rl z rr)) p := m2
        have h' : Rep RBTree.Node.ptr id s (zip (Tree.node Tree.nil nx nr) q) := by
          rw [hz]; exact h
        have hv' : RBTree.Valid (zip (Tree.node Tree.nil nx nr) q) := by
          rw [hz]; exact hv
        obtain ⟨-, hq⟩ := @RBTree.rb_zip_valid_inv _ _ (Tree.node Tree.nil nx nr) q hv'
        obtain ⟨p1, e1, -, e3, e4⟩ := RBTree.removeFixAux_spec (RBTree.removeFixDepth q + 1)
          (Tree.node Tree.nil nx nr) q 0 (Nat.lt_succ_self _) (by simpa using hq)
        have hfq : RBTree.removeFixDepth q + 1 ≤ fuel := by
          have := removeFixDepth_le q
          have hc2 := count_zip (Tree.node Tree.nil nx nr) q
          rw [hz] at hc2
          simp only [Tree.count] at hc2
          omega
        obtain ⟨s1, f1, f2⟩ := heap_rb_removeFix _ Tree.nil nx nr q h' e1 fuel hfq
        have haddr := addrs_zip_of_cells (Tree.node Tree.nil nx nr) e3 e4
        have k1 := rep_lookup f2
        have hx : x.ptr ∈ addrs RBTree.Node.ptr (zip (Tree.node Tree.nil nx nr) p1) := by
          rw [haddr, hz, mem_addrs_zip]
          exact Or.inl (by simp)
        obtain ⟨s2, g1, g2, -⟩ := heap_rb_assign f2 hx nx.key nx.value
        have hadd2 := addrs_assign x.ptr nx.key nx.value (zip (Tree.node Tree.nil nx nr) p1)
        rw [assign_zip] at g2 hadd2
        have hnp : (RBTree.Node.assign x.ptr nx.key nx.value nx).ptr = nx.ptr := by
          simp only [RBTree.Node.assign]; split_ifs <;> rfl
        have g2a : Rep RBTree.Node.ptr id s2 (zip (Tree.node Tree.nil
            (RBTree.Node.assign x.ptr nx.key nx.value nx) (RBTree.assign x.ptr nx.key nx.value nr))
            (p1.map (RBTree.assignFrame x.ptr nx.key nx.value))) := g2
        have k2 := rep_lookup g2a
        rw [hnp] at k2
        obtain ⟨s3, r1, r2, r3, -⟩ := rep_replace_right g2a
        rw [hnp] at r1 r3
        obtain ⟨s4, w1, w2, w3⟩ := heap_rb_finish r2
        refine ⟨s4, _, ?_, w2, fun a ha hn => ?_⟩
        · simp only [Remove, hg, rootAddr_node, Option.some_bind, h1, hm1, f1, k1, id, g1, k2,
            r1]
          exact w1
        · rw [addrs_setColorIfPresent] at hn
          rw [← hz, ← haddr] at ha
          have ha2 : a ∈ addrs RBTree.Node.ptr (zip (Tree.node Tree.nil
              (RBTree.Node.assign x.ptr nx.key nx.value nx)
              (RBTree.assign x.ptr nx.key nx.value nr))
              (p1.map (RBTree.assignFrame x.ptr nx.key nx.value))) := by
            rw [show Tree.node Tree.nil (RBTree.Node.assign x.ptr nx.key nx.value nx)
              (RBTree.assign x.ptr nx.key nx.value nr) =
              RBTree.assign x.ptr nx.key nx.value (Tree.node Tree.nil nx nr) from rfl, hadd2]
            exact ha
          have ha3 := mem_left_out (fun b hb => by simpa using hb) ha2 hn
          rw [ha3, hnp]
          refine w3 _ ?_ r3
          have := not_mem_after_splice g2a
            (c := RBTree.assign x.ptr nx.key nx.value nr) (Or.inr rfl)
          rwa [hnp] at this

end Remove

end HeapRB

namespace HeapAVL

open Heap

section Primitives

variable {K V : Type}

theorem heap_avl_getHeight {s : Store (AVLTree.Node K V) K} {t : Tree (AVLTree.Node K (Nat × V))}
    {path : List (Frame (AVLTree.Node K (Nat × V)))} (h : Rep addr dat s (zip t path)) :
    getHeight s (rootAddr addr t) = some (AVLTree.getHeight t) := by
  cases t with
  | nil => rfl
  | node l x r =>
    have h1 := rep_lookup h
    simp only [getHeight, rootAddr_node, h1, Option.map_some', AVLTree.getHeight, dat]

theorem heap_avl_getBalance {s : Store (AVLTree.Node K V) K}
    {t : Tree (AVLTree.Node K (Nat × V))} {path : List (Frame (AVLTree.Node K (Nat × V)))}
    (h : Rep addr dat s (zip t path)) :
    getBalance s (rootAddr addr t) = AVLTree.getBalance t := by
  cases t with
  | nil => rfl
  | node l x r =>
    have h1 := rep_lookup h
    have hl : Rep addr dat s (zip l (Frame.left x r :: path)) := h
    have hr : Rep addr dat s (zip r (Frame.right l x :: path)) := h
    simp only [getBalance, rootAddr_node, h1, Option.some_bind, heap_avl_getHeight hl,
      heap_avl_getHeight hr, Option.map_some', AVLTree.getBalance]

theorem heap_avl_calcHeight {s : Store (AVLTree.Node K V) K}
    {l : Tree (AVLTree.Node K (Nat × V))} {x : AVLTree.Node K (Nat × V)}
    {r : Tree (AVLTree.Node K (Nat × V))} {path : List (Frame (AVLTree.Node K (Nat × V)))}
    (h : Rep addr dat s (zip (Tree.node l x r) path)) :
    ∃ s1, calcHeight s (some (addr x)) = some s1 ∧
      Rep addr dat s1 (zip (Tree.node l
        { x with height := incr32 (Max.max (AVLTree.getHeight l) (AVLTree.getHeight r)) } r)
        path) ∧
      Keeps (addrs addr (zip (Tree.node l x r) path)) s s1 := by
  have h1 := rep_lookup h
  have hl : Rep addr dat s (zip l (Frame.left x r :: path)) := h
  have hr : Rep addr dat s (zip r (Frame.right l x :: path)) := h
  obtain ⟨s1, e1, e2, e3⟩ := rep_setData
    ({ x with height := incr32 (Max.max (AVLTree.getHeight l) (AVLTree.getHeight r)) } :
      AVLTree.Node K (Nat × V))
    (fun (d : AVLTree.Node K V) =>
      { d with height := incr32 (Max.max (AVLTree.getHeight l) (AVLTree.getHeight r)) })
    h rfl rfl
  refine ⟨s1, ?_, e2, e3⟩
  simp only [calcHeight, h1, Option.some_bind, heap_avl_getHeight hl, heap_avl_getHeight hr]
  exact e1

theorem avl_rotateLeft_eq (l : Tree (AVLTree.Node K V)) (x : AVLTree.Node K V)
    (cl : Tree (AVLTree.Node K V)) (y : AVLTree.Node K V) (cr : Tree (AVLTree.Node K V)) :
    AVLTree.rotateLeft (Tree.node l x (Tree.node cl y cr)) =
      some (Tree.node
        (Tree.node l { x with height := incr32 (Max.max (AVLTree.getHeight l)
          (AVLTree.getHeight cl)) } cl)
        { y with height := incr32 (Max.max (incr32 (Max.max (AVLTree.getHeight l)
          (AVLTree.getHeight cl))) (AVLTree.getHeight cr)) } cr) := rfl

theorem avl_rotateRight_eq (cl : Tree (AVLTree.Node K V)) (y : AVLTree.Node K V)
    (cr : Tree (AVLTree.Node K V)) (x : AVLTree.Node K V) (r : Tree (AVLTree.Node K V)) :
    AVLTree.rotateRight (Tree.node (Tree.node cl y cr) x r) =
      some (Tree.node cl
        { y with height := incr32 (Max.max (AVLTree.getHeight cl)
          (incr32 (Max.max (AVLTree.getHeight cr) (AVLTree.getHeight r)))) }
        (Tree.node cr { x with height := incr32 (Max.max (AVLTree.getHeight cr)
          (AVLTree.getHeight r)) } r)) := rfl

/-- The method `rotateLeft` on the heap does what `rotateLeft` does on the
tree, and returns the child that came up. -/
theorem heap_avl_rotateLeft {s : Store (AVLTree.Node K V) K}
    {l : Tree (AVLTree.Node K (Nat × V))} {x : AVLTree.Node K (Nat × V)}
    {cl : Tree (AVLTree.Node K (Nat × V))} {y : AVLTree.Node K (Nat × V)}
    {cr : Tree (AVLTree.Node K (Nat × V))} {path : List (Frame (AVLTree.Node K (Nat × V)))}
    (h : Rep addr dat s (zip (Tree.node l x (Tree.node cl y cr)) path)) :
    ∃ s1 t1, rotateLeft s (addr x) = some (s1, addr y) ∧
      AVLTree.rotateLeft (Tree.node l x (Tree.node cl y cr)) = some t1 ∧
      rootAddr addr t1 = some (addr y) ∧
      Rep addr dat s1 (zip t1 path) ∧
      Keeps (addrs addr (zip (Tree.node l x (Tree.node cl y cr)) path)) s s1 ∧
      addrs addr (zip t1 path) = addrs addr (zip (Tree.node l x (Tree.node cl y cr)) path) := by
  have h1 := rep_lookup h
  obtain ⟨s1, e1, e2, e3⟩ := rep_rotateLeft h
  have e2a : Rep addr dat s1 (zip (Tree.node l x cl) (Frame.left y cr :: path)) := e2
  obtain ⟨s2, f1, f2, f3⟩ := heap_avl_calcHeight e2a
  have k1 := rep_lookup f2
  have f2a : Rep addr dat s2 (zip (Tree.node (Tree.node l
      { x with height := incr32 (Max.max (AVLTree.getHeight l) (AVLTree.getHeight cl)) } cl)
      y cr) path) := f2
  obtain ⟨s3, g1, g2, g3⟩ := heap_avl_calcHeight f2a
  have hadd : ∀ (a b : Tree (AVLTree.Node K (Nat × V))), addrs addr a = addrs addr b →
      addrs addr (zip a path) = addrs addr (zip b path) := fun a b e => addrs_zip_congr path e
  have ha1 : addrs addr (zip (Tree.node (Tree.node l x cl) y cr) path) =
      addrs addr (zip (Tree.node l x (Tree.node cl y cr)) path) := hadd _ _ (by simp)
  refine ⟨s3, _, ?_, avl_rotateLeft_eq _ _ _ _ _, rfl, g2, ?_, ?_⟩
  · simp only [rotateLeft, h1, rootAddr_node, Option.some_bind, e1]
    rw [show calcHeight s1 (some (addr x)) = some s2 from f1]
    simp only [Option.some_bind]
    rw [show s2.cells (addr x) = _ from k1]
    simp only [Option.some_bind, pathAddr_left]
    rw [show calcHeight s2 (some (addr y)) = some s3 from g1]
    rfl
  · have k12 : Keeps (addrs addr (zip (Tree.node l x (Tree.node cl y cr)) path)) s1 s2 := by
      rw [← ha1]; exact f3
    have k23 : Keeps (addrs addr (zip (Tree.node l x (Tree.node cl y cr)) path)) s2 s3 := by
      have : addrs addr (zip (Tree.node (Tree.node l
          { x with height := incr32 (Max.max (AVLTree.getHeight l) (AVLTree.getHeight cl)) } cl)
          y cr) path) = addrs addr (zip (Tree.node l x (Tree.node cl y cr)) path) :=
        hadd _ _ (by simp [addr])
      rw [← this]; exact g3
    exact keeps_trans e3 (keeps_trans k12 k23)
  · exact hadd _ _ (by simp [addr])

/-- The method `rotateRight` on the heap does what `rotateRight` does on the
tree, and returns the child that came up. -/
theorem heap_avl_rotateRight {s : Store (AVLTree.Node K V) K}
    {cl : Tree (AVLTree.Node K (Nat × V))} {y : AVLTree.Node K (Nat × V)}
    {cr : Tree (AVLTree.Node K (Nat × V))} {x : AVLTree.Node K (Nat × V)}
    {r : Tree (AVLTree.Node K (Nat × V))} {path : List (Frame (AVLTree.Node K (Nat × V)))}
    (h : Rep addr dat s (zip (Tree.node (Tree.node cl y cr) x r) path)) :
    ∃ s1 t1, rotateRight s (addr x) = some (s1, addr y) ∧
      AVLTree.rotateRight (Tree.node (Tree.node cl y cr) x r) = some t1 ∧
      rootAddr addr t1 = some (addr y) ∧
      Rep addr dat s1 (zip t1 path) ∧
      Keeps (addrs addr (zip (Tree.node (Tree.node cl y cr) x r) path)) s s1 ∧
      addrs addr (zip t1 path) = addrs addr (zip (Tree.node (Tree.node cl y cr) x r) path) := by
  have h1 := rep_lookup h
  obtain ⟨s1, e1, e2, e3⟩ := rep_rotateRight h
  have e2a : Rep addr dat s1 (zip (Tree.node cr x r) (Frame.right cl y :: path)) := e2
  obtain ⟨s2, f1, f2, f3⟩ := heap_avl_calcHeight e2a
  have k1 := rep_lookup f2
  have f2a : Rep addr dat s2 (zip (Tree.node cl y (Tree.node cr
      { x with height := incr32 (Max.max (AVLTree.getHeight cr) (AVLTree.getHeight r)) } r))
      path) := f2
  obtain ⟨s3, g1, g2, g3⟩ := heap_avl_calcHeight f2a
  have hadd : ∀ (a b : Tree (AVLTree.Node K (Nat × V))), addrs addr a = addrs addr b →
      addrs addr (zip a path) = addrs addr (zip b path) := fun a b e => addrs_zip_congr path e
  have ha1 : addrs addr (zip (Tree.node cl y (Tree.node cr x r)) path) =
      addrs addr (zip (Tree.node (Tree.node cl y cr) x r) path) := hadd _ _ (by simp)
  refine ⟨s3, _, ?_, avl_rotateRight_eq _ _ _ _ _, rfl, g2, ?_, ?_⟩
  · simp only [rotateRight, h1, rootAddr_node, Option.some_bind, e1]
    rw [show calcHeight s1 (some (addr x)) = some s2 from f1]
    simp only [Option.some_bind]
    rw [show s2.cells (addr x) = _ from k1]
    simp only [Option.some_bind, pathAddr_right]
    rw [show calcHeight s2 (some (addr y)) = some s3 from g1]
    rfl
  · have k12 : Keeps (addrs addr (zip (Tree.node (Tree.node cl y cr) x r) path)) s1 s2 := by
      rw [← ha1]; exact f3
    have k23 : Keeps (addrs addr (zip (Tree.node (Tree.node cl y cr) x r) path)) s2 s3 := by
      have : addrs addr (zip (Tree.node cl y (Tree.node cr
          { x with height := incr32 (Max.max (AVLTree.getHeight cr) (AVLTree.getHeight r)) } r))
          path) = addrs addr (zip (Tree.node (Tree.node cl y cr) x r) path) :=
        hadd _ _ (by simp [addr])
      rw [← this]; exact g3
    exact keeps_trans e3 (keeps_trans k12 k23)
  · exact hadd _ _ (by simp [addr])

end Primitives

end HeapAVL

namespace HeapAVL

open Heap

section Steps

variable {K V : Type}

/-- The double rotation of the left-right case on the heap. -/
theorem heap_avl_rotateLeftRight {s : Store (AVLTree.Node K V) K}
    {ll : Tree (AVLTree.Node K (Nat × V))} {y : AVLTree.Node K (Nat × V)}
    {a : Tree (AVLTree.Node K (Nat × V))} {z : AVLTree.Node K (Nat × V)}
    {b : Tree (AVLTree.Node K (Nat × V))} {x : AVLTree.Node K (Nat × V)}
    {r : Tree (AVLTree.Node K (Nat × V))} {path : List (Frame (AVLTree.Node K (Nat × V)))}
    (h : Rep addr dat s (zip (Tree.node (Tree.node ll y (Tree.node a z b)) x r) path)) :
    ∃ s1 s2 l1 t1, rotateLeft s (addr y) = some (s1, addr z) ∧
      rotateRight s1 (addr x) = some (s2, addr z) ∧
      AVLTree.rotateLeft (Tree.node ll y (Tree.node a z b)) = some l1 ∧
      AVLTree.rotateRight (Tree.node l1 x r) = some t1 ∧
      rootAddr addr t1 = some (addr z) ∧
      Rep addr dat s2 (zip t1 path) ∧
      Keeps (addrs addr (zip (Tree.node (Tree.node ll y (Tree.node a z b)) x r) path)) s s2 ∧
      addrs addr (zip t1 path) =
        addrs addr (zip (Tree.node (Tree.node ll y (Tree.node a z b)) x r) path) := by
  have hl : Rep addr dat s (zip (Tree.node ll y (Tree.node a z b)) (Frame.left x r :: path)) := h
  obtain ⟨s1, l1, e1, e2, _, e4, e5, e6⟩ := heap_avl_rotateLeft hl
  have hl1 := Option.some.inj (e2.symm.trans (avl_rotateLeft_eq ll y a z b))
  subst hl1
  have h2 : Rep addr dat s1 (zip (Tree.node (Tree.node (Tree.node ll
      { y with height := incr32 (Max.max (AVLTree.getHeight ll) (AVLTree.getHeight a)) } a)
      { z with height := incr32 (Max.max (incr32 (Max.max (AVLTree.getHeight ll)
          (AVLTree.getHeight a))) (AVLTree.getHeight b)) } b) x r) path) := e4
  obtain ⟨s2, t1, f1, f2, f3, f4, f5, f6⟩ := heap_avl_rotateRight h2
  have e6a : addrs addr (zip (Tree.node (Tree.node (Tree.node ll
      { y with height := incr32 (Max.max (AVLTree.getHeight ll) (AVLTree.getHeight a)) } a)
      { z with height := incr32 (Max.max (incr32 (Max.max (AVLTree.getHeight ll)
          (AVLTree.getHeight a))) (AVLTree.getHeight b)) } b) x r) path) =
      addrs addr (zip (Tree.node (Tree.node ll y (Tree.node a z b)) x r) path) := e6
  refine ⟨s1, s2, _, t1, e1, f1, avl_rotateLeft_eq ll y a z b, f2, f3, f4, ?_, f6.trans e6a⟩
  have k1 : Keeps (addrs addr (zip (Tree.node (Tree.node ll y (Tree.node a z b)) x r) path))
      s s1 := e5
  have k2 : Keeps (addrs addr (zip (Tree.node (Tree.node ll y (Tree.node a z b)) x r) path))
      s1 s2 := by
    rw [← e6a]; exact f5
  exact keeps_trans k1 k2

/-- The double rotation of the right-left case on the heap. -/
theorem heap_avl_rotateRightLeft {s : Store (AVLTree.Node K V) K}
    {l : Tree (AVLTree.Node K (Nat × V))} {x : AVLTree.Node K (Nat × V)}
    {a : Tree (AVLTree.Node K (Nat × V))} {z : AVLTree.Node K (Nat × V)}
    {b : Tree (AVLTree.Node K (Nat × V))} {y : AVLTree.Node K (Nat × V)}
    {rr : Tree (AVLTree.Node K (Nat × V))} {path : List (Frame (AVLTree.Node K (Nat × V)))}
    (h : Rep addr dat s (zip (Tree.node l x (Tree.node (Tree.node a z b) y rr)) path)) :
    ∃ s1 s2 r1 t1, rotateRight s (addr y) = some (s1, addr z) ∧
      rotateLeft s1 (addr x) = some (s2, addr z) ∧
      AVLTree.rotateRight (Tree.node (Tree.node a z b) y rr) = some r1 ∧
      AVLTree.rotateLeft (Tree.node l x r1) = some t1 ∧
      rootAddr addr t1 = some (addr z) ∧
      Rep addr dat s2 (zip t1 path) ∧
      Keeps (addrs addr (zip (Tree.node l x (Tree.node (Tree.node a z b) y rr)) path)) s s2 ∧
      addrs addr (zip t1 path) =
        addrs addr (zip (Tree.node l x (Tree.node (Tree.node a z b) y rr)) path) := by
  have hr : Rep addr dat s (zip (Tree.node (Tree.node a z b) y rr) (Frame.right l x :: path)) := h
  obtain ⟨s1, r1, e1, e2, _, e4, e5, e6⟩ := heap_avl_rotateRight hr
  have hr1 := Option.some.inj (e2.symm.trans (avl_rotateRight_eq a z b y rr))
  subst hr1
  have h2 : Rep addr dat s1 (zip (Tree.node l x (Tree.node a
      { z with height := incr32 (Max.max (AVLTree.getHeight a)
          (incr32 (Max.max (AVLTree.getHeight b) (AVLTree.getHeight rr)))) }
      (Tree.node b { y with height := incr32 (Max.max (AVLTree.getHeight b)
          (AVLTree.getHeight rr)) } rr))) path) := e4
  obtain ⟨s2, t1, f1, f2, f3, f4, f5, f6⟩ := heap_avl_rotateLeft h2
  have e6a : addrs addr (zip (Tree.node l x (Tree.node a
      { z with height := incr32 (Max.max (AVLTree.getHeight a)
          (incr32 (Max.max (AVLTree.getHeight b) (AVLTree.getHeight rr)))) }
      (Tree.node b { y with height := incr32 (Max.max (AVLTree.getHeight b)
          (AVLTree.getHeight rr)) } rr))) path) =
      addrs addr (zip (Tree.node l x (Tree.node (Tree.node a z b) y rr)) path) := e6
  refine ⟨s1, s2, _, t1, e1, f1, avl_rotateRight_eq a z b y rr, f2, f3, f4, ?_, f6.trans e6a⟩
  have k1 : Keeps (addrs addr (zip (Tree.node l x (Tree.node (Tree.node a z b) y rr)) path))
      s s1 := e5
  have k2 : Keeps (addrs addr (zip (Tree.node l x (Tree.node (Tree.node a z b) y rr)) path))
      s1 s2 := by
    rw [← e6a]; exact f5
  exact keeps_trans k1 k2

end Steps

end HeapAVL

namespace HeapAVL

open Heap

section Branches

variable {K V : Type}

theorem heap_avl_branch_LL {s : Store (AVLTree.Node K V) K}
    {l : Tree (AVLTree.Node K (Nat × V))} {x : AVLTree.Node K (Nat × V)}
    {r : Tree (AVLTree.Node K (Nat × V))} {path : List (Frame (AVLTree.Node K (Nat × V)))}
    {n1 : Tree (AVLTree.Node K (Nat × V))}
    (h : Rep addr dat s (zip (Tree.node l x r) path))
    (hstep : (if l.isNil = true ∨ l.left.isNil = true then none
      else AVLTree.rotateRight (Tree.node l x r)) = some n1) :
    ∃ s1 a1, ((hasGrandchild s (rootAddr addr l) Cell.left).bind fun ok =>
        if ok = false then none else rotateRight s (addr x)) = some (s1, a1) ∧
      rootAddr addr n1 = some a1 ∧ Rep addr dat s1 (zip n1 path) ∧
      Keeps (addrs addr (zip (Tree.node l x r) path)) s s1 ∧
      addrs addr (zip n1 path) = addrs addr (zip (Tree.node l x r) path) := by
  cases l with
  | nil => simp [Tree.isNil] at hstep
  | node ll y lr =>
    cases ll with
    | nil => simp [Tree.isNil, Tree.left] at hstep
    | node a z b =>
      have hl : Rep addr dat s (zip (Tree.node (Tree.node a z b) y lr)
        (Frame.left x r :: path)) := h
      have hl1 := rep_lookup hl
      simp only [Tree.isNil, Tree.left, or_self, Bool.false_eq_true, if_false] at hstep
      obtain ⟨s1, t1, e1, e2, e3, e4, e5, e6⟩ := heap_avl_rotateRight h
      have ht := Option.some.inj (e2.symm.trans hstep)
      subst ht
      refine ⟨s1, _, ?_, e3, e4, e5, e6⟩
      simp only [hasGrandchild, rootAddr_node, hl1, Option.map_some', Option.some_bind,
        Option.isSome_some, Bool.true_eq_false, if_false, e1]

theorem heap_avl_branch_RR {s : Store (AVLTree.Node K V) K}
    {l : Tree (AVLTree.Node K (Nat × V))} {x : AVLTree.Node K (Nat × V)}
    {r : Tree (AVLTree.Node K (Nat × V))} {path : List (Frame (AVLTree.Node K (Nat × V)))}
    {n1 : Tree (AVLTree.Node K (Nat × V))}
    (h : Rep addr dat s (zip (Tree.node l x r) path))
    (hstep : (if r.isNil = true ∨ r.right.isNil = true then none
      else AVLTree.rotateLeft (Tree.node l x r)) = some n1) :
    ∃ s1 a1, ((hasGrandchild s (rootAddr addr r) Cell.right).bind fun ok =>
        if ok = false then none else rotateLeft s (addr x)) = some (s1, a1) ∧
      rootAddr addr n1 = some a1 ∧ Rep addr dat s1 (zip n1 path) ∧
      Keeps (addrs addr (zip (Tree.node l x r) path)) s s1 ∧
      addrs addr (zip n1 path) = addrs addr (zip (Tree.node l x r) path) := by
  cases r with
  | nil => simp [Tree.isNil] at hstep
  | node rl y rr =>
    cases rr with
    | nil => simp [Tree.isNil, Tree.right] at hstep
    | node a z b =>
      have hr : Rep addr dat s (zip (Tree.node rl y (Tree.node a z b))
        (Frame.right l x :: path)) := h
      have hr1 := rep_lookup hr
      simp only [Tree.isNil, Tree.right, or_self, Bool.false_eq_true, if_false] at hstep
      obtain ⟨s1, t1, e1, e2, e3, e4, e5, e6⟩ := heap_avl_rotateLeft h
      have ht := Option.some.inj (e2.symm.trans hstep)
      subst ht
      refine ⟨s1, _, ?_, e3, e4, e5, e6⟩
      simp only [hasGrandchild, rootAddr_node, hr1, Option.map_some', Option.some_bind,
        Option.isSome_some, Bool.true_eq_false, if_false, e1]

theorem heap_avl_branch_LR {s : Store (AVLTree.Node K V) K}
    {l : Tree (AVLTree.Node K (Nat × V))} {x : AVLTree.Node K (Nat × V)}
    {r : Tree (AVLTree.Node K (Nat × V))} {path : List (Frame (AVLTree.Node K (Nat × V)))}
    {n1 : Tree (AVLTree.Node K (Nat × V))}
    (h : Rep addr dat s (zip (Tree.node l x r) path))
    (hstep : (if l.isNil = true ∨ l.right.isNil = true then none
      else (AVLTree.rotateLeft l).bind fun l1 => AVLTree.rotateRight (Tree.node l1 x r)) =
        some n1) :
    ∃ s1 a1, ((hasGrandchild s (rootAddr addr l) Cell.right).bind fun ok =>
        if ok = false then none
        else
          match rootAddr addr l with
          | none => none
          | some c => (rotateLeft s c).bind fun r1 => rotateRight r1.1 (addr x)) =
          some (s1, a1) ∧
      rootAddr addr n1 = some a1 ∧ Rep addr dat s1 (zip n1 path) ∧
      Keeps (addrs addr (zip (Tree.node l x r) path)) s s1 ∧
      addrs addr (zip n1 path) = addrs addr (zip (Tree.node l x r) path) := by
  cases l with
  | nil => simp [Tree.isNil] at hstep
  | node ll y lr =>
    cases lr with
    | nil => simp [Tree.isNil, Tree.right] at hstep
    | node a z b =>
      have hl : Rep addr dat s (zip (Tree.node ll y (Tree.node a z b))
        (Frame.left x r :: path)) := h
      have hl1 := rep_lookup hl
      simp only [Tree.isNil, Tree.right, or_self, Bool.false_eq_true, if_false] at hstep
      obtain ⟨s1, s2, l1, t1, e1, f1, e2, f2, e3, e4, e5, e6⟩ := heap_avl_rotateLeftRight h
      rw [e2, Option.some_bind, f2] at hstep
      have ht := Option.some.inj hstep
      subst ht
      refine ⟨s2, _, ?_, e3, e4, e5, e6⟩
      simp only [hasGrandchild, rootAddr_node, hl1, Option.map_some', Option.some_bind,
        Option.isSome_some, Bool.true_eq_false, if_false, e1, f1]

theorem heap_avl_branch_RL {s : Store (AVLTree.Node K V) K}
    {l : Tree (AVLTree.Node K (Nat × V))} {x : AVLTree.Node K (Nat × V)}
    {r : Tree (AVLTree.Node K (Nat × V))} {path : List (Frame (AVLTree.Node K (Nat × V)))}
    {n1 : Tree (AVLTree.Node K (Nat × V))}
    (h : Rep addr dat s (zip (Tree.node l x r) path))
    (hstep : (if r.isNil = true ∨ r.left.isNil = true then none
      else (AVLTree.rotateRight r).bind fun r1 => AVLTree.rotateLeft (Tree.node l x r1)) =
        some n1) :
    ∃ s1 a1, ((hasGrandchild s (rootAddr addr r) Cell.left).bind fun ok =>
        if ok = false then none
        else
          match rootAddr addr r with
          | none => none
          | some c => (rotateRight s c).bind fun r1 => rotateLeft r1.1 (addr x)) =
          some (s1, a1) ∧
      rootAddr addr n1 = some a1 ∧ Rep addr dat s1 (zip n1 path) ∧
      Keeps (addrs addr (zip (Tree.node l x r) path)) s s1 ∧
      addrs addr (zip n1 path) = addrs addr (zip (Tree.node l x r) path) := by
  cases r with
  | nil => simp [Tree.isNil] at hstep
  | node rl y rr =>
    cases rl with
    | nil => simp [Tree.isNil, Tree.left] at hstep
    | node a z b =>
      have hr : Rep addr dat s (zip (Tree.node (Tree.node a z b) y rr)
        (Frame.right l x :: path)) := h
      have hr1 := rep_lookup hr
      simp only [Tree.isNil, Tree.left, or_self, Bool.false_eq_true, if_false] at hstep
      obtain ⟨s1, s2, r1, t1, e1, f1, e2, f2, e3, e4, e5, e6⟩ := heap_avl_rotateRightLeft h
      rw [e2, Option.some_bind, f2] at hstep
      have ht := Option.some.inj hstep
      subst ht
      refine ⟨s2, _, ?_, e3, e4, e5, e6⟩
      simp only [hasGrandchild, rootAddr_node, hr1, Option.map_some', Option.some_bind,
        Option.isSome_some, Bool.true_eq_false, if_false, e1, f1]

theorem heap_avl_branch_calc {s : Store (AVLTree.Node K V) K}
    {l : Tree (AVLTree.Node K (Nat × V))} {x : AVLTree.Node K (Nat × V)}
    {r : Tree (AVLTree.Node K (Nat × V))} {path : List (Frame (AVLTree.Node K (Nat × V)))}
    {n1 : Tree (AVLTree.Node K (Nat × V))}
    (h : Rep addr dat s (zip (Tree.node l x r) path))
    (hstep : AVLTree.calcHeight (Tree.node l x r) = some n1) :
    ∃ s1 a1, ((calcHeight s (some (addr x))).map fun s1 => (s1, addr x)) = some (s1, a1) ∧
      rootAddr addr n1 = some a1 ∧ Rep addr dat s1 (zip n1 path) ∧
      Keeps (addrs addr (zip (Tree.node l x r) path)) s s1 ∧
      addrs addr (zip n1 path) = addrs addr (zip (Tree.node l x r) path) := by
  obtain ⟨s1, e1, e2, e3⟩ := heap_avl_calcHeight h
  have ht : Tree.node l
      { x with height := incr32 (Max.max (AVLTree.getHeight l) (AVLTree.getHeight r)) } r = n1 :=
    Option.some.inj hstep
  subst ht
  refine ⟨s1, addr x, ?_, rfl, e2, e3, addrs_zip_congr path (by simp [addr])⟩
  rw [e1]; rfl

/-- One turn of the loop of `putFix` on the heap does what the turn does on the
tree. -/
theorem heap_avl_putFixStep {s : Store (AVLTree.Node K V) K}
    {l : Tree (AVLTree.Node K (Nat × V))} {x : AVLTree.Node K (Nat × V)}
    {r : Tree (AVLTree.Node K (Nat × V))} {path : List (Frame (AVLTree.Node K (Nat × V)))}
    {n1 : Tree (AVLTree.Node K (Nat × V))}
    (h : Rep addr dat s (zip (Tree.node l x r) path))
    (hstep : AVLTree.putFixStep (Tree.node l x r) = some n1) :
    ∃ s1 a1, putFixStep s (addr x) = some (s1, a1) ∧
      rootAddr addr n1 = some a1 ∧ Rep addr dat s1 (zip n1 path) ∧
      Keeps (addrs addr (zip (Tree.node l x r) path)) s s1 ∧
      addrs addr (zip n1 path) = addrs addr (zip (Tree.node l x r) path) := by
  have h1 := rep_lookup h
  have hb : getBalance s (some (addr x)) = AVLTree.getBalance (Tree.node l x r) :=
    heap_avl_getBalance h
  have hl : Rep addr dat s (zip l (Frame.left x r :: path)) := h
  have hr : Rep addr dat s (zip r (Frame.right l x :: path)) := h
  obtain ⟨b, eb⟩ : ∃ b, AVLTree.getBalance (Tree.node l x r) = some b := ⟨_, rfl⟩
  rw [eb] at hb
  simp only [AVLTree.putFixStep, eb, Option.some_bind] at hstep
  simp only [putFixStep, hb, h1, Option.some_bind, heap_avl_getBalance hl,
    heap_avl_getBalance hr]
  by_cases c1 : b > 1
  · simp only [c1, if_true] at hstep ⊢
    cases hbl : AVLTree.getBalance l with
    | none => rw [hbl] at hstep; exact absurd hstep (by simp)
    | some b1 =>
      simp only [hbl, Option.some_bind] at hstep ⊢
      by_cases c2 : b1 > 0
      · simp only [c2, if_true] at hstep ⊢
        exact heap_avl_branch_LL h hstep
      · simp only [c2, if_false] at hstep ⊢
        by_cases c3 : b1 < 0
        · simp only [c3, if_true] at hstep ⊢
          exact heap_avl_branch_LR h hstep
        · simp only [c3, if_false] at hstep
          exact absurd hstep (by simp)
  · simp only [c1, if_false] at hstep ⊢
    by_cases c4 : b < -1
    · simp only [c4, if_true] at hstep ⊢
      cases hbr : AVLTree.getBalance r with
      | none => rw [hbr] at hstep; exact absurd hstep (by simp)
      | some b1 =>
        simp only [hbr, Option.some_bind] at hstep ⊢
        by_cases c2 : b1 > 0
        · simp only [c2, if_true] at hstep ⊢
          exact heap_avl_branch_RL h hstep
        · simp only [c2, if_false] at hstep ⊢
          by_cases c3 : b1 < 0
          · simp only [c3, if_true] at hstep ⊢
            exact heap_avl_branch_RR h hstep
          · simp only [c3, if_false] at hstep
            exact absurd hstep (by simp)
    · simp only [c4, if_false] at hstep ⊢
      exact heap_avl_branch_calc h hstep

/-- One turn of the loop of `removeFix` on the heap does what the turn does on
the tree. -/
theorem heap_avl_removeFixStep {s : Store (AVLTree.Node K V) K}
    {l : Tree (AVLTree.Node K (Nat × V))} {x : AVLTree.Node K (Nat × V)}
    {r : Tree (AVLTree.Node K (Nat × V))} {path : List (Frame (AVLTree.Node K (Nat × V)))}
    {n1 : Tree (AVLTree.Node K (Nat × V))}
    (h : Rep addr dat s (zip (Tree.node l x r) path))
    (hstep : AVLTree.removeFixStep (Tree.node l x r) = some n1) :
    ∃ s1 a1, removeFixStep s (addr x) = some (s1, a1) ∧
      rootAddr addr n1 = some a1 ∧ Rep addr dat s1 (zip n1 path) ∧
      Keeps (addrs addr (zip (Tree.node l x r) path)) s s1 ∧
      addrs addr (zip n1 path) = addrs addr (zip (Tree.node l x r) path) := by
  have h1 := rep_lookup h
  have hb : getBalance s (some (addr x)) = AVLTree.getBalance (Tree.node l x r) :=
    heap_avl_getBalance h
  have hl : Rep addr dat s (zip l (Frame.left x r :: path)) := h
  have hr : Rep addr dat s (zip r (Frame.right l x :: path)) := h
  obtain ⟨b, eb⟩ : ∃ b, AVLTree.getBalance (Tree.node l x r) = some b := ⟨_, rfl⟩
  rw [eb] at hb
  simp only [AVLTree.removeFixStep, eb, Option.some_bind] at hstep
  simp only [removeFixStep, hb, h1, Option.some_bind, heap_avl_getBalance hl,
    heap_avl_getBalance hr]
  by_cases c1 : b > 1
  · simp only [c1, if_true] at hstep ⊢
    cases hbl : AVLTree.getBalance l with
    | none => rw [hbl] at hstep; exact absurd hstep (by simp)
    | some b1 =>
      simp only [hbl, Option.some_bind] at hstep ⊢
      by_cases c2 : b1 ≥ 0
      · simp only [c2, if_true] at hstep ⊢
        exact heap_avl_branch_LL h hstep
      · simp only [c2, if_false] at hstep ⊢
        exact heap_avl_branch_LR h hstep
  · simp only [c1, if_false] at hstep ⊢
    by_cases c4 : b < -1
    · simp only [c4, if_true] at hstep ⊢
      cases hbr : AVLTree.getBalance r with
      | none => rw [hbr] at hstep; exact absurd hstep (by simp)
      | some b1 =>
        simp only [hbr, Option.some_bind] at hstep ⊢
        by_cases c2 : b1 > 0
        · simp only [c2, if_true] at hstep ⊢
          exact heap_avl_branch_RL h hstep
        · simp only [c2, if_false] at hstep ⊢
          exact heap_avl_branch_RR h hstep
    · simp only [c4, if_false] at hstep ⊢
      exact heap_avl_branch_calc h hstep

end Branches

end HeapAVL

section ZipperDepth

variable {α : Type}

theorem depth_add_length_le_zip (t : Tree α) (path : List (Frame α)) :
    t.depth + path.length ≤ (zip t path).depth := by
  induction path generalizing t with
  | nil => exact le_refl _
  | cons f rest ih =>
    refine le_trans ?_ (ih (f.plug t))
    cases f <;> simp only [Frame.plug, Tree.depth, List.length_cons] <;> omega

theorem depth_zip_congr (path : List (Frame α)) {a b : Tree α} (h : a.depth = b.depth) :
    (zip a path).depth = (zip b path).depth := by
  induction path generalizing a b with
  | nil => exact h
  | cons f rest ih =>
    refine ih ?_
    cases f <;> simp only [Frame.plug, Tree.depth, h]

end ZipperDepth

namespace HeapAVL

open Heap

section Loops

variable {K V : Type}

theorem heap_avl_putFix_none (fuel : Nat) (s : Store (AVLTree.Node K V) K) :
    putFix fuel s none = some s := by
  cases fuel <;> rfl

theorem heap_avl_removeFix_none (fuel : Nat) (s : Store (AVLTree.Node K V) K) :
    removeFix fuel s none = some s := by
  cases fuel <;> rfl

/-- The loop of `putFix` on the heap follows the loop on the tree up to the
root. -/
theorem heap_avl_putFix (path : List (Frame (AVLTree.Node K (Nat × V)))) :
    ∀ {s : Store (AVLTree.Node K V) K} (l : Tree (AVLTree.Node K (Nat × V)))
      (x : AVLTree.Node K (Nat × V)) (r : Tree (AVLTree.Node K (Nat × V)))
      (root1 : Tree (AVLTree.Node K (Nat × V))) (fuel : Nat),
      Rep addr dat s (zip (Tree.node l x r) path) →
      AVLTree.putFix (Tree.node l x r) path = some root1 →
      path.length < fuel →
      ∃ s1, putFix fuel s (some (addr x)) = some s1 ∧ Rep addr dat s1 root1 ∧
        Keeps (addrs addr (zip (Tree.node l x r) path)) s s1 ∧
        addrs addr root1 = addrs addr (zip (Tree.node l x r) path) := by
  induction path with
  | nil =>
    intro s l x r root1 fuel h hfix hf
    obtain ⟨fuel, rfl⟩ : ∃ n, fuel = n + 1 := ⟨fuel - 1, by omega⟩
    obtain ⟨s1, a1, e1, e2, e3, e4, e5⟩ := heap_avl_putFixStep h hfix
    cases root1 with
    | nil => simp at e2
    | node l1 x1 r1 =>
      have k1 := rep_lookup e3
      simp only [rootAddr_node, Option.some.injEq] at e2
      subst e2
      refine ⟨s1, ?_, e3, e4, e5⟩
      simp only [putFix, e1, Option.some_bind, k1, pathAddr_nil, heap_avl_putFix_none]
  | cons f rest ih =>
    intro s l x r root1 fuel h hfix hf
    obtain ⟨fuel, rfl⟩ : ∃ n, fuel = n + 1 := ⟨fuel - 1, by simp at hf; omega⟩
    simp only [AVLTree.putFix, Option.bind_eq_some] at hfix
    obtain ⟨n1, hstep, hrest⟩ := hfix
    obtain ⟨s1, a1, e1, e2, e3, e4, e5⟩ := heap_avl_putFixStep h hstep
    cases n1 with
    | nil => simp at e2
    | node l1 x1 r1 =>
      have k1 := rep_lookup e3
      simp only [rootAddr_node, Option.some.injEq] at e2
      subst e2
      have hf1 : rest.length < fuel := by simp at hf; omega
      cases f with
      | left d rt =>
        have e3a : Rep addr dat s1 (zip (Tree.node (Tree.node l1 x1 r1) d rt) rest) := e3
        obtain ⟨s2, g1, g2, g3, g4⟩ := ih (Tree.node l1 x1 r1) d rt root1 fuel e3a hrest hf1
        have e5a : addrs addr (zip (Tree.node (Tree.node l1 x1 r1) d rt) rest) =
            addrs addr (zip (Tree.node l x r) (Frame.left d rt :: rest)) := e5
        refine ⟨s2, ?_, g2, keeps_trans e4 (by rw [← e5a]; exact g3), g4.trans e5a⟩
        simp only [putFix, e1, Option.some_bind, k1, pathAddr_left]
        exact g1
      | right lt d =>
        have e3a : Rep addr dat s1 (zip (Tree.node lt d (Tree.node l1 x1 r1)) rest) := e3
        obtain ⟨s2, g1, g2, g3, g4⟩ := ih lt d (Tree.node l1 x1 r1) root1 fuel e3a hrest hf1
        have e5a : addrs addr (zip (Tree.node lt d (Tree.node l1 x1 r1)) rest) =
            addrs addr (zip (Tree.node l x r) (Frame.right lt d :: rest)) := e5
        refine ⟨s2, ?_, g2, keeps_trans e4 (by rw [← e5a]; exact g3), g4.trans e5a⟩
        simp only [putFix, e1, Option.some_bind, k1, pathAddr_right]
        exact g1

/-- The loop of `removeFix` on the heap follows the loop on the tree up to the
root. -/
theorem heap_avl_removeFixLoop (path : List (Frame (AVLTree.Node K (Nat × V)))) :
    ∀ {s : Store (AVLTree.Node K V) K} (l : Tree (AVLTree.Node K (Nat × V)))
      (x : AVLTree.Node K (Nat × V)) (r : Tree (AVLTree.Node K (Nat × V)))
      (root1 : Tree (AVLTree.Node K (Nat × V))) (fuel : Nat),
      Rep addr dat s (zip (Tree.node l x r) path) →
      AVLTree.removeFixLoop (Tree.node l x r) path = some root1 →
      path.length < fuel →
      ∃ s1, removeFix fuel s (some (addr x)) = some s1 ∧ Rep addr dat s1 root1 ∧
        Keeps (addrs addr (zip (Tree.node l x r) path)) s s1 ∧
        addrs addr root1 = addrs addr (zip (Tree.node l x r) path) := by
  induction path with
  | nil =>
    intro s l x r root1 fuel h hfix hf
    obtain ⟨fuel, rfl⟩ : ∃ n, fuel = n + 1 := ⟨fuel - 1, by omega⟩
    obtain ⟨s1, a1, e1, e2, e3, e4, e5⟩ := heap_avl_removeFixStep h hfix
    cases root1 with
    | nil => simp at e2
    | node l1 x1 r1 =>
      have k1 := rep_lookup e3
      simp only [rootAddr_node, Option.some.injEq] at e2
      subst e2
      refine ⟨s1, ?_, e3, e4, e5⟩
      simp only [removeFix, e1, Option.some_bind, k1, pathAddr_nil, heap_avl_removeFix_none]
  | cons f rest ih =>
    intro s l x r root1 fuel h hfix hf
    obtain ⟨fuel, rfl⟩ : ∃ n, fuel = n + 1 := ⟨fuel - 1, by simp at hf; omega⟩
    simp only [AVLTree.removeFixLoop, Option.bind_eq_some] at hfix
    obtain ⟨n1, hstep, hrest⟩ := hfix
    obtain ⟨s1, a1, e1, e2, e3, e4, e5⟩ := heap_avl_removeFixStep h hstep
    cases n1 with
    | nil => simp at e2
    | node l1 x1 r1 =>
      have k1 := rep_lookup e3
      simp only [rootAddr_node, Option.some.injEq] at e2
      subst e2
      have hf1 : rest.length < fuel := by simp at hf; omega
      cases f with
      | left d rt =>
        have e3a : Rep addr dat s1 (zip (Tree.node (Tree.node l1 x1 r1) d rt) rest) := e3
        obtain ⟨s2, g1, g2, g3, g4⟩ := ih (Tree.node l1 x1 r1) d rt root1 fuel e3a hrest hf1
        have e5a : addrs addr (zip (Tree.node (Tree.node l1 x1 r1) d rt) rest) =
            addrs addr (zip (Tree.node l x r) (Frame.left d rt :: rest)) := e5
        refine ⟨s2, ?_, g2, keeps_trans e4 (by rw [← e5a]; exact g3), g4.trans e5a⟩
        simp only [removeFix, e1, Option.some_bind, k1, pathAddr_left]
        exact g1
      | right lt d =>
        have e3a : Rep addr dat s1 (zip (Tree.node lt d (Tree.node l1 x1 r1)) rest) := e3
        obtain ⟨s2, g1, g2, g3, g4⟩ := ih lt d (Tree.node l1 x1 r1) root1 fuel e3a hrest hf1
        have e5a : addrs addr (zip (Tree.node lt d (Tree.node l1 x1 r1)) rest) =
            addrs addr (zip (Tree.node l x r) (Frame.right lt d :: rest)) := e5
        refine ⟨s2, ?_, g2, keeps_trans e4 (by rw [← e5a]; exact g3), g4.trans e5a⟩
        simp only [removeFix, e1, Option.some_bind, k1, pathAddr_right]
        exact g1

/-- The method `removeFix` on the heap, from the parent that `replace`
returned. -/
theorem heap_avl_removeFix {s : Store (AVLTree.Node K V) K}
    (c : Tree (AVLTree.Node K (Nat × V))) (path : List (Frame (AVLTree.Node K (Nat × V))))
    (root1 : Tree (AVLTree.Node K (Nat × V))) (fuel : Nat)
    (h : Rep addr dat s (zip c path))
    (hfix : AVLTree.removeFix (AVLTree.replace ⟨zip c path, s.comparator, s.size⟩
        ⟨Tree.nil, path⟩ c).1
      (AVLTree.replace ⟨zip c path, s.comparator, s.size⟩ ⟨Tree.nil, path⟩ c).2 = some root1)
    (hf : path.length ≤ fuel) :
    ∃ s1, removeFix fuel s (pathAddr addr path) = some s1 ∧ Rep addr dat s1 root1 ∧
      Keeps (addrs addr (zip c path)) s s1 ∧
      addrs addr root1 = addrs addr (zip c path) := by
  cases path with
  | nil =>
    simp only [AVLTree.replace, AVLTree.removeFix, Option.some.injEq] at hfix
    subst hfix
    exact ⟨s, heap_avl_removeFix_none fuel s, h, keeps_refl _ _, rfl⟩
  | cons f rest =>
    have hf1 : rest.length < fuel := by simp at hf; omega
    cases f with
    | left d rt =>
      have hfix1 : AVLTree.removeFixLoop (Tree.node c d rt) rest = some root1 := hfix
      exact heap_avl_removeFixLoop rest c d rt root1 fuel h hfix1 hf1
    | right lt d =>
      have hfix1 : AVLTree.removeFixLoop (Tree.node lt d c) rest = some root1 := hfix
      exact heap_avl_removeFixLoop rest lt d c root1 fuel h hfix1 hf1

end Loops

end HeapAVL

namespace HeapAVL

open Heap

section Simulation

variable {K V : Type}

theorem heap_avl_putLoop (key : K) (value : V) (ptr : Nat)
    {s : Store (AVLTree.Node K V) K} (tree : AVLTree K (Nat × V))
    (hc : tree.comparator = s.comparator) (l : Tree (AVLTree.Node K (Nat × V)))
    (x : AVLTree.Node K (Nat × V)) (r : Tree (AVLTree.Node K (Nat × V)))
    (path : List (Frame (AVLTree.Node K (Nat × V)))) (fuel : Nat)
    (h : Rep addr dat s (zip (Tree.node l x r) path))
    (hput : ∃ t1, AVLTree.putLoop tree key (ptr, value) (Tree.node l x r) path = some t1)
    (hf : 2 * (Tree.node l x r).depth + path.length < fuel)
    (hp : ptr ∉ addrs addr (zip (Tree.node l x r) path)) :
    ∃ s1 t1, putLoop key value ptr fuel s (addr x) = some s1 ∧ Rep addr dat s1 t1 := by
  induction fuel generalizing l x r path with
  | zero => omega
  | succ fuel ih =>
    have h1 := rep_lookup h
    obtain ⟨t1, hput⟩ := hput
    unfold AVLTree.putLoop at hput
    unfold putLoop
    simp only [hc] at hput
    simp only [h1, Option.some_bind,
      show ∀ y : AVLTree.Node K (Nat × V), (dat y).key = y.key from fun _ => rfl]
    by_cases c1 : s.comparator key x.key = 0
    · obtain ⟨s1, e1, e2, -⟩ := rep_setData
        (⟨key, (addr x, value), x.height⟩ : AVLTree.Node K (Nat × V))
        (fun (d : AVLTree.Node K V) => { d with key := key, value := value }) h rfl rfl
      refine ⟨s1, _, ?_, e2⟩
      simp only [c1, if_true]
      exact e1
    · simp only [c1, if_false] at hput ⊢
      by_cases c2 : s.comparator key x.key < 0
      · simp only [c2, if_true] at hput ⊢
        cases l with
        | nil =>
          simp only [Option.map_eq_some'] at hput
          obtain ⟨root1, hfix, -⟩ := hput
          obtain ⟨s1, e1, e2, -⟩ := rep_attach_left
            (⟨key, (ptr, value), 1⟩ : AVLTree.Node K (Nat × V)) h hp
          obtain ⟨s2, g1, g2, -⟩ := heap_avl_putFix path _ x r root1 (fuel + 1)
            (rep_size (incr32 s1.size) e2) hfix (by simp only [Tree.depth] at hf; omega)
          refine ⟨s2, root1, ?_, g2⟩
          simp only [rootAddr_nil]
          rw [show (s.update ptr ⟨⟨key, value, 1⟩, none, none, some (addr x)⟩).setLeft (addr x)
            (some ptr) = some s1 from e1]
          exact g1
        | node ll y lr =>
          exact ih ll y lr (Frame.left x r :: path) h ⟨t1, hput⟩
            (by
              have := depth_left_lt (Tree.node ll y lr) x r
              simp only [List.length_cons]
              omega) hp
      · simp only [c2, if_false] at hput ⊢
        cases r with
        | nil =>
          simp only [Option.map_eq_some'] at hput
          obtain ⟨root1, hfix, -⟩ := hput
          obtain ⟨s1, e1, e2, -⟩ := rep_attach_right
            (⟨key, (ptr, value), 1⟩ : AVLTree.Node K (Nat × V)) h hp
          obtain ⟨s2, g1, g2, -⟩ := heap_avl_putFix path l x _ root1 (fuel + 1)
            (rep_size (incr32 s1.size) e2) hfix (by simp only [Tree.depth] at hf; omega)
          refine ⟨s2, root1, ?_, g2⟩
          simp only [rootAddr_nil]
          rw [show (s.update ptr ⟨⟨key, value, 1⟩, none, none, some (addr x)⟩).setRight (addr x)
            (some ptr) = some s1 from e1]
          exact g1
        | node rl y rr =>
          exact ih rl y rr (Frame.right l x :: path) h ⟨t1, hput⟩
            (by
              have := depth_right_lt l x (Tree.node rl y rr)
              simp only [List.length_cons]
              omega) hp

/-- `Put` on a heap that holds a balanced tree returns, and the heap holds a
tree afterwards. -/
theorem heap_avl_put {s : Store (AVLTree.Node K V) K} {t : Tree (AVLTree.Node K (Nat × V))}
    (h : Rep addr dat s t) (hv : AVLTree.Valid t)
    (hroom : AVLTree.getHeight t + 1 < uint32Size) (key : K) (value : V) (ptr : Nat)
    (hp : ptr ∉ addrs addr t) (fuel : Nat) (hf : 2 * t.depth < fuel) :
    ∃ s1 t1, Put fuel s key value ptr = some s1 ∧ Rep addr dat s1 t1 := by
  cases t with
  | nil =>
    refine ⟨{ (s.update ptr ⟨⟨key, value, 1⟩, none, none, none⟩).setRoot (some ptr) with
        size := incr32 s.size },
      Tree.node Tree.nil (⟨key, (ptr, value), 1⟩ : AVLTree.Node K (Nat × V)) Tree.nil, ?_,
      rep_size _ (@rep_attach_root _ _ _ addr dat s _)⟩
    simp only [Put, h.2.1, rootAddr_nil]
  | node l x r =>
    obtain ⟨t1, ht1⟩ := AVLTree.avl_put_some ⟨Tree.node l x r, s.comparator, s.size⟩ key
      (ptr, value) hv hroom
    obtain ⟨s1, r1, e1, e2⟩ := heap_avl_putLoop key value ptr
      ⟨Tree.node l x r, s.comparator, s.size⟩ rfl l x r [] fuel h ⟨t1, ht1⟩
      (by simpa using hf) hp
    refine ⟨s1, r1, ?_, e2⟩
    simp only [Put, h.2.1, rootAddr_node]
    exact e1

/-- The tail of `Remove` on the heap after the splice at a node with at most
one child: `removeFix` runs from the parent and the node that left is cleared. -/
theorem heap_avl_remove_at {s1 : Store (AVLTree.Node K V) K}
    {x : AVLTree.Node K (Nat × V)} {t c : Tree (AVLTree.Node K (Nat × V))}
    {path : List (Frame (AVLTree.Node K (Nat × V)))} (fuel : Nat)
    (hrep : Rep addr dat s1 (zip c path)) (hcl : Cleared s1 (addr x))
    (hx : addr x ∉ addrs addr (zip c path))
    (hout : ∀ a, a ∈ addrs addr t → a ∉ addrs addr (zip c path) → a = addr x)
    (hvc : AVLTree.Valid c) (hh : AVLTree.getHeight c + 1 = x.height)
    (hq : AVLTree.PathOK uint32Size path x.height) (hf : path.length ≤ fuel) :
    ∃ s2 t1, (removeFix fuel s1 (pathAddr addr path)).map
        (fun (s2 : Store (AVLTree.Node K V) K) => { s2 with size := decr32 s2.size }) =
          some s2 ∧
      Rep addr dat s2 t1 ∧ ∀ a ∈ addrs addr t, a ∉ addrs addr t1 → Cleared s2 a := by
  obtain ⟨root, e1, -, -⟩ := AVLTree.remove_at (le_refl _)
    ⟨zip c path, s1.comparator, s1.size⟩ Tree.nil c path x.height hvc hh hq
  obtain ⟨s2, g1, g2, g3, g4⟩ := heap_avl_removeFix c path root fuel hrep e1 hf
  refine ⟨{ s2 with size := decr32 s2.size }, root, ?_, rep_size _ g2, fun a ha hn => ?_⟩
  · rw [g1]; rfl
  · rw [g4] at hn
    rw [hout a ha hn]
    exact cleared_size _ (HeapRB.cleared_keeps g3 hx hcl)

/-- `Remove` on a heap that holds a balanced tree returns, the heap holds a
tree afterwards, and every node that left the tree has its three links nil. -/
theorem heap_avl_remove {s : Store (AVLTree.Node K V) K} {t : Tree (AVLTree.Node K (Nat × V))}
    (h : Rep addr dat s t) (hv : AVLTree.Valid t) (hroom : AVLTree.getHeight t < uint32Size)
    (key : K) (fuel : Nat) (hf : t.depth < fuel) :
    ∃ s1 t1, Remove fuel s key = some s1 ∧ Rep addr dat s1 t1 ∧
      ∀ a ∈ addrs addr t, a ∉ addrs addr t1 → Cleared s1 a := by
  have hg := @heap_getLoop_eq _ _ _ addr dat s s.comparator AVLTree.Node.key AVLTree.Node.key
    (fun _ => rfl) rfl key t [] h fuel hf
  have hz := @getLoop_zip _ _ s.comparator AVLTree.Node.key key t []
  generalize Structo.getLoop s.comparator AVLTree.Node.key key t [] = loc at hg hz
  obtain ⟨node, path⟩ := loc
  simp only [zip] at hz hg
  subst hz
  rw [← h.2.1] at hg
  have hinv := @AVLTree.avl_zip_valid_inv _ _ uint32Size node path hv hroom
  have hlen : ∀ c : Tree (AVLTree.Node K (Nat × V)), node.depth ≠ 0 → path.length < fuel := by
    intro _ hd
    have := depth_add_length_le_zip node path
    omega
  cases node with
  | nil =>
    refine ⟨s, _, ?_, h, fun a ha hn => absurd ha hn⟩
    simp only [Remove, hg, rootAddr_nil, Option.some_bind]
  | node l x r =>
    have h1 := rep_lookup h
    obtain ⟨⟨v1, v2, v3, v4, v5⟩, v6⟩ := hinv
    simp only [AVLTree.getHeight_node] at v6
    have hpl : path.length ≤ fuel :=
      Nat.le_of_lt (hlen Tree.nil (by simp only [Tree.depth]; omega))
    cases l with
    | nil =>
      obtain ⟨s1, e1, e2, e3, -⟩ := rep_replace_right h
      obtain ⟨s2, t1, f1, f2, f3⟩ := @heap_avl_remove_at _ _ s1 x
        (zip (Tree.node Tree.nil x r) path) r path fuel e2 e3
        (not_mem_after_splice h (Or.inr rfl))
        (fun a ha hn => mem_left_out (fun b hb => by simpa using hb) ha hn)
        v5 (by simp only [AVLTree.getHeight_nil] at v1 ⊢; omega) v6 hpl
      refine ⟨s2, t1, ?_, f2, f3⟩
      cases r <;>
        simp only [Remove, hg, rootAddr_node, rootAddr_nil, Option.some_bind, h1] <;>
        simp only [rootAddr_node, rootAddr_nil] at e1 <;>
        simp only [e1, Option.some_bind] <;>
        exact f1
    | node ll y lr =>
      cases r with
      | nil =>
        obtain ⟨s1, e1, e2, e3, -⟩ := rep_replace_left h
        obtain ⟨s2, t1, f1, f2, f3⟩ := @heap_avl_remove_at _ _ s1 x
          (zip (Tree.node (Tree.node ll y lr) x Tree.nil) path) (Tree.node ll y lr) path fuel
          e2 e3 (not_mem_after_splice h (Or.inl rfl))
          (fun a ha hn => mem_left_out (x := x) (fun b hb => by
            simp only [addrs_node, addrs_nil, List.mem_append, List.mem_cons,
              List.not_mem_nil, or_false] at hb ⊢
            tauto) ha hn)
          v4 (by simp only [AVLTree.getHeight_nil] at v1 ⊢; omega) v6 hpl
        refine ⟨s2, t1, ?_, f2, f3⟩
        simp only [Remove, hg, rootAddr_node, rootAddr_nil, Option.some_bind, h1]
        simp only [rootAddr_node] at e1
        simp only [e1, Option.some_bind]
        exact f1
      | node rl z rr =>
        have hdr : (Tree.node rl z rr).depth < fuel :=
          lt_of_le_of_lt (le_trans (Nat.le_of_lt (depth_right_lt _ x _)) (depth_le_zip _ path)) hf
        obtain ⟨nx, nr, q, s1, m1, m2, m3, m4, m5, m6, m7⟩ := heap_remove_next h fuel hdr
          (fun (x n : AVLTree.Node K (Nat × V)) => ⟨n.key, (addr x, n.value.2), x.height⟩)
          (fun (n d : AVLTree.Node K V) => { d with key := n.key, value := n.value })
          (fun _ => rfl) (fun _ => rfl)
        have hroot2 := @AVLTree.avl_zip_valid _ _ uint32Size
          (Tree.node (Tree.node ll y lr)
            (⟨nx.key, (addr x, nx.value.2), x.height⟩ : AVLTree.Node K (Nat × V))
            (Tree.node rl z rr)) path ⟨v1, v2, v3, v4, v5⟩ v6
        have hzip2 : zip (Tree.node Tree.nil nx nr)
            (q ++ Frame.right (Tree.node ll y lr)
              (⟨nx.key, (addr x, nx.value.2), x.height⟩ : AVLTree.Node K (Nat × V)) :: path) =
            zip (Tree.node (Tree.node ll y lr)
              (⟨nx.key, (addr x, nx.value.2), x.height⟩ : AVLTree.Node K (Nat × V))
              (Tree.node rl z rr)) path := by
          rw [zip_append, m1]; rfl
        have hinv2 := @AVLTree.avl_zip_valid_inv _ _ uint32Size (Tree.node Tree.nil nx nr)
          (q ++ Frame.right (Tree.node ll y lr)
              (⟨nx.key, (addr x, nx.value.2), x.height⟩ : AVLTree.Node K (Nat × V)) :: path)
          (by rw [hzip2]; exact hroot2.1) (by rw [hzip2]; exact hroot2.2)
        obtain ⟨⟨n1, n2, n3, n4, n5⟩, n6⟩ := hinv2
        simp only [AVLTree.getHeight_node] at n6
        obtain ⟨s2, e1, e2, e3, -⟩ := rep_replace_right m5
        have k1 := rep_lookup m5
        have hql : (q ++ Frame.right (Tree.node ll y lr)
            (⟨nx.key, (addr x, nx.value.2), x.height⟩ : AVLTree.Node K (Nat × V)) ::
              path).length ≤ fuel := by
          have a1 := depth_add_length_le_zip (Tree.node Tree.nil nx nr) (q ++ Frame.right
            (Tree.node ll y lr)
            (⟨nx.key, (addr x, nx.value.2), x.height⟩ : AVLTree.Node K (Nat × V)) :: path)
          rw [hzip2] at a1
          have a2 : (zip (Tree.node (Tree.node ll y lr)
              (⟨nx.key, (addr x, nx.value.2), x.height⟩ : AVLTree.Node K (Nat × V))
              (Tree.node rl z rr)) path).depth =
              (zip (Tree.node (Tree.node ll y lr) x (Tree.node rl z rr)) path).depth :=
            depth_zip_congr path rfl
          simp only [Tree.depth] at a1
          omega
        obtain ⟨s3, t1, f1, f2, f3⟩ := @heap_avl_remove_at _ _ s2 nx
          (zip (Tree.node Tree.nil nx nr) (q ++ Frame.right (Tree.node ll y lr)
            (⟨nx.key, (addr x, nx.value.2), x.height⟩ : AVLTree.Node K (Nat × V)) :: path))
          nr _ fuel e2 e3 (not_mem_after_splice m5 (Or.inr rfl))
          (fun a ha hn => mem_left_out (fun b hb => by simpa using hb) ha hn)
          n5 (by simp only [AVLTree.getHeight_nil] at n1 ⊢; omega) n6 hql
        refine ⟨s3, t1, ?_, f2, fun a ha hn => f3 a (by rw [m7]; exact ha) hn⟩
        simp only [Remove, hg, rootAddr_node, Option.some_bind, h1, m2, m3, m4, k1, e1]
        exact f1

end Simulation

end HeapAVL

namespace Heap

section HoldsRep

variable {α β K : Type} {addr : β → Nat} {dat : β → α}

theorem links_of_owns {cells : Nat → Option (Cell α)} {t : Tree β} {p : Option Nat}
    (h : Owns addr dat cells t p) : Links addr dat cells t := by
  induction t generalizing p with
  | nil => trivial
  | node l x r ihl ihr => exact ⟨⟨p, h.1⟩, ihl h.2.1, ihr h.2.2⟩

/-- A heap that holds a tree with its parent links holds it through `left` and
`right`. -/
theorem holds_of_rep {s : Store α K} {t : Tree β} (h : Rep addr dat s t) :
    Holds addr dat s t :=
  ⟨links_of_owns h.1, h.2.1, h.2.2⟩

theorem owns_of_links {s : Store α K} (hpc : ParentsConsistent s) {t : Tree β}
    {p : Option Nat} (h : Links addr dat s.cells t)
    (hroot : ∀ a, rootAddr addr t = some a →
      Reaches s a ∧ ∃ n, s.cells a = some n ∧ n.parent = p) :
    Owns addr dat s.cells t p := by
  induction t generalizing p with
  | nil => trivial
  | node l x r ihl ihr =>
    obtain ⟨⟨p1, hc⟩, hl, hr⟩ := h
    obtain ⟨hreach, n, hn, hp⟩ := hroot (addr x) rfl
    rw [hc, Option.some.injEq] at hn
    subst hn
    simp only at hp
    subst hp
    have hch := hpc.2 (addr x) _ hreach hc
    exact ⟨hc, ihl hl (fun a ha => ⟨Reaches.left hreach hc ha, hch.1 a ha⟩),
      ihr hr (fun a ha => ⟨Reaches.right hreach hc ha, hch.2 a ha⟩)⟩

/-- A heap that holds a tree through `left` and `right` and whose parent links
are consistent holds the tree with its parent links. -/
theorem rep_of_holds {s : Store α K} {t : Tree β} (h : Holds addr dat s t)
    (hpc : ParentsConsistent s) : Rep addr dat s t :=
  ⟨owns_of_links hpc h.1 (fun a ha =>
      ⟨Reaches.root (h.2.1.trans ha), hpc.1 a (h.2.1.trans ha)⟩), h.2.1, h.2.2⟩

/-- The nodes that an operation unlinked, stated with reachability. -/
theorem unlinked_cleared {s s1 : Store α K} {t t1 : Tree β} (h : Rep addr dat s t)
    (h1 : Rep addr dat s1 t1)
    (hc : ∀ a ∈ addrs addr t, a ∉ addrs addr t1 → Cleared s1 a) :
    ∀ a, Reaches s a → ¬ Reaches s1 a → Cleared s1 a :=
  fun a ha hn => hc a (reaches_mem h ha) (fun hm => hn (mem_reaches h1 hm))

end HoldsRep

end Heap

namespace HeapBST

open Heap

theorem heap_bst_sample_rep : Rep addr dat sample sampleTree := by
  refine ⟨⟨rfl, ⟨rfl, trivial, trivial⟩, ⟨rfl, trivial, trivial⟩⟩, rfl, by decide⟩

end HeapBST

namespace HeapAVL

open Heap

theorem heap_avl_sample_rep : Rep addr dat sample sampleTree := by
  refine ⟨⟨rfl, ⟨rfl, trivial, trivial⟩, ⟨rfl, trivial, trivial⟩⟩, rfl, by decide⟩

end HeapAVL

namespace HeapRB

open Heap

theorem heap_rb_sample_rep : Rep RBTree.Node.ptr id sample RBTree.sample.root := by
  refine ⟨⟨rfl, ⟨rfl, trivial, trivial⟩, ⟨rfl, trivial, trivial⟩⟩, rfl, by decide⟩

end HeapRB

/-! ## Parent links on the heap -/

namespace Heap

section Consistent

variable {α β K : Type} {addr : β → Nat} {dat : β → α}

/-- The splice `replace(x, c)` of a node `x` whose only possible child is `c`
keeps the parent links consistent and clears the three links of `x`. -/
theorem heap_replace_consistent {s : Store α K} {x : β} {c : Tree β} {path : List (Frame β)}
    (h : Holds addr dat s (zip (Tree.node Tree.nil x c) path) ∨
      Holds addr dat s (zip (Tree.node c x Tree.nil) path))
    (hpc : ParentsConsistent s) :
    ∃ s1, replace s (addr x) (rootAddr addr c) = some (s1, pathAddr addr path) ∧
      Holds addr dat s1 (zip c path) ∧ ParentsConsistent s1 ∧ Cleared s1 (addr x) := by
  rcases h with h | h
  · obtain ⟨s1, e1, e2, e3, -⟩ := rep_replace_right (rep_of_holds h hpc)
    exact ⟨s1, e1, holds_of_rep e2, rep_parentsConsistent e2, e3⟩
  · obtain ⟨s1, e1, e2, e3, -⟩ := rep_replace_left (rep_of_holds h hpc)
    exact ⟨s1, e1, holds_of_rep e2, rep_parentsConsistent e2, e3⟩

/-- The links that `rotateLeft` rewrites are consistent afterwards. -/
theorem heap_rotateLeft_consistent {s : Store α K} {l : Tree β} {x : β} {cl : Tree β} {y : β}
    {cr : Tree β} {path : List (Frame β)}
    (h : Holds addr dat s (zip (Tree.node l x (Tree.node cl y cr)) path))
    (hpc : ParentsConsistent s) :
    ∃ s1, rotateLeft s (addr x) = some s1 ∧
      Holds addr dat s1 (zip (Tree.node (Tree.node l x cl) y cr) path) ∧
      ParentsConsistent s1 := by
  obtain ⟨s1, e1, e2, -⟩ := rep_rotateLeft (rep_of_holds h hpc)
  exact ⟨s1, e1, holds_of_rep e2, rep_parentsConsistent e2⟩

/-- The links that `rotateRight` rewrites are consistent afterwards. -/
theorem heap_rotateRight_consistent {s : Store α K} {cl : Tree β} {y : β} {cr : Tree β}
    {x : β} {r : Tree β} {path : List (Frame β)}
    (h : Holds addr dat s (zip (Tree.node (Tree.node cl y cr) x r) path))
    (hpc : ParentsConsistent s) :
    ∃ s1, rotateRight s (addr x) = some s1 ∧
      Holds addr dat s1 (zip (Tree.node cl y (Tree.node cr x r)) path) ∧
      ParentsConsistent s1 := by
  obtain ⟨s1, e1, e2, -⟩ := rep_rotateRight (rep_of_holds h hpc)
  exact ⟨s1, e1, holds_of_rep e2, rep_parentsConsistent e2⟩

end Consistent

end Heap

namespace HeapBST

open Heap

section Consistent

variable {K V : Type}

theorem heap_bst_put_consistent {s : Store (BSTree.Node K V) K}
    {t : Tree (BSTree.Node K (Nat × V))} (h : Holds addr dat s t)
    (hpc : ParentsConsistent s) (key : K) (value : V) (ptr fuel : Nat)
    (hp : ptr ∉ addrs addr t) (hf : t.depth < fuel) :
    ∃ s1 t1, Put fuel s key value ptr = some s1 ∧ Holds addr dat s1 t1 ∧
      ParentsConsistent s1 := by
  obtain ⟨s1, t1, e1, e2⟩ := heap_bst_put (rep_of_holds h hpc) key value ptr hp fuel hf
  exact ⟨s1, t1, e1, holds_of_rep e2, rep_parentsConsistent e2⟩

theorem heap_bst_remove_consistent {s : Store (BSTree.Node K V) K}
    {t : Tree (BSTree.Node K (Nat × V))} (h : Holds addr dat s t)
    (hpc : ParentsConsistent s) (key : K) (fuel : Nat) (hf : t.depth < fuel) :
    ∃ s1 t1, Remove fuel s key = some s1 ∧ Holds addr dat s1 t1 ∧ ParentsConsistent s1 ∧
      ∀ a, Reaches s a → ¬ Reaches s1 a → Cleared s1 a := by
  obtain ⟨s1, t1, e1, e2, e3⟩ := heap_bst_remove (rep_of_holds h hpc) key fuel hf
  exact ⟨s1, t1, e1, holds_of_rep e2, rep_parentsConsistent e2,
    unlinked_cleared (rep_of_holds h hpc) e2 e3⟩

end Consistent

end HeapBST

namespace HeapAVL

open Heap

section Consistent

variable {K V : Type}

theorem heap_avl_put_consistent {s : Store (AVLTree.Node K V) K}
    {t : Tree (AVLTree.Node K (Nat × V))} (h : Holds addr dat s t)
    (hpc : ParentsConsistent s) (hheights : AVLTree.HeightsOK t)
    (hbalanced : AVLTree.Balanced t) (hroom : AVLTree.getHeight t + 1 < uint32Size)
    (key : K) (value : V) (ptr fuel : Nat)
    (hp : ptr ∉ addrs addr t) (hf : 2 * t.depth < fuel) :
    ∃ s1 t1, Put fuel s key value ptr = some s1 ∧ Holds addr dat s1 t1 ∧
      ParentsConsistent s1 := by
  obtain ⟨s1, t1, e1, e2⟩ := heap_avl_put (rep_of_holds h hpc)
    ((AVLTree.avl_valid_iff t).2 ⟨hheights, hbalanced⟩) hroom key value ptr hp fuel hf
  exact ⟨s1, t1, e1, holds_of_rep e2, rep_parentsConsistent e2⟩

theorem heap_avl_remove_consistent {s : Store (AVLTree.Node K V) K}
    {t : Tree (AVLTree.Node K (Nat × V))} (h : Holds addr dat s t)
    (hpc : ParentsConsistent s) (hheights : AVLTree.HeightsOK t)
    (hbalanced : AVLTree.Balanced t) (hroom : AVLTree.getHeight t + 1 < uint32Size)
    (key : K) (fuel : Nat) (hf : t.depth < fuel) :
    ∃ s1 t1, Remove fuel s key = some s1 ∧ Holds addr dat s1 t1 ∧ ParentsConsistent s1 ∧
      ∀ a, Reaches s a → ¬ Reaches s1 a → Cleared s1 a := by
  obtain ⟨s1, t1, e1, e2, e3⟩ := heap_avl_remove (rep_of_holds h hpc)
    ((AVLTree.avl_valid_iff t).2 ⟨hheights, hbalanced⟩) (by omega) key fuel hf
  exact ⟨s1, t1, e1, holds_of_rep e2, rep_parentsConsistent e2,
    unlinked_cleared (rep_of_holds h hpc) e2 e3⟩

theorem heap_avl_rotateLeft_consistent {s : Store (AVLTree.Node K V) K}
    {l : Tree (AVLTree.Node K (Nat × V))} {x : AVLTree.Node K (Nat × V)}
    {cl : Tree (AVLTree.Node K (Nat × V))} {y : AVLTree.Node K (Nat × V)}
    {cr : Tree (AVLTree.Node K (Nat × V))} {path : List (Frame (AVLTree.Node K (Nat × V)))}
    (h : Holds addr dat s (zip (Tree.node l x (Tree.node cl y cr)) path))
    (hpc : ParentsConsistent s) :
    ∃ s1 t1, rotateLeft s (addr x) = some (s1, addr y) ∧
      AVLTree.rotateLeft (Tree.node l x (Tree.node cl y cr)) = some t1 ∧
      Holds addr dat s1 (zip t1 path) ∧ ParentsConsistent s1 := by
  obtain ⟨s1, t1, e1, e2, -, e4, -⟩ := heap_avl_rotateLeft (rep_of_holds h hpc)
  exact ⟨s1, t1, e1, e2, holds_of_rep e4, rep_parentsConsistent e4⟩

theorem heap_avl_rotateRight_consistent {s : Store (AVLTree.Node K V) K}
    {cl : Tree (AVLTree.Node K (Nat × V))} {y : AVLTree.Node K (Nat × V)}
    {cr : Tree (AVLTree.Node K (Nat × V))} {x : AVLTree.Node K (Nat × V)}
    {r : Tree (AVLTree.Node K (Nat × V))} {path : List (Frame (AVLTree.Node K (Nat × V)))}
    (h : Holds addr dat s (zip (Tree.node (Tree.node cl y cr) x r) path))
    (hpc : ParentsConsistent s) :
    ∃ s1 t1, rotateRight s (addr x) = some (s1, addr y) ∧
      AVLTree.rotateRight (Tree.node (Tree.node cl y cr) x r) = some t1 ∧
      Holds addr dat s1 (zip t1 path) ∧ ParentsConsistent s1 := by
  obtain ⟨s1, t1, e1, e2, -, e4, -⟩ := heap_avl_rotateRight (rep_of_holds h hpc)
  exact ⟨s1, t1, e1, e2, holds_of_rep e4, rep_parentsConsistent e4⟩

end Consistent

end HeapAVL

namespace HeapRB

open Heap

section Consistent

variable {K V : Type}

theorem heap_rb_put_consistent {s : Store (RBTree.Node K V) K}
    {t : Tree (RBTree.Node K V)} (h : Holds RBTree.Node.ptr id s t)
    (hpc : ParentsConsistent s) (hroot : RBTree.getColor t = Color.black)
    (hred : RBTree.NoRedRed t) (hblack : RBTree.BlackBalanced t)
    (key : K) (value : V) (ptr fuel : Nat)
    (hp : ptr ∉ addrs RBTree.Node.ptr t) (hf : 2 * t.depth < fuel) :
    ∃ s1 t1, Put fuel s key value ptr = some s1 ∧ Holds RBTree.Node.ptr id s1 t1 ∧
      ParentsConsistent s1 := by
  obtain ⟨s1, t1, e1, -, e2⟩ := heap_rb_put (rep_of_holds h hpc)
    ((RBTree.rb_valid_iff t).2 ⟨hred, hblack⟩) hroot key value ptr hp fuel hf
  exact ⟨s1, t1.root, e1, holds_of_rep e2, rep_parentsConsistent e2⟩

theorem heap_rb_remove_consistent {s : Store (RBTree.Node K V) K}
    {t : Tree (RBTree.Node K V)} (h : Holds RBTree.Node.ptr id s t)
    (hpc : ParentsConsistent s) (hred : RBTree.NoRedRed t) (hblack : RBTree.BlackBalanced t)
    (key : K) (fuel : Nat) (hf : 2 * t.count + 1 ≤ fuel) :
    ∃ s1 t1, Remove fuel s key = some s1 ∧ Holds RBTree.Node.ptr id s1 t1 ∧
      ParentsConsistent s1 ∧ ∀ a, Reaches s a → ¬ Reaches s1 a → Cleared s1 a := by
  obtain ⟨s1, t1, e1, e2, e3⟩ := heap_rb_remove (rep_of_holds h hpc)
    ((RBTree.rb_valid_iff t).2 ⟨hred, hblack⟩) key fuel hf
  exact ⟨s1, t1, e1, holds_of_rep e2, rep_parentsConsistent e2,
    unlinked_cleared (rep_of_holds h hpc) e2 e3⟩

end Consistent

end HeapRB

section ParentLinks

open Heap

theorem heap_avl_sample_valid :
    AVLTree.HeightsOK HeapAVL.sampleTree ∧ AVLTree.Balanced HeapAVL.sampleTree ∧
      AVLTree.getHeight HeapAVL.sampleTree + 1 < uint32Size := by
  refine ⟨?_, ?_, by decide⟩
  · simp [HeapAVL.sampleTree, AVLTree.HeightsOK, AVLTree.getHeight]
  · simp [HeapAVL.sampleTree, AVLTree.Balanced, AVLTree.getHeight]

/-- C34: parent back-references stay consistent.  The nodes live on a heap where
`left`, `right` and `parent` are fields that hold addresses.  In each of the
three engines, on a heap that holds a tree (for the AVL engine with correct
stored heights, balance factors in `[-1, 1]` and room for one more level in the
`uint32` height; for the Red-Black engine with a black root, no red node with a
red child and equal black counts) and on which the root has no parent and the
left and the right child of every node reachable from the root record that node
as their parent, `Put` of a freshly allocated node and `Remove` return once the
fuel covers the loops, the heap holds a tree again, the parent links are
consistent again, and every node that `Remove` unlinked has its links `left`,
`right` and `parent` nil.  The same holds for one call of the splice `replace`
of the three engines, which also returns the old parent, and for one call of
`rotateLeft` and of `rotateRight`, with and without the heights that the AVL
engine recomputes. -/
theorem parent_links_stay_consistent {K V : Type} :
    (∀ (s : Store (BSTree.Node K V) K) (t : Tree (BSTree.Node K (Nat × V))),
      Holds HeapBST.addr HeapBST.dat s t → ParentsConsistent s →
      (∀ (key : K) (value : V) (ptr fuel : Nat),
        ptr ∉ addrs HeapBST.addr t → t.depth < fuel →
        ∃ s1 t1, HeapBST.Put fuel s key value ptr = some s1 ∧
          Holds HeapBST.addr HeapBST.dat s1 t1 ∧ ParentsConsistent s1) ∧
      (∀ (key : K) (fuel : Nat), t.depth < fuel →
        ∃ s1 t1, HeapBST.Remove fuel s key = some s1 ∧
          Holds HeapBST.addr HeapBST.dat s1 t1 ∧ ParentsConsistent s1 ∧
          ∀ a, Reaches s a → ¬ Reaches s1 a → Cleared s1 a)) ∧
    (∀ (s : Store (AVLTree.Node K V) K) (t : Tree (AVLTree.Node K (Nat × V))),
      Holds HeapAVL.addr HeapAVL.dat s t → ParentsConsistent s →
      AVLTree.HeightsOK t → AVLTree.Balanced t → AVLTree.getHeight t + 1 < uint32Size →
      (∀ (key : K) (value : V) (ptr fuel : Nat),
        ptr ∉ addrs HeapAVL.addr t → 2 * t.depth < fuel →
        ∃ s1 t1, HeapAVL.Put fuel s key value ptr = some s1 ∧
          Holds HeapAVL.addr HeapAVL.dat s1 t1 ∧ ParentsConsistent s1) ∧
      (∀ (key : K) (fuel : Nat), t.depth < fuel →
        ∃ s1 t1, HeapAVL.Remove fuel s key = some s1 ∧
          Holds HeapAVL.addr HeapAVL.dat s1 t1 ∧ ParentsConsistent s1 ∧
          ∀ a, Reaches s a → ¬ Reaches s1 a → Cleared s1 a)) ∧
    (∀ (s : Store (RBTree.Node K V) K) (t : Tree (RBTree.Node K V)),
      Holds RBTree.Node.ptr id s t → ParentsConsistent s →
      RBTree.getColor t = Color.black → RBTree.NoRedRed t → RBTree.BlackBalanced t →
      (∀ (key : K) (value : V) (ptr fuel : Nat),
        ptr ∉ addrs RBTree.Node.ptr t → 2 * t.depth < fuel →
        ∃ s1 t1, HeapRB.Put fuel s key value ptr = some s1 ∧
          Holds RBTree.Node.ptr id s1 t1 ∧ ParentsConsistent s1) ∧
      (∀ (key : K) (fuel : Nat), 2 * t.count + 1 ≤ fuel →
        ∃ s1 t1, HeapRB.Remove fuel s key = some s1 ∧
          Holds RBTree.Node.ptr id s1 t1 ∧ ParentsConsistent s1 ∧
          ∀ a, Reaches s a → ¬ Reaches s1 a → Cleared s1 a)) ∧
    (∀ (α β : Type) (addr : β → Nat) (dat : β → α) (s : Store α K) (x : β) (c : Tree β)
      (path : List (Frame β)),
      Holds addr dat s (zip (Tree.node Tree.nil x c) path) ∨
        Holds addr dat s (zip (Tree.node c x Tree.nil) path) →
      ParentsConsistent s →
      ∃ s1, Heap.replace s (addr x) (rootAddr addr c) = some (s1, pathAddr addr path) ∧
        Holds addr dat s1 (zip c path) ∧ ParentsConsistent s1 ∧ Cleared s1 (addr x)) ∧
    (∀ (α β : Type) (addr : β → Nat) (dat : β → α) (s : Store α K) (l : Tree β) (x : β)
      (cl : Tree β) (y : β) (cr : Tree β) (path : List (Frame β)),
      Holds addr dat s (zip (Tree.node l x (Tree.node cl y cr)) path) →
      ParentsConsistent s →
      ∃ s1, Heap.rotateLeft s (addr x) = some s1 ∧
        Holds addr dat s1 (zip (Tree.node (Tree.node l x cl) y cr) path) ∧
        ParentsConsistent s1) ∧
    (∀ (α β : Type) (addr : β → Nat) (dat : β → α) (s : Store α K) (cl : Tree β) (y : β)
      (cr : Tree β) (x : β) (r : Tree β) (path : List (Frame β)),
      Holds addr dat s (zip (Tree.node (Tree.node cl y cr) x r) path) →
      ParentsConsistent s →
      ∃ s1, Heap.rotateRight s (addr x) = some s1 ∧
        Holds addr dat s1 (zip (Tree.node cl y (Tree.node cr x r)) path) ∧
        ParentsConsistent s1) ∧
    (∀ (s : Store (AVLTree.Node K V) K) (l : Tree (AVLTree.Node K (Nat × V)))
      (x : AVLTree.Node K (Nat × V)) (cl : Tree (AVLTree.Node K (Nat × V)))
      (y : AVLTree.Node K (Nat × V)) (cr : Tree (AVLTree.Node K (Nat × V)))
      (path : List (Frame (AVLTree.Node K (Nat × V)))),
      Holds HeapAVL.addr HeapAVL.dat s (zip (Tree.node l x (Tree.node cl y cr)) path) →
      ParentsConsistent s →
      ∃ s1 t1, HeapAVL.rotateLeft s (HeapAVL.addr x) = some (s1, HeapAVL.addr y) ∧
        AVLTree.rotateLeft (Tree.node l x (Tree.node cl y cr)) = some t1 ∧
        Holds HeapAVL.addr HeapAVL.dat s1 (zip t1 path) ∧ ParentsConsistent s1) ∧
    (∀ (s : Store (AVLTree.Node K V) K) (cl : Tree (AVLTree.Node K (Nat × V)))
      (y : AVLTree.Node K (Nat × V)) (cr : Tree (AVLTree.Node K (Nat × V)))
      (x : AVLTree.Node K (Nat × V)) (r : Tree (AVLTree.Node K (Nat × V)))
      (path : List (Frame (AVLTree.Node K (Nat × V)))),
      Holds HeapAVL.addr HeapAVL.dat s (zip (Tree.node (Tree.node cl y cr) x r) path) →
      ParentsConsistent s →
      ∃ s1 t1, HeapAVL.rotateRight s (HeapAVL.addr x) = some (s1, HeapAVL.addr y) ∧
        AVLTree.rotateRight (Tree.node (Tree.node cl y cr) x r) = some t1 ∧
        Holds HeapAVL.addr HeapAVL.dat s1 (zip t1 path) ∧ ParentsConsistent s1) :=
  ⟨fun _ _ h hpc =>
      ⟨fun key value ptr fuel hp hf =>
          HeapBST.heap_bst_put_consistent h hpc key value ptr fuel hp hf,
        fun key fuel hf => HeapBST.heap_bst_remove_consistent h hpc key fuel hf⟩,
    fun _ _ h hpc hheights hbalanced hroom =>
      ⟨fun key value ptr fuel hp hf =>
          HeapAVL.heap_avl_put_consistent h hpc hheights hbalanced hroom key value ptr fuel
            hp hf,
        fun key fuel hf =>
          HeapAVL.heap_avl_remove_consistent h hpc hheights hbalanced hroom key fuel hf⟩,
    fun _ _ h hpc hroot hred hblack =>
      ⟨fun key value ptr fuel hp hf =>
          HeapRB.heap_rb_put_consistent h hpc hroot hred hblack key value ptr fuel hp hf,
        fun key fuel hf => HeapRB.heap_rb_remove_consistent h hpc hred hblack key fuel hf⟩,
    fun _ _ _ _ _ _ _ _ h hpc => heap_replace_consistent h hpc,
    fun _ _ _ _ _ _ _ _ _ _ _ h hpc => heap_rotateLeft_consistent h hpc,
    fun _ _ _ _ _ _ _ _ _ _ _ h hpc => heap_rotateRight_consistent h hpc,
    fun _ _ _ _ _ _ _ h hpc => HeapAVL.heap_avl_rotateLeft_consistent h hpc,
    fun _ _ _ _ _ _ _ h hpc => HeapAVL.heap_avl_rotateRight_consistent h hpc⟩

theorem parent_links_stay_consistent_witness :
    ((Holds HeapBST.addr HeapBST.dat HeapBST.sample HeapBST.sampleTree ∧
        ParentsConsistent HeapBST.sample ∧ 104 ∉ addrs HeapBST.addr HeapBST.sampleTree ∧
        HeapBST.sampleTree.depth < 3) ∧
      (∃ s1 t1, HeapBST.Put 3 HeapBST.sample 4 40 104 = some s1 ∧
        Holds HeapBST.addr HeapBST.dat s1 t1 ∧ ParentsConsistent s1) ∧
      ∃ s1 t1, HeapBST.Remove 3 HeapBST.sample 2 = some s1 ∧
        Holds HeapBST.addr HeapBST.dat s1 t1 ∧ ParentsConsistent s1 ∧
        ∀ a, Reaches HeapBST.sample a → ¬ Reaches s1 a → Cleared s1 a) ∧
    ((Holds HeapAVL.addr HeapAVL.dat HeapAVL.sample HeapAVL.sampleTree ∧
        ParentsConsistent HeapAVL.sample ∧ AVLTree.HeightsOK HeapAVL.sampleTree ∧
        AVLTree.Balanced HeapAVL.sampleTree ∧
        AVLTree.getHeight HeapAVL.sampleTree + 1 < uint32Size ∧
        104 ∉ addrs HeapAVL.addr HeapAVL.sampleTree ∧ 2 * HeapAVL.sampleTree.depth < 5 ∧
        HeapAVL.sampleTree.depth < 5) ∧
      (∃ s1 t1, HeapAVL.Put 5 HeapAVL.sample 4 40 104 = some s1 ∧
        Holds HeapAVL.addr HeapAVL.dat s1 t1 ∧ ParentsConsistent s1) ∧
      ∃ s1 t1, HeapAVL.Remove 5 HeapAVL.sample 2 = some s1 ∧
        Holds HeapAVL.addr HeapAVL.dat s1 t1 ∧ ParentsConsistent s1 ∧
        ∀ a, Reaches HeapAVL.sample a → ¬ Reaches s1 a → Cleared s1 a) ∧
    ((Holds RBTree.Node.ptr id HeapRB.sample RBTree.sample.root ∧
        ParentsConsistent HeapRB.sample ∧
        RBTree.getColor RBTree.sample.root = Color.black ∧
        RBTree.NoRedRed RBTree.sample.root ∧ RBTree.BlackBalanced RBTree.sample.root ∧
        104 ∉ addrs RBTree.Node.ptr RBTree.sample.root ∧
        2 * RBTree.sample.root.depth < 5 ∧ 2 * RBTree.sample.root.count + 1 ≤ 7) ∧
      (∃ s1 t1, HeapRB.Put 5 HeapRB.sample 4 40 104 = some s1 ∧
        Holds RBTree.Node.ptr id s1 t1 ∧ ParentsConsistent s1) ∧
      ∃ s1 t1, HeapRB.Remove 7 HeapRB.sample 2 = some s1 ∧
        Holds RBTree.Node.ptr id s1 t1 ∧ ParentsConsistent s1 ∧
        ∀ a, Reaches HeapRB.sample a → ¬ Reaches s1 a → Cleared s1 a) ∧
    (∃ s1, Heap.replace HeapRB.sample 101 none = some (s1, some 102) ∧
      Holds RBTree.Node.ptr id s1
        (Tree.node Tree.nil ⟨2, 20, Color.black, 102⟩
          (Tree.node Tree.nil ⟨3, 30, Color.red, 103⟩ Tree.nil)) ∧
      ParentsConsistent s1 ∧ Cleared s1 101) ∧
    (∃ s1, Heap.rotateLeft HeapRB.sample 102 = some s1 ∧
      Holds RBTree.Node.ptr id s1
        (Tree.node (Tree.node (Tree.node Tree.nil ⟨1, 10, Color.red, 101⟩ Tree.nil)
          ⟨2, 20, Color.black, 102⟩ Tree.nil) ⟨3, 30, Color.red, 103⟩ Tree.nil) ∧
      ParentsConsistent s1) ∧
    (∃ s1, Heap.rotateRight HeapRB.sample 102 = some s1 ∧
      Holds RBTree.Node.ptr id s1
        (Tree.node Tree.nil ⟨1, 10, Color.red, 101⟩ (Tree.node Tree.nil
          ⟨2, 20, Color.black, 102⟩ (Tree.node Tree.nil ⟨3, 30, Color.red, 103⟩ Tree.nil))) ∧
      ParentsConsistent s1) ∧
    (∃ s1 t1, HeapAVL.rotateLeft HeapAVL.sample 102 = some (s1, 103) ∧
      AVLTree.rotateLeft HeapAVL.sampleTree = some t1 ∧
      Holds HeapAVL.addr HeapAVL.dat s1 t1 ∧ ParentsConsistent s1) ∧
    ∃ s1 t1, HeapAVL.rotateRight HeapAVL.sample 102 = some (s1, 101) ∧
      AVLTree.rotateRight HeapAVL.sampleTree = some t1 ∧
      Holds HeapAVL.addr HeapAVL.dat s1 t1 ∧ ParentsConsistent s1 :=
  ⟨⟨⟨holds_of_rep HeapBST.heap_bst_sample_rep,
        rep_parentsConsistent HeapBST.heap_bst_sample_rep, by decide, by decide⟩,
      ((@parent_links_stay_consistent Nat Nat).1 HeapBST.sample HeapBST.sampleTree
        (holds_of_rep HeapBST.heap_bst_sample_rep)
        (rep_parentsConsistent HeapBST.heap_bst_sample_rep)).1 4 40 104 3
        (by decide) (by decide),
      ((@parent_links_stay_consistent Nat Nat).1 HeapBST.sample HeapBST.sampleTree
        (holds_of_rep HeapBST.heap_bst_sample_rep)
        (rep_parentsConsistent HeapBST.heap_bst_sample_rep)).2 2 3 (by decide)⟩,
    ⟨⟨holds_of_rep HeapAVL.heap_avl_sample_rep,
        rep_parentsConsistent HeapAVL.heap_avl_sample_rep, heap_avl_sample_valid.1,
        heap_avl_sample_valid.2.1, heap_avl_sample_valid.2.2, by decide, by decide,
        by decide⟩,
      ((@parent_links_stay_consistent Nat Nat).2.1 HeapAVL.sample HeapAVL.sampleTree
        (holds_of_rep HeapAVL.heap_avl_sample_rep)
        (rep_parentsConsistent HeapAVL.heap_avl_sample_rep) heap_avl_sample_valid.1
        heap_avl_sample_valid.2.1 heap_avl_sample_valid.2.2).1 4 40 104 5
        (by decide) (by decide),
      ((@parent_links_stay_consistent Nat Nat).2.1 HeapAVL.sample HeapAVL.sampleTree
        (holds_of_rep HeapAVL.heap_avl_sample_rep)
        (rep_parentsConsistent HeapAVL.heap_avl_sample_rep) heap_avl_sample_valid.1
        heap_avl_sample_valid.2.1 heap_avl_sample_valid.2.2).2 2 5 (by decide)⟩,
    ⟨⟨holds_of_rep HeapRB.heap_rb_sample_rep,
        rep_parentsConsistent HeapRB.heap_rb_sample_rep, rbtree_sample_inv.2.2.1,
        rbtree_sample_inv.2.2.2.1, rbtree_sample_inv.2.2.2.2, by decide, by decide,
        by decide⟩,
      ((@parent_links_stay_consistent Nat Nat).2.2.1 HeapRB.sample RBTree.sample.root
        (holds_of_rep HeapRB.heap_rb_sample_rep)
        (rep_parentsConsistent HeapRB.heap_rb_sample_rep) rbtree_sample_inv.2.2.1
        rbtree_sample_inv.2.2.2.1 rbtree_sample_inv.2.2.2.2).1 4 40 104 5
        (by decide) (by decide),
      ((@parent_links_stay_consistent Nat Nat).2.2.1 HeapRB.sample RBTree.sample.root
        (holds_of_rep HeapRB.heap_rb_sample_rep)
        (rep_parentsConsistent HeapRB.heap_rb_sample_rep) rbtree_sample_inv.2.2.1
        rbtree_sample_inv.2.2.2.1 rbtree_sample_inv.2.2.2.2).2 2 7 (by decide)⟩,
    (@parent_links_stay_consistent Nat Nat).2.2.2.1 _ _ RBTree.Node.ptr id HeapRB.sample
      ⟨1, 10, Color.red, 101⟩ Tree.nil
      [Frame.left ⟨2, 20, Color.black, 102⟩
        (Tree.node Tree.nil ⟨3, 30, Color.red, 103⟩ Tree.nil)]
      (Or.inl (holds_of_rep HeapRB.heap_rb_sample_rep))
      (rep_parentsConsistent HeapRB.heap_rb_sample_rep),
    (@parent_links_stay_consistent Nat Nat).2.2.2.2.1 _ _ RBTree.Node.ptr id HeapRB.sample
      (Tree.node Tree.nil ⟨1, 10, Color.red, 101⟩ Tree.nil) ⟨2, 20, Color.black, 102⟩
      Tree.nil ⟨3, 30, Color.red, 103⟩ Tree.nil []
      (holds_of_rep HeapRB.heap_rb_sample_rep)
      (rep_parentsConsistent HeapRB.heap_rb_sample_rep),
    (@parent_links_stay_consistent Nat Nat).2.2.2.2.2.1 _ _ RBTree.Node.ptr id HeapRB.sample
      Tree.nil ⟨1, 10, Color.red, 101⟩ Tree.nil ⟨2, 20, Color.black, 102⟩
      (Tree.node Tree.nil ⟨3, 30, Color.red, 103⟩ Tree.nil) []
      (holds_of_rep HeapRB.heap_rb_sample_rep)
      (rep_parentsConsistent HeapRB.heap_rb_sample_rep),
    (@parent_links_stay_consistent Nat Nat).2.2.2.2.2.2.1 HeapAVL.sample
      (Tree.node Tree.nil ⟨1, (101, 10), 1⟩ Tree.nil) ⟨2, (102, 20), 2⟩
      Tree.nil ⟨3, (103, 30), 1⟩ Tree.nil []
      (holds_of_rep HeapAVL.heap_avl_sample_rep)
      (rep_parentsConsistent HeapAVL.heap_avl_sample_rep),
    (@parent_links_stay_consistent Nat Nat).2.2.2.2.2.2.2 HeapAVL.sample
      Tree.nil ⟨1, (101, 10), 1⟩ Tree.nil ⟨2, (102, 20), 2⟩
      (Tree.node Tree.nil ⟨3, (103, 30), 1⟩ Tree.nil) []
      (holds_of_rep HeapAVL.heap_avl_sample_rep)
      (rep_parentsConsistent HeapAVL.heap_avl_sample_rep)⟩

end ParentLinks

/-! ## Runs of the engines on small heaps -/

section SampleRuns

open Heap

/-- Three calls of `Put` with the keys 1, 2, 3 on an empty AVL tree: the third
call rotates left at the node with key 1, and the node with key 2 is the root
with the other two as children, each recording it as parent. -/
theorem heap_avl_scenario_run :
    (((HeapAVL.Put 1 HeapAVL.New 1 10 101).bind fun s => HeapAVL.Put 3 s 2 20 102).bind
        fun s => HeapAVL.Put 5 s 3 30 103).map
        (fun s => (s.root, s.size, s.cells 101, s.cells 102, s.cells 103)) =
      some (some 102, 3,
        some ⟨⟨1, 10, 1⟩, none, none, some 102⟩,
        some ⟨⟨2, 20, 2⟩, some 101, some 103, none⟩,
        some ⟨⟨3, 30, 1⟩, none, none, some 102⟩) := by
  rfl

/-- Three calls of `Put` with the keys 10, 20, 30 on an empty Red-Black tree:
the third call rotates left at the node with key 10 and recolours. -/
theorem heap_rb_scenario_run :
    (((HeapRB.Put 1 HeapRB.New 10 1 101).bind fun s => HeapRB.Put 3 s 20 2 102).bind
        fun s => HeapRB.Put 5 s 30 3 103).map
        (fun s => (s.root, s.size, s.cells 101, s.cells 102, s.cells 103)) =
      some (some 102, 3,
        some ⟨⟨10, 1, Color.red, 101⟩, none, none, some 102⟩,
        some ⟨⟨20, 2, Color.black, 102⟩, some 101, some 103, none⟩,
        some ⟨⟨30, 3, Color.red, 103⟩, none, none, some 102⟩) := by
  rfl

/-- `Remove` of the key at the root of the sample heaps: the successor's key
and value move to the root node, and the successor node leaves the tree with its
three links nil. -/
theorem heap_sample_remove_run :
    (HeapBST.Remove 3 HeapBST.sample 2).map
        (fun s => (s.root, s.size, s.cells 101, s.cells 102, s.cells 103)) =
      some (some 102, 2,
        some ⟨⟨1, 10⟩, none, none, some 102⟩,
        some ⟨⟨3, 30⟩, some 101, none, none⟩,
        some ⟨⟨3, 30⟩, none, none, none⟩) ∧
    (HeapAVL.Remove 5 HeapAVL.sample 2).map
        (fun s => (s.root, s.size, s.cells 101, s.cells 102, s.cells 103)) =
      some (some 102, 2,
        some ⟨⟨1, 10, 1⟩, none, none, some 102⟩,
        some ⟨⟨3, 30, 2⟩, some 101, none, none⟩,
        some ⟨⟨3, 30, 1⟩, none, none, none⟩) ∧
    (HeapRB.Remove 7 HeapRB.sample 2).map
        (fun s => (s.root, s.size, s.cells 101, s.cells 102, s.cells 103)) =
      some (some 102, 2,
        some ⟨⟨1, 10, Color.red, 101⟩, none, none, some 102⟩,
        some ⟨⟨3, 30, Color.black, 102⟩, some 101, none, none⟩,
        some ⟨⟨3, 30, Color.red, 103⟩, none, none, none⟩) :=
  ⟨rfl, rfl, rfl⟩

/-- `Put` of a new key on the sample heaps hangs the new node below the node
with key 3, which it records as parent. -/
theorem heap_sample_put_run :
    (HeapBST.Put 3 HeapBST.sample 4 40 104).map
        (fun s => (s.root, s.size, s.cells 103, s.cells 104)) =
      some (some 102, 4, some ⟨⟨3, 30⟩, none, some 104, some 102⟩,
        some ⟨⟨4, 40⟩, none, none, some 103⟩) ∧
    (HeapAVL.Put 5 HeapAVL.sample 4 40 104).map
        (fun s => (s.root, s.size, s.cells 102, s.cells 103, s.cells 104)) =
      some (some 102, 4, some ⟨⟨2, 20, 3⟩, some 101, some 103, none⟩,
        some ⟨⟨3, 30, 2⟩, none, some 104, some 102⟩,
        some ⟨⟨4, 40, 1⟩, none, none, some 103⟩) ∧
    (HeapRB.Put 5 HeapRB.sample 4 40 104).map
        (fun s => (s.root, s.size, s.cells 101, s.cells 102, s.cells 103, s.cells 104)) =
      some (some 102, 4,
        some ⟨⟨1, 10, Color.black, 101⟩, none, none, some 102⟩,
        some ⟨⟨2, 20, Color.black, 102⟩, some 101, some 103, none⟩,
        some ⟨⟨3, 30, Color.black, 103⟩, none, some 104, some 102⟩,
        some ⟨⟨4, 40, Color.red, 104⟩, none, none, some 103⟩) :=
  ⟨rfl, rfl, rfl⟩

end SampleRuns

end Structo
